import Mathlib

/-!
# Threaded heap multiplication of sparse multivariate polynomials

A shallow embedding of `fmpz_mpoly/mul_heap_threaded.c`: Johnson's heap
kernel in its single-word and multi-word variants, the partition planner
with its workers, and the public entry point.  Polynomials are parallel
arrays of coefficients (`Int`) and packed exponent vectors; machine words
are natural numbers reduced modulo `2 ^ FLINT_BITS` wherever the C code
computes in `ulong`.

The two kernels of the source are the same loop over different monomial
representations, so the loop is written once (`mul_heap_loop` and its
helpers) over a record of monomial operations, and
`_fmpz_mpoly_mul_heap_part1`, `_fmpz_mpoly_mul_heap_part` instantiate it.

The workers' claims of divisions are a transition function on the shared
counter (`mul_dispatch_claim`), run along an arbitrary sequence of workers,
and `fmpz_mpoly_mul_heap_threaded_effects` follows the entry point together
with what its statements do to the output object.
-/

set_option autoImplicit false
set_option linter.unusedSectionVars false
set_option maxRecDepth 4000

/-! ## Machine words and the three-word accumulator -/

/-- Width of a machine word. -/
def FLINT_BITS : Nat := 64

/-- Modelled from the spec: the predicate behind `_fmpz_mpoly_fits_small`,
a coefficient that fits a native signed word. -/
def fmpz_fits_small (c : Int) : Bool :=
  decide (-(2 : Int) ^ (FLINT_BITS - 1) ≤ c) && decide (c < (2 : Int) ^ (FLINT_BITS - 1))

/-- Modelled from the spec: `_fmpz_mpoly_fits_small(poly, len)`, whether each
of the first `len` coefficients fits a native signed word. -/
def _fmpz_mpoly_fits_small (poly : List Int) (len : Nat) : Bool :=
  (poly.take len).all fmpz_fits_small

/-- Modelled from the spec: `smul_ppmm(hi, lo, a, b)`, the signed product of
two words as a two-word two's complement value `(hi, lo)`. -/
def smul_ppmm (a b : Int) : Nat × Nat :=
  let p := Int.toNat ((a * b) % (2 : Int) ^ (2 * FLINT_BITS))
  (p / 2 ^ FLINT_BITS, p % 2 ^ FLINT_BITS)

/-- Modelled from the spec: `add_sssaaaaaa(s2, s1, s0, a2, a1, a0, b2, b1, b0)`,
three-word addition with carry propagation, result `(s2, s1, s0)`. -/
def add_sssaaaaaa (a2 a1 a0 b2 b1 b0 : Nat) : Nat × Nat × Nat :=
  let t := (a2 * 2 ^ (2 * FLINT_BITS) + a1 * 2 ^ FLINT_BITS + a0
            + (b2 * 2 ^ (2 * FLINT_BITS) + b1 * 2 ^ FLINT_BITS + b0)) % 2 ^ (3 * FLINT_BITS)
  (t / 2 ^ (2 * FLINT_BITS), t / 2 ^ FLINT_BITS % 2 ^ FLINT_BITS, t % 2 ^ FLINT_BITS)

/-- Modelled from the spec: `fmpz_set_signed_uiuiui(r, c2, c1, c0)`, the
integer whose three-word two's complement representation is `(c2, c1, c0)`. -/
def fmpz_set_signed_uiuiui (c2 c1 c0 : Nat) : Int :=
  let v : Int := (c2 : Int) * 2 ^ (2 * FLINT_BITS) + (c1 : Int) * 2 ^ FLINT_BITS + (c0 : Int)
  if c2 < 2 ^ (FLINT_BITS - 1) then v else v - 2 ^ (3 * FLINT_BITS)

/-! ## Heap of chains -/

/-- A chain node `mpoly_heap_t`: the index pair `(i, j)`.  The `next` pointer
of the C struct is the tail of the list that holds the node. -/
structure mpoly_heap_t where
  i : Nat
  j : Nat
deriving DecidableEq, Repr

/-- A heap entry (`mpoly_heap1_s`, `mpoly_heap_s`): a monomial and the chain
of nodes whose products carry that monomial. -/
structure mpoly_heap_s (M : Type) where
  exp : M
  next : List mpoly_heap_t
deriving DecidableEq, Repr

/-- Monomial operations the kernel is written over: the sum of two packed
monomials and the strict order in which the heap releases monomials
(`before a b` when `a` leaves the heap ahead of `b`). -/
structure mpoly_ops (M : Type) where
  add : M → M → M
  before : M → M → Bool

section kernel

variable {M : Type} [DecidableEq M] [Inhabited M]

/-- Modelled from the spec: heap insertion (`_mpoly_heap_insert1`,
`_mpoly_heap_insert`), absent from the sources.  The heap is kept as the
sequence of its entries in release order, the top entry (`heap[1]`) first.
A node whose monomial is already present is linked in front of that entry's
chain; otherwise a new entry with a one-node chain is created. -/
def mpoly_heap_insert (before : M → M → Bool) (exp : M) (x : mpoly_heap_t) :
    List (mpoly_heap_s M) → List (mpoly_heap_s M)
  | [] => [⟨exp, [x]⟩]
  | h :: rest =>
    if exp = h.exp then ⟨h.exp, x :: h.next⟩ :: rest
    else if before exp h.exp then ⟨exp, [x]⟩ :: h :: rest
    else h :: mpoly_heap_insert before exp x rest

/-- Modelled from the spec: heap removal (`_mpoly_heap_pop1`,
`_mpoly_heap_pop`), absent from the sources: detaches the top entry and
returns its chain together with the remaining heap. -/
def mpoly_heap_pop : List (mpoly_heap_s M) → List mpoly_heap_t × List (mpoly_heap_s M)
  | [] => ([], [])
  | h :: rest => (h.next, rest)

/-- The coefficient being accumulated for the current output term: the
`first` flag, the three words `c[0], c[1], c[2]` and the multiprecision
slot `p1[k]`. -/
structure mul_acc where
  first : Bool
  c0 : Nat
  c1 : Nat
  c2 : Nat
  p1k : Int
deriving DecidableEq, Repr

/-- State of the accumulator at the head of an outer iteration:
`first = 1; c[0] = c[1] = c[2] = 0`.  The slot `p1[k]` is overwritten by the
first product before it is read, so its initial content is immaterial. -/
def mul_acc_init : mul_acc := ⟨true, 0, 0, 0, 0⟩

/-- Accumulation of the product `poly2[x->i] * poly3[x->j]` for one node:
`smul_ppmm` and the sign-corrected three-word addition in the small branch,
`fmpz_mul` / `fmpz_addmul` in the multiprecision branch. -/
def mul_acc_node (small : Bool) (poly2 poly3 : List Int) (a : mul_acc) (x : mpoly_heap_t) :
    mul_acc :=
  let u := poly2.getD x.i 0
  let v := poly3.getD x.j 0
  if small then
    let p := smul_ppmm u v
    if a.first then
      { a with first := false, c0 := p.2, c1 := p.1,
               c2 := (2 ^ FLINT_BITS - p.1 / 2 ^ (FLINT_BITS - 1)) % 2 ^ FLINT_BITS }
    else
      let s := add_sssaaaaaa 0 a.c1 a.c0 0 p.1 p.2
      { a with c0 := s.2.2, c1 := s.2.1,
               c2 := (a.c2 + (if p.1 < 2 ^ (FLINT_BITS - 1) then s.1
                              else (s.1 + (2 ^ FLINT_BITS - 1)) % 2 ^ FLINT_BITS))
                     % 2 ^ FLINT_BITS }
  else
    if a.first then { a with first := false, p1k := u * v }
    else { a with p1k := a.p1k + u * v }

/-- The test guarding `Q[Q_len++] = x`: `x->j < len3 - 1`, with the extra
clause `|| x->j == 0` where the source has it (`qzero`).  The most recently
stored node is the head of the list. -/
def mul_store_node (len3 : Nat) (qzero : Bool) (Q : List mpoly_heap_t) (x : mpoly_heap_t) :
    List mpoly_heap_t :=
  if decide (x.j < len3 - 1) || (qzero && decide (x.j = 0)) then x :: Q else Q

/-- One node of a popped chain: accumulate its product, then store it. -/
def mul_chain_step (small : Bool) (poly2 poly3 : List Int) (len3 : Nat) (qzero : Bool)
    (s : mul_acc × List mpoly_heap_t) (x : mpoly_heap_t) : mul_acc × List mpoly_heap_t :=
  (mul_acc_node small poly2 poly3 s.1 x, mul_store_node len3 qzero s.2 x)

/-- The inner loop `while (heap_len > 1 && heap[1].exp == exp)`: pops every
entry carrying the current monomial and walks its chain (`x`, `x->next`, ...). -/
def mul_pop_loop (small : Bool) (poly2 poly3 : List Int) (len3 : Nat) (qzero : Bool) (exp : M) :
    List (mpoly_heap_s M) → mul_acc × List mpoly_heap_t →
      List (mpoly_heap_s M) × mul_acc × List mpoly_heap_t
  | [], s => ([], s)
  | h :: rest, s =>
    if h.exp = exp then
      mul_pop_loop small poly2 poly3 len3 qzero exp rest
        ((mpoly_heap_pop (h :: rest)).1.foldl (mul_chain_step small poly2 poly3 len3 qzero) s)
    else (h :: rest, s)

/-- The loop `while (Q_len > 0)`: takes the stored nodes back, last stored
first, and pushes `(i, j + 1)` when `x->j + 1 < end[x->i]`. -/
def mul_push_loop (ops : mpoly_ops M) (exp2 exp3 : List M) (end_ : List Nat) :
    List mpoly_heap_t → List (mpoly_heap_s M) → List (mpoly_heap_s M)
  | [], heap => heap
  | x :: Q, heap =>
    if x.j + 1 < end_.getD x.i 0 then
      mul_push_loop ops exp2 exp3 end_ Q
        (mpoly_heap_insert ops.before
          (ops.add (exp2.getD x.i default) (exp3.getD (x.j + 1) default)) ⟨x.i, x.j + 1⟩ heap)
    else mul_push_loop ops exp2 exp3 end_ Q heap

/-- The seeding loop `for (i = 0; i < len2; i++) if (start[i] < end[i])`,
over the row indices still to visit. -/
def mul_seed_loop (ops : mpoly_ops M) (exp2 exp3 : List M) (start end_ : List Nat) :
    List Nat → List (mpoly_heap_s M) → List (mpoly_heap_s M)
  | [], heap => heap
  | i :: rows, heap =>
    if start.getD i 0 < end_.getD i 0 then
      mul_seed_loop ops exp2 exp3 start end_ rows
        (mpoly_heap_insert ops.before
          (ops.add (exp2.getD i default) (exp3.getD (start.getD i 0) default))
          ⟨i, start.getD i 0⟩ heap)
    else mul_seed_loop ops exp2 exp3 start end_ rows heap

/-- The main loop `while (heap_len > 1)`.  The output arrays `p1`, `e1` with
their index `k` are the list `out` of the terms written so far (`k + 1` is
its length): a term is appended unless its coefficient is zero, which is the
effect of `k++ ... if (fmpz_is_zero(p1 + k)) k--`.  The monomial stored in
`e1[k]` is `exp`, written by the first accumulation step.  The first
argument bounds the number of iterations; `none` means it was too small. -/
def mul_heap_loop (ops : mpoly_ops M) (small : Bool) (poly2 : List Int) (exp2 : List M)
    (poly3 : List Int) (exp3 : List M) (len3 : Nat) (end_ : List Nat) (qzero : Bool) :
    Nat → List (mpoly_heap_s M) → List (Int × M) → Option (List (Int × M))
  | 0, _, _ => none
  | _ + 1, [], out => some out
  | fuel + 1, h :: rest, out =>
    let exp := h.exp
    let r := mul_pop_loop small poly2 poly3 len3 qzero exp (h :: rest) (mul_acc_init, [])
    let heap := mul_push_loop ops exp2 exp3 end_ r.2.2 r.1
    let c := if small then fmpz_set_signed_uiuiui r.2.1.c2 r.2.1.c1 r.2.1.c0 else r.2.1.p1k
    mul_heap_loop ops small poly2 exp2 poly3 exp3 len3 end_ qzero fuel heap
      (if c = 0 then out else out ++ [(c, exp)])

/-- Number of index pairs `(i, j)` with `i < len2` and `start[i] <= j < end[i]`. -/
def mul_window_size (len2 : Nat) (start end_ : List Nat) : Nat :=
  ((List.range len2).map fun i => end_.getD i 0 - start.getD i 0).sum

/-- The kernel shared by both variants: seed the heap, run the main loop.
`qzero small` tells whether the store test has the clause `|| x->j == 0`.
The result is the sequence of terms `(p1[t], e1[t])`, `t < k`, and the
returned length `k` is the length of that sequence. -/
def mul_heap_kernel (ops : mpoly_ops M) (qzero : Bool → Bool)
    (poly2 : List Int) (exp2 : List M) (len2 : Nat)
    (poly3 : List Int) (exp3 : List M) (len3 : Nat)
    (start end_ : List Nat) : Option (List (Int × M)) :=
  let small := _fmpz_mpoly_fits_small poly2 len2 && _fmpz_mpoly_fits_small poly3 len3
  let heap := mul_seed_loop ops exp2 exp3 start end_ (List.range len2) []
  mul_heap_loop ops small poly2 exp2 poly3 exp3 len3 end_ (qzero small)
    (mul_window_size len2 start end_ + 1) heap []

end kernel

/-! ## Single-word monomials -/

/-- Modelled from the spec: the comparison used by the single-word heap
(`_mpoly_heap_insert1`, `_mpoly_heap_pop1`, absent from the sources): words
are compared as unsigned integers after the exclusive or with `maskhi`, and
the heap releases the largest first, so that the output is written from the
leading term downwards. -/
def mpoly_monomial_before1 (maskhi : Nat) (a b : Nat) : Bool :=
  decide ((b ^^^ maskhi) < (a ^^^ maskhi))

/-- Single-word monomial operations: `exp2[i] + exp3[j]` in `ulong`. -/
def mpoly_ops1 (maskhi : Nat) : mpoly_ops Nat where
  add := fun a b => (a + b) % 2 ^ FLINT_BITS
  before := mpoly_monomial_before1 maskhi

/-- Kernel `_fmpz_mpoly_mul_heap_part1` for monomials packed in one word.  In
its small branch the store test is `x->j < len3 - 1`, in its multiprecision
branch `x->j < len3 - 1 || x->j == 0`. -/
def _fmpz_mpoly_mul_heap_part1 (poly2 : List Int) (exp2 : List Nat) (len2 : Nat)
    (poly3 : List Int) (exp3 : List Nat) (len3 : Nat)
    (start end_ : List Nat) (maskhi : Nat) : Option (List (Int × Nat)) :=
  mul_heap_kernel (mpoly_ops1 maskhi) (fun small => !small)
    poly2 exp2 len2 poly3 exp3 len3 start end_

/-! ## Multi-word monomials -/

/-- An exponent vector packed into `N` machine words, as stored at
`exp + i*N`. -/
abbrev mpoly_monomial (N : Nat) : Type := { v : List Nat // v.length = N }

instance mpoly_monomial_inhabited (N : Nat) : Inhabited (mpoly_monomial N) :=
  ⟨⟨List.replicate N 0, List.length_replicate N 0⟩⟩

/-- Modelled from the spec: `mpoly_monomial_add`, word-wise addition of two
packed exponent vectors, each word in `ulong` arithmetic. -/
def mpoly_monomial_add {N : Nat} (a b : mpoly_monomial N) : mpoly_monomial N :=
  ⟨List.zipWith (fun x y => (x + y) % 2 ^ FLINT_BITS) a.val b.val, by
    rw [List.length_zipWith, a.property, b.property, Nat.min_self]⟩

/-- Comparison of two word sequences from the first word on: the first pair
of different words decides, after the exclusive or with the mask of its
position. -/
def mpoly_words_before : List Nat → List Nat → List Nat → Bool
  | m :: ms, a :: as, b :: bs =>
    if a = b then mpoly_words_before ms as bs else decide ((b ^^^ m) < (a ^^^ m))
  | _, _, _ => false

/-- The masks of the `N` words: `maskhi` for the leading word, `masklo` for
the others. -/
def mpoly_masks (N maskhi masklo : Nat) : List Nat :=
  match N with
  | 0 => []
  | n + 1 => maskhi :: List.replicate n masklo

/-- Modelled from the spec: the monomial comparison with masks
(`mpoly_monomial_lt`, and the order of `_mpoly_heap_insert` and
`_mpoly_heap_pop`), absent from the sources.  `a` compares before `b` when
`a` precedes `b` in the stored term order; the search test recounts a
boundary as one plus the last column whose sum passes this test, so the
columns passing it come first in their row. -/
def mpoly_monomial_lt {N : Nat} (a b : mpoly_monomial N) (maskhi masklo : Nat) : Bool :=
  mpoly_words_before (mpoly_masks N maskhi masklo) a.val b.val

/-- Multi-word monomial operations. -/
def mpoly_opsN (N maskhi masklo : Nat) : mpoly_ops (mpoly_monomial N) where
  add := mpoly_monomial_add
  before := fun a b => mpoly_monomial_lt a b maskhi masklo

/-- The word of a single-word monomial. -/
def mpoly_monomial_word {N : Nat} (a : mpoly_monomial N) : Nat := a.val.headD 0

/-- The single-word monomial holding a word. -/
def mpoly_monomial_of_word {N : Nat} (h : N = 1) (w : Nat) : mpoly_monomial N :=
  ⟨[w], by rw [h]; rfl⟩

/-- Kernel `_fmpz_mpoly_mul_heap_part` for monomials of `N` words: for
`N == 1` it calls the single-word kernel on the same arrays, otherwise it
runs the loop on `N`-word monomials, with the store test
`x->j < len3 - 1 || x->j == 0` in both branches.  The pool `exps` with its
free list `exp_list` only provides storage for the monomials of the heap
entries, which here are held by value. -/
def _fmpz_mpoly_mul_heap_part (N : Nat) (poly2 : List Int) (exp2 : List (mpoly_monomial N))
    (len2 : Nat) (poly3 : List Int) (exp3 : List (mpoly_monomial N)) (len3 : Nat)
    (start end_ : List Nat) (maskhi masklo : Nat) : Option (List (Int × mpoly_monomial N)) :=
  if h : N = 1 then
    (_fmpz_mpoly_mul_heap_part1 poly2 (exp2.map mpoly_monomial_word) len2
      poly3 (exp3.map mpoly_monomial_word) len3 start end_ maskhi).map
        fun res => res.map fun t => (t.1, mpoly_monomial_of_word h t.2)
  else
    mul_heap_kernel (mpoly_opsN N maskhi masklo) (fun _ => true)
      poly2 exp2 len2 poly3 exp3 len3 start end_

/-! ## Monomial search -/

section search

variable {M : Type} [DecidableEq M] [Inhabited M]

/-- The boundary of one row for the monomial `e`, as the test recounts it:
`x = 0; for (j = 0; j < b_len; j++) if (lt(a_i + b[j], e)) x = j + 1`. -/
def mul_search_row (ops : mpoly_ops M) (ai : M) (b : List M) (b_len : Nat) (e : M) : Nat :=
  (List.range b_len).foldl
    (fun x j => if ops.before (ops.add ai (b.getD j default)) e then j + 1 else x) 0

/-- The boundary array `e_ind` induced by the monomial `e`. -/
def mul_search_ind (ops : mpoly_ops M) (a : List M) (a_len : Nat) (b : List M) (b_len : Nat)
    (e : M) : List Nat :=
  (List.range a_len).map fun i => mul_search_row ops (a.getD i default) b b_len e

/-- The score of a boundary array, as the test recounts it: the sum over the
rows of `b_len - e_ind[i]`. -/
def mul_search_score (b_len : Nat) (ind : List Nat) : Int :=
  (ind.map fun (x : Nat) => (b_len : Int) - (x : Int)).sum

/-- Distance of a score to the window `[lower, upper]`, as in the test. -/
def mul_search_error (lower upper score : Int) : Int :=
  if score < lower then lower - score else if upper < score then score - upper else 0

/-- The realizable monomials `a[i1] + b[j1]`, row after row. -/
def mul_search_candidates (ops : mpoly_ops M) (a : List M) (a_len : Nat) (b : List M)
    (b_len : Nat) : List M :=
  (List.range a_len).flatMap fun i1 =>
    (List.range b_len).map fun j1 => ops.add (a.getD i1 default) (b.getD j1 default)

/-- Modelled from the spec: `mpoly_search_monomials`, absent from the sources
(only its test is there).  Among the realizable monomials it returns one
whose score is at the least distance from the window `[lower, upper]`,
together with the boundary array and the score that the test recounts for
it.  The result is `(e_ind, e, e_score)`. -/
def mul_search (ops : mpoly_ops M) (lower upper : Int) (a : List M) (a_len : Nat)
    (b : List M) (b_len : Nat) : List Nat × M × Int :=
  let score := fun e => mul_search_score b_len (mul_search_ind ops a a_len b b_len e)
  let cands := mul_search_candidates ops a a_len b b_len
  let e := cands.foldl
    (fun best c =>
      if mul_search_error lower upper (score c) < mul_search_error lower upper (score best)
      then c else best)
    (cands.headD default)
  (mul_search_ind ops a a_len b b_len e, e, score e)

end search

/-- Modelled from the spec: `mpoly_search_monomials` for `N`-word monomials
compared with `mpoly_monomial_lt`. -/
def mpoly_search_monomials (N : Nat) (lower upper : Int) (a : List (mpoly_monomial N))
    (a_len : Nat) (b : List (mpoly_monomial N)) (b_len : Nat) (maskhi masklo : Nat) :
    List Nat × mpoly_monomial N × Int :=
  mul_search (mpoly_opsN N maskhi masklo) lower upper a a_len b b_len

/-! ## Partition planner, workers and assembly -/

/-- A value reduced to the range of `slong`, the result of a word operation
that leaves that range. -/
def slong_wrap (z : Int) : Int :=
  (z + 2 ^ (FLINT_BITS - 1)) % 2 ^ FLINT_BITS - 2 ^ (FLINT_BITS - 1)

/-- Multiplication in `slong`. -/
def slong_mul (a b : Int) : Int := slong_wrap (a * b)

/-- Number of divisions: `base->ndivs = base->nthreads*4`. -/
def mul_heap_threaded_ndivs (nthreads : Nat) : Int := slong_mul (nthreads : Int) 4

/-- The target `divs[i].lower = divs[i].upper
= (i + 1)*(i + 1)*len2*len3/ndivs2`, evaluated from left to right in
`slong`, with `ndivs2 = base->ndivs*base->ndivs`. -/
def mul_heap_threaded_lower (nthreads len2 len3 i : Nat) : Int :=
  Int.tdiv
    (slong_mul (slong_mul (slong_mul ((i : Int) + 1) ((i : Int) + 1)) (len2 : Int)) (len3 : Int))
    (slong_mul (mul_heap_threaded_ndivs nthreads) (mul_heap_threaded_ndivs nthreads))

/-- The boundary array `divs[i].line` found by the search step. -/
def mul_heap_threaded_line (N nthreads : Nat) (exp2 : List (mpoly_monomial N)) (len2 : Nat)
    (exp3 : List (mpoly_monomial N)) (len3 : Nat) (maskhi masklo : Nat) (i : Nat) : List Nat :=
  (mpoly_search_monomials N (mul_heap_threaded_lower nthreads len2 len3 i)
    (mul_heap_threaded_lower nthreads len2 len3 i) exp2 len2 exp3 len3 maskhi masklo).1

/-- The array `start` the worker passes to the kernel for division `i`. -/
def mul_heap_threaded_start (N nthreads : Nat) (exp2 : List (mpoly_monomial N)) (len2 : Nat)
    (exp3 : List (mpoly_monomial N)) (len3 : Nat) (maskhi masklo : Nat) (i : Nat) : List Nat :=
  mul_heap_threaded_line N nthreads exp2 len2 exp3 len3 maskhi masklo i

/-- The array `end` the worker passes to the kernel for division `i`:
`divs[i-1].line` for `i > 0`, and for `i = 0` the array `dummy` with every
entry `len3`. -/
def mul_heap_threaded_end (N nthreads : Nat) (exp2 : List (mpoly_monomial N)) (len2 : Nat)
    (exp3 : List (mpoly_monomial N)) (len3 : Nat) (maskhi masklo : Nat) (i : Nat) : List Nat :=
  if 0 < i then mul_heap_threaded_line N nthreads exp2 len2 exp3 len3 maskhi masklo (i - 1)
  else List.replicate len2 len3

/-- The work `_fmpz_mpoly_mul_heap_threaded_worker` does for the division
`i` it has claimed: one run of the kernel on the window of that division.
Each division has its own output buffer, so the order in which the workers
claim the divisions does not enter the result. -/
def _fmpz_mpoly_mul_heap_threaded_worker (N nthreads : Nat) (coeff2 : List Int)
    (exp2 : List (mpoly_monomial N)) (len2 : Nat) (coeff3 : List Int)
    (exp3 : List (mpoly_monomial N)) (len3 : Nat) (maskhi masklo : Nat) (i : Nat) :
    Option (List (Int × mpoly_monomial N)) :=
  _fmpz_mpoly_mul_heap_part N coeff2 exp2 len2 coeff3 exp3 len3
    (mul_heap_threaded_start N nthreads exp2 len2 exp3 len3 maskhi masklo i)
    (mul_heap_threaded_end N nthreads exp2 len2 exp3 len3 maskhi masklo i) maskhi masklo

/-- The concatenation loop `for (i = base->ndivs - 1; i >= 0; i--)` over the
divisions `n - 1, ..., 0`: the highest division comes first, each lower one
is appended behind what has been joined so far. -/
def mul_heap_threaded_join {α : Type} (div : Nat → Option (List α)) : Nat → Option (List α)
  | 0 => some []
  | n + 1 =>
    match div n, mul_heap_threaded_join div n with
    | some r, some rest => some (r ++ rest)
    | _, _ => none

/-- The function `_fmpz_mpoly_mul_heap_threaded` with `nthreads` the value of
`flint_get_num_threads()`: plan `4*nthreads` divisions, search their
boundaries, let the workers multiply, join the outputs. -/
def _fmpz_mpoly_mul_heap_threaded (N nthreads : Nat) (coeff2 : List Int)
    (exp2 : List (mpoly_monomial N)) (len2 : Nat) (coeff3 : List Int)
    (exp3 : List (mpoly_monomial N)) (len3 : Nat) (maskhi masklo : Nat) :
    Option (List (Int × mpoly_monomial N)) :=
  mul_heap_threaded_join
    (_fmpz_mpoly_mul_heap_threaded_worker N nthreads coeff2 exp2 len2 coeff3 exp3 len3
      maskhi masklo)
    (mul_heap_threaded_ndivs nthreads).toNat

/-! ## The entry point -/

/-- Monomial orderings of a context. -/
inductive ordering_t where
  | ORD_LEX
  | ORD_DEGLEX
  | ORD_DEGREVLEX
deriving DecidableEq, Repr

/-- A polynomial context `fmpz_mpoly_ctx_t`: number of exponent fields and
monomial ordering. -/
structure fmpz_mpoly_ctx where
  n : Nat
  ord : ordering_t
deriving DecidableEq, Repr

/-- A polynomial `fmpz_mpoly_t`: the coefficients and packed exponent
vectors of its terms (the first `length` entries of the two arrays, whose
capacity `alloc` is not modelled) and the field width `bits`. -/
structure fmpz_mpoly where
  coeffs : List Int
  exps : List (List Nat)
  bits : Nat
deriving DecidableEq, Repr

/-- The field `length` of a polynomial. -/
def fmpz_mpoly.length (poly : fmpz_mpoly) : Nat := poly.coeffs.length

/-- The helpers of the monomial codec that the entry point calls and that
are absent from the sources: `fmpz_mpoly_max_degrees` (the largest exponent
of every field), `masks_from_bits_ord` (the pair `(maskhi, masklo)` for a
field width and an ordering) and `mpoly_unpack_monomials` (the exponent
array re-packed to a wider field; arguments: new width, array, old width,
length, number of fields). -/
structure mpoly_codec where
  max_degrees : fmpz_mpoly → fmpz_mpoly_ctx → List Nat
  masks_from_bits_ord : Nat → ordering_t → Nat × Nat
  unpack_monomials : Nat → List (List Nat) → Nat → Nat → Nat → List (List Nat)

/-- Which object the output `poly1` is: an object of its own, with its
content before the call, or the very object `poly2`, or the very object
`poly3`. -/
inductive mul_output where
  | fresh (poly1 : fmpz_mpoly)
  | first
  | second
deriving DecidableEq, Repr

/-- The content of `poly1` when the function is entered. -/
def mul_output.old (out : mul_output) (poly2 poly3 : fmpz_mpoly) : fmpz_mpoly :=
  match out with
  | .fresh poly1 => poly1
  | .first => poly2
  | .second => poly3

/-- The test `poly1 == poly2 || poly1 == poly3`. -/
def mul_output.aliased (out : mul_output) : Bool :=
  match out with
  | .fresh _ => false
  | _ => true

/-- Outcome of a call of the entry point: the new content of `poly1`, or
`flint_throw(FLINT_EXPOF, ...)`, or `unfinished` when a kernel ran out of
its iteration bound. -/
inductive mul_result where
  | done (poly1 : fmpz_mpoly)
  | FLINT_EXPOF
  | unfinished
deriving DecidableEq, Repr

/-- Modelled from the spec: `fmpz_mpoly_zero`, which sets the length to zero. -/
def fmpz_mpoly_zero (poly1 : fmpz_mpoly) : fmpz_mpoly :=
  { poly1 with coeffs := [], exps := [] }

/-- Modelled from the spec: `FLINT_BIT_COUNT(x)`, the number of bits of a word. -/
def FLINT_BIT_COUNT (x : Nat) : Nat :=
  ((List.range FLINT_BITS).filter fun k => decide (2 ^ k ≤ x)).length

/-- The loop over the fields: `max_degs3[i] += max_degs2[i]` in `ulong`, the
two overflow tests `max_degs3[i] < max_degs2[i] || 0 > (slong) max_degs3[i]`,
and the running maximum.  `none` stands for the throw. -/
def mul_degree_loop (max_degs2 max_degs3 : List Nat) : List Nat → Nat → Option Nat
  | [], max => some max
  | i :: fields, max =>
    let s := (max_degs3.getD i 0 + max_degs2.getD i 0) % 2 ^ FLINT_BITS
    if s < max_degs2.getD i 0 ∨ 2 ^ (FLINT_BITS - 1) ≤ s then none
    else mul_degree_loop max_degs2 max_degs3 fields (if max < s then s else max)

/-- The loop `exp_bits = 8; while (bits >= exp_bits) exp_bits *= 2;` with a
bound on its number of iterations. -/
def mul_exp_bits_loop (bits : Nat) : Nat → Nat → Nat
  | 0, exp_bits => exp_bits
  | fuel + 1, exp_bits =>
    if exp_bits ≤ bits then mul_exp_bits_loop bits fuel (exp_bits * 2) else exp_bits

/-- The field width of the product: the loop from 8, then
`FLINT_MAX(exp_bits, poly2->bits)` and `FLINT_MAX(exp_bits, poly3->bits)`. -/
def mul_exp_bits (bits bits2 bits3 : Nat) : Nat :=
  max (max (mul_exp_bits_loop bits FLINT_BITS 8) bits2) bits3

/-- Number of words of a packed monomial: `(exp_bits*ctx->n - 1)/FLINT_BITS + 1`. -/
def mul_words (exp_bits n : Nat) : Nat := (exp_bits * n - 1) / FLINT_BITS + 1

/-- The exponent array of an operand handed to the kernel: re-packed with
`mpoly_unpack_monomials` if `exp_bits > poly->bits`, its own array otherwise. -/
def mul_operand_exps (codec : mpoly_codec) (exp_bits : Nat) (poly : fmpz_mpoly)
    (ctx : fmpz_mpoly_ctx) : List (List Nat) :=
  if poly.bits < exp_bits then
    codec.unpack_monomials exp_bits poly.exps poly.bits poly.length ctx.n
  else poly.exps

/-- The `N` words read at an array position. -/
def mpoly_monomial_read (N : Nat) (ws : List Nat) : mpoly_monomial N :=
  ⟨(ws ++ List.replicate N 0).take N, by simp⟩

/-- The polynomial made of a term sequence: `_fmpz_mpoly_set_length(poly1, len)`
on the arrays the kernel has filled, with `poly1->bits = exp_bits`. -/
def mul_poly_of_terms {N : Nat} (exp_bits : Nat) (terms : List (Int × mpoly_monomial N)) :
    fmpz_mpoly :=
  { coeffs := terms.map fun t => t.1, exps := terms.map fun t => t.2.val, bits := exp_bits }

/-- The degree check and the choice of the field width: the loop over the
fields, `bits = FLINT_BIT_COUNT(max)`, the second test `bits >= FLINT_BITS`,
then `exp_bits`.  `none` stands for `flint_throw(FLINT_EXPOF, ...)`. -/
def mul_product_bits (codec : mpoly_codec) (poly2 poly3 : fmpz_mpoly) (ctx : fmpz_mpoly_ctx) :
    Option Nat :=
  match mul_degree_loop (codec.max_degrees poly2 ctx) (codec.max_degrees poly3 ctx)
      (List.range ctx.n) 0 with
  | none => none
  | some max =>
    if FLINT_BITS ≤ FLINT_BIT_COUNT max then none
    else some (mul_exp_bits (FLINT_BIT_COUNT max) poly2.bits poly3.bits)

/-- The exponent array of an operand as the kernel reads it: `N` words per
monomial, `N` the number of words for `exp_bits`. -/
def mul_kernel_exps (codec : mpoly_codec) (exp_bits : Nat) (poly : fmpz_mpoly)
    (ctx : fmpz_mpoly_ctx) : List (mpoly_monomial (mul_words exp_bits ctx.n)) :=
  (mul_operand_exps codec exp_bits poly ctx).map (mpoly_monomial_read (mul_words exp_bits ctx.n))

/-- The function `fmpz_mpoly_mul_heap_threaded(poly1, poly2, poly3, ctx)`,
with `nthreads` the value of `flint_get_num_threads()`.  The smaller operand
goes first; the comparison is `>=` in the aliased branch and `>` in the
other one. -/
def fmpz_mpoly_mul_heap_threaded (codec : mpoly_codec) (nthreads : Nat) (out : mul_output)
    (poly2 poly3 : fmpz_mpoly) (ctx : fmpz_mpoly_ctx) : mul_result :=
  if poly2.length = 0 ∨ poly3.length = 0 then
    .done (fmpz_mpoly_zero (out.old poly2 poly3))
  else
    match mul_product_bits codec poly2 poly3 ctx with
    | none => .FLINT_EXPOF
    | some exp_bits =>
      let masks := codec.masks_from_bits_ord exp_bits ctx.ord
      let N := mul_words exp_bits ctx.n
      let exp2 := mul_kernel_exps codec exp_bits poly2 ctx
      let exp3 := mul_kernel_exps codec exp_bits poly3 ctx
      let swap := if out.aliased then decide (poly3.length ≤ poly2.length)
                  else decide (poly3.length < poly2.length)
      let r := if swap then
          _fmpz_mpoly_mul_heap_threaded N nthreads poly3.coeffs exp3 poly3.length
            poly2.coeffs exp2 poly2.length masks.1 masks.2
        else
          _fmpz_mpoly_mul_heap_threaded N nthreads poly2.coeffs exp2 poly2.length
            poly3.coeffs exp3 poly3.length masks.1 masks.2
      match r with
      | some terms => .done (mul_poly_of_terms exp_bits terms)
      | none => .unfinished

/-- Modelled from the spec: a reference codec for exponents stored one field
per word (`ctx->n` words per monomial whatever the field width): the degree
bounds are the largest word of every position, re-packing leaves the words
as they are, and the masks are zero, which is the comparison of the
lexicographic ordering. -/
def mpoly_codec_words : mpoly_codec where
  max_degrees := fun poly ctx =>
    (List.range ctx.n).map fun k => (poly.exps.map fun e => e.getD k 0).foldl max 0
  masks_from_bits_ord := fun _ _ => (0, 0)
  unpack_monomials := fun _ exps _ _ _ => exps

/-- The packed monomials of an operand are strictly ordered: each is
released before all later ones. -/
def mul_strictly_ordered {M : Type} (ops : mpoly_ops M) [Inhabited M] (exps : List M)
    (len : Nat) : Prop :=
  ∀ j', j' < len → ∀ j, j < j' →
    ops.before (exps.getD j default) (exps.getD j' default) = true

instance mul_strictly_ordered_decidable {M : Type} (ops : mpoly_ops M) [Inhabited M]
    (exps : List M) (len : Nat) : Decidable (mul_strictly_ordered ops exps len) := by
  unfold mul_strictly_ordered; infer_instance

/-- The exponent sums fit the packed fields: adding a monomial of the first
array to two monomials of the second keeps their order, as it does when no
field of a packed sum overflows. -/
def mul_sums_fit {M : Type} (ops : mpoly_ops M) [Inhabited M] (exp2 : List M) (len2 : Nat)
    (exp3 : List M) (len3 : Nat) : Prop :=
  ∀ i, i < len2 → ∀ j', j' < len3 → ∀ j, j < len3 →
    ops.before (exp3.getD j default) (exp3.getD j' default) = true →
    ops.before (ops.add (exp2.getD i default) (exp3.getD j default))
      (ops.add (exp2.getD i default) (exp3.getD j' default)) = true

instance mul_sums_fit_decidable {M : Type} (ops : mpoly_ops M) [Inhabited M]
    (exp2 : List M) (len2 : Nat) (exp3 : List M) (len3 : Nat) :
    Decidable (mul_sums_fit ops exp2 len2 exp3 len3) := by
  unfold mul_sums_fit; infer_instance

/-! ## Specification of the kernel -/

section kernel_spec

variable {M : Type} [DecidableEq M] [Inhabited M]

/-- The laws of a strict total order, for the release order of the heap. -/
structure mpoly_ops.strict_total (ops : mpoly_ops M) : Prop where
  irrefl : ∀ a, ops.before a a = false
  trans : ∀ a b c, ops.before a b = true → ops.before b c = true → ops.before a c = true
  total : ∀ a b, a ≠ b → ops.before a b = false → ops.before b a = true

/-- The monomial of the product of term `i` of the first operand and term
`j` of the second: `exp2[i] + exp3[j]`. -/
def mul_pair_exp (ops : mpoly_ops M) (exp2 exp3 : List M) (i j : Nat) : M :=
  ops.add (exp2.getD i default) (exp3.getD j default)

/-- Contribution of the pair `(i, j)` to the coefficient of `m`. -/
def mul_pair_term (ops : mpoly_ops M) (poly2 : List Int) (exp2 : List M)
    (poly3 : List Int) (exp3 : List M) (m : M) (i j : Nat) : Int :=
  if mul_pair_exp ops exp2 exp3 i j = m then poly2.getD i 0 * poly3.getD j 0 else 0

/-- The sum `S(m)` of `poly2[i] * poly3[j]` over the pairs of the window,
`i < len2` and `start[i] <= j < end[i]`, whose monomial is `m`. -/
def mul_window_coeff (ops : mpoly_ops M) (poly2 : List Int) (exp2 : List M) (len2 : Nat)
    (poly3 : List Int) (exp3 : List M) (start end_ : List Nat) (m : M) : Int :=
  ∑ i in Finset.range len2, ∑ j in Finset.Ico (start.getD i 0) (end_.getD i 0),
    mul_pair_term ops poly2 exp2 poly3 exp3 m i j

/-- Along every row of the window the packed sums keep the order of the
columns: for `start[i] <= j < j' < end[i]` the sum `exp2[i] + exp3[j]` is
released before `exp2[i] + exp3[j']`. -/
def mul_rows_ordered (ops : mpoly_ops M) (exp2 exp3 : List M) (len2 : Nat)
    (start end_ : List Nat) : Prop :=
  ∀ i, i < len2 → ∀ j', j' < end_.getD i 0 → ∀ j, j < j' → start.getD i 0 ≤ j →
    ops.before (mul_pair_exp ops exp2 exp3 i j) (mul_pair_exp ops exp2 exp3 i j') = true

instance mul_rows_ordered_decidable (ops : mpoly_ops M) (exp2 exp3 : List M) (len2 : Nat)
    (start end_ : List Nat) : Decidable (mul_rows_ordered ops exp2 exp3 len2 start end_) := by
  unfold mul_rows_ordered; infer_instance

/-- The nodes held by a heap, chain after chain. -/
def mul_heap_nodes (H : List (mpoly_heap_s M)) : List mpoly_heap_t :=
  H.flatMap fun h => h.next

/-- Insertion of a sequence of nodes, each under the monomial of its pair. -/
def mul_insert_all (ops : mpoly_ops M) (exp2 exp3 : List M) :
    List mpoly_heap_t → List (mpoly_heap_s M) → List (mpoly_heap_s M)
  | [], H => H
  | x :: xs, H =>
    mul_insert_all ops exp2 exp3 xs
      (mpoly_heap_insert ops.before (mul_pair_exp ops exp2 exp3 x.i x.j) x H)

/-- The coefficient the kernel stores for a popped chain. -/
def mul_chain_coeff (small : Bool) (poly2 poly3 : List Int) (C : List mpoly_heap_t) : Int :=
  let a := C.foldl (mul_acc_node small poly2 poly3) mul_acc_init
  if small then fmpz_set_signed_uiuiui a.c2 a.c1 a.c0 else a.p1k

end kernel_spec

/-! ## Coefficient accumulation -/

/-- The product `poly2[x->i] * poly3[x->j]` of a node. -/
def mul_pair_prod (poly2 poly3 : List Int) (x : mpoly_heap_t) : Int :=
  poly2.getD x.i 0 * poly3.getD x.j 0

/-- The unsigned value of the three accumulator words. -/
def mul_acc_val (a : mul_acc) : Int :=
  (a.c2 : Int) * 2 ^ (2 * FLINT_BITS) + (a.c1 : Int) * 2 ^ FLINT_BITS + (a.c0 : Int)

/-- The accumulator words are machine words, and are zero before the first product. -/
def mul_acc_ok (a : mul_acc) : Prop :=
  a.c0 < 2 ^ FLINT_BITS ∧ a.c1 < 2 ^ FLINT_BITS ∧ a.c2 < 2 ^ FLINT_BITS ∧
    (a.first = true → a.c0 = 0 ∧ a.c1 = 0 ∧ a.c2 = 0)

/-! ## Invariant of the main loop -/

section kernel_invariant

variable {M : Type} [DecidableEq M] [Inhabited M]

/-- What is left of row `x->i` from column `x->j` on: the sum of the
contributions to `m` of the pairs `(i, j')`, `x->j <= j' < end[i]`. -/
def mul_row_rest (ops : mpoly_ops M) (poly2 : List Int) (exp2 : List M)
    (poly3 : List Int) (exp3 : List M) (end_ : List Nat) (m : M) (x : mpoly_heap_t) : Int :=
  ∑ j in Finset.Ico x.j (end_.getD x.i 0), mul_pair_term ops poly2 exp2 poly3 exp3 m x.i j

/-- The coefficient of `m` that the pairs still reachable from the heap add up to. -/
def mul_heap_coeff (ops : mpoly_ops M) (poly2 : List Int) (exp2 : List M)
    (poly3 : List Int) (exp3 : List M) (end_ : List Nat) (m : M)
    (H : List (mpoly_heap_s M)) : Int :=
  ((mul_heap_nodes H).map (mul_row_rest ops poly2 exp2 poly3 exp3 end_ m)).sum

/-- Number of pairs still reachable from the heap. -/
def mul_heap_measure (end_ : List Nat) (H : List (mpoly_heap_s M)) : Nat :=
  ((mul_heap_nodes H).map fun x => end_.getD x.i 0 - x.j).sum

/-- The nodes stored in `Q` and pushed back, advanced by one column, after
the chain `C` has been popped. -/
def mul_pushes (len3 : Nat) (end_ : List Nat) (qzero : Bool) (C : List mpoly_heap_t) :
    List mpoly_heap_t :=
  (((C.filter fun x => decide (x.j < len3 - 1) || (qzero && decide (x.j = 0))).reverse).filter
    fun x => decide (x.j + 1 < end_.getD x.i 0)).map fun x => (⟨x.i, x.j + 1⟩ : mpoly_heap_t)

/-- Invariant of the heap at the head of the main loop: entries in release
order with distinct monomials, every node filed under the monomial of its
pair and inside its row window, no empty chain, at most `len2` nodes. -/
structure mul_heap_inv (ops : mpoly_ops M) (exp2 exp3 : List M) (len2 : Nat)
    (start end_ : List Nat) (H : List (mpoly_heap_s M)) : Prop where
  sorted : H.Pairwise fun a b => ops.before a.exp b.exp = true
  keyed : ∀ h ∈ H, ∀ x ∈ h.next, mul_pair_exp ops exp2 exp3 x.i x.j = h.exp ∧ x.i < len2 ∧
    start.getD x.i 0 ≤ x.j ∧ x.j < end_.getD x.i 0
  nonempty : ∀ h ∈ H, h.next ≠ []
  count : (mul_heap_nodes H).length ≤ len2

/-- A term sequence in normal form representing the coefficient function
`S`: strictly ordered, free of zero coefficients, carrying for each of its
monomials `m` the coefficient `S m`, and containing every monomial with
`S m ≠ 0`. -/
structure mul_is_sum (ops : mpoly_ops M) (S : M → Int) (res : List (Int × M)) : Prop where
  sorted : res.Pairwise fun t u => ops.before t.2 u.2 = true
  nonzero : ∀ t ∈ res, t.1 ≠ 0
  coeff : ∀ t ∈ res, t.1 = S t.2
  complete : ∀ m, S m ≠ 0 → ∃ t ∈ res, t.2 = m

end kernel_invariant

/-! ## Specification of the partition -/

/-- The monomial `divs[i].exp` found by the search step for division `i`. -/
def mul_heap_threaded_exp (N nthreads : Nat) (exp2 : List (mpoly_monomial N)) (len2 : Nat)
    (exp3 : List (mpoly_monomial N)) (len3 : Nat) (maskhi masklo : Nat) (i : Nat) :
    mpoly_monomial N :=
  (mpoly_search_monomials N (mul_heap_threaded_lower nthreads len2 len3 i)
    (mul_heap_threaded_lower nthreads len2 len3 i) exp2 len2 exp3 len3 maskhi masklo).2.1

/-- The planner's word arithmetic stays in the range of `slong`: the inputs
are nonzero and `ndivs * ndivs * len2 * len3`, with `ndivs = 4 * nthreads`,
is below `2 ^ (FLINT_BITS - 1)`. -/
def mul_heap_threaded_in_range (nthreads len2 len3 : Nat) : Prop :=
  0 < nthreads ∧ 0 < len2 ∧ 0 < len3 ∧
    (4 * nthreads) * (4 * nthreads) * len2 * len3 < 2 ^ (FLINT_BITS - 1)

instance mul_heap_threaded_in_range_decidable (nthreads len2 len3 : Nat) :
    Decidable (mul_heap_threaded_in_range nthreads len2 len3) := by
  unfold mul_heap_threaded_in_range; infer_instance

/-! ## Specification of the entry point -/

/-- Valid operands of a product with field width `exp_bits`: the degree
check passes and yields `exp_bits`; both operands are nonzero and the
planner's arithmetic stays in the range of `slong`; the monomials of each
operand, packed to `exp_bits`, are strictly ordered; and the exponent sums
fit the packed fields, in that adding a monomial of either operand keeps
the order of the monomials of the other. -/
def mul_valid_operands (codec : mpoly_codec) (nthreads : Nat) (poly2 poly3 : fmpz_mpoly)
    (ctx : fmpz_mpoly_ctx) (exp_bits : Nat) : Prop :=
  mul_product_bits codec poly2 poly3 ctx = some exp_bits ∧
  mul_heap_threaded_in_range nthreads poly2.length poly3.length ∧
  mul_strictly_ordered
    (mpoly_opsN (mul_words exp_bits ctx.n) (codec.masks_from_bits_ord exp_bits ctx.ord).1
      (codec.masks_from_bits_ord exp_bits ctx.ord).2)
    (mul_kernel_exps codec exp_bits poly2 ctx) poly2.length ∧
  mul_strictly_ordered
    (mpoly_opsN (mul_words exp_bits ctx.n) (codec.masks_from_bits_ord exp_bits ctx.ord).1
      (codec.masks_from_bits_ord exp_bits ctx.ord).2)
    (mul_kernel_exps codec exp_bits poly3 ctx) poly3.length ∧
  mul_sums_fit
    (mpoly_opsN (mul_words exp_bits ctx.n) (codec.masks_from_bits_ord exp_bits ctx.ord).1
      (codec.masks_from_bits_ord exp_bits ctx.ord).2)
    (mul_kernel_exps codec exp_bits poly2 ctx) poly2.length
    (mul_kernel_exps codec exp_bits poly3 ctx) poly3.length ∧
  mul_sums_fit
    (mpoly_opsN (mul_words exp_bits ctx.n) (codec.masks_from_bits_ord exp_bits ctx.ord).1
      (codec.masks_from_bits_ord exp_bits ctx.ord).2)
    (mul_kernel_exps codec exp_bits poly3 ctx) poly3.length
    (mul_kernel_exps codec exp_bits poly2 ctx) poly2.length

instance mul_valid_operands_decidable (codec : mpoly_codec) (nthreads : Nat)
    (poly2 poly3 : fmpz_mpoly) (ctx : fmpz_mpoly_ctx) (exp_bits : Nat) :
    Decidable (mul_valid_operands codec nthreads poly2 poly3 ctx exp_bits) := by
  unfold mul_valid_operands; infer_instance

/-! ## Example data -/

/-- The monomials `x^2` and `x*y` of `3x^2 + 2xy`, one word each with eight
bits per exponent. -/
def mul_example_exp2 : List (mpoly_monomial 1) :=
  [mpoly_monomial_of_word rfl 0x0200, mpoly_monomial_of_word rfl 0x0101]

/-- The monomials `x` and `y` of `x - y`, one word each with eight bits per
exponent. -/
def mul_example_exp3 : List (mpoly_monomial 1) :=
  [mpoly_monomial_of_word rfl 0x0100, mpoly_monomial_of_word rfl 0x0001]

/-- The polynomial `3x^2 + 2xy` with 64-bit fields. -/
def mul_example_poly2 : fmpz_mpoly := ⟨[3, 2], [[2, 0], [1, 1]], 64⟩

/-- The polynomial `x - y` with 64-bit fields. -/
def mul_example_poly3 : fmpz_mpoly := ⟨[1, -1], [[1, 0], [0, 1]], 64⟩

/-- Two variables, lexicographic ordering. -/
def mul_example_ctx : fmpz_mpoly_ctx := ⟨2, .ORD_LEX⟩

/-! ## The nodes of one output term -/

section kernel_term

variable {M : Type} [DecidableEq M] [Inhabited M]

/-- The nodes the inner loop `while (heap_len > 1 && heap[1].exp == exp)`
takes off the heap: the chains of the leading entries that carry `exp`, in
the order in which their products are accumulated. -/
def mul_popped (exp : M) : List (mpoly_heap_s M) → List mpoly_heap_t
  | [] => []
  | h :: rest => if h.exp = exp then h.next ++ mul_popped exp rest else []

end kernel_term

/-! ## Dispatch of the divisions to the workers -/

/-- The state the workers share while they claim divisions: the counter
`base->idx` (a `volatile int`), for every worker whether it has left its loop, and the claims
made so far, oldest first, each as the worker and the value of `i` it
obtained. -/
structure mul_dispatch where
  idx : Int
  stopped : List Bool
  claims : List (Nat × Int)
deriving DecidableEq, Repr

/-- A value reduced to the range of `int`, which has 32 bits: the result
of a conversion to `int`, or of an operation in `int`, that leaves that
range. -/
def int_wrap (z : Int) : Int := (z + 2 ^ 31) % 2 ^ 32 - 2 ^ 31

/-- The state when the workers are created: `base->idx = base->ndivs`, the
`slong` value `base->ndivs` converted to the type `volatile int` of the
field `idx`, and `nthreads` workers about to make their first claim. -/
def mul_dispatch_init (nthreads : Nat) : mul_dispatch :=
  ⟨int_wrap (mul_heap_threaded_ndivs nthreads), List.replicate nthreads false, []⟩

/-- One pass of worker `w` through the critical section
`i = base->idx - 1; base->idx = i;` held under the mutex, followed by the
test `while (i >= 0)`.  The difference `base->idx - 1` is computed in `int`,
the type of the field; its value goes to the `slong` variable `i` and back
to the field unchanged.  With a negative `i` the worker leaves its loop,
with any other value it runs the kernel on division `i`, which does not
touch the counter, and comes back for its next claim.  A worker that has
left its loop, or a number that is no worker, takes no step. -/
def mul_dispatch_claim (s : mul_dispatch) (w : Nat) : mul_dispatch :=
  if s.stopped.getD w true then s
  else
    ⟨int_wrap (s.idx - 1),
      if 0 ≤ int_wrap (s.idx - 1) then s.stopped else s.stopped.set w true,
      s.claims ++ [(w, int_wrap (s.idx - 1))]⟩

/-- An interleaving of the workers, given as the sequence of the workers in
the order in which they enter the critical section. -/
def mul_dispatch_run (nthreads : Nat) (sched : List Nat) : mul_dispatch :=
  sched.foldl mul_dispatch_claim (mul_dispatch_init nthreads)

/-- The divisions processed: the claimed values that are not negative, in
the order of the claims. -/
def mul_dispatch_processed (s : mul_dispatch) : List Int :=
  (s.claims.map fun c => c.2).filter fun i => decide (0 ≤ i)

/-- Invariant of the dispatch with `nthreads` workers: the counter is the
number of divisions less the number of claims made and is at least minus
the number of workers that have left their loop; claim number `t` obtained
`ndivs - 1 - t`; a worker makes no claim after one that was negative, has
left its loop after such a claim, and has left it for no other reason. -/
structure mul_dispatch_inv (nthreads : Nat) (s : mul_dispatch) : Prop where
  workers : s.stopped.length = nthreads
  counter : s.idx = ((4 * nthreads : Nat) : Int) - (s.claims.length : Int)
  floor : -((s.stopped.count true : Nat) : Int) ≤ s.idx
  values : s.claims.map (fun c => c.2) =
    (List.range s.claims.length).map fun (t : Nat) => ((4 * nthreads : Nat) : Int) - 1 - (t : Int)
  last : s.claims.Pairwise fun c c' => c.2 < 0 → c'.1 ≠ c.1
  stops : ∀ c ∈ s.claims, c.2 < 0 → s.stopped.getD c.1 true = true
  stopped_by : ∀ w, w < nthreads → s.stopped.getD w true = true →
    ∃ c ∈ s.claims, c.1 = w ∧ c.2 < 0

/-! ## Effects of a call of the entry point -/

/-- What a call of the entry point has done by the time it returns or
throws: the content of the output object `poly1`, the number of calls of the
planner `_fmpz_mpoly_mul_heap_threaded`, the number of runs of the kernel
`_fmpz_mpoly_mul_heap_part`, and the number of calls of
`fmpz_mpoly_max_degrees`, which computes the degree bounds of an operand. -/
structure mul_effects where
  poly1 : fmpz_mpoly
  planner_runs : Nat
  kernel_runs : Nat
  degree_runs : Nat
deriving DecidableEq, Repr

/-- The effects when the function is entered: the output object has the
content it had before the call and nothing has run. -/
def mul_effects_entry (out : mul_output) (poly2 poly3 : fmpz_mpoly) : mul_effects :=
  ⟨out.old poly2 poly3, 0, 0, 0⟩

/-- The effects of the two calls `fmpz_mpoly_max_degrees(max_degs2, poly2, ctx)`
and `fmpz_mpoly_max_degrees(max_degs3, poly3, ctx)`, which come after the
test for a zero operand and before the loop over the fields. -/
def mul_effects_degrees (s : mul_effects) : mul_effects :=
  { s with degree_runs := s.degree_runs + 2 }

/-- The effects of one call of `_fmpz_mpoly_mul_heap_threaded` besides its
output: the planner has run once more, and the kernel once for every
division, each division being claimed by one worker. -/
def mul_effects_planner (nthreads : Nat) (s : mul_effects) : mul_effects :=
  { s with planner_runs := s.planner_runs + 1,
           kernel_runs := s.kernel_runs + (mul_heap_threaded_ndivs nthreads).toNat }

/-- The function `fmpz_mpoly_mul_heap_threaded` followed statement by
statement, with the effects of its statements: the outcome, and the effects
at the moment the function returns or throws.  A zero operand returns
before the degree bounds are computed.  Before the multiplication
the aliased branch writes to `temp` only, the other branch runs
`fmpz_mpoly_fit_length`, `fmpz_mpoly_fit_bits` and `poly1->bits = exp_bits`
on the output; after it the output holds the terms written by the planner
(`fmpz_mpoly_swap` in the aliased branch, then `_fmpz_mpoly_set_length`). -/
def fmpz_mpoly_mul_heap_threaded_effects (codec : mpoly_codec) (nthreads : Nat)
    (out : mul_output) (poly2 poly3 : fmpz_mpoly) (ctx : fmpz_mpoly_ctx) :
    mul_result × mul_effects :=
  let s := mul_effects_entry out poly2 poly3
  if poly2.length = 0 ∨ poly3.length = 0 then
    (.done (fmpz_mpoly_zero s.poly1), { s with poly1 := fmpz_mpoly_zero s.poly1 })
  else
    let s0 := mul_effects_degrees s
    match mul_product_bits codec poly2 poly3 ctx with
    | none => (.FLINT_EXPOF, s0)
    | some exp_bits =>
      let masks := codec.masks_from_bits_ord exp_bits ctx.ord
      let N := mul_words exp_bits ctx.n
      let exp2 := mul_kernel_exps codec exp_bits poly2 ctx
      let exp3 := mul_kernel_exps codec exp_bits poly3 ctx
      let s1 := if out.aliased then s0 else { s0 with poly1 := { s0.poly1 with bits := exp_bits } }
      let swap := if out.aliased then decide (poly3.length ≤ poly2.length)
                  else decide (poly3.length < poly2.length)
      let r := if swap then
          _fmpz_mpoly_mul_heap_threaded N nthreads poly3.coeffs exp3 poly3.length
            poly2.coeffs exp2 poly2.length masks.1 masks.2
        else
          _fmpz_mpoly_mul_heap_threaded N nthreads poly2.coeffs exp2 poly2.length
            poly3.coeffs exp3 poly3.length masks.1 masks.2
      let s2 := mul_effects_planner nthreads s1
      match r with
      | some terms =>
        (.done (mul_poly_of_terms exp_bits terms),
          { s2 with poly1 := mul_poly_of_terms exp_bits terms })
      | none => (.unfinished, s2)

/-! ## The order of the factors -/

/-- The operands in the order in which the entry point hands them to
`_fmpz_mpoly_mul_heap_threaded`, first factor first: the aliased branch
tests `poly2->length >= poly3->length`, the other branch
`poly2->length > poly3->length`, and each passes `poly3` first when its
test holds. -/
def mul_factors (out : mul_output) (poly2 poly3 : fmpz_mpoly) : fmpz_mpoly × fmpz_mpoly :=
  if out.aliased then
    if poly3.length ≤ poly2.length then (poly3, poly2) else (poly2, poly3)
  else
    if poly3.length < poly2.length then (poly3, poly2) else (poly2, poly3)

/-! ## The states of a kernel run -/

section kernel_run

variable {M : Type} [DecidableEq M] [Inhabited M]

/-- The entries the inner loop leaves on the heap: what follows the leading
entries that carry `exp`. -/
def mul_unpopped (exp : M) : List (mpoly_heap_s M) → List (mpoly_heap_s M)
  | [] => []
  | h :: rest => if h.exp = exp then mul_unpopped exp rest else h :: rest

/-- The inner loop of an outer iteration started on the heap `H`, with
`exp = heap[1].exp`: the heap it leaves, the accumulator and the store `Q`. -/
def mul_heap_inner (small : Bool) (poly2 poly3 : List Int) (len3 : Nat) (qzero : Bool) :
    List (mpoly_heap_s M) → List (mpoly_heap_s M) × mul_acc × List mpoly_heap_t
  | [] => ([], mul_acc_init, [])
  | h :: rest => mul_pop_loop small poly2 poly3 len3 qzero h.exp (h :: rest) (mul_acc_init, [])

/-- The heap at the head of the next outer iteration: the inner loop, then
the loop over the store `Q`. -/
def mul_heap_next (ops : mpoly_ops M) (small : Bool) (poly2 : List Int) (exp2 : List M)
    (poly3 : List Int) (exp3 : List M) (len3 : Nat) (end_ : List Nat) (qzero : Bool)
    (H : List (mpoly_heap_s M)) : List (mpoly_heap_s M) :=
  mul_push_loop ops exp2 exp3 end_ (mul_heap_inner small poly2 poly3 len3 qzero H).2.2
    (mul_heap_inner small poly2 poly3 len3 qzero H).1

/-- The heap at the head of outer iteration `n` of a kernel run, iteration 0
being the first one, entered with the heap left by the seeding loop. -/
def mul_heap_at (ops : mpoly_ops M) (small : Bool) (poly2 : List Int) (exp2 : List M)
    (len2 : Nat) (poly3 : List Int) (exp3 : List M) (len3 : Nat) (start end_ : List Nat)
    (qzero : Bool) : Nat → List (mpoly_heap_s M)
  | 0 => mul_seed_loop ops exp2 exp3 start end_ (List.range len2) []
  | n + 1 => mul_heap_next ops small poly2 exp2 poly3 exp3 len3 end_ qzero
      (mul_heap_at ops small poly2 exp2 len2 poly3 exp3 len3 start end_ qzero n)

/-- Every row owns at most one node of the heap, and the nodes belong to
rows of the first operand. -/
def mul_heap_rows (len2 : Nat) (H : List (mpoly_heap_s M)) : Prop :=
  ((mul_heap_nodes H).map fun x => x.i).Nodup ∧ (∀ x ∈ mul_heap_nodes H, x.i < len2) ∧
    ∀ h ∈ H, h.next ≠ []

end kernel_run

/-! ## The same heap over another representation of the monomials -/

/-- The heap with every monomial replaced by its image under `f`. -/
def mul_heap_relabel {M M' : Type} (f : M → M') (H : List (mpoly_heap_s M)) :
    List (mpoly_heap_s M') :=
  H.map fun h => ⟨f h.exp, h.next⟩

/-! ## The nodes popped over a kernel run -/

section kernel_pops

variable {M : Type} [DecidableEq M] [Inhabited M]

/-- Number of nodes the inner loop of one outer iteration takes off the heap
`H`: the nodes of the leading entries that carry `heap[1].exp`. -/
def mul_heap_pops : List (mpoly_heap_s M) → Nat
  | [] => 0
  | h :: rest => (mul_popped h.exp (h :: rest)).length

/-- Number of nodes popped in the outer iterations `0, ..., n - 1` of a
kernel run. -/
def mul_pops_total (ops : mpoly_ops M) (small : Bool) (poly2 : List Int) (exp2 : List M)
    (len2 : Nat) (poly3 : List Int) (exp3 : List M) (len3 : Nat) (start end_ : List Nat)
    (qzero : Bool) (n : Nat) : Nat :=
  ((List.range n).map fun k => mul_heap_pops
    (mul_heap_at ops small poly2 exp2 len2 poly3 exp3 len3 start end_ qzero k)).sum

/-- Every node of the heap lies in the window of its row, and no chain is
empty. -/
def mul_heap_window (len2 : Nat) (start end_ : List Nat) (H : List (mpoly_heap_s M)) : Prop :=
  (∀ x ∈ mul_heap_nodes H, x.i < len2 ∧ start.getD x.i 0 ≤ x.j ∧ x.j < end_.getD x.i 0) ∧
    ∀ h ∈ H, h.next ≠ []

end kernel_pops

/-! ## Relation collection of the quadratic sieve -/

/-- An entry of the factor base, `prime_t`: the prime, its precomputed
inverse and its size in bits. -/
structure prime_t where
  pinv : Nat
  p : Nat
  size : Int
deriving DecidableEq, Repr

/-- An entry of the factor list of a relation, `fac_t`. -/
structure fac_t where
  ind : Int
  exp : Int
deriving DecidableEq, Repr

/-- The fields of `qs_t` that `collect_relations.c` reads or writes; `ext`
stands for everything else the sieve keeps (hash table, relation file, the
data of the polynomial in use). -/
structure qs_s (σ : Type) where
  num_primes : Int
  small_primes : Int
  s : Int
  q_idx : Nat
  sieve_size : Nat
  sieve_bits : Nat
  factor_base : List prime_t
  soln1 : List Nat
  soln2 : List Nat
  A_ind : List Nat
  A : Int
  B : Int
  C : Int
  small : List Int
  factor : List fac_t
  num_factors : Int
  full_relation : Int
  edges : Int
  columns : Int
  extra_rels : Int
  curr_poly : Int
  ext : σ

/-- The functions `collect_relations.c` calls and does not define, each
with any behaviour: the integer helpers `fmpz_remove` (the exponent removed
and the quotient), `fmpz_bits`, `n_mod2_preinv`, `n_is_prime`, the constant
`BITS_ADJUST`, and the procedures of the sieve that act on `qs_t`.  The
sieving procedure `qsieve_do_sieving2` only fills the sieve array and the
position arrays, and stands here with any effect on the sieve and on
`qs_t`. -/
structure qs_env (σ : Type) where
  BITS_ADJUST : Int
  fmpz_remove : Int → Int → Int × Int
  fmpz_bits : Int → Nat
  n_mod2_preinv : Nat → Nat → Nat → Nat
  n_is_prime : Nat → Bool
  qsieve_write_to_file : qs_s σ → Nat → Int → qs_s σ
  qsieve_add_to_hashtable : qs_s σ → Nat → qs_s σ
  qsieve_init_poly_first : qs_s σ → qs_s σ
  qsieve_compute_C : qs_s σ → qs_s σ
  qsieve_init_poly_next : qs_s σ → qs_s σ
  qsieve_do_sieving2 : qs_s σ → List Nat → qs_s σ × List Nat

/-- The locals of `qsieve_evaluate_candidate` and the arrays it writes: the
cofactor `res`, `extra_bits`, the arrays `small` and `factor`,
`num_factors`, the loop variable `j`, and the counter `relations`. -/
structure qs_cand where
  res : Int
  extra_bits : Int
  small : List Int
  factor : List fac_t
  num_factors : Nat
  j : Int
  relations : Int
deriving DecidableEq, Repr

/-- The loop `for (j = 3; j < qs_inf->small_primes; j++)` that pulls out the
small primes, over the values of `j` still to visit. -/
def qsieve_small_loop {σ : Type} (env : qs_env σ) (qs : qs_s σ) (i : Int) :
    List Nat → qs_cand → qs_cand
  | [], c => c
  | j :: js, c =>
    let prime := (qs.factor_base.getD j ⟨0, 0, 0⟩).p
    let pinv := (qs.factor_base.getD j ⟨0, 0, 0⟩).pinv
    let modp := env.n_mod2_preinv (i % 2 ^ 64).toNat prime pinv
    if modp = qs.soln1.getD j 0 ∨ modp = qs.soln2.getD j 0 then
      let r := env.fmpz_remove c.res prime
      qsieve_small_loop env qs i js
        { c with
          res := r.2
          extra_bits := if r.1 ≠ 0 then c.extra_bits + (qs.factor_base.getD j ⟨0, 0, 0⟩).size
            else c.extra_bits
          small := c.small.set j r.1 }
    else qsieve_small_loop env qs i js { c with small := c.small.set j 0 }

/-- The loop `for (j = qs_inf->small_primes; j < num_primes && extra_bits <
sieve[i]; j++)` that pulls out the remaining primes, over the values of `j`
below `num_primes` still to visit; `sieve_i` is `sieve[i]`. -/
def qsieve_large_loop {σ : Type} (env : qs_env σ) (qs : qs_s σ) (i : Int) (sieve_i : Int) :
    List Nat → qs_cand → qs_cand
  | [], c => c
  | j :: js, c =>
    if c.extra_bits < sieve_i then
      let prime := (qs.factor_base.getD j ⟨0, 0, 0⟩).p
      let pinv := (qs.factor_base.getD j ⟨0, 0, 0⟩).pinv
      let modp := env.n_mod2_preinv (i % 2 ^ 64).toNat prime pinv
      if qs.soln2.getD j 0 ≠ 0 then
        if modp = qs.soln1.getD j 0 ∨ modp = qs.soln2.getD j 0 then
          let r := env.fmpz_remove c.res prime
          if r.1 ≠ 0 then
            qsieve_large_loop env qs i sieve_i js
              { c with
                res := r.2
                extra_bits := c.extra_bits + (qs.factor_base.getD j ⟨0, 0, 0⟩).size
                factor := c.factor.set c.num_factors ⟨j, r.1⟩
                num_factors := c.num_factors + 1
                j := (j : Int) + 1 }
          else qsieve_large_loop env qs i sieve_i js { c with res := r.2, j := (j : Int) + 1 }
        else qsieve_large_loop env qs i sieve_i js { c with j := (j : Int) + 1 }
      else
        let r := env.fmpz_remove c.res prime
        qsieve_large_loop env qs i sieve_i js
          { c with
            res := r.2
            factor := c.factor.set c.num_factors ⟨j, r.1 + 1⟩
            num_factors := c.num_factors + 1
            j := (j : Int) + 1 }
    else c

/-- The loop `for (k = 0; k < qs_inf->s; k++)` that commits the outstanding
factors of `A`, those with `A_ind[k] >= j`, over the values of `k` still to
visit. -/
def qsieve_commit_loop {σ : Type} (qs : qs_s σ) : List Nat → qs_cand → qs_cand
  | [], c => c
  | k :: ks, c =>
    if c.j ≤ (qs.A_ind.getD k 0 : Int) then
      qsieve_commit_loop qs ks
        { c with
          factor := c.factor.set c.num_factors ⟨qs.A_ind.getD k 0, 1⟩
          num_factors := c.num_factors + 1 }
    else qsieve_commit_loop qs ks c

/-- What a call of `qsieve_evaluate_candidate` leaves: `qs_inf`, the sieve
array, and the value it returns. -/
structure qs_result (σ : Type) where
  qs : qs_s σ
  sieve : List Nat
  relations : Int

/-- The value `X = i - sieve_size/2` as `fmpz_set_ui` stores it. -/
def qsieve_candidate_X {σ : Type} (qs : qs_s σ) (i : Int) : Int :=
  (i - (qs.sieve_size / 2 : Nat)) % 2 ^ 64

/-- The value `Y = AX + B`. -/
def qsieve_candidate_Y {σ : Type} (qs : qs_s σ) (i : Int) : Int :=
  qsieve_candidate_X qs i * qs.A + qs.B

/-- The value `res = AX^2 + 2BX + C`, formed as `(Y + B)*X + C`. -/
def qsieve_candidate_res {σ : Type} (qs : qs_s σ) (i : Int) : Int :=
  (qsieve_candidate_Y qs i + qs.B) * qsieve_candidate_X qs i + qs.C

/-- The start of `qsieve_evaluate_candidate`: the declarations
`num_factors = 0` and `relations = 0`, then the powers of the multiplier, if
`factor_base[0].p != 1`. -/
def qsieve_candidate_multiplier {σ : Type} (env : qs_env σ) (qs : qs_s σ) (i : Int) : qs_cand :=
  if (qs.factor_base.getD 0 ⟨0, 0, 0⟩).p ≠ 1 then
    { res := (env.fmpz_remove (qsieve_candidate_res qs i)
        (qs.factor_base.getD 0 ⟨0, 0, 0⟩).p).2
      extra_bits :=
        if (env.fmpz_remove (qsieve_candidate_res qs i)
            (qs.factor_base.getD 0 ⟨0, 0, 0⟩).p).1 ≠ 0 then
          (env.fmpz_remove (qsieve_candidate_res qs i) (qs.factor_base.getD 0 ⟨0, 0, 0⟩).p).1 *
            (qs.factor_base.getD 0 ⟨0, 0, 0⟩).size
        else 0
      small := qs.small.set 0
        (env.fmpz_remove (qsieve_candidate_res qs i) (qs.factor_base.getD 0 ⟨0, 0, 0⟩).p).1
      factor := qs.factor, num_factors := 0, j := 0, relations := 0 }
  else
    { res := qsieve_candidate_res qs i, extra_bits := 0, small := qs.small.set 0 0
      factor := qs.factor, num_factors := 0, j := 0, relations := 0 }

/-- The powers of 2: `exp = fmpz_remove(res, res, 2)`, `extra_bits += exp`,
`small[1] = exp`. -/
def qsieve_candidate_two {σ : Type} (env : qs_env σ) (c : qs_cand) : qs_cand :=
  { c with
    res := (env.fmpz_remove c.res 2).2
    extra_bits := c.extra_bits + (env.fmpz_remove c.res 2).1
    small := c.small.set 1 (env.fmpz_remove c.res 2).1 }

/-- The locals after the small primes have been pulled out. -/
def qsieve_candidate_small {σ : Type} (env : qs_env σ) (qs : qs_s σ) (i : Int) : qs_cand :=
  qsieve_small_loop env qs i (List.range' 3 (qs.small_primes - 3).toNat)
    (qsieve_candidate_two env (qsieve_candidate_multiplier env qs i))

/-- The byte `sieve[i]` after `sieve[i] += extra_bits`, in `unsigned char`. -/
def qsieve_candidate_byte (sieve : List Nat) (i : Int) (c : qs_cand) : Nat :=
  (((sieve.getD i.toNat 0 : Int) + c.extra_bits) % 256).toNat

/-- The locals after the remaining primes have been pulled out. -/
def qsieve_candidate_large {σ : Type} (env : qs_env σ) (qs : qs_s σ) (i : Int)
    (sieve : List Nat) : qs_cand :=
  qsieve_large_loop env qs i (qsieve_candidate_byte sieve i (qsieve_candidate_small env qs i))
    (List.range' qs.small_primes.toNat (qs.num_primes - qs.small_primes).toNat)
    { qsieve_candidate_small env qs i with j := qs.small_primes }

/-- The factors committed for a relation: the outstanding factors of `A`,
then `factor[num_factors].ind = qs_inf->q_idx` with exponent 1. -/
def qsieve_candidate_commit {σ : Type} (qs : qs_s σ) (c : qs_cand) : qs_cand :=
  { qsieve_commit_loop qs (List.range qs.s.toNat) c with
    factor := (qsieve_commit_loop qs (List.range qs.s.toNat) c).factor.set
      (qsieve_commit_loop qs (List.range qs.s.toNat) c).num_factors ⟨qs.q_idx, 1⟩
    num_factors := (qsieve_commit_loop qs (List.range qs.s.toNat) c).num_factors + 1 }

/-- The sign of a cofactor that is no full relation: `small[2] = 0`, and for
a negative cofactor `fmpz_abs(res, res)` and `small[2] = 1`. -/
def qsieve_candidate_sign (c : qs_cand) : qs_cand :=
  if c.res < 0 then { c with res := (c.res.natAbs : Int), small := c.small.set 2 1 }
  else { c with small := c.small.set 2 0 }

/-- The arrays `small` and `factor` of `qs_inf` as the locals hold them. -/
def qsieve_candidate_store {σ : Type} (qs : qs_s σ) (c : qs_cand) : qs_s σ :=
  { qs with small := c.small, factor := c.factor }

/-- The function `qsieve_evaluate_candidate(qs_inf, i, sieve)`: form
`res = AX^2 + 2BX + C` at `X = i - sieve_size/2`, divide out the multiplier,
2 and the small primes, and, if `extra_bits + sieve[i] > bits`, the
remaining primes; a cofactor `1` or `-1` is a full relation, a prime
cofactor in range a partial one, and each is written to the file.  The
statement `relations += qsieve_insert_relation(qs_inf, Y)` is inside a
comment, so nothing is done for it; the function returns `relations`. -/
def qsieve_evaluate_candidate {σ : Type} (env : qs_env σ) (qs : qs_s σ) (i : Int)
    (sieve : List Nat) : qs_result σ :=
  let Y := qsieve_candidate_Y qs i
  let bits : Int := (env.fmpz_bits (qsieve_candidate_res qs i) : Int) - env.BITS_ADJUST
  let c2 := qsieve_candidate_small env qs i
  if bits < c2.extra_bits + (sieve.getD i.toNat 0 : Int) then
    let sieve1 := sieve.set i.toNat (qsieve_candidate_byte sieve i c2)
    let c3 := qsieve_candidate_large env qs i sieve
    if c3.res = 1 ∨ c3.res = -1 then
      -- a full relation
      let c4 := qsieve_candidate_commit qs
        { c3 with small := c3.small.set 2 (if c3.res = -1 then 1 else 0) }
      let qs1 := env.qsieve_write_to_file
        { qsieve_candidate_store qs c4 with num_factors := c4.num_factors } 1 Y
      ⟨{ qs1 with full_relation := qs1.full_relation + 1 }, sieve1, c4.relations⟩
    else
      let c4 := qsieve_candidate_sign c3
      if env.fmpz_bits c4.res ≤ 23 then
        let prime := c4.res.toNat
        if (qs.factor_base.getD qs.q_idx ⟨0, 0, 0⟩).p < prime ∧
            prime < (60 * (qs.factor_base.getD (qs.num_primes - 1).toNat ⟨0, 0, 0⟩).p) % 2 ^ 64 ∧
            env.n_is_prime prime = true then
          -- a partial relation
          let c5 := qsieve_candidate_commit qs c4
          let qs1 := env.qsieve_write_to_file
            { qsieve_candidate_store qs c5 with num_factors := c5.num_factors } prime Y
          ⟨env.qsieve_add_to_hashtable { qs1 with edges := qs1.edges + 1 } prime, sieve1,
            c5.relations⟩
        else ⟨qsieve_candidate_store qs c4, sieve1, c4.relations⟩
      else ⟨qsieve_candidate_store qs c4, sieve1, c4.relations⟩
  else ⟨{ qs with small := c2.small }, sieve, c2.relations⟩

/-- The word `sieve2[j]` of the sieve array read as an array of `ulong`: the
eight bytes from `8*j` on, the first one lowest. -/
def qsieve_word (sieve : List Nat) (j : Nat) : Nat :=
  ((List.range 8).map fun t => sieve.getD (8 * j + t) 0 * 256 ^ t).sum

/-- The loop `while ((sieve2[j] & UWORD(0xC0C0C0C0C0C0C0C0)) == 0) j++`, with
a bound on its number of iterations; `none` means it was too small. -/
def qsieve_skip_loop (sieve : List Nat) : Nat → Nat → Option Nat
  | 0, _ => none
  | fuel + 1, j =>
    if qsieve_word sieve j &&& 0xC0C0C0C0C0C0C0C0 = 0 then qsieve_skip_loop sieve fuel (j + 1)
    else some j

/-- The loop `while (i < (j + 1)*sizeof(ulong) && i < qs_inf->sieve_size)`
over the bytes of one word, over the values of `i` still to visit, with
`rels += qsieve_evaluate_candidate(qs_inf, i, sieve)` for each byte above
the threshold. -/
def qsieve_byte_loop {σ : Type} (env : qs_env σ) (bits : Nat) :
    List Nat → qs_result σ → qs_result σ
  | [], r => r
  | i :: is, r =>
    if i < r.qs.sieve_size then
      if bits < r.sieve.getD i 0 then
        let c := qsieve_evaluate_candidate env r.qs i r.sieve
        qsieve_byte_loop env bits is ⟨c.qs, c.sieve, r.relations + c.relations⟩
      else qsieve_byte_loop env bits is r
    else r

/-- The outer loop `while (j < qs_inf->sieve_size / sizeof(ulong))` of
`qsieve_evaluate_sieve`, with a bound on its number of iterations. -/
def qsieve_sieve_loop {σ : Type} (env : qs_env σ) (bits : Nat) :
    Nat → Nat → qs_result σ → Option (qs_result σ)
  | 0, _, _ => none
  | fuel + 1, j, r =>
    if j < r.qs.sieve_size / 8 then
      match qsieve_skip_loop r.sieve (fuel + 1) j with
      | none => none
      | some j1 =>
        qsieve_sieve_loop env bits fuel (j1 + 1)
          (qsieve_byte_loop env bits (List.range' (j1 * 8) 8) r)
    else some r

/-- The function `qsieve_evaluate_sieve(qs_inf, sieve)`: scan the sieve a
word at a time and evaluate every byte above `sieve_bits`; it returns
`rels`, which starts at 0 and receives the values returned by
`qsieve_evaluate_candidate`.  `none` means the bound on the iterations was
too small. -/
def qsieve_evaluate_sieve {σ : Type} (env : qs_env σ) (fuel : Nat) (qs : qs_s σ)
    (sieve : List Nat) : Option (qs_result σ) :=
  qsieve_sieve_loop env qs.sieve_bits fuel 0 ⟨qs, sieve, 0⟩

/-- The loop `while (qs_inf->columns < qs_inf->num_primes + qs_inf->extra_rels)`
of `qsieve_collect_relations`, with a bound on its number of iterations and
on those of each scan of the sieve. -/
def qsieve_collect_loop {σ : Type} (env : qs_env σ) (scan : Nat) :
    Nat → qs_result σ → Option (qs_result σ)
  | 0, _ => none
  | fuel + 1, r =>
    if r.qs.columns < r.qs.num_primes + r.qs.extra_rels then
      let qs1 := env.qsieve_compute_C r.qs
      let s2 := env.qsieve_do_sieving2 qs1 r.sieve
      match qsieve_evaluate_sieve env scan s2.1 s2.2 with
      | none => none
      | some e =>
        if e.qs.curr_poly = 2 ^ e.qs.s.toNat then
          some ⟨e.qs, e.sieve, r.relations + e.relations⟩
        else
          qsieve_collect_loop env scan fuel
            ⟨env.qsieve_init_poly_next e.qs, e.sieve, r.relations + e.relations⟩
    else some r

/-- The function `qsieve_collect_relations(qs_inf, sieve)`: initialise the
first polynomial, then sieve and scan polynomial after polynomial; it
returns `relation`, which starts at 0 and receives the values returned by
`qsieve_evaluate_sieve`. -/
def qsieve_collect_relations {σ : Type} (env : qs_env σ) (scan fuel : Nat) (qs : qs_s σ)
    (sieve : List Nat) : Option (qs_result σ) :=
  qsieve_collect_loop env scan fuel ⟨env.qsieve_init_poly_first qs, sieve, 0⟩

/-! ### Example data for the sieve -/

/-- Removal of the powers of `p` from `x`, with a bound on the exponent: the
exponent and the quotient. -/
def qs_example_remove : Nat → Int → Int → Int × Int
  | 0, x, _ => (0, x)
  | fuel + 1, x, p =>
    if x ≠ 0 ∧ 1 < p.natAbs ∧ x % p = 0 then
      ((qs_example_remove fuel (x / p) p).1 + 1, (qs_example_remove fuel (x / p) p).2)
    else (0, x)

/-- An environment for the examples: exact integer helpers, a relation file
kept in `ext` as the list of the records written, and procedures for the
polynomials and the sieving that change nothing. -/
def qs_example_env : qs_env (List (Nat × Int)) where
  BITS_ADJUST := 10
  fmpz_remove := qs_example_remove 64
  fmpz_bits := fun x => FLINT_BIT_COUNT x.natAbs
  n_mod2_preinv := fun a n _ => a % n
  n_is_prime := fun n => decide (2 ≤ n) && (List.range n).all fun d => d < 2 || n % d ≠ 0
  qsieve_write_to_file := fun qs prime Y => { qs with ext := qs.ext ++ [(prime, Y)] }
  qsieve_add_to_hashtable := fun qs _ => qs
  qsieve_init_poly_first := fun qs => qs
  qsieve_compute_C := fun qs => qs
  qsieve_init_poly_next := fun qs => qs
  qsieve_do_sieving2 := fun qs sieve => (qs, sieve)

/-- A sieve of one word for the polynomial `X^2`, with a factor base of
three entries, none of them sieved with. -/
def qs_example : qs_s (List (Nat × Int)) where
  num_primes := 3
  small_primes := 3
  s := 0
  q_idx := 2
  sieve_size := 8
  sieve_bits := 100
  factor_base := [⟨0, 1, 0⟩, ⟨0, 2, 1⟩, ⟨0, 3, 2⟩]
  soln1 := [0, 0, 0]
  soln2 := [0, 0, 0]
  A_ind := []
  A := 1
  B := 0
  C := 0
  small := [0, 0, 0]
  factor := [⟨0, 0⟩, ⟨0, 0⟩]
  num_factors := 0
  full_relation := 0
  edges := 0
  columns := 0
  extra_rels := 0
  curr_poly := 1
  ext := []

/-- The sieve array of the example: only the byte at `i = 5`, where `X = 1`,
is above the threshold. -/
def qs_example_sieve : List Nat := [0, 0, 0, 0, 0, 192, 0, 0]

/-! ## Pretty printing of a polynomial -/

/-- A call that writes to the file: `fputc(c, file)`, `fmpz_fprint(file, x)`,
`flint_fprintf(file, "%s^%wd", x, d)`, `flint_fprintf(file, "%s", x)` and
`flint_fprintf(file, "1")`. -/
inductive pretty_call where
  | fputc (c : Char)
  | fmpz_fprint (x : Int)
  | fprintf_pow (x : String) (d : Nat)
  | fprintf_var (x : String)
  | fprintf_one
deriving DecidableEq, Repr

/-- The functions `_fmpz_mpoly_fprint_pretty` calls and does not define:
the value each writing call returns, and the decoder
`mpoly_get_monomial(degs, exp, bits, n, deg, rev)`, which gives the
`n - deg` exponents of a packed monomial. -/
structure pretty_env where
  ret : pretty_call → Int
  mpoly_get_monomial : List Nat → Nat → Nat → Nat → Nat → List Nat

/-- The file as the printer sees it: the variable `r`, and the calls that
have written to the file, oldest first. -/
structure pretty_file where
  r : Int
  calls : List pretty_call
deriving DecidableEq, Repr

/-- The value `EOF`. -/
def pretty_EOF : Int := -1

/-- The statements `r = fputc(c, file); r = (r != EOF) ? 1 : EOF;`. -/
def pretty_fputc (env : pretty_env) (c : Char) (f : pretty_file) : pretty_file :=
  ⟨if env.ret (.fputc c) ≠ pretty_EOF then 1 else pretty_EOF, f.calls ++ [.fputc c]⟩

/-- A statement `r = fmpz_fprint(...)` or `r = flint_fprintf(...)`. -/
def pretty_write (env : pretty_env) (call : pretty_call) (f : pretty_file) : pretty_file :=
  ⟨env.ret call, f.calls ++ [call]⟩

/-- Modelled from the spec: `mpoly_monomial_is_zero(exp, N)`, whether the
`N` words of a packed monomial are all zero. -/
def mpoly_monomial_is_zero (exp : List Nat) (N : Nat) : Bool :=
  (List.range N).all fun k => exp.getD k 0 = 0

/-- The block that prints one power of a variable in a term with
coefficient `c`: `*` unless this is the first factor of a term whose
coefficient is `1` or `-1`, then, if `r > 0`, the call `call` that prints
the power, then `first = 0`. -/
def fprint_pretty_factor (env : pretty_env) (c : Int) (call : pretty_call)
    (s : pretty_file × Bool) : pretty_file × Bool :=
  let f1 := if !s.2 || (decide (c ≠ 1) && decide (c ≠ -1)) then pretty_fputc env '*' s.1 else s.1
  (if 0 < f1.r then pretty_write env call f1 else f1, false)

/-- The body of the loop over the variables for the variable `j`: the block
for `degs[j] > 1`, then the block for `degs[j] == 1`. -/
def fprint_pretty_var (env : pretty_env) (c : Int) (x : List String) (degs : List Nat)
    (j : Nat) (s : pretty_file × Bool) : pretty_file × Bool :=
  let s1 := if 1 < degs.getD j 0 then
      fprint_pretty_factor env c (.fprintf_pow (x.getD j "") (degs.getD j 0)) s
    else s
  if degs.getD j 0 = 1 then fprint_pretty_factor env c (.fprintf_var (x.getD j "")) s1 else s1

/-- The loop `for (j = 0; r > 0 && j < nvars; j++)` over the variables of one
term with coefficient `c`, over the values of `j` still to visit; the state
is the file and the flag `first`. -/
def fprint_pretty_vars (env : pretty_env) (c : Int) (x : List String) (degs : List Nat) :
    List Nat → pretty_file × Bool → pretty_file × Bool
  | [], s => s
  | j :: js, s =>
    if 0 < s.1.r then fprint_pretty_vars env c x degs js (fprint_pretty_var env c x degs j s)
    else s

/-- The start of the body of the loop over the terms, for the term `i` with
coefficient `c`: `+` if `fmpz_sgn(poly + i) > 0 && i != 0`, `-` if
`poly[i] == WORD(-1)`, and `fmpz_fprint` if `r > 0` and the coefficient is
neither `1` nor `-1`. -/
def fprint_pretty_coeff (env : pretty_env) (i : Nat) (c : Int) (f : pretty_file) : pretty_file :=
  let f1 := if 0 < c ∧ i ≠ 0 then pretty_fputc env '+' f else f
  let f2 := if c = -1 then pretty_fputc env '-' f1 else f1
  if 0 < f2.r ∧ c ≠ 1 ∧ c ≠ -1 then pretty_write env (.fmpz_fprint c) f2 else f2

/-- The body of the loop over the terms for the term `i`: the sign or the
coefficient, the decoding of the monomial if `r > 0`, the variables, and `1`
for a coefficient `1` or `-1` on a zero monomial. -/
def fprint_pretty_term (env : pretty_env) (poly : List Int) (exps : List (List Nat))
    (x : List String) (bits n deg rev N : Nat) (i : Nat) (s : pretty_file × List Nat) :
    pretty_file × List Nat :=
  let f3 := fprint_pretty_coeff env i (poly.getD i 0) s.1
  let degs := if 0 < f3.r then env.mpoly_get_monomial (exps.getD i []) bits n deg rev else s.2
  let f4 := (fprint_pretty_vars env (poly.getD i 0) x degs (List.range (n - deg)) (f3, true)).1
  let f5 := if 0 < f4.r ∧ mpoly_monomial_is_zero (exps.getD i []) N = true ∧
      (poly.getD i 0 = 1 ∨ poly.getD i 0 = -1) then pretty_write env .fprintf_one f4 else f4
  (f5, degs)

/-- The loop `for (i = 0; r > 0 && i < len; i++)` over the terms, over the
values of `i` still to visit; the state is the file and the array `degs`. -/
def fprint_pretty_terms (env : pretty_env) (poly : List Int) (exps : List (List Nat))
    (x : List String) (bits n deg rev N : Nat) :
    List Nat → pretty_file × List Nat → pretty_file × List Nat
  | [], s => s
  | i :: is, s =>
    if 0 < s.1.r then
      fprint_pretty_terms env poly exps x bits n deg rev N is
        (fprint_pretty_term env poly exps x bits n deg rev N i s)
    else s

/-- The function `_fmpz_mpoly_fprint_pretty(file, poly, exps, len, x_in,
bits, n, deg, rev, N)`: `0` for the zero polynomial; otherwise the terms one
after the other, with the names `x1, x2, ...` if `x_in` is `NULL`.  The
result is the value of `r` it returns and the calls made on the file;
`exps` holds the `N` words of each monomial. -/
def _fmpz_mpoly_fprint_pretty (env : pretty_env) (poly : List Int) (exps : List (List Nat))
    (len : Nat) (x_in : Option (List String)) (bits n deg rev N : Nat) : pretty_file :=
  if len = 0 then pretty_fputc env '0' ⟨0, []⟩
  else
    (fprint_pretty_terms env poly exps
      (match x_in with
        | none => (List.range (n - deg)).map fun i => "x" ++ toString (i + 1)
        | some x => x)
      bits n deg rev N (List.range len) (⟨1, []⟩, [])).1

/-- Specification of the calls for the variables of a term: each variable
with a nonzero exponent in turn, as `x` for the exponent 1 and as `x^d`
otherwise, with `*` before it if `star` holds; `star` holds from the second
printed variable on. -/
def fprint_pretty_vars_spec (x : List String) (degs : List Nat) :
    Bool → List Nat → List pretty_call
  | _, [] => []
  | star, j :: js =>
    if degs.getD j 0 = 0 then fprint_pretty_vars_spec x degs star js
    else
      (if star then [pretty_call.fputc '*'] else []) ++
        [if degs.getD j 0 = 1 then pretty_call.fprintf_var (x.getD j "")
          else pretty_call.fprintf_pow (x.getD j "") (degs.getD j 0)] ++
        fprint_pretty_vars_spec x degs true js

/-- Specification of the calls for term `i` with coefficient `c`: `+` for a
positive coefficient unless the term is the first; for the coefficient `-1`
only `-`, for `1` nothing, any other coefficient in full; the variables,
with `*` before the first one only after a printed coefficient; and `1` for
the coefficient `1` or `-1` on a zero monomial. -/
def fprint_pretty_term_spec (i : Nat) (c : Int) (x : List String) (degs : List Nat)
    (nvars : Nat) (zero : Bool) : List pretty_call :=
  (if 0 < c ∧ i ≠ 0 then [pretty_call.fputc '+'] else []) ++
    (if c = -1 then [pretty_call.fputc '-'] else if c = 1 then []
      else [pretty_call.fmpz_fprint c]) ++
    fprint_pretty_vars_spec x degs (decide (c ≠ 1) && decide (c ≠ -1)) (List.range nvars) ++
    (if zero = true ∧ (c = 1 ∨ c = -1) then [pretty_call.fprintf_one] else [])

/-- An environment for the examples: every call succeeds, and a monomial has
one exponent in each word. -/
def pretty_example_env : pretty_env where
  ret := fun _ => 1
  mpoly_get_monomial := fun exp _ _ _ _ => exp

/-! ## The exponent pool of the multi-word kernel -/

section pool

variable {M : Type} [DecidableEq M] [Inhabited M]

/-- The storage of the monomials in `_fmpz_mpoly_mul_heap_part`: the array
`exps` of `len2` exponent vectors, here one list element per vector (slot
`s` is `exps + s*N`); the array `exp_list` of pointers into it, each given
as the number of its slot; the index `exp_next`; and the heap, whose entries
hold a pointer into `exps` in their field `exp`. -/
structure mul_pool (M : Type) where
  exps : List M
  exp_list : List Nat
  exp_next : Nat
  heap : List (mpoly_heap_s Nat)

/-- The pool before the seeding loop: `exp_list[i] = exps + i*N` for every
`i < len2`, `exp_next = 0`, an empty heap.  The content of `exps` is not
initialised; it is given the default monomial. -/
def mul_pool_init (len2 : Nat) : mul_pool M :=
  ⟨List.replicate len2 default, List.range len2, 0, []⟩

/-- Modelled from the spec: `_mpoly_heap_insert` on a heap whose entries
point into `exps`, with its return value: the monomials compared are the
ones the pointers point at; a node whose monomial is already present is
linked in front of that entry's chain and 0 is returned, otherwise a new
entry holding the pointer `exp` is created and 1 is returned. -/
def mpoly_heap_insert_ptr (before : M → M → Bool) (exps : List M) (exp : Nat)
    (x : mpoly_heap_t) : List (mpoly_heap_s Nat) → List (mpoly_heap_s Nat) × Bool
  | [] => ([⟨exp, [x]⟩], true)
  | h :: rest =>
    if exps.getD exp default = exps.getD h.exp default then (⟨h.exp, x :: h.next⟩ :: rest, false)
    else if before (exps.getD exp default) (exps.getD h.exp default) then
      (⟨exp, [x]⟩ :: h :: rest, true)
    else
      (h :: (mpoly_heap_insert_ptr before exps exp x rest).1,
        (mpoly_heap_insert_ptr before exps exp x rest).2)

/-- The statements that put the node `x` on the heap:
`mpoly_monomial_add(exp_list[exp_next], exp2 + x->i*N, exp3 + x->j*N, N)`,
then `if (!_mpoly_heap_insert(heap, exp_list[exp_next++], x, ...)) exp_next--`. -/
def mul_pool_insert (ops : mpoly_ops M) (exp2 exp3 : List M) (x : mpoly_heap_t)
    (P : mul_pool M) : mul_pool M :=
  let slot := P.exp_list.getD P.exp_next 0
  let exps := P.exps.set slot (ops.add (exp2.getD x.i default) (exp3.getD x.j default))
  let r := mpoly_heap_insert_ptr ops.before exps slot x P.heap
  ⟨exps, P.exp_list, if r.2 then P.exp_next + 1 else P.exp_next, r.1⟩

/-- The seeding loop `for (i = 0; i < len2; i++) if (start[i] < end[i])` of
`_fmpz_mpoly_mul_heap_part`, over the row indices still to visit. -/
def mul_pool_seed_loop (ops : mpoly_ops M) (exp2 exp3 : List M) (start end_ : List Nat) :
    List Nat → mul_pool M → mul_pool M
  | [], P => P
  | i :: rows, P =>
    if start.getD i 0 < end_.getD i 0 then
      mul_pool_seed_loop ops exp2 exp3 start end_ rows
        (mul_pool_insert ops exp2 exp3 ⟨i, start.getD i 0⟩ P)
    else mul_pool_seed_loop ops exp2 exp3 start end_ rows P

/-- The loop `while (Q_len > 0)` of `_fmpz_mpoly_mul_heap_part`: the stored
nodes, last stored first, each pushed as `(i, j + 1)` when
`x->j + 1 < end[x->i]`. -/
def mul_pool_push_loop (ops : mpoly_ops M) (exp2 exp3 : List M) (end_ : List Nat) :
    List mpoly_heap_t → mul_pool M → mul_pool M
  | [], P => P
  | x :: Q, P =>
    if x.j + 1 < end_.getD x.i 0 then
      mul_pool_push_loop ops exp2 exp3 end_ Q (mul_pool_insert ops exp2 exp3 ⟨x.i, x.j + 1⟩ P)
    else mul_pool_push_loop ops exp2 exp3 end_ Q P

/-- The statements `exp_list[--exp_next] = heap[1].exp;
x = _mpoly_heap_pop(heap, &heap_len, N, maskhi, masklo)`: the chain popped
and the pool left.  The index `exp_next` is positive whenever the heap has
an entry; see `mul_pool_inv`. -/
def mul_pool_pop (P : mul_pool M) : List mpoly_heap_t × mul_pool M :=
  match P.heap with
  | [] => ([], P)
  | h :: rest => (h.next, ⟨P.exps, P.exp_list.set (P.exp_next - 1) h.exp, P.exp_next - 1, rest⟩)

/-- The state of the inner loop: the pool, the accumulator, the store `Q`,
and the monomial `e1[k]` once `mpoly_monomial_set(e1 + k*N, exp, N)` has
written it. -/
structure mul_pool_run (M : Type) where
  pool : mul_pool M
  acc : mul_acc
  Q : List mpoly_heap_t
  e1k : Option M

/-- The inner loop `while (heap_len > 1 && mpoly_monomial_equal(heap[1].exp,
exp, N))` with `exp` the pointer taken from `heap[1].exp` before the loop:
each iteration returns the pointer of the top entry to `exp_list`, pops the
chain, copies the monomial `exp` points at to the output if this is the
first product, and walks the chain.  The first argument bounds the number of
iterations; the number of heap entries is enough, each iteration removing
one. -/
def mul_pool_pop_loop (small : Bool) (poly2 poly3 : List Int) (len3 : Nat) (exp : Nat) :
    Nat → mul_pool_run M → mul_pool_run M
  | 0, s => s
  | fuel + 1, s =>
    match s.pool.heap with
    | [] => s
    | h :: _ =>
      if s.pool.exps.getD h.exp default = s.pool.exps.getD exp default then
        mul_pool_pop_loop small poly2 poly3 len3 exp fuel
          { pool := (mul_pool_pop s.pool).2
            acc := ((mul_pool_pop s.pool).1.foldl (mul_chain_step small poly2 poly3 len3 true)
              (s.acc, s.Q)).1
            Q := ((mul_pool_pop s.pool).1.foldl (mul_chain_step small poly2 poly3 len3 true)
              (s.acc, s.Q)).2
            e1k := if s.acc.first then some ((mul_pool_pop s.pool).2.exps.getD exp default)
              else s.e1k }
      else s

/-- The inner loop of an outer iteration entered with the pool `P`. -/
def mul_pool_inner (small : Bool) (poly2 poly3 : List Int) (len3 : Nat) (P : mul_pool M) :
    mul_pool_run M :=
  match P.heap with
  | [] => ⟨P, mul_acc_init, [], none⟩
  | h :: _ =>
    mul_pool_pop_loop small poly2 poly3 len3 h.exp P.heap.length ⟨P, mul_acc_init, [], none⟩

/-- The pool at the head of the next outer iteration: the inner loop, then
the loop over the store `Q`. -/
def mul_pool_next (ops : mpoly_ops M) (small : Bool) (poly2 : List Int) (exp2 : List M)
    (poly3 : List Int) (exp3 : List M) (len3 : Nat) (end_ : List Nat) (P : mul_pool M) :
    mul_pool M :=
  mul_pool_push_loop ops exp2 exp3 end_ (mul_pool_inner small poly2 poly3 len3 P).Q
    (mul_pool_inner small poly2 poly3 len3 P).pool

/-- The pool at the head of outer iteration `n` of a run of
`_fmpz_mpoly_mul_heap_part`, iteration 0 being entered with the pool left by
the seeding loop. -/
def mul_pool_at (ops : mpoly_ops M) (small : Bool) (poly2 : List Int) (exp2 : List M)
    (len2 : Nat) (poly3 : List Int) (exp3 : List M) (len3 : Nat) (start end_ : List Nat) :
    Nat → mul_pool M
  | 0 => mul_pool_seed_loop ops exp2 exp3 start end_ (List.range len2) (mul_pool_init len2)
  | n + 1 => mul_pool_next ops small poly2 exp2 poly3 exp3 len3 end_
      (mul_pool_at ops small poly2 exp2 len2 poly3 exp3 len3 start end_ n)

/-- The main loop `while (heap_len > 1)` of `_fmpz_mpoly_mul_heap_part` on
the pool: the term appended carries the monomial copied to `e1[k]`.  The
first argument bounds the number of iterations; `none` means it was too
small. -/
def mul_pool_loop (ops : mpoly_ops M) (small : Bool) (poly2 : List Int) (exp2 : List M)
    (poly3 : List Int) (exp3 : List M) (len3 : Nat) (end_ : List Nat) :
    Nat → mul_pool M → List (Int × M) → Option (List (Int × M))
  | 0, _, _ => none
  | fuel + 1, P, out =>
    match P.heap with
    | [] => some out
    | _ :: _ =>
      let r := mul_pool_inner small poly2 poly3 len3 P
      let c := if small then fmpz_set_signed_uiuiui r.acc.c2 r.acc.c1 r.acc.c0 else r.acc.p1k
      mul_pool_loop ops small poly2 exp2 poly3 exp3 len3 end_ fuel
        (mul_pool_push_loop ops exp2 exp3 end_ r.Q r.pool)
        (if c = 0 then out else out ++ [(c, r.e1k.getD default)])

/-- The multi-word kernel on the pool: seed the heap, run the main loop. -/
def mul_pool_kernel (ops : mpoly_ops M) (poly2 : List Int) (exp2 : List M) (len2 : Nat)
    (poly3 : List Int) (exp3 : List M) (len3 : Nat) (start end_ : List Nat) :
    Option (List (Int × M)) :=
  mul_pool_loop ops (_fmpz_mpoly_fits_small poly2 len2 && _fmpz_mpoly_fits_small poly3 len3)
    poly2 exp2 poly3 exp3 len3 end_ (mul_window_size len2 start end_ + 1)
    (mul_pool_seed_loop ops exp2 exp3 start end_ (List.range len2) (mul_pool_init len2)) []

/-- The heap with every pointer replaced by the monomial it points at. -/
def mul_pool_view (P : mul_pool M) : List (mpoly_heap_s M) :=
  P.heap.map fun h => ⟨P.exps.getD h.exp default, h.next⟩

/-- The slots held by the heap entries. -/
def mul_pool_held (P : mul_pool M) : List Nat := P.heap.map fun h => h.exp

/-- The free slots `exp_list[exp_next], ..., exp_list[len2 - 1]`. -/
def mul_pool_free (P : mul_pool M) : List Nat := P.exp_list.drop P.exp_next

/-- Invariant of the pool: both arrays have `len2` entries, `exp_next` is
the number of heap entries and at most `len2`, and the slots held by the
heap entries together with the free slots are the `len2` slots, each once. -/
structure mul_pool_inv (len2 : Nat) (P : mul_pool M) : Prop where
  exps_length : P.exps.length = len2
  list_length : P.exp_list.length = len2
  next_eq : P.exp_next = P.heap.length
  next_le : P.exp_next ≤ len2
  slots : (mul_pool_held P ++ mul_pool_free P).Perm (List.range len2)

end pool

/-- Two polynomials with two-word monomials: `x^2 + x` and `x`, one variable
in each word. -/
def mul_pool_example_exp2 : List (mpoly_monomial 2) :=
  [mpoly_monomial_read 2 [2, 0], mpoly_monomial_read 2 [1, 0]]

/-- The monomial of the second polynomial of the example. -/
def mul_pool_example_exp3 : List (mpoly_monomial 2) :=
  [mpoly_monomial_read 2 [1, 0]]

/-! ## A dense operand beyond the range of the planner -/

section kernel_proofs

variable {M : Type} [DecidableEq M] [Inhabited M]

theorem mpoly_heap_insert_nodes (before : M → M → Bool) (e : M) (x : mpoly_heap_t)
    (H : List (mpoly_heap_s M)) :
    (mul_heap_nodes (mpoly_heap_insert before e x H)).Perm (x :: mul_heap_nodes H) := by
  induction H with
  | nil => simp [mpoly_heap_insert, mul_heap_nodes]
  | cons h rest ih =>
    simp only [mpoly_heap_insert]
    split_ifs with h1 h2
    · simp [mul_heap_nodes]
    · simp [mul_heap_nodes]
    · simp only [mul_heap_nodes, List.flatMap_cons] at ih ⊢
      exact (List.Perm.append_left _ ih).trans List.perm_middle

theorem mpoly_heap_insert_forall (before : M → M → Bool) (P : M → mpoly_heap_t → Prop)
    (e : M) (x : mpoly_heap_t) (H : List (mpoly_heap_s M))
    (hH : ∀ h ∈ H, ∀ y ∈ h.next, P h.exp y) (hx : P e x) :
    ∀ h ∈ mpoly_heap_insert before e x H, ∀ y ∈ h.next, P h.exp y := by
  induction H with
  | nil =>
    intro h hh y hy
    simp only [mpoly_heap_insert, List.mem_singleton] at hh
    subst hh
    simp only [List.mem_singleton] at hy
    subst hy
    exact hx
  | cons h0 rest ih =>
    intro h hh y hy
    simp only [mpoly_heap_insert] at hh
    split_ifs at hh with h1 h2
    · rcases List.mem_cons.1 hh with rfl | hr
      · rcases List.mem_cons.1 hy with rfl | hy'
        · simpa [h1] using hx
        · exact hH h0 (List.mem_cons_self _ _) y hy'
      · exact hH h (List.mem_cons_of_mem _ hr) y hy
    · rcases List.mem_cons.1 hh with rfl | hr
      · simp only [List.mem_singleton] at hy
        subst hy
        exact hx
      · exact hH h hr y hy
    · rcases List.mem_cons.1 hh with rfl | hr
      · exact hH _ (List.mem_cons_self _ _) y hy
      · exact ih (fun h' hh' => hH h' (List.mem_cons_of_mem _ hh')) h hr y hy

theorem mpoly_heap_insert_nonempty (before : M → M → Bool) (e : M) (x : mpoly_heap_t)
    (H : List (mpoly_heap_s M)) (hH : ∀ h ∈ H, h.next ≠ []) :
    ∀ h ∈ mpoly_heap_insert before e x H, h.next ≠ [] := by
  induction H with
  | nil =>
    intro h hh
    simp only [mpoly_heap_insert, List.mem_singleton] at hh
    subst hh
    simp
  | cons h0 rest ih =>
    intro h hh
    simp only [mpoly_heap_insert] at hh
    split_ifs at hh with h1 h2
    · rcases List.mem_cons.1 hh with rfl | hr
      · simp
      · exact hH h (List.mem_cons_of_mem _ hr)
    · rcases List.mem_cons.1 hh with rfl | hr
      · simp
      · exact hH h hr
    · rcases List.mem_cons.1 hh with rfl | hr
      · exact hH _ (List.mem_cons_self _ _)
      · exact ih (fun h' hh' => hH h' (List.mem_cons_of_mem _ hh')) h hr

theorem mpoly_heap_insert_exps (before : M → M → Bool) (e : M) (x : mpoly_heap_t)
    (H : List (mpoly_heap_s M)) :
    ∀ h ∈ mpoly_heap_insert before e x H, h.exp = e ∨ ∃ h' ∈ H, h'.exp = h.exp := by
  induction H with
  | nil =>
    intro h hh
    simp only [mpoly_heap_insert, List.mem_singleton] at hh
    subst hh
    exact Or.inl rfl
  | cons h0 rest ih =>
    intro h hh
    simp only [mpoly_heap_insert] at hh
    split_ifs at hh with h1 h2
    · rcases List.mem_cons.1 hh with rfl | hr
      · exact Or.inl h1.symm
      · exact Or.inr ⟨h, List.mem_cons_of_mem _ hr, rfl⟩
    · rcases List.mem_cons.1 hh with rfl | hr
      · exact Or.inl rfl
      · exact Or.inr ⟨h, hr, rfl⟩
    · rcases List.mem_cons.1 hh with rfl | hr
      · exact Or.inr ⟨h, List.mem_cons_self _ _, rfl⟩
      · rcases ih h hr with h3 | ⟨h', hh', h3⟩
        · exact Or.inl h3
        · exact Or.inr ⟨h', List.mem_cons_of_mem _ hh', h3⟩

theorem mpoly_heap_insert_sorted (ops : mpoly_ops M) (laws : ops.strict_total) (e : M)
    (x : mpoly_heap_t) (H : List (mpoly_heap_s M))
    (hH : H.Pairwise fun a b => ops.before a.exp b.exp = true) :
    (mpoly_heap_insert ops.before e x H).Pairwise fun a b => ops.before a.exp b.exp = true := by
  induction H with
  | nil => simp [mpoly_heap_insert]
  | cons h0 rest ih =>
    rw [List.pairwise_cons] at hH
    simp only [mpoly_heap_insert]
    split_ifs with h1 h2
    · rw [List.pairwise_cons]
      exact ⟨fun a ha => hH.1 a ha, hH.2⟩
    · rw [List.pairwise_cons]
      refine ⟨fun a ha => ?_, List.pairwise_cons.2 hH⟩
      rcases List.mem_cons.1 ha with rfl | hr
      · exact h2
      · exact laws.trans _ _ _ h2 (hH.1 a hr)
    · rw [List.pairwise_cons]
      refine ⟨fun a ha => ?_, ih hH.2⟩
      rcases mpoly_heap_insert_exps ops.before e x rest a ha with h3 | ⟨h', hh', h3⟩
      · rw [h3]
        exact laws.total _ _ h1 (by simpa using h2)
      · rw [← h3]
        exact hH.1 h' hh'

end kernel_proofs

section kernel_proofs2

variable {M : Type} [DecidableEq M] [Inhabited M]

theorem mul_insert_all_nodes (ops : mpoly_ops M) (exp2 exp3 : List M)
    (xs : List mpoly_heap_t) (H : List (mpoly_heap_s M)) :
    (mul_heap_nodes (mul_insert_all ops exp2 exp3 xs H)).Perm (xs ++ mul_heap_nodes H) := by
  induction xs generalizing H with
  | nil => simp [mul_insert_all]
  | cons x xs ih =>
    simp only [mul_insert_all]
    refine (ih _).trans ?_
    refine (List.Perm.append_left xs (mpoly_heap_insert_nodes ops.before _ x H)).trans ?_
    exact List.perm_middle

theorem mul_insert_all_forall (ops : mpoly_ops M) (exp2 exp3 : List M)
    (P : M → mpoly_heap_t → Prop) (xs : List mpoly_heap_t) (H : List (mpoly_heap_s M))
    (hH : ∀ h ∈ H, ∀ y ∈ h.next, P h.exp y)
    (hx : ∀ x ∈ xs, P (mul_pair_exp ops exp2 exp3 x.i x.j) x) :
    ∀ h ∈ mul_insert_all ops exp2 exp3 xs H, ∀ y ∈ h.next, P h.exp y := by
  induction xs generalizing H with
  | nil => simpa [mul_insert_all] using hH
  | cons x xs ih =>
    simp only [mul_insert_all]
    exact ih _ (mpoly_heap_insert_forall ops.before P _ x H hH (hx x (List.mem_cons_self _ _)))
      (fun y hy => hx y (List.mem_cons_of_mem _ hy))

theorem mul_insert_all_nonempty (ops : mpoly_ops M) (exp2 exp3 : List M)
    (xs : List mpoly_heap_t) (H : List (mpoly_heap_s M)) (hH : ∀ h ∈ H, h.next ≠ []) :
    ∀ h ∈ mul_insert_all ops exp2 exp3 xs H, h.next ≠ [] := by
  induction xs generalizing H with
  | nil => simpa [mul_insert_all] using hH
  | cons x xs ih =>
    simp only [mul_insert_all]
    exact ih _ (mpoly_heap_insert_nonempty ops.before _ x H hH)

theorem mul_insert_all_sorted (ops : mpoly_ops M) (laws : ops.strict_total) (exp2 exp3 : List M)
    (xs : List mpoly_heap_t) (H : List (mpoly_heap_s M))
    (hH : H.Pairwise fun a b => ops.before a.exp b.exp = true) :
    (mul_insert_all ops exp2 exp3 xs H).Pairwise fun a b => ops.before a.exp b.exp = true := by
  induction xs generalizing H with
  | nil => simpa [mul_insert_all] using hH
  | cons x xs ih =>
    simp only [mul_insert_all]
    exact ih _ (mpoly_heap_insert_sorted ops laws _ x H hH)

theorem mul_insert_all_exps (ops : mpoly_ops M) (exp2 exp3 : List M)
    (xs : List mpoly_heap_t) (H : List (mpoly_heap_s M)) :
    ∀ h ∈ mul_insert_all ops exp2 exp3 xs H,
      (∃ x ∈ xs, h.exp = mul_pair_exp ops exp2 exp3 x.i x.j) ∨ ∃ h' ∈ H, h'.exp = h.exp := by
  induction xs generalizing H with
  | nil =>
    intro h hh
    exact Or.inr ⟨h, by simpa [mul_insert_all] using hh, rfl⟩
  | cons x xs ih =>
    intro h hh
    simp only [mul_insert_all] at hh
    rcases ih _ h hh with ⟨y, hy, h1⟩ | ⟨h', hh', h1⟩
    · exact Or.inl ⟨y, List.mem_cons_of_mem _ hy, h1⟩
    · rcases mpoly_heap_insert_exps ops.before _ x H h' hh' with h2 | ⟨h'', hh'', h2⟩
      · exact Or.inl ⟨x, List.mem_cons_self _ _, by rw [← h1, h2]⟩
      · exact Or.inr ⟨h'', hh'', by rw [h2, h1]⟩

/-- The pushes of the loop over the store are insertions of the advanced nodes. -/
theorem mul_push_loop_eq (ops : mpoly_ops M) (exp2 exp3 : List M) (end_ : List Nat)
    (Q : List mpoly_heap_t) (H : List (mpoly_heap_s M)) :
    mul_push_loop ops exp2 exp3 end_ Q H =
      mul_insert_all ops exp2 exp3
        ((Q.filter fun x => decide (x.j + 1 < end_.getD x.i 0)).map
          fun x => (⟨x.i, x.j + 1⟩ : mpoly_heap_t)) H := by
  induction Q generalizing H with
  | nil => simp [mul_push_loop, mul_insert_all]
  | cons x Q ih =>
    simp only [mul_push_loop, List.filter_cons]
    split_ifs with h1 h2 h2
    · simp only [List.map_cons, mul_insert_all, mul_pair_exp]
      exact ih _
    · exact absurd (by simpa using h1) h2
    · exact absurd (by simpa using h2) h1
    · exact ih _

/-- The seeding loop inserts the first node of every row with a nonempty window. -/
theorem mul_seed_loop_eq (ops : mpoly_ops M) (exp2 exp3 : List M) (start end_ : List Nat)
    (rows : List Nat) (H : List (mpoly_heap_s M)) :
    mul_seed_loop ops exp2 exp3 start end_ rows H =
      mul_insert_all ops exp2 exp3
        ((rows.filter fun i => decide (start.getD i 0 < end_.getD i 0)).map
          fun i => (⟨i, start.getD i 0⟩ : mpoly_heap_t)) H := by
  induction rows generalizing H with
  | nil => simp [mul_seed_loop, mul_insert_all]
  | cons i rows ih =>
    simp only [mul_seed_loop, List.filter_cons]
    split_ifs with h1 h2 h2
    · simp only [List.map_cons, mul_insert_all, mul_pair_exp]
      exact ih _
    · exact absurd (by simpa using h1) h2
    · exact absurd (by simpa using h2) h1
    · exact ih _

theorem mul_store_fold (len3 : Nat) (qzero : Bool) (C Q : List mpoly_heap_t) :
    C.foldl (mul_store_node len3 qzero) Q =
      (C.filter fun x => decide (x.j < len3 - 1) || (qzero && decide (x.j = 0))).reverse ++ Q := by
  induction C generalizing Q with
  | nil => simp
  | cons x C ih =>
    simp only [List.foldl_cons, List.filter_cons, ih, mul_store_node]
    split_ifs <;> simp

theorem mul_chain_fold (small : Bool) (poly2 poly3 : List Int) (len3 : Nat) (qzero : Bool)
    (C : List mpoly_heap_t) (a : mul_acc) (Q : List mpoly_heap_t) :
    C.foldl (mul_chain_step small poly2 poly3 len3 qzero) (a, Q) =
      (C.foldl (mul_acc_node small poly2 poly3) a, C.foldl (mul_store_node len3 qzero) Q) := by
  induction C generalizing a Q with
  | nil => simp
  | cons x C ih => simp only [List.foldl_cons, mul_chain_step, ih]

/-- On a heap whose entries carry pairwise distinct monomials the inner loop
pops exactly the top entry. -/
theorem mul_pop_loop_top (ops : mpoly_ops M) (laws : ops.strict_total)
    (small : Bool) (poly2 poly3 : List Int) (len3 : Nat) (qzero : Bool)
    (h : mpoly_heap_s M) (rest : List (mpoly_heap_s M))
    (hs : (h :: rest).Pairwise fun a b => ops.before a.exp b.exp = true)
    (s : mul_acc × List mpoly_heap_t) :
    mul_pop_loop small poly2 poly3 len3 qzero h.exp (h :: rest) s =
      (rest, h.next.foldl (mul_chain_step small poly2 poly3 len3 qzero) s) := by
  rw [List.pairwise_cons] at hs
  simp only [mul_pop_loop, if_true, mpoly_heap_pop]
  cases rest with
  | nil => simp [mul_pop_loop]
  | cons h' rest' =>
    have hb := hs.1 h' (List.mem_cons_self _ _)
    have hne : h'.exp ≠ h.exp := by
      intro he
      rw [he, laws.irrefl] at hb
      exact Bool.false_ne_true hb
    simp [mul_pop_loop, hne]

/-- One iteration of the main loop on a heap with distinct monomials. -/
theorem mul_heap_loop_step (ops : mpoly_ops M) (laws : ops.strict_total)
    (small : Bool) (poly2 : List Int) (exp2 : List M) (poly3 : List Int) (exp3 : List M)
    (len3 : Nat) (end_ : List Nat) (qzero : Bool) (fuel : Nat)
    (h : mpoly_heap_s M) (rest : List (mpoly_heap_s M))
    (hs : (h :: rest).Pairwise fun a b => ops.before a.exp b.exp = true)
    (out : List (Int × M)) :
    mul_heap_loop ops small poly2 exp2 poly3 exp3 len3 end_ qzero (fuel + 1) (h :: rest) out =
      mul_heap_loop ops small poly2 exp2 poly3 exp3 len3 end_ qzero fuel
        (mul_insert_all ops exp2 exp3
          ((((h.next.filter fun x => decide (x.j < len3 - 1) || (qzero && decide (x.j = 0))).reverse).filter
              fun x => decide (x.j + 1 < end_.getD x.i 0)).map
            fun x => (⟨x.i, x.j + 1⟩ : mpoly_heap_t)) rest)
        (if mul_chain_coeff small poly2 poly3 h.next = 0 then out
         else out ++ [(mul_chain_coeff small poly2 poly3 h.next, h.exp)]) := by
  simp only [mul_heap_loop]
  rw [mul_pop_loop_top ops laws small poly2 poly3 len3 qzero h rest hs, mul_chain_fold,
    mul_store_fold, mul_push_loop_eq]
  simp only [List.append_nil, mul_chain_coeff]

end kernel_proofs2

section accumulator_proofs

theorem mul_acc_node_small (poly2 poly3 : List Int) (a : mul_acc) (x : mpoly_heap_t)
    (ha : mul_acc_ok a)
    (hp1 : -(2 : Int) ^ 127 ≤ mul_pair_prod poly2 poly3 x)
    (hp2 : mul_pair_prod poly2 poly3 x < (2 : Int) ^ 127) :
    mul_acc_ok (mul_acc_node true poly2 poly3 a x) ∧
      (mul_acc_val (mul_acc_node true poly2 poly3 a x) - mul_acc_val a
        - mul_pair_prod poly2 poly3 x) % (2 : Int) ^ 192 = 0 := by
  obtain ⟨h0, h1, h2, hf⟩ := ha
  simp only [mul_acc_node, smul_ppmm, add_sssaaaaaa, mul_acc_ok, mul_acc_val, if_true,
    FLINT_BITS, mul_pair_prod] at h0 h1 h2 hf hp1 hp2 ⊢
  generalize poly2.getD x.i 0 * poly3.getD x.j 0 = p at hp1 hp2 ⊢
  have hP : ((Int.toNat (p % 2 ^ (2 * 64)) : Nat) : Int) = p % 2 ^ (2 * 64) :=
    Int.toNat_of_nonneg (Int.emod_nonneg _ (by norm_num))
  generalize Int.toNat (p % 2 ^ (2 * 64)) = P at hP ⊢
  norm_num at hp1 hp2 h0 h1 h2 hf hP ⊢
  by_cases hfirst : a.first = true
  · obtain ⟨e0, e1, e2⟩ := hf hfirst
    simp only [hfirst, if_true, e0, e1, e2]
    norm_num
    refine ⟨⟨?_, ?_, ?_⟩, ?_⟩ <;> omega
  · simp only [hfirst, if_false]
    norm_num
    refine ⟨⟨?_, ?_, ?_⟩, ?_⟩
    · omega
    · omega
    · omega
    · split_ifs <;> omega

end accumulator_proofs

section accumulator_proofs2

theorem mul_acc_fold_small (poly2 poly3 : List Int) (C : List mpoly_heap_t) (a : mul_acc)
    (ha : mul_acc_ok a)
    (hC : ∀ x ∈ C, -(2 : Int) ^ 127 ≤ mul_pair_prod poly2 poly3 x ∧
      mul_pair_prod poly2 poly3 x < (2 : Int) ^ 127) :
    mul_acc_ok (C.foldl (mul_acc_node true poly2 poly3) a) ∧
      (mul_acc_val (C.foldl (mul_acc_node true poly2 poly3) a) - mul_acc_val a
        - (C.map (mul_pair_prod poly2 poly3)).sum) % (2 : Int) ^ 192 = 0 := by
  induction C generalizing a with
  | nil => exact ⟨ha, by simp⟩
  | cons x C ih =>
    have hx := hC x (List.mem_cons_self _ _)
    obtain ⟨hok, hval⟩ := mul_acc_node_small poly2 poly3 a x ha hx.1 hx.2
    obtain ⟨hok', hval'⟩ := ih _ hok (fun y hy => hC y (List.mem_cons_of_mem _ hy))
    refine ⟨hok', ?_⟩
    simp only [List.foldl_cons, List.map_cons, List.sum_cons]
    norm_num at hval hval' ⊢
    omega

theorem mul_sum_bound (f : mpoly_heap_t → Int) (B : Int) (C : List mpoly_heap_t)
    (hC : ∀ x ∈ C, -B ≤ f x ∧ f x ≤ B) :
    -((C.length : Int) * B) ≤ (C.map f).sum ∧ (C.map f).sum ≤ (C.length : Int) * B := by
  induction C with
  | nil => simp
  | cons x C ih =>
    have hx := hC x (List.mem_cons_self _ _)
    have h := ih (fun y hy => hC y (List.mem_cons_of_mem _ hy))
    simp only [List.map_cons, List.sum_cons, List.length_cons, Nat.cast_add, Nat.cast_one]
    constructor <;> nlinarith [hx.1, hx.2, h.1, h.2]

theorem mul_chain_coeff_small (poly2 poly3 : List Int) (C : List mpoly_heap_t)
    (hC : ∀ x ∈ C, -(2 : Int) ^ 126 ≤ mul_pair_prod poly2 poly3 x ∧
      mul_pair_prod poly2 poly3 x ≤ (2 : Int) ^ 126)
    (hlen : C.length < 2 ^ 63) :
    mul_chain_coeff true poly2 poly3 C = (C.map (mul_pair_prod poly2 poly3)).sum := by
  have hinit : mul_acc_ok mul_acc_init := by simp [mul_acc_ok, mul_acc_init]
  obtain ⟨hok, hval⟩ := mul_acc_fold_small poly2 poly3 C mul_acc_init hinit
    (fun x hx => ⟨by have := (hC x hx).1; norm_num at this ⊢; omega,
      by have := (hC x hx).2; norm_num at this ⊢; omega⟩)
  obtain ⟨hb1, hb2⟩ := mul_sum_bound (mul_pair_prod poly2 poly3) ((2 : Int) ^ 126) C hC
  simp only [mul_chain_coeff, if_true, fmpz_set_signed_uiuiui]
  generalize C.foldl (mul_acc_node true poly2 poly3) mul_acc_init = r at hok hval ⊢
  generalize (C.map (mul_pair_prod poly2 poly3)).sum = S at hval hb1 hb2 ⊢
  obtain ⟨h0, h1, h2, -⟩ := hok
  simp only [mul_acc_val, mul_acc_init, FLINT_BITS] at h0 h1 h2 hval ⊢
  have hlen' : (C.length : Int) < 2 ^ 63 := by exact_mod_cast hlen
  generalize (C.length : Int) = n at hb1 hb2 hlen'
  norm_num at h0 h1 h2 hval hb1 hb2 hlen' ⊢
  split_ifs <;> omega

theorem mul_acc_fold_mp (poly2 poly3 : List Int) (C : List mpoly_heap_t) (a : mul_acc)
    (ha : a.first = false) :
    (C.foldl (mul_acc_node false poly2 poly3) a).p1k =
      a.p1k + (C.map (mul_pair_prod poly2 poly3)).sum := by
  induction C generalizing a with
  | nil => simp
  | cons x C ih =>
    simp only [List.foldl_cons, List.map_cons, List.sum_cons]
    rw [ih]
    · simp [mul_acc_node, ha, mul_pair_prod, add_assoc]
    · simp [mul_acc_node, ha]

theorem mul_chain_coeff_mp (poly2 poly3 : List Int) (C : List mpoly_heap_t) :
    mul_chain_coeff false poly2 poly3 C = (C.map (mul_pair_prod poly2 poly3)).sum := by
  cases C with
  | nil => simp [mul_chain_coeff, mul_acc_init]
  | cons x C =>
    simp only [mul_chain_coeff, List.foldl_cons, List.map_cons, List.sum_cons]
    rw [mul_acc_fold_mp]
    · simp [mul_acc_node, mul_acc_init, mul_pair_prod]
    · simp [mul_acc_node, mul_acc_init]

theorem fmpz_fits_small_getD (poly : List Int) (len i : Nat)
    (h : _fmpz_mpoly_fits_small poly len = true) (hi : i < len) :
    -(2 : Int) ^ 63 ≤ poly.getD i 0 ∧ poly.getD i 0 < (2 : Int) ^ 63 := by
  by_cases hl : i < poly.length
  · have hmem : poly.getD i 0 ∈ poly.take len := by
      rw [List.getD_eq_getElem _ _ hl]
      rw [List.mem_iff_getElem]
      refine ⟨i, by simp [hi, hl], ?_⟩
      simp
    have := List.all_eq_true.1 h _ hmem
    simpa [fmpz_fits_small, FLINT_BITS] using this
  · rw [List.getD_eq_default _ _ (by omega)]
    norm_num

theorem mul_small_prod_bound (u v : Int) (hu : -(2 : Int) ^ 63 ≤ u ∧ u < (2 : Int) ^ 63)
    (hv : -(2 : Int) ^ 63 ≤ v ∧ v < (2 : Int) ^ 63) :
    -(2 : Int) ^ 126 ≤ u * v ∧ u * v ≤ (2 : Int) ^ 126 := by
  have h1 : |u| ≤ 2 ^ 63 := abs_le.2 ⟨hu.1, hu.2.le⟩
  have h2 : |v| ≤ 2 ^ 63 := abs_le.2 ⟨hv.1, hv.2.le⟩
  have h3 : |u * v| ≤ 2 ^ 63 * 2 ^ 63 := by
    rw [abs_mul]
    exact mul_le_mul h1 h2 (abs_nonneg _) (by norm_num)
  have h4 : ((2 : Int) ^ 63 * 2 ^ 63) = 2 ^ 126 := by norm_num
  rw [h4] at h3
  exact abs_le.1 h3

end accumulator_proofs2

section loop_proofs

variable {M : Type} [DecidableEq M] [Inhabited M]

theorem mul_heap_loop_step' (ops : mpoly_ops M) (laws : ops.strict_total)
    (small : Bool) (poly2 : List Int) (exp2 : List M) (poly3 : List Int) (exp3 : List M)
    (len3 : Nat) (end_ : List Nat) (qzero : Bool) (fuel : Nat)
    (h : mpoly_heap_s M) (rest : List (mpoly_heap_s M))
    (hs : (h :: rest).Pairwise fun a b => ops.before a.exp b.exp = true)
    (out : List (Int × M)) :
    mul_heap_loop ops small poly2 exp2 poly3 exp3 len3 end_ qzero (fuel + 1) (h :: rest) out =
      mul_heap_loop ops small poly2 exp2 poly3 exp3 len3 end_ qzero fuel
        (mul_insert_all ops exp2 exp3 (mul_pushes len3 end_ qzero h.next) rest)
        (if mul_chain_coeff small poly2 poly3 h.next = 0 then out
         else out ++ [(mul_chain_coeff small poly2 poly3 h.next, h.exp)]) :=
  mul_heap_loop_step ops laws small poly2 exp2 poly3 exp3 len3 end_ qzero fuel h rest hs out

theorem mul_pushes_perm (len3 : Nat) (end_ : List Nat) (qzero : Bool) (C : List mpoly_heap_t) :
    (mul_pushes len3 end_ qzero C).Perm
      ((C.filter fun x => decide (x.j + 1 < end_.getD x.i 0) &&
          (decide (x.j < len3 - 1) || (qzero && decide (x.j = 0)))).map
        fun x => (⟨x.i, x.j + 1⟩ : mpoly_heap_t)) := by
  unfold mul_pushes
  refine List.Perm.map _ ?_
  rw [← List.filter_filter]
  exact (List.reverse_perm _).filter _

theorem mul_pushes_mem (len3 : Nat) (end_ : List Nat) (qzero : Bool) (C : List mpoly_heap_t)
    (y : mpoly_heap_t) (hy : y ∈ mul_pushes len3 end_ qzero C) :
    ∃ x ∈ C, x.j + 1 < end_.getD x.i 0 ∧ y = ⟨x.i, x.j + 1⟩ := by
  have := (mul_pushes_perm len3 end_ qzero C).subset hy
  rw [List.mem_map] at this
  obtain ⟨x, hx, rfl⟩ := this
  rw [List.mem_filter] at hx
  refine ⟨x, hx.1, ?_, rfl⟩
  have h2 := hx.2
  simp only [Bool.and_eq_true, decide_eq_true_eq] at h2
  exact h2.1

theorem mul_pushes_length (len3 : Nat) (end_ : List Nat) (qzero : Bool) (C : List mpoly_heap_t) :
    (mul_pushes len3 end_ qzero C).length ≤ C.length := by
  rw [(mul_pushes_perm len3 end_ qzero C).length_eq, List.length_map]
  exact List.length_filter_le _ _

/-- With `end[i] <= len3` the store test never rejects a node that would be pushed. -/
theorem mul_pushes_perm_window (len2 len3 : Nat) (end_ : List Nat) (qzero : Bool)
    (C : List mpoly_heap_t) (hwin : ∀ i, i < len2 → end_.getD i 0 ≤ len3)
    (hC : ∀ x ∈ C, x.i < len2) :
    (mul_pushes len3 end_ qzero C).Perm
      ((C.filter fun x => decide (x.j + 1 < end_.getD x.i 0)).map
        fun x => (⟨x.i, x.j + 1⟩ : mpoly_heap_t)) := by
  refine (mul_pushes_perm len3 end_ qzero C).trans ?_
  refine List.Perm.of_eq ?_
  congr 1
  apply List.filter_congr
  intro x hx
  have h1 := hwin x.i (hC x hx)
  by_cases h2 : x.j + 1 < end_.getD x.i 0
  · have h3 : x.j < len3 - 1 := by omega
    rw [decide_eq_true h2, decide_eq_true h3]
    rfl
  · rw [decide_eq_false h2]
    rfl

theorem mul_heap_nodes_cons (h : mpoly_heap_s M) (rest : List (mpoly_heap_s M)) :
    mul_heap_nodes (h :: rest) = h.next ++ mul_heap_nodes rest := by
  simp [mul_heap_nodes]

theorem mul_heap_nodes_mem (H : List (mpoly_heap_s M)) (x : mpoly_heap_t) :
    x ∈ mul_heap_nodes H ↔ ∃ h ∈ H, x ∈ h.next := by
  simp [mul_heap_nodes, List.mem_flatMap]

theorem mul_heap_inv_step (ops : mpoly_ops M) (laws : ops.strict_total) (exp2 exp3 : List M)
    (len2 len3 : Nat) (start end_ : List Nat) (qzero : Bool)
    (h : mpoly_heap_s M) (rest : List (mpoly_heap_s M))
    (inv : mul_heap_inv ops exp2 exp3 len2 start end_ (h :: rest)) :
    mul_heap_inv ops exp2 exp3 len2 start end_
      (mul_insert_all ops exp2 exp3 (mul_pushes len3 end_ qzero h.next) rest) := by
  have hsorted := List.pairwise_cons.1 inv.sorted
  refine ⟨?_, ?_, ?_, ?_⟩
  · exact mul_insert_all_sorted ops laws exp2 exp3 _ rest hsorted.2
  · refine mul_insert_all_forall ops exp2 exp3
      (fun e x => mul_pair_exp ops exp2 exp3 x.i x.j = e ∧ x.i < len2 ∧
        start.getD x.i 0 ≤ x.j ∧ x.j < end_.getD x.i 0) _ rest
      (fun h' hh' => inv.keyed h' (List.mem_cons_of_mem _ hh')) ?_
    intro y hy
    obtain ⟨x, hx, hpush, rfl⟩ := mul_pushes_mem len3 end_ qzero h.next y hy
    have hk := inv.keyed h (List.mem_cons_self _ _) x hx
    exact ⟨rfl, hk.2.1, by simp only; omega, hpush⟩
  · exact mul_insert_all_nonempty ops exp2 exp3 _ rest
      (fun h' hh' => inv.nonempty h' (List.mem_cons_of_mem _ hh'))
  · rw [(mul_insert_all_nodes ops exp2 exp3 _ rest).length_eq, List.length_append]
    have h1 := mul_pushes_length len3 end_ qzero h.next
    have h2 := inv.count
    rw [mul_heap_nodes_cons, List.length_append] at h2
    omega

theorem mul_measure_filter (end_ : List Nat) (q : mpoly_heap_t → Bool) (C : List mpoly_heap_t)
    (hC : ∀ x ∈ C, x.j < end_.getD x.i 0) :
    (((C.filter q).map fun x => (⟨x.i, x.j + 1⟩ : mpoly_heap_t)).map
        fun x => end_.getD x.i 0 - x.j).sum + C.length ≤
      (C.map fun x => end_.getD x.i 0 - x.j).sum := by
  induction C with
  | nil => simp
  | cons x C ih =>
    have hx := hC x (List.mem_cons_self _ _)
    have h := ih (fun y hy => hC y (List.mem_cons_of_mem _ hy))
    simp only [List.filter_cons]
    split_ifs
    · simp only [List.map_cons, List.sum_cons, List.length_cons]
      omega
    · simp only [List.map_cons, List.sum_cons, List.length_cons]
      omega

theorem mul_heap_measure_step (ops : mpoly_ops M) (exp2 exp3 : List M)
    (len2 len3 : Nat) (start end_ : List Nat) (qzero : Bool)
    (h : mpoly_heap_s M) (rest : List (mpoly_heap_s M))
    (inv : mul_heap_inv ops exp2 exp3 len2 start end_ (h :: rest)) :
    mul_heap_measure end_ (mul_insert_all ops exp2 exp3 (mul_pushes len3 end_ qzero h.next) rest)
      < mul_heap_measure end_ (h :: rest) := by
  unfold mul_heap_measure
  rw [((mul_insert_all_nodes ops exp2 exp3 _ rest).map _).sum_eq, mul_heap_nodes_cons,
    List.map_append, List.map_append, List.sum_append, List.sum_append,
    (((mul_pushes_perm len3 end_ qzero h.next).map _).sum_eq)]
  have h1 := mul_measure_filter end_
    (fun x => decide (x.j + 1 < end_.getD x.i 0) &&
      (decide (x.j < len3 - 1) || (qzero && decide (x.j = 0)))) h.next
    (fun x hx => (inv.keyed h (List.mem_cons_self _ _) x hx).2.2.2)
  have h2 : 0 < h.next.length :=
    List.length_pos.2 (inv.nonempty h (List.mem_cons_self _ _))
  omega

end loop_proofs

section loop_proofs2

variable {M : Type} [DecidableEq M] [Inhabited M]

theorem mul_row_rest_succ (ops : mpoly_ops M) (poly2 : List Int) (exp2 : List M)
    (poly3 : List Int) (exp3 : List M) (end_ : List Nat) (m : M) (x : mpoly_heap_t)
    (hx : x.j < end_.getD x.i 0) :
    mul_row_rest ops poly2 exp2 poly3 exp3 end_ m x =
      mul_pair_term ops poly2 exp2 poly3 exp3 m x.i x.j +
        mul_row_rest ops poly2 exp2 poly3 exp3 end_ m ⟨x.i, x.j + 1⟩ := by
  unfold mul_row_rest
  exact Finset.sum_eq_sum_Ico_succ_bot hx _

theorem mul_chain_split (ops : mpoly_ops M) (poly2 : List Int) (exp2 : List M)
    (poly3 : List Int) (exp3 : List M) (end_ : List Nat) (m e : M) (C : List mpoly_heap_t)
    (hC : ∀ x ∈ C, mul_pair_exp ops exp2 exp3 x.i x.j = e ∧ x.j < end_.getD x.i 0) :
    (C.map (mul_row_rest ops poly2 exp2 poly3 exp3 end_ m)).sum =
      (if e = m then (C.map (mul_pair_prod poly2 poly3)).sum else 0) +
        (((C.filter fun x => decide (x.j + 1 < end_.getD x.i 0)).map
          fun x => (⟨x.i, x.j + 1⟩ : mpoly_heap_t)).map
            (mul_row_rest ops poly2 exp2 poly3 exp3 end_ m)).sum := by
  induction C with
  | nil => simp
  | cons x C ih =>
    have hx := hC x (List.mem_cons_self _ _)
    have h := ih (fun y hy => hC y (List.mem_cons_of_mem _ hy))
    have hterm : mul_pair_term ops poly2 exp2 poly3 exp3 m x.i x.j =
        if e = m then mul_pair_prod poly2 poly3 x else 0 := by
      simp only [mul_pair_term, hx.1, mul_pair_prod]
    simp only [List.map_cons, List.sum_cons]
    rw [h, mul_row_rest_succ ops poly2 exp2 poly3 exp3 end_ m x hx.2, hterm]
    by_cases hp : x.j + 1 < end_.getD x.i 0
    · have hf : List.filter (fun x : mpoly_heap_t => decide (x.j + 1 < end_.getD x.i 0)) (x :: C)
          = x :: List.filter (fun x : mpoly_heap_t => decide (x.j + 1 < end_.getD x.i 0)) C :=
        List.filter_cons_of_pos (decide_eq_true hp)
      rw [hf]
      simp only [List.map_cons, List.sum_cons]
      split_ifs <;> ring
    · have hf : List.filter (fun x : mpoly_heap_t => decide (x.j + 1 < end_.getD x.i 0)) (x :: C)
          = List.filter (fun x : mpoly_heap_t => decide (x.j + 1 < end_.getD x.i 0)) C :=
        List.filter_cons_of_neg (by simpa using hp)
      rw [hf]
      have hz : mul_row_rest ops poly2 exp2 poly3 exp3 end_ m ⟨x.i, x.j + 1⟩ = 0 := by
        unfold mul_row_rest
        rw [Finset.Ico_eq_empty (by simpa using hp), Finset.sum_empty]
      rw [hz]
      split_ifs <;> ring

theorem mul_heap_coeff_step (ops : mpoly_ops M) (poly2 : List Int) (exp2 : List M)
    (poly3 : List Int) (exp3 : List M) (len2 len3 : Nat) (start end_ : List Nat) (qzero : Bool)
    (hwin : ∀ i, i < len2 → end_.getD i 0 ≤ len3)
    (h : mpoly_heap_s M) (rest : List (mpoly_heap_s M))
    (inv : mul_heap_inv ops exp2 exp3 len2 start end_ (h :: rest)) (m : M) :
    mul_heap_coeff ops poly2 exp2 poly3 exp3 end_ m (h :: rest) =
      (if h.exp = m then (h.next.map (mul_pair_prod poly2 poly3)).sum else 0) +
        mul_heap_coeff ops poly2 exp2 poly3 exp3 end_ m
          (mul_insert_all ops exp2 exp3 (mul_pushes len3 end_ qzero h.next) rest) := by
  have hk := inv.keyed h (List.mem_cons_self _ _)
  unfold mul_heap_coeff
  rw [((mul_insert_all_nodes ops exp2 exp3 _ rest).map _).sum_eq, mul_heap_nodes_cons,
    List.map_append, List.map_append, List.sum_append, List.sum_append,
    ((mul_pushes_perm_window len2 len3 end_ qzero h.next hwin
      (fun x hx => (hk x hx).2.1)).map _).sum_eq,
    mul_chain_split ops poly2 exp2 poly3 exp3 end_ m h.exp h.next
      (fun x hx => ⟨(hk x hx).1, (hk x hx).2.2.2⟩)]
  ring

theorem mul_heap_after_step (ops : mpoly_ops M) (exp2 exp3 : List M)
    (len2 len3 : Nat) (start end_ : List Nat) (qzero : Bool)
    (hrows : mul_rows_ordered ops exp2 exp3 len2 start end_)
    (h : mpoly_heap_s M) (rest : List (mpoly_heap_s M))
    (inv : mul_heap_inv ops exp2 exp3 len2 start end_ (h :: rest)) :
    ∀ h' ∈ mul_insert_all ops exp2 exp3 (mul_pushes len3 end_ qzero h.next) rest,
      ops.before h.exp h'.exp = true := by
  intro h' hh'
  rcases mul_insert_all_exps ops exp2 exp3 _ rest h' hh' with ⟨y, hy, he⟩ | ⟨h'', hh'', he⟩
  · obtain ⟨x, hx, hpush, rfl⟩ := mul_pushes_mem len3 end_ qzero h.next y hy
    have hk := inv.keyed h (List.mem_cons_self _ _) x hx
    rw [he, ← hk.1]
    exact hrows x.i hk.2.1 (x.j + 1) hpush x.j (Nat.lt_succ_self _) hk.2.2.1
  · rw [← he]
    exact (List.pairwise_cons.1 inv.sorted).1 h'' hh''

theorem mul_heap_coeff_after (ops : mpoly_ops M) (laws : ops.strict_total)
    (poly2 : List Int) (exp2 : List M) (poly3 : List Int) (exp3 : List M)
    (len2 : Nat) (start end_ : List Nat)
    (hrows : mul_rows_ordered ops exp2 exp3 len2 start end_)
    (H : List (mpoly_heap_s M)) (inv : mul_heap_inv ops exp2 exp3 len2 start end_ H)
    (e : M) (hall : ∀ h ∈ H, ops.before e h.exp = true) (m : M)
    (hm : mul_heap_coeff ops poly2 exp2 poly3 exp3 end_ m H ≠ 0) :
    ops.before e m = true := by
  by_contra hcon
  apply hm
  unfold mul_heap_coeff
  apply List.sum_eq_zero
  intro v hv
  rw [List.mem_map] at hv
  obtain ⟨x, hx, rfl⟩ := hv
  obtain ⟨h, hh, hxh⟩ := (mul_heap_nodes_mem H x).1 hx
  have hk := inv.keyed h hh x hxh
  unfold mul_row_rest
  apply Finset.sum_eq_zero
  intro j hj
  rw [Finset.mem_Ico] at hj
  unfold mul_pair_term
  rw [if_neg]
  intro hkey
  apply hcon
  rw [← hkey]
  have hb := hall h hh
  rw [← hk.1] at hb
  rcases Nat.eq_or_lt_of_le hj.1 with heq | hlt
  · rw [← heq]
    exact hb
  · exact laws.trans _ _ _ hb (hrows x.i hk.2.1 j hj.2 x.j hlt hk.2.2.1)

/-- Correctness of the main loop from any heap satisfying the invariant. -/
theorem mul_heap_loop_spec (ops : mpoly_ops M) (laws : ops.strict_total) (small : Bool)
    (poly2 : List Int) (exp2 : List M) (len2 : Nat) (poly3 : List Int) (exp3 : List M)
    (len3 : Nat) (start end_ : List Nat) (qzero : Bool)
    (hwin : ∀ i, i < len2 → end_.getD i 0 ≤ len3)
    (hrows : mul_rows_ordered ops exp2 exp3 len2 start end_)
    (hcoef : ∀ C : List mpoly_heap_t, (∀ x ∈ C, x.i < len2 ∧ x.j < len3) → C.length ≤ len2 →
      mul_chain_coeff small poly2 poly3 C = (C.map (mul_pair_prod poly2 poly3)).sum) :
    ∀ (fuel : Nat) (H : List (mpoly_heap_s M)), mul_heap_inv ops exp2 exp3 len2 start end_ H →
      mul_heap_measure end_ H < fuel →
      ∃ res, (∀ out, mul_heap_loop ops small poly2 exp2 poly3 exp3 len3 end_ qzero fuel H out
            = some (out ++ res)) ∧
        mul_is_sum ops (fun m => mul_heap_coeff ops poly2 exp2 poly3 exp3 end_ m H) res := by
  intro fuel
  induction fuel with
  | zero => intro H _ hμ; exact absurd hμ (Nat.not_lt_zero _)
  | succ n ih =>
    intro H inv hμ
    cases H with
    | nil =>
      refine ⟨[], fun out => by simp [mul_heap_loop], ?_, ?_, ?_, ?_⟩
      · exact List.Pairwise.nil
      · intro t ht; cases ht
      · intro t ht; cases ht
      · intro m hm
        exact absurd (by simp [mul_heap_coeff, mul_heap_nodes]) hm
    | cons h rest =>
      have inv2 := mul_heap_inv_step ops laws exp2 exp3 len2 len3 start end_ qzero h rest inv
      have hμ2 := mul_heap_measure_step ops exp2 exp3 len2 len3 start end_ qzero h rest inv
      obtain ⟨res2, hloop, hsum⟩ := ih _ inv2 (by omega)
      have hk := inv.keyed h (List.mem_cons_self _ _)
      have hc : mul_chain_coeff small poly2 poly3 h.next =
          (h.next.map (mul_pair_prod poly2 poly3)).sum := by
        apply hcoef
        · intro x hx
          exact ⟨(hk x hx).2.1, lt_of_lt_of_le (hk x hx).2.2.2 (hwin x.i (hk x hx).2.1)⟩
        · have := inv.count
          rw [mul_heap_nodes_cons, List.length_append] at this
          omega
      have hstep := mul_heap_coeff_step ops poly2 exp2 poly3 exp3 len2 len3 start end_ qzero
        hwin h rest inv
      rw [← hc] at hstep
      have hall := mul_heap_after_step ops exp2 exp3 len2 len3 start end_ qzero hrows
        h rest inv
      have hafter := mul_heap_coeff_after ops laws poly2 exp2 poly3 exp3 len2 start end_ hrows
        _ inv2 h.exp hall
      have hres_after : ∀ t ∈ res2, ops.before h.exp t.2 = true := by
        intro t ht
        apply hafter
        have h1 := hsum.coeff t ht
        have h2 := hsum.nonzero t ht
        beta_reduce at h1
        rw [← h1]
        exact h2
      have hres_ne : ∀ t ∈ res2, h.exp ≠ t.2 := by
        intro t ht he
        have := hres_after t ht
        rw [← he, laws.irrefl] at this
        exact Bool.false_ne_true this
      have hzero : mul_heap_coeff ops poly2 exp2 poly3 exp3 end_ h.exp
          (mul_insert_all ops exp2 exp3 (mul_pushes len3 end_ qzero h.next) rest) = 0 := by
        by_contra hne
        have := hafter h.exp hne
        rw [laws.irrefl] at this
        exact Bool.false_ne_true this
      by_cases hc0 : mul_chain_coeff small poly2 poly3 h.next = 0
      · refine ⟨res2, ?_, hsum.sorted, hsum.nonzero, ?_, ?_⟩
        · intro out
          rw [mul_heap_loop_step' ops laws small poly2 exp2 poly3 exp3 len3 end_ qzero n h rest
            inv.sorted out, if_pos hc0]
          exact hloop out
        · intro t ht
          beta_reduce
          rw [hstep, hc0, hsum.coeff t ht]
          simp
        · intro m hm
          apply hsum.complete
          beta_reduce at hm ⊢
          rw [hstep, hc0] at hm
          simpa using hm
      · refine ⟨(mul_chain_coeff small poly2 poly3 h.next, h.exp) :: res2, ?_, ?_, ?_, ?_, ?_⟩
        · intro out
          rw [mul_heap_loop_step' ops laws small poly2 exp2 poly3 exp3 len3 end_ qzero n h rest
            inv.sorted out, if_neg hc0, hloop]
          simp
        · exact List.pairwise_cons.2 ⟨fun t ht => hres_after t ht, hsum.sorted⟩
        · intro t ht
          rcases List.mem_cons.1 ht with rfl | ht'
          · exact hc0
          · exact hsum.nonzero t ht'
        · intro t ht
          beta_reduce
          rw [hstep]
          rcases List.mem_cons.1 ht with rfl | ht'
          · simp only [if_true]
            rw [hzero]
            simp
          · rw [if_neg (hres_ne t ht'), hsum.coeff t ht']
            simp
        · intro m hm
          by_cases hme : h.exp = m
          · exact ⟨_, List.mem_cons_self _ _, hme⟩
          · beta_reduce at hm
            rw [hstep, if_neg hme, zero_add] at hm
            obtain ⟨t, ht, htm⟩ := hsum.complete m hm
            exact ⟨t, List.mem_cons_of_mem _ ht, htm⟩

end loop_proofs2

section kernel_theorems

variable {M : Type} [DecidableEq M] [Inhabited M]

theorem mul_sum_filter_map {α : Type} (f : α → Int) (p : α → Bool) (L : List α)
    (h : ∀ x ∈ L, p x = false → f x = 0) :
    ((L.filter p).map f).sum = (L.map f).sum := by
  induction L with
  | nil => simp
  | cons x L ih =>
    have hx := h x (List.mem_cons_self _ _)
    have hL := ih (fun y hy => h y (List.mem_cons_of_mem _ hy))
    by_cases hp : p x = true
    · rw [List.filter_cons_of_pos hp]
      simp only [List.map_cons, List.sum_cons, hL]
    · rw [List.filter_cons_of_neg hp]
      simp only [List.map_cons, List.sum_cons, hL, hx (by simpa using hp), zero_add]

theorem mul_sum_range (f : Nat → Int) (n : Nat) :
    ((List.range n).map f).sum = ∑ i in Finset.range n, f i := by
  induction n with
  | zero => simp
  | succ n ih =>
    rw [List.range_succ, List.map_append, List.sum_append, ih, Finset.sum_range_succ]
    simp

theorem mul_seed_measure (start end_ : List Nat) (L : List Nat) :
    (((L.filter fun i => decide (start.getD i 0 < end_.getD i 0)).map
        fun i => (⟨i, start.getD i 0⟩ : mpoly_heap_t)).map
          fun x => end_.getD x.i 0 - x.j).sum ≤
      (L.map fun i => end_.getD i 0 - start.getD i 0).sum := by
  induction L with
  | nil => simp
  | cons i L ih =>
    simp only [List.filter_cons]
    split_ifs
    · simp only [List.map_cons, List.sum_cons]
      omega
    · simp only [List.map_cons, List.sum_cons]
      omega

/-- The seeded heap satisfies the invariant. -/
theorem mul_seed_inv (ops : mpoly_ops M) (laws : ops.strict_total) (exp2 exp3 : List M)
    (len2 : Nat) (start end_ : List Nat) :
    mul_heap_inv ops exp2 exp3 len2 start end_
      (mul_seed_loop ops exp2 exp3 start end_ (List.range len2) []) := by
  rw [mul_seed_loop_eq]
  refine ⟨?_, ?_, ?_, ?_⟩
  · exact mul_insert_all_sorted ops laws exp2 exp3 _ [] List.Pairwise.nil
  · refine mul_insert_all_forall ops exp2 exp3
      (fun e x => mul_pair_exp ops exp2 exp3 x.i x.j = e ∧ x.i < len2 ∧
        start.getD x.i 0 ≤ x.j ∧ x.j < end_.getD x.i 0) _ []
      (fun h hh => absurd hh (List.not_mem_nil _)) ?_
    intro y hy
    rw [List.mem_map] at hy
    obtain ⟨i, hi, rfl⟩ := hy
    rw [List.mem_filter, List.mem_range] at hi
    exact ⟨rfl, hi.1, le_refl _, by simpa using hi.2⟩
  · exact mul_insert_all_nonempty ops exp2 exp3 _ []
      (fun h hh => absurd hh (List.not_mem_nil _))
  · rw [(mul_insert_all_nodes ops exp2 exp3 _ []).length_eq, List.length_append,
      List.length_map]
    have := List.length_filter_le (fun i => decide (start.getD i 0 < end_.getD i 0))
      (List.range len2)
    rw [List.length_range] at this
    simp only [mul_heap_nodes, List.flatMap_nil, List.length_nil]
    omega

theorem mul_seed_measure_le (ops : mpoly_ops M) (exp2 exp3 : List M)
    (len2 : Nat) (start end_ : List Nat) :
    mul_heap_measure end_ (mul_seed_loop ops exp2 exp3 start end_ (List.range len2) [])
      ≤ mul_window_size len2 start end_ := by
  rw [mul_seed_loop_eq]
  unfold mul_heap_measure mul_window_size
  rw [((mul_insert_all_nodes ops exp2 exp3 _ []).map _).sum_eq]
  simp only [mul_heap_nodes, List.flatMap_nil, List.append_nil]
  exact mul_seed_measure start end_ (List.range len2)

/-- The pairs reachable from the seeded heap are the pairs of the window. -/
theorem mul_seed_coeff (ops : mpoly_ops M) (poly2 : List Int) (exp2 : List M) (len2 : Nat)
    (poly3 : List Int) (exp3 : List M) (start end_ : List Nat) (m : M) :
    mul_heap_coeff ops poly2 exp2 poly3 exp3 end_ m
        (mul_seed_loop ops exp2 exp3 start end_ (List.range len2) []) =
      mul_window_coeff ops poly2 exp2 len2 poly3 exp3 start end_ m := by
  rw [mul_seed_loop_eq]
  unfold mul_heap_coeff mul_window_coeff
  rw [((mul_insert_all_nodes ops exp2 exp3 _ []).map _).sum_eq]
  simp only [mul_heap_nodes, List.flatMap_nil, List.append_nil, List.map_map]
  rw [mul_sum_filter_map, mul_sum_range]
  · rfl
  · intro i _ hi
    simp only [Function.comp, mul_row_rest]
    rw [Finset.Ico_eq_empty (by simpa using hi), Finset.sum_empty]

/-- The stored coefficient of a chain is the exact sum of its products, in
the small branch because the three-word accumulator cannot overflow on at
most `len2 < 2 ^ 63` products of two signed words. -/
theorem mul_chain_coeff_exact (poly2 poly3 : List Int) (len2 len3 : Nat)
    (hlen : len2 < 2 ^ (FLINT_BITS - 1)) (C : List mpoly_heap_t)
    (hC : ∀ x ∈ C, x.i < len2 ∧ x.j < len3) (hCl : C.length ≤ len2) :
    mul_chain_coeff (_fmpz_mpoly_fits_small poly2 len2 && _fmpz_mpoly_fits_small poly3 len3)
      poly2 poly3 C = (C.map (mul_pair_prod poly2 poly3)).sum := by
  by_cases hs : (_fmpz_mpoly_fits_small poly2 len2 && _fmpz_mpoly_fits_small poly3 len3) = true
  · rw [hs]
    rw [Bool.and_eq_true] at hs
    apply mul_chain_coeff_small
    · intro x hx
      exact mul_small_prod_bound _ _
        (fmpz_fits_small_getD poly2 len2 x.i hs.1 (hC x hx).1)
        (fmpz_fits_small_getD poly3 len3 x.j hs.2 (hC x hx).2)
    · simp only [FLINT_BITS] at hlen
      omega
  · rw [Bool.not_eq_true] at hs
    rw [hs]
    exact mul_chain_coeff_mp poly2 poly3 C

/-- Correctness of the kernel: under the window and order preconditions it
returns, and its output is the normal form of the window sums. -/
theorem mul_heap_kernel_spec (ops : mpoly_ops M) (laws : ops.strict_total) (qzero : Bool → Bool)
    (poly2 : List Int) (exp2 : List M) (len2 : Nat)
    (poly3 : List Int) (exp3 : List M) (len3 : Nat) (start end_ : List Nat)
    (hlen : len2 < 2 ^ (FLINT_BITS - 1))
    (hwin : ∀ i, i < len2 → end_.getD i 0 ≤ len3)
    (hrows : mul_rows_ordered ops exp2 exp3 len2 start end_) :
    ∃ res, mul_heap_kernel ops qzero poly2 exp2 len2 poly3 exp3 len3 start end_ = some res ∧
      mul_is_sum ops (mul_window_coeff ops poly2 exp2 len2 poly3 exp3 start end_) res := by
  obtain ⟨res, hloop, hsum⟩ := mul_heap_loop_spec ops laws
    (_fmpz_mpoly_fits_small poly2 len2 && _fmpz_mpoly_fits_small poly3 len3)
    poly2 exp2 len2 poly3 exp3 len3 start end_
    (qzero (_fmpz_mpoly_fits_small poly2 len2 && _fmpz_mpoly_fits_small poly3 len3))
    hwin hrows (mul_chain_coeff_exact poly2 poly3 len2 len3 hlen)
    (mul_window_size len2 start end_ + 1) _
    (mul_seed_inv ops laws exp2 exp3 len2 start end_)
    (Nat.lt_succ_of_le (mul_seed_measure_le ops exp2 exp3 len2 start end_))
  refine ⟨res, ?_, ?_⟩
  · have := hloop []
    simpa [mul_heap_kernel] using this
  · have hfun : (fun m => mul_heap_coeff ops poly2 exp2 poly3 exp3 end_ m
        (mul_seed_loop ops exp2 exp3 start end_ (List.range len2) [])) =
        mul_window_coeff ops poly2 exp2 len2 poly3 exp3 start end_ := by
      funext m
      exact mul_seed_coeff ops poly2 exp2 len2 poly3 exp3 start end_ m
    rw [← hfun]
    exact hsum

/-- The main loop returns from any heap satisfying the invariant, whatever
the inputs, and appends only terms with a nonzero coefficient. -/
theorem mul_heap_loop_nonzero (ops : mpoly_ops M) (laws : ops.strict_total) (small : Bool)
    (poly2 : List Int) (exp2 : List M) (len2 : Nat) (poly3 : List Int) (exp3 : List M)
    (len3 : Nat) (start end_ : List Nat) (qzero : Bool) :
    ∀ (fuel : Nat) (H : List (mpoly_heap_s M)), mul_heap_inv ops exp2 exp3 len2 start end_ H →
      mul_heap_measure end_ H < fuel →
      ∃ res, (∀ out, mul_heap_loop ops small poly2 exp2 poly3 exp3 len3 end_ qzero fuel H out
            = some (out ++ res)) ∧ ∀ t ∈ res, t.1 ≠ 0 := by
  intro fuel
  induction fuel with
  | zero => intro H _ hμ; exact absurd hμ (Nat.not_lt_zero _)
  | succ n ih =>
    intro H inv hμ
    cases H with
    | nil =>
      exact ⟨[], fun out => by simp [mul_heap_loop], fun t ht => absurd ht (List.not_mem_nil _)⟩
    | cons h rest =>
      have inv2 := mul_heap_inv_step ops laws exp2 exp3 len2 len3 start end_ qzero h rest inv
      have hμ2 := mul_heap_measure_step ops exp2 exp3 len2 len3 start end_ qzero h rest inv
      obtain ⟨res2, hloop, hnz⟩ := ih _ inv2 (by omega)
      by_cases hc0 : mul_chain_coeff small poly2 poly3 h.next = 0
      · refine ⟨res2, ?_, hnz⟩
        intro out
        rw [mul_heap_loop_step' ops laws small poly2 exp2 poly3 exp3 len3 end_ qzero n h rest
          inv.sorted out, if_pos hc0]
        exact hloop out
      · refine ⟨(mul_chain_coeff small poly2 poly3 h.next, h.exp) :: res2, ?_, ?_⟩
        · intro out
          rw [mul_heap_loop_step' ops laws small poly2 exp2 poly3 exp3 len3 end_ qzero n h rest
            inv.sorted out, if_neg hc0, hloop]
          simp
        · intro t ht
          rcases List.mem_cons.1 ht with rfl | ht'
          · exact hc0
          · exact hnz t ht'

/-- The kernel returns for every input and window, and none of the
coefficients it returns is zero. -/
theorem mul_heap_kernel_nonzero (ops : mpoly_ops M) (laws : ops.strict_total)
    (qzero : Bool → Bool) (poly2 : List Int) (exp2 : List M) (len2 : Nat)
    (poly3 : List Int) (exp3 : List M) (len3 : Nat) (start end_ : List Nat) :
    ∃ res, mul_heap_kernel ops qzero poly2 exp2 len2 poly3 exp3 len3 start end_ = some res ∧
      ∀ t ∈ res, t.1 ≠ 0 := by
  obtain ⟨res, hloop, hnz⟩ := mul_heap_loop_nonzero ops laws
    (_fmpz_mpoly_fits_small poly2 len2 && _fmpz_mpoly_fits_small poly3 len3)
    poly2 exp2 len2 poly3 exp3 len3 start end_
    (qzero (_fmpz_mpoly_fits_small poly2 len2 && _fmpz_mpoly_fits_small poly3 len3))
    (mul_window_size len2 start end_ + 1) _
    (mul_seed_inv ops laws exp2 exp3 len2 start end_)
    (Nat.lt_succ_of_le (mul_seed_measure_le ops exp2 exp3 len2 start end_))
  refine ⟨res, ?_, hnz⟩
  have := hloop []
  simpa [mul_heap_kernel] using this

end kernel_theorems

section normal_form

variable {M : Type} [DecidableEq M] [Inhabited M]

/-- The monomials of a normal form are pairwise distinct. -/
theorem mul_is_sum_nodup (ops : mpoly_ops M) (laws : ops.strict_total) (S : M → Int)
    (res : List (Int × M)) (h : mul_is_sum ops S res) : (res.map Prod.snd).Nodup := by
  rw [List.Nodup, List.pairwise_map]
  refine h.sorted.imp ?_
  intro t u htu he
  rw [he, laws.irrefl] at htu
  exact Bool.false_ne_true htu

end normal_form

/-! ## The release orders are strict total orders -/

theorem mpoly_ops1_strict_total (maskhi : Nat) : (mpoly_ops1 maskhi).strict_total := by
  refine ⟨?_, ?_, ?_⟩
  · intro a
    simp [mpoly_ops1, mpoly_monomial_before1]
  · intro a b c h1 h2
    simp only [mpoly_ops1, mpoly_monomial_before1, decide_eq_true_eq] at h1 h2 ⊢
    exact lt_trans h2 h1
  · intro a b hne h1
    simp only [mpoly_ops1, mpoly_monomial_before1, decide_eq_true_eq, decide_eq_false_iff_not,
      not_lt] at h1 ⊢
    rcases Nat.lt_or_ge (a ^^^ maskhi) (b ^^^ maskhi) with h | h
    · exact h
    · exact absurd (Nat.xor_left_inj.1 (le_antisymm h1 h)) hne

theorem mpoly_words_before_irrefl (ms a : List Nat) : mpoly_words_before ms a a = false := by
  induction ms generalizing a with
  | nil => cases a <;> rfl
  | cons m ms ih =>
    cases a with
    | nil => rfl
    | cons x xs => simp [mpoly_words_before, ih]

theorem mpoly_words_before_trans (ms a b c : List Nat)
    (h1 : mpoly_words_before ms a b = true) (h2 : mpoly_words_before ms b c = true) :
    mpoly_words_before ms a c = true := by
  induction ms generalizing a b c with
  | nil => simp [mpoly_words_before] at h1
  | cons m ms ih =>
    cases a with
    | nil => simp [mpoly_words_before] at h1
    | cons x xs =>
      cases b with
      | nil => simp [mpoly_words_before] at h1
      | cons y ys =>
        cases c with
        | nil => simp [mpoly_words_before] at h2
        | cons z zs =>
          simp only [mpoly_words_before] at h1 h2 ⊢
          by_cases hxy : x = y
          · subst hxy
            rw [if_pos rfl] at h1
            by_cases hxz : x = z
            · subst hxz
              rw [if_pos rfl] at h2 ⊢
              exact ih xs ys zs h1 h2
            · rw [if_neg hxz] at h2 ⊢
              exact h2
          · rw [if_neg hxy] at h1
            by_cases hyz : y = z
            · subst hyz
              rw [if_neg hxy]
              exact h1
            · rw [if_neg hyz] at h2
              simp only [decide_eq_true_eq] at h1 h2
              have hlt : z ^^^ m < x ^^^ m := lt_trans h2 h1
              have hxz : x ≠ z := by
                intro h
                rw [h] at hlt
                exact lt_irrefl _ hlt
              rw [if_neg hxz]
              simpa using hlt

theorem mpoly_words_before_total (ms a b : List Nat) (ha : a.length = ms.length)
    (hb : b.length = ms.length) (hne : a ≠ b) (h1 : mpoly_words_before ms a b = false) :
    mpoly_words_before ms b a = true := by
  induction ms generalizing a b with
  | nil =>
    rw [List.length_nil, List.length_eq_zero] at ha hb
    exact absurd (ha.trans hb.symm) hne
  | cons m ms ih =>
    cases a with
    | nil => simp at ha
    | cons x xs =>
      cases b with
      | nil => simp at hb
      | cons y ys =>
        simp only [List.length_cons, Nat.add_right_cancel_iff] at ha hb
        simp only [mpoly_words_before] at h1 ⊢
        by_cases hxy : x = y
        · subst hxy
          rw [if_pos rfl] at h1 ⊢
          exact ih xs ys ha hb (fun h => hne (by rw [h])) h1
        · rw [if_neg hxy] at h1
          rw [if_neg (fun h => hxy h.symm)]
          simp only [decide_eq_true_eq, decide_eq_false_iff_not, not_lt] at h1 ⊢
          rcases Nat.lt_or_ge (x ^^^ m) (y ^^^ m) with h | h
          · exact h
          · exact absurd (Nat.xor_left_inj.1 (le_antisymm h1 h)) hxy

theorem mpoly_masks_length (N maskhi masklo : Nat) : (mpoly_masks N maskhi masklo).length = N := by
  cases N <;> simp [mpoly_masks]

theorem mpoly_opsN_strict_total (N maskhi masklo : Nat) :
    (mpoly_opsN N maskhi masklo).strict_total := by
  refine ⟨?_, ?_, ?_⟩
  · intro a
    exact mpoly_words_before_irrefl _ _
  · intro a b c h1 h2
    exact mpoly_words_before_trans _ _ _ _ h1 h2
  · intro a b hne h1
    refine mpoly_words_before_total _ _ _ ?_ ?_ (fun h => hne (Subtype.ext h)) h1
    · rw [a.property, mpoly_masks_length]
    · rw [b.property, mpoly_masks_length]

/-! ## The kernel `_fmpz_mpoly_mul_heap_part` -/

theorem mpoly_monomial_of_word_word (a : mpoly_monomial 1) :
    mpoly_monomial_of_word rfl (mpoly_monomial_word a) = a := by
  obtain ⟨v, hv⟩ := a
  apply Subtype.ext
  match v, hv with
  | [x], _ => rfl

theorem mpoly_monomial_word_inj (a b : mpoly_monomial 1)
    (h : mpoly_monomial_word a = mpoly_monomial_word b) : a = b := by
  rw [← mpoly_monomial_of_word_word a, ← mpoly_monomial_of_word_word b, h]

theorem mpoly_monomial_word_add (a b : mpoly_monomial 1) :
    mpoly_monomial_word (mpoly_monomial_add a b) =
      (mpoly_monomial_word a + mpoly_monomial_word b) % 2 ^ FLINT_BITS := by
  obtain ⟨v, hv⟩ := a
  obtain ⟨w, hw⟩ := b
  match v, hv, w, hw with
  | [x], _, [y], _ => rfl

theorem mpoly_monomial_word_lt (a b : mpoly_monomial 1) (maskhi masklo : Nat) :
    mpoly_monomial_lt a b maskhi masklo =
      mpoly_monomial_before1 maskhi (mpoly_monomial_word a) (mpoly_monomial_word b) := by
  obtain ⟨v, hv⟩ := a
  obtain ⟨w, hw⟩ := b
  match v, hv, w, hw with
  | [x], _, [y], _ =>
    simp only [mpoly_monomial_lt, mpoly_masks, mpoly_words_before, mpoly_monomial_before1,
      mpoly_monomial_word, List.headD_cons, List.replicate_zero]
    by_cases hxy : x = y
    · subst hxy
      simp
    · simp [hxy]

theorem mpoly_monomial_word_getD (exp : List (mpoly_monomial 1)) (i : Nat) :
    (exp.map mpoly_monomial_word).getD i default = mpoly_monomial_word (exp.getD i default) :=
  List.getD_map exp default mpoly_monomial_word

theorem mul_pair_exp_word (exp2 exp3 : List (mpoly_monomial 1)) (maskhi masklo i j : Nat) :
    mul_pair_exp (mpoly_ops1 maskhi) (exp2.map mpoly_monomial_word)
        (exp3.map mpoly_monomial_word) i j =
      mpoly_monomial_word (mul_pair_exp (mpoly_opsN 1 maskhi masklo) exp2 exp3 i j) := by
  simp only [mul_pair_exp, mpoly_ops1, mpoly_opsN, mpoly_monomial_word_getD,
    mpoly_monomial_word_add]

theorem mul_window_coeff_word (poly2 : List Int) (exp2 : List (mpoly_monomial 1)) (len2 : Nat)
    (poly3 : List Int) (exp3 : List (mpoly_monomial 1)) (start end_ : List Nat)
    (maskhi masklo : Nat) (m : mpoly_monomial 1) :
    mul_window_coeff (mpoly_ops1 maskhi) poly2 (exp2.map mpoly_monomial_word) len2
        poly3 (exp3.map mpoly_monomial_word) start end_ (mpoly_monomial_word m) =
      mul_window_coeff (mpoly_opsN 1 maskhi masklo) poly2 exp2 len2 poly3 exp3 start end_ m := by
  unfold mul_window_coeff
  refine Finset.sum_congr rfl fun i _ => Finset.sum_congr rfl fun j _ => ?_
  unfold mul_pair_term
  rw [mul_pair_exp_word exp2 exp3 maskhi masklo i j]
  by_cases h : mul_pair_exp (mpoly_opsN 1 maskhi masklo) exp2 exp3 i j = m
  · rw [if_pos h, if_pos (by rw [h])]
  · rw [if_neg h, if_neg (fun h' => h (mpoly_monomial_word_inj _ _ h'))]

theorem mul_rows_ordered_word (exp2 exp3 : List (mpoly_monomial 1)) (len2 : Nat)
    (start end_ : List Nat) (maskhi masklo : Nat)
    (h : mul_rows_ordered (mpoly_opsN 1 maskhi masklo) exp2 exp3 len2 start end_) :
    mul_rows_ordered (mpoly_ops1 maskhi) (exp2.map mpoly_monomial_word)
      (exp3.map mpoly_monomial_word) len2 start end_ := by
  intro i hi j' hj' j hj hs
  have := h i hi j' hj' j hj hs
  rw [mul_pair_exp_word exp2 exp3 maskhi masklo, mul_pair_exp_word exp2 exp3 maskhi masklo]
  simp only [mpoly_ops1, mpoly_opsN] at this ⊢
  rw [← mpoly_monomial_word_lt]
  exact this

/-- Transfer of a normal form from words to single-word monomials. -/
theorem mul_is_sum_of_word (maskhi masklo : Nat) (S1 : Nat → Int)
    (S : mpoly_monomial 1 → Int) (hS : ∀ m, S1 (mpoly_monomial_word m) = S m)
    (res : List (Int × Nat)) (h : mul_is_sum (mpoly_ops1 maskhi) S1 res) :
    mul_is_sum (mpoly_opsN 1 maskhi masklo) S
      (res.map fun t => (t.1, mpoly_monomial_of_word rfl t.2)) := by
  refine ⟨?_, ?_, ?_, ?_⟩
  · rw [List.pairwise_map]
    refine h.sorted.imp ?_
    intro t u htu
    simp only [mpoly_opsN, mpoly_ops1] at htu ⊢
    rw [mpoly_monomial_word_lt]
    exact htu
  · intro t ht
    rw [List.mem_map] at ht
    obtain ⟨u, hu, rfl⟩ := ht
    exact h.nonzero u hu
  · intro t ht
    rw [List.mem_map] at ht
    obtain ⟨u, hu, rfl⟩ := ht
    rw [← hS]
    exact h.coeff u hu
  · intro m hm
    rw [← hS] at hm
    obtain ⟨t, ht, htm⟩ := h.complete _ hm
    refine ⟨(t.1, mpoly_monomial_of_word rfl t.2), List.mem_map.2 ⟨t, ht, rfl⟩, ?_⟩
    simp only [htm]
    exact mpoly_monomial_of_word_word m

/-- Correctness of `_fmpz_mpoly_mul_heap_part`, for every number of words. -/
theorem mul_heap_part_spec (N : Nat) (poly2 : List Int) (exp2 : List (mpoly_monomial N))
    (len2 : Nat) (poly3 : List Int) (exp3 : List (mpoly_monomial N)) (len3 : Nat)
    (start end_ : List Nat) (maskhi masklo : Nat)
    (hlen : len2 < 2 ^ (FLINT_BITS - 1))
    (hwin : ∀ i, i < len2 → end_.getD i 0 ≤ len3)
    (hrows : mul_rows_ordered (mpoly_opsN N maskhi masklo) exp2 exp3 len2 start end_) :
    ∃ res, _fmpz_mpoly_mul_heap_part N poly2 exp2 len2 poly3 exp3 len3 start end_ maskhi masklo
        = some res ∧
      mul_is_sum (mpoly_opsN N maskhi masklo)
        (mul_window_coeff (mpoly_opsN N maskhi masklo) poly2 exp2 len2 poly3 exp3 start end_)
        res := by
  by_cases h : N = 1
  · subst h
    obtain ⟨res1, hres1, hsum1⟩ := mul_heap_kernel_spec (mpoly_ops1 maskhi)
      (mpoly_ops1_strict_total maskhi) (fun small => !small) poly2
      (exp2.map mpoly_monomial_word) len2 poly3 (exp3.map mpoly_monomial_word) len3
      start end_ hlen hwin (mul_rows_ordered_word exp2 exp3 len2 start end_ maskhi masklo hrows)
    refine ⟨res1.map fun t => (t.1, mpoly_monomial_of_word rfl t.2), ?_, ?_⟩
    · simp only [_fmpz_mpoly_mul_heap_part, dif_pos, _fmpz_mpoly_mul_heap_part1, hres1,
        Option.map_some']
    · exact mul_is_sum_of_word maskhi masklo _ _
        (mul_window_coeff_word poly2 exp2 len2 poly3 exp3 start end_ maskhi masklo) res1 hsum1
  · obtain ⟨res, hres, hsum⟩ := mul_heap_kernel_spec (mpoly_opsN N maskhi masklo)
      (mpoly_opsN_strict_total N maskhi masklo) (fun _ => true) poly2 exp2 len2 poly3 exp3 len3
      start end_ hlen hwin hrows
    exact ⟨res, by simp only [_fmpz_mpoly_mul_heap_part, dif_neg h, hres], hsum⟩

/-- The kernel `_fmpz_mpoly_mul_heap_part` returns for every input, with
nonzero coefficients only. -/
theorem mul_heap_part_nonzero (N : Nat) (poly2 : List Int) (exp2 : List (mpoly_monomial N))
    (len2 : Nat) (poly3 : List Int) (exp3 : List (mpoly_monomial N)) (len3 : Nat)
    (start end_ : List Nat) (maskhi masklo : Nat) :
    ∃ res, _fmpz_mpoly_mul_heap_part N poly2 exp2 len2 poly3 exp3 len3 start end_ maskhi masklo
        = some res ∧ ∀ t ∈ res, t.1 ≠ 0 := by
  by_cases h : N = 1
  · subst h
    obtain ⟨res1, hres1, hnz⟩ := mul_heap_kernel_nonzero (mpoly_ops1 maskhi)
      (mpoly_ops1_strict_total maskhi) (fun small => !small) poly2
      (exp2.map mpoly_monomial_word) len2 poly3 (exp3.map mpoly_monomial_word) len3 start end_
    refine ⟨res1.map fun t => (t.1, mpoly_monomial_of_word rfl t.2), ?_, ?_⟩
    · simp only [_fmpz_mpoly_mul_heap_part, dif_pos, _fmpz_mpoly_mul_heap_part1, hres1,
        Option.map_some']
    · intro t ht
      rw [List.mem_map] at ht
      obtain ⟨u, hu, rfl⟩ := ht
      exact hnz u hu
  · obtain ⟨res, hres, hnz⟩ := mul_heap_kernel_nonzero (mpoly_opsN N maskhi masklo)
      (mpoly_opsN_strict_total N maskhi masklo) (fun _ => true) poly2 exp2 len2 poly3 exp3 len3
      start end_
    exact ⟨res, by simp only [_fmpz_mpoly_mul_heap_part, dif_neg h, hres], hnz⟩

/-! ## Claims on the heap kernel -/

/-- C2 (as amended): for start/end arrays with `start[i] <= end[i] <= len3`
and inputs whose packed sums `exp2[i] + exp3[j]` are strictly ordered along
every row of the window, `_fmpz_mpoly_mul_heap_part` combines row `i` only
with the columns `[start[i], end[i])`: a monomial `m` appears in the output
iff the window sum `S(m)` is nonzero, its coefficient is `S(m)`, and the
returned length is the number of monomials with `S(m) ≠ 0`. -/
theorem fmpz_mpoly_mul_heap_part_window (N : Nat) (poly2 : List Int)
    (exp2 : List (mpoly_monomial N)) (len2 : Nat) (poly3 : List Int)
    (exp3 : List (mpoly_monomial N)) (len3 : Nat) (start end_ : List Nat) (maskhi masklo : Nat)
    (hlen : len2 < 2 ^ (FLINT_BITS - 1))
    (hwin : ∀ i, i < len2 → start.getD i 0 ≤ end_.getD i 0 ∧ end_.getD i 0 ≤ len3)
    (hrows : mul_rows_ordered (mpoly_opsN N maskhi masklo) exp2 exp3 len2 start end_) :
    ∃ res, _fmpz_mpoly_mul_heap_part N poly2 exp2 len2 poly3 exp3 len3 start end_ maskhi masklo
        = some res ∧
      (∀ m, (∃ c, (c, m) ∈ res) ↔
        mul_window_coeff (mpoly_opsN N maskhi masklo) poly2 exp2 len2 poly3 exp3 start end_ m
          ≠ 0) ∧
      (∀ c m, (c, m) ∈ res →
        c = mul_window_coeff (mpoly_opsN N maskhi masklo) poly2 exp2 len2 poly3 exp3
          start end_ m) ∧
      res.length = Set.ncard {m | mul_window_coeff (mpoly_opsN N maskhi masklo)
        poly2 exp2 len2 poly3 exp3 start end_ m ≠ 0} := by
  obtain ⟨res, hres, hsum⟩ := mul_heap_part_spec N poly2 exp2 len2 poly3 exp3 len3 start end_
    maskhi masklo hlen (fun i hi => (hwin i hi).2) hrows
  have laws := mpoly_opsN_strict_total N maskhi masklo
  have hiff : ∀ m, (∃ c, (c, m) ∈ res) ↔
      mul_window_coeff (mpoly_opsN N maskhi masklo) poly2 exp2 len2 poly3 exp3 start end_ m
        ≠ 0 := by
    intro m
    constructor
    · rintro ⟨c, hc⟩
      have h1 := hsum.coeff _ hc
      have h2 := hsum.nonzero _ hc
      simp only at h1 h2
      rw [← h1]
      exact h2
    · intro hm
      obtain ⟨t, ht, htm⟩ := hsum.complete m hm
      exact ⟨t.1, by rw [← htm]; exact ht⟩
  refine ⟨res, hres, hiff, fun c m hc => hsum.coeff _ hc, ?_⟩
  have hnodup : (res.map Prod.snd).Nodup := mul_is_sum_nodup _ laws _ res hsum
  have hset : {m | mul_window_coeff (mpoly_opsN N maskhi masklo) poly2 exp2 len2 poly3 exp3
      start end_ m ≠ 0} = ↑(res.map Prod.snd).toFinset := by
    ext m
    simp only [Set.mem_setOf_eq, Finset.mem_coe, List.mem_toFinset, List.mem_map, Prod.exists,
      exists_and_right, exists_eq_right]
    exact (hiff m).symm
  rw [hset, Set.ncard_coe_Finset, List.toFinset_card_of_nodup hnodup, List.length_map]

/-- Witness of C2: the window sums of `(3x^2 + 2xy)(x - y)` over the full
window. -/
theorem fmpz_mpoly_mul_heap_part_window_witness :
    (2 < 2 ^ (FLINT_BITS - 1) ∧
      (∀ i, i < 2 → [0, 0].getD i 0 ≤ [2, 2].getD i 0 ∧ [2, 2].getD i 0 ≤ 2) ∧
      mul_rows_ordered (mpoly_opsN 1 0 0) mul_example_exp2 mul_example_exp3 2 [0, 0] [2, 2]) ∧
    ∃ res, _fmpz_mpoly_mul_heap_part 1 [3, 2] mul_example_exp2 2 [1, -1] mul_example_exp3 2
        [0, 0] [2, 2] 0 0 = some res ∧
      (∀ m, (∃ c, (c, m) ∈ res) ↔
        mul_window_coeff (mpoly_opsN 1 0 0) [3, 2] mul_example_exp2 2 [1, -1] mul_example_exp3
          [0, 0] [2, 2] m ≠ 0) ∧
      (∀ c m, (c, m) ∈ res →
        c = mul_window_coeff (mpoly_opsN 1 0 0) [3, 2] mul_example_exp2 2 [1, -1]
          mul_example_exp3 [0, 0] [2, 2] m) ∧
      res.length = Set.ncard {m | mul_window_coeff (mpoly_opsN 1 0 0) [3, 2] mul_example_exp2 2
        [1, -1] mul_example_exp3 [0, 0] [2, 2] m ≠ 0} :=
  ⟨⟨by decide, by decide, by decide⟩,
    fmpz_mpoly_mul_heap_part_window 1 [3, 2] mul_example_exp2 2 [1, -1] mul_example_exp3 2
      [0, 0] [2, 2] 0 0 (by decide) (by decide) (by decide)⟩

/-- Counterexample to C2 as stated: both operands strictly ordered and the
window inside the arrays, but the packed sums wrap around in `ulong`.  The
kernel writes the monomial `2^64 - 1` twice, each time with coefficient 1,
while the window sum of that monomial is 2: an output coefficient differs
from `S(m)`. -/
theorem fmpz_mpoly_mul_heap_part_window_wraps :
    [mpoly_monomial_of_word rfl (2 ^ 64 - 2), mpoly_monomial_of_word rfl (2 ^ 64 - 3)].Pairwise
        (fun a b : mpoly_monomial 1 => mpoly_monomial_lt a b 0 0 = true) ∧
      [mpoly_monomial_of_word rfl 2, mpoly_monomial_of_word rfl 1].Pairwise
        (fun a b : mpoly_monomial 1 => mpoly_monomial_lt a b 0 0 = true) ∧
      (∀ i, i < 2 → [0, 0].getD i 0 ≤ [2, 2].getD i 0 ∧ [2, 2].getD i 0 ≤ 2) ∧
      _fmpz_mpoly_mul_heap_part 1 [1, 1]
          [mpoly_monomial_of_word rfl (2 ^ 64 - 2), mpoly_monomial_of_word rfl (2 ^ 64 - 3)] 2
          [1, 1] [mpoly_monomial_of_word rfl 2, mpoly_monomial_of_word rfl 1] 2
          [0, 0] [2, 2] 0 0 =
        some [(1, mpoly_monomial_of_word rfl (2 ^ 64 - 1)),
              (1, mpoly_monomial_of_word rfl (2 ^ 64 - 2)),
              (1, mpoly_monomial_of_word rfl 0),
              (1, mpoly_monomial_of_word rfl (2 ^ 64 - 1))] ∧
      ¬ ∀ t ∈ [((1 : Int), (mpoly_monomial_of_word rfl (2 ^ 64 - 1) : mpoly_monomial 1)),
              (1, mpoly_monomial_of_word rfl (2 ^ 64 - 2)),
              (1, mpoly_monomial_of_word rfl 0),
              (1, mpoly_monomial_of_word rfl (2 ^ 64 - 1))],
          t.1 = mul_window_coeff (mpoly_opsN 1 0 0) [1, 1]
            [mpoly_monomial_of_word rfl (2 ^ 64 - 2), mpoly_monomial_of_word rfl (2 ^ 64 - 3)] 2
            [1, 1] [mpoly_monomial_of_word rfl 2, mpoly_monomial_of_word rfl 1]
            [0, 0] [2, 2] t.2 := by
  refine ⟨by decide, by decide, by decide, by decide, ?_⟩
  intro h
  exact absurd (h _ (List.mem_cons_self _ _)) (by decide)

/-- C3: for a valid input and window (window inside the arrays, packed sums
strictly ordered along its rows) the term sequence written by the heap
kernel, single-word or multi-word, is strictly ordered: every monomial is
released strictly before all later ones, so no monomial occurs twice. -/
theorem fmpz_mpoly_mul_heap_part_sorted (N : Nat) (poly2 : List Int)
    (exp2 : List (mpoly_monomial N)) (len2 : Nat) (poly3 : List Int)
    (exp3 : List (mpoly_monomial N)) (len3 : Nat) (start end_ : List Nat) (maskhi masklo : Nat)
    (hlen : len2 < 2 ^ (FLINT_BITS - 1))
    (hwin : ∀ i, i < len2 → start.getD i 0 ≤ end_.getD i 0 ∧ end_.getD i 0 ≤ len3)
    (hrows : mul_rows_ordered (mpoly_opsN N maskhi masklo) exp2 exp3 len2 start end_) :
    ∃ res, _fmpz_mpoly_mul_heap_part N poly2 exp2 len2 poly3 exp3 len3 start end_ maskhi masklo
        = some res ∧
      res.Pairwise (fun t u => mpoly_monomial_lt t.2 u.2 maskhi masklo = true) ∧
      (res.map Prod.snd).Nodup := by
  obtain ⟨res, hres, hsum⟩ := mul_heap_part_spec N poly2 exp2 len2 poly3 exp3 len3 start end_
    maskhi masklo hlen (fun i hi => (hwin i hi).2) hrows
  have laws := mpoly_opsN_strict_total N maskhi masklo
  exact ⟨res, hres, hsum.sorted, mul_is_sum_nodup _ laws _ res hsum⟩

/-- Witness of C3: two-word monomials, the window skipping the first column
of the second row. -/
theorem fmpz_mpoly_mul_heap_part_sorted_witness :
    (2 < 2 ^ (FLINT_BITS - 1) ∧
      (∀ i, i < 2 → [0, 1].getD i 0 ≤ [2, 2].getD i 0 ∧ [2, 2].getD i 0 ≤ 2) ∧
      mul_rows_ordered (mpoly_opsN 2 0 0) [⟨[2, 0], rfl⟩, ⟨[1, 1], rfl⟩]
        [⟨[1, 0], rfl⟩, ⟨[0, 1], rfl⟩] 2 [0, 1] [2, 2]) ∧
    ∃ res, _fmpz_mpoly_mul_heap_part 2 [3, 2] [⟨[2, 0], rfl⟩, ⟨[1, 1], rfl⟩] 2 [1, -1]
        [⟨[1, 0], rfl⟩, ⟨[0, 1], rfl⟩] 2 [0, 1] [2, 2] 0 0 = some res ∧
      res.Pairwise (fun t u => mpoly_monomial_lt t.2 u.2 0 0 = true) ∧
      (res.map Prod.snd).Nodup :=
  ⟨⟨by decide, by decide, by decide⟩,
    fmpz_mpoly_mul_heap_part_sorted 2 [3, 2] [⟨[2, 0], rfl⟩, ⟨[1, 1], rfl⟩] 2 [1, -1]
      [⟨[1, 0], rfl⟩, ⟨[0, 1], rfl⟩] 2 [0, 1] [2, 2] 0 0 (by decide) (by decide) (by decide)⟩

/-- C4: the heap kernel drops every term whose accumulated coefficient is
zero: for every input and window it returns, and none of the coefficients
of its output is zero, whether the coefficients are accumulated in three
words or in multiprecision. -/
theorem fmpz_mpoly_mul_heap_part_zero_free (N : Nat) (poly2 : List Int)
    (exp2 : List (mpoly_monomial N)) (len2 : Nat) (poly3 : List Int)
    (exp3 : List (mpoly_monomial N)) (len3 : Nat) (start end_ : List Nat) (maskhi masklo : Nat) :
    ∃ res, _fmpz_mpoly_mul_heap_part N poly2 exp2 len2 poly3 exp3 len3 start end_ maskhi masklo
        = some res ∧ ∀ t ∈ res, t.1 ≠ 0 :=
  mul_heap_part_nonzero N poly2 exp2 len2 poly3 exp3 len3 start end_ maskhi masklo

/-! ## The monomial search -/

section search_proofs

variable {M : Type} [DecidableEq M] [Inhabited M]

theorem mul_search_row_succ (ops : mpoly_ops M) (ai : M) (b : List M) (n : Nat) (e : M) :
    mul_search_row ops ai b (n + 1) e =
      if ops.before (ops.add ai (b.getD n default)) e = true then n + 1
      else mul_search_row ops ai b n e := by
  simp only [mul_search_row, List.range_succ, List.foldl_append, List.foldl_cons, List.foldl_nil]

theorem mul_search_row_le (ops : mpoly_ops M) (ai : M) (b : List M) (n : Nat) (e : M) :
    mul_search_row ops ai b n e ≤ n := by
  induction n with
  | zero => simp [mul_search_row]
  | succ n ih =>
    rw [mul_search_row_succ]
    split_ifs <;> omega

/-- Every column passing the comparison lies below the boundary. -/
theorem mul_search_row_lt (ops : mpoly_ops M) (ai : M) (b : List M) (n : Nat) (e : M) (j : Nat)
    (hj : j < n) (hP : ops.before (ops.add ai (b.getD j default)) e = true) :
    j < mul_search_row ops ai b n e := by
  induction n with
  | zero => exact absurd hj (Nat.not_lt_zero _)
  | succ n ih =>
    rw [mul_search_row_succ]
    split_ifs with h
    · exact hj
    · rcases Nat.lt_succ_iff_lt_or_eq.1 hj with h1 | h1
      · exact ih h1
      · rw [h1] at hP
        exact absurd hP h

/-- A nonzero boundary is one plus a column passing the comparison. -/
theorem mul_search_row_pos (ops : mpoly_ops M) (ai : M) (b : List M) (n : Nat) (e : M)
    (h : 0 < mul_search_row ops ai b n e) :
    ops.before (ops.add ai (b.getD (mul_search_row ops ai b n e - 1) default)) e = true := by
  induction n with
  | zero => simp [mul_search_row] at h
  | succ n ih =>
    rw [mul_search_row_succ] at h ⊢
    split_ifs at h ⊢ with h1
    · simpa using h1
    · exact ih h

theorem mul_search_row_mono (ops : mpoly_ops M) (ai : M) (b : List M) (n : Nat) (e e' : M)
    (h : ∀ j, j < n → ops.before (ops.add ai (b.getD j default)) e = true →
      ops.before (ops.add ai (b.getD j default)) e' = true) :
    mul_search_row ops ai b n e ≤ mul_search_row ops ai b n e' := by
  rcases Nat.eq_zero_or_pos (mul_search_row ops ai b n e) with h0 | h0
  · omega
  · have h1 := mul_search_row_pos ops ai b n e h0
    have h2 := mul_search_row_le ops ai b n e
    have h3 := mul_search_row_lt ops ai b n e' (mul_search_row ops ai b n e - 1) (by omega)
      (h _ (by omega) h1)
    omega

theorem mul_search_ind_getD (ops : mpoly_ops M) (a : List M) (a_len : Nat) (b : List M)
    (b_len : Nat) (e : M) (i : Nat) (hi : i < a_len) :
    (mul_search_ind ops a a_len b b_len e).getD i 0 =
      mul_search_row ops (a.getD i default) b b_len e := by
  unfold mul_search_ind
  rw [List.getD_eq_getElem _ _ (by simpa using hi)]
  simp

theorem mul_search_candidates_mem (ops : mpoly_ops M) (a : List M) (a_len : Nat) (b : List M)
    (b_len : Nat) (c : M) :
    c ∈ mul_search_candidates ops a a_len b b_len ↔
      ∃ i, i < a_len ∧ ∃ j, j < b_len ∧ ops.add (a.getD i default) (b.getD j default) = c := by
  simp [mul_search_candidates, List.mem_flatMap]

/-- The best candidate kept by the fold is at least as close as every candidate. -/
theorem mul_search_fold_le (err : M → Int) (l : List M) (init : M) :
    err (l.foldl (fun best c => if err c < err best then c else best) init) ≤ err init ∧
      ∀ c ∈ l, err (l.foldl (fun best c => if err c < err best then c else best) init)
        ≤ err c := by
  induction l generalizing init with
  | nil => simp
  | cons x l ih =>
    simp only [List.foldl_cons]
    obtain ⟨h1, h2⟩ := ih (if err x < err init then x else init)
    have h3 : err (if err x < err init then x else init) ≤ err init ∧
        err (if err x < err init then x else init) ≤ err x := by
      split_ifs with h
      · exact ⟨le_of_lt h, le_refl _⟩
      · exact ⟨le_refl _, not_lt.1 h⟩
    refine ⟨le_trans h1 h3.1, ?_⟩
    intro c hc
    rcases List.mem_cons.1 hc with rfl | hc'
    · exact le_trans h1 h3.2
    · exact h2 c hc'

theorem mul_search_fold_mem (err : M → Int) (l : List M) (init : M) :
    l.foldl (fun best c => if err c < err best then c else best) init = init ∨
      l.foldl (fun best c => if err c < err best then c else best) init ∈ l := by
  induction l generalizing init with
  | nil => exact Or.inl rfl
  | cons x l ih =>
    simp only [List.foldl_cons]
    rcases ih (if err x < err init then x else init) with h | h
    · rw [h]
      split_ifs
      · exact Or.inr (List.mem_cons_self _ _)
      · exact Or.inl rfl
    · exact Or.inr (List.mem_cons_of_mem _ h)

/-- The monomial found by the search is realizable when there is a candidate. -/
theorem mul_search_mem (ops : mpoly_ops M) (lower upper : Int) (a : List M) (a_len : Nat)
    (b : List M) (b_len : Nat) (ha : 0 < a_len) (hb : 0 < b_len) :
    (mul_search ops lower upper a a_len b b_len).2.1 ∈
      mul_search_candidates ops a a_len b b_len := by
  have hne : mul_search_candidates ops a a_len b b_len ≠ [] := by
    intro h
    have : ops.add (a.getD 0 default) (b.getD 0 default) ∈
        mul_search_candidates ops a a_len b b_len :=
      (mul_search_candidates_mem ops a a_len b b_len _).2 ⟨0, ha, 0, hb, rfl⟩
    rw [h] at this
    exact absurd this (List.not_mem_nil _)
  simp only [mul_search]
  rcases mul_search_fold_mem
    (fun e => mul_search_error lower upper
      (mul_search_score b_len (mul_search_ind ops a a_len b b_len e)))
    (mul_search_candidates ops a a_len b b_len)
    ((mul_search_candidates ops a a_len b b_len).headD default) with h | h
  · rw [h]
    cases hc : mul_search_candidates ops a a_len b b_len with
    | nil => exact absurd hc hne
    | cons x l => simp
  · exact h

/-- Closeness: no realizable monomial has a score nearer to the window. -/
theorem mul_search_closest (ops : mpoly_ops M) (lower upper : Int) (a : List M) (a_len : Nat)
    (b : List M) (b_len : Nat) (c : M) (hc : c ∈ mul_search_candidates ops a a_len b b_len) :
    mul_search_error lower upper
        (mul_search_score b_len
          (mul_search_ind ops a a_len b b_len (mul_search ops lower upper a a_len b b_len).2.1))
      ≤ mul_search_error lower upper
        (mul_search_score b_len (mul_search_ind ops a a_len b b_len c)) := by
  simp only [mul_search]
  exact (mul_search_fold_le
    (fun e => mul_search_error lower upper
      (mul_search_score b_len (mul_search_ind ops a a_len b b_len e)))
    (mul_search_candidates ops a a_len b b_len)
    ((mul_search_candidates ops a a_len b b_len).headD default)).2 c hc

theorem mul_search_fst (ops : mpoly_ops M) (lower upper : Int) (a : List M) (a_len : Nat)
    (b : List M) (b_len : Nat) :
    (mul_search ops lower upper a a_len b b_len).1 =
      mul_search_ind ops a a_len b b_len (mul_search ops lower upper a a_len b b_len).2.1 := by
  simp only [mul_search]

end search_proofs

section search_proofs2

variable {M : Type} [DecidableEq M] [Inhabited M]

theorem mul_exists_first (ops : mpoly_ops M) (laws : ops.strict_total) (l : List M)
    (hl : l ≠ []) : ∃ c ∈ l, ∀ c' ∈ l, ops.before c' c = false := by
  induction l with
  | nil => exact absurd rfl hl
  | cons x l ih =>
    by_cases hl' : l = []
    · subst hl'
      refine ⟨x, List.mem_cons_self _ _, ?_⟩
      intro c' hc'
      rw [List.mem_singleton] at hc'
      rw [hc', laws.irrefl]
    · obtain ⟨c0, hc0, hmin⟩ := ih hl'
      by_cases hx : ops.before x c0 = true
      · refine ⟨x, List.mem_cons_self _ _, ?_⟩
        intro c' hc'
        rcases List.mem_cons.1 hc' with rfl | h
        · exact laws.irrefl _
        · by_contra hcon
          rw [Bool.not_eq_false] at hcon
          have := laws.trans _ _ _ hcon hx
          rw [hmin c' h] at this
          exact Bool.false_ne_true this
      · refine ⟨c0, List.mem_cons_of_mem _ hc0, ?_⟩
        intro c' hc'
        rcases List.mem_cons.1 hc' with rfl | h
        · simpa using hx
        · exact hmin c' h

theorem mul_sum_pointwise_eq {α : Type} (h h' : α → Int) (L : List α)
    (hle : ∀ i ∈ L, h' i ≤ h i) (hsum : (L.map h).sum = (L.map h').sum) :
    ∀ i ∈ L, h i = h' i := by
  induction L with
  | nil => intro i hi; cases hi
  | cons x L ih =>
    have hx := hle x (List.mem_cons_self _ _)
    have hL : (L.map h').sum ≤ (L.map h).sum :=
      List.sum_le_sum (fun i hi => hle i (List.mem_cons_of_mem _ hi))
    simp only [List.map_cons, List.sum_cons] at hsum
    have h1 : h x = h' x := by omega
    have h2 : (L.map h).sum = (L.map h').sum := by omega
    intro i hi
    rcases List.mem_cons.1 hi with rfl | hi'
    · exact h1
    · exact ih (fun i hi => hle i (List.mem_cons_of_mem _ hi)) h2 i hi'

theorem mul_search_score_ind (ops : mpoly_ops M) (a : List M) (a_len : Nat) (b : List M)
    (b_len : Nat) (e : M) :
    mul_search_score b_len (mul_search_ind ops a a_len b b_len e) =
      ((List.range a_len).map fun i =>
        (b_len : Int) - (mul_search_row ops (a.getD i default) b b_len e : Int)).sum := by
  simp only [mul_search_score, mul_search_ind, List.map_map]
  rfl

theorem mul_search_score_le (ops : mpoly_ops M) (a : List M) (a_len : Nat) (b : List M)
    (b_len : Nat) (e : M) :
    mul_search_score b_len (mul_search_ind ops a a_len b b_len e) ≤ (a_len : Int) * b_len := by
  rw [mul_search_score_ind]
  have := List.sum_le_sum (l := List.range a_len)
    (f := fun i => (b_len : Int) - (mul_search_row ops (a.getD i default) b b_len e : Int))
    (g := fun _ => (b_len : Int)) (fun i _ => by simp)
  refine le_trans this ?_
  simp

/-- A monomial that no realizable sum precedes has all its boundaries at the
start of the rows. -/
theorem mul_search_row_first (ops : mpoly_ops M) (a : List M) (a_len : Nat) (b : List M)
    (b_len : Nat) (e : M)
    (he : ∀ c ∈ mul_search_candidates ops a a_len b b_len, ops.before c e = false)
    (i : Nat) (hi : i < a_len) :
    mul_search_row ops (a.getD i default) b b_len e = 0 := by
  by_contra hne
  have hpos : 0 < mul_search_row ops (a.getD i default) b b_len e := Nat.pos_of_ne_zero hne
  have h1 := mul_search_row_pos ops (a.getD i default) b b_len e hpos
  have h2 := mul_search_row_le ops (a.getD i default) b b_len e
  have h3 := he _ ((mul_search_candidates_mem ops a a_len b b_len _).2
    ⟨i, hi, mul_search_row ops (a.getD i default) b b_len e - 1, by omega, rfl⟩)
  rw [h3] at h1
  exact Bool.false_ne_true h1

/-- For the target `a_len * b_len` the search returns the boundary array
that is zero on every row. -/
theorem mul_search_full (ops : mpoly_ops M) (laws : ops.strict_total) (a : List M)
    (a_len : Nat) (b : List M) (b_len : Nat) (hb : 0 < b_len) (i : Nat) (hi : i < a_len) :
    (mul_search ops ((a_len : Int) * b_len) ((a_len : Int) * b_len) a a_len b b_len).1.getD i 0
      = 0 := by
  have ha : 0 < a_len := lt_of_le_of_lt (Nat.zero_le _) hi
  have hne : mul_search_candidates ops a a_len b b_len ≠ [] := by
    intro h
    have : ops.add (a.getD 0 default) (b.getD 0 default) ∈
        mul_search_candidates ops a a_len b b_len :=
      (mul_search_candidates_mem ops a a_len b b_len _).2 ⟨0, ha, 0, hb, rfl⟩
    rw [h] at this
    exact absurd this (List.not_mem_nil _)
  obtain ⟨c, hc, hmin⟩ := mul_exists_first ops laws _ hne
  have hscore_c : mul_search_score b_len (mul_search_ind ops a a_len b b_len c)
      = (a_len : Int) * b_len := by
    rw [mul_search_score_ind]
    have : ∀ k ∈ List.range a_len,
        (b_len : Int) - (mul_search_row ops (a.getD k default) b b_len c : Int)
          = (b_len : Int) := by
      intro k hk
      rw [mul_search_row_first ops a a_len b b_len c hmin k (List.mem_range.1 hk)]
      simp
    rw [List.map_congr_left this]
    simp
  have hclose := mul_search_closest ops ((a_len : Int) * b_len) ((a_len : Int) * b_len)
    a a_len b b_len c hc
  rw [hscore_c] at hclose
  have hle := mul_search_score_le ops a a_len b b_len
    (mul_search ops ((a_len : Int) * b_len) ((a_len : Int) * b_len) a a_len b b_len).2.1
  have hscore : mul_search_score b_len (mul_search_ind ops a a_len b b_len
      (mul_search ops ((a_len : Int) * b_len) ((a_len : Int) * b_len) a a_len b b_len).2.1)
      = (a_len : Int) * b_len := by
    simp only [mul_search_error] at hclose
    split_ifs at hclose <;> omega
  rw [mul_search_fst, mul_search_ind_getD ops a a_len b b_len _ i hi]
  rw [mul_search_score_ind] at hscore
  have hall := mul_sum_pointwise_eq (fun _ => (b_len : Int))
    (fun k => (b_len : Int) - (mul_search_row ops (a.getD k default) b b_len
      (mul_search ops ((a_len : Int) * b_len) ((a_len : Int) * b_len) a a_len b b_len).2.1
        : Int))
    (List.range a_len) (fun k _ => by simp) (by rw [hscore]; simp)
  have := hall i (List.mem_range.2 hi)
  simp only at this
  omega

/-- A larger target never moves a boundary to the right. -/
theorem mul_search_line_mono (ops : mpoly_ops M) (laws : ops.strict_total) (t' t : Int)
    (htt : t' ≤ t) (a : List M) (a_len : Nat) (b : List M) (b_len : Nat)
    (i : Nat) (hi : i < a_len) :
    (mul_search ops t t a a_len b b_len).1.getD i 0 ≤
      (mul_search ops t' t' a a_len b b_len).1.getD i 0 := by
  have ha : 0 < a_len := lt_of_le_of_lt (Nat.zero_le _) hi
  rw [mul_search_fst, mul_search_fst, mul_search_ind_getD ops a a_len b b_len _ i hi,
    mul_search_ind_getD ops a a_len b b_len _ i hi]
  rcases Nat.eq_zero_or_pos b_len with hb | hb
  · have h1 := mul_search_row_le ops (a.getD i default) b b_len
      (mul_search ops t t a a_len b b_len).2.1
    omega
  rcases eq_or_lt_of_le htt with heq | hlt
  · rw [heq]
  generalize he : (mul_search ops t t a a_len b b_len).2.1 = e
  generalize he' : (mul_search ops t' t' a a_len b b_len).2.1 = e'
  have hmem : e ∈ mul_search_candidates ops a a_len b b_len := by
    rw [← he]; exact mul_search_mem ops t t a a_len b b_len ha hb
  have hmem' : e' ∈ mul_search_candidates ops a a_len b b_len := by
    rw [← he']; exact mul_search_mem ops t' t' a a_len b b_len ha hb
  have hclose := mul_search_closest ops t t a a_len b b_len e' hmem'
  have hclose' := mul_search_closest ops t' t' a a_len b b_len e hmem
  rw [he] at hclose
  rw [he'] at hclose'
  by_cases hee : e = e'
  · rw [hee]
  by_cases hbef : ops.before e e' = true
  · exact mul_search_row_mono ops _ b b_len e e' (fun j _ hj => laws.trans _ _ _ hj hbef)
  · have hbef' : ops.before e' e = true := laws.total e e' hee (by simpa using hbef)
    have hrows : ∀ k ∈ List.range a_len,
        (b_len : Int) - (mul_search_row ops (a.getD k default) b b_len e : Int) ≤
          (b_len : Int) - (mul_search_row ops (a.getD k default) b b_len e' : Int) := by
      intro k _
      have := mul_search_row_mono ops (a.getD k default) b b_len e' e
        (fun j _ hj => laws.trans _ _ _ hj hbef')
      omega
    have hscore_le := List.sum_le_sum hrows
    rw [← mul_search_score_ind, ← mul_search_score_ind] at hscore_le
    have hscore_eq : mul_search_score b_len (mul_search_ind ops a a_len b b_len e') =
        mul_search_score b_len (mul_search_ind ops a a_len b b_len e) := by
      simp only [mul_search_error] at hclose hclose'
      split_ifs at hclose hclose' <;> omega
    rw [mul_search_score_ind, mul_search_score_ind] at hscore_eq
    have := mul_sum_pointwise_eq _ _ (List.range a_len) hrows hscore_eq i (List.mem_range.2 hi)
    simp only at this
    omega

end search_proofs2

/-! ## The partition planner -/

theorem mul_heap_threaded_bounds (nthreads len2 len3 i : Nat)
    (h : mul_heap_threaded_in_range nthreads len2 len3) (hi : i < 4 * nthreads) :
    4 * nthreads < 2 ^ 63 ∧ (4 * nthreads) * (4 * nthreads) < 2 ^ 63 ∧
      (i + 1) * (i + 1) < 2 ^ 63 ∧ (i + 1) * (i + 1) * len2 < 2 ^ 63 ∧
      (i + 1) * (i + 1) * len2 * len3 < 2 ^ 63 ∧
      (i + 1) * (i + 1) * len2 * len3 ≤ (4 * nthreads) * (4 * nthreads) * len2 * len3 := by
  obtain ⟨hT, h2, h3, hov⟩ := h
  simp only [FLINT_BITS] at hov
  have hD : 0 < 4 * nthreads := by omega
  have hii : (i + 1) * (i + 1) ≤ (4 * nthreads) * (4 * nthreads) :=
    Nat.mul_le_mul (by omega) (by omega)
  have hii2 : (i + 1) * (i + 1) * len2 ≤ (4 * nthreads) * (4 * nthreads) * len2 :=
    Nat.mul_le_mul_right _ hii
  have hii3 : (i + 1) * (i + 1) * len2 * len3 ≤ (4 * nthreads) * (4 * nthreads) * len2 * len3 :=
    Nat.mul_le_mul_right _ hii2
  have hDD : (4 * nthreads) * (4 * nthreads) ≤ (4 * nthreads) * (4 * nthreads) * len2 :=
    Nat.le_mul_of_pos_right _ h2
  have hDD2 : (4 * nthreads) * (4 * nthreads) * len2 ≤
      (4 * nthreads) * (4 * nthreads) * len2 * len3 := Nat.le_mul_of_pos_right _ h3
  have hD1 : 4 * nthreads ≤ (4 * nthreads) * (4 * nthreads) := Nat.le_mul_of_pos_right _ hD
  refine ⟨?_, ?_, ?_, ?_, ?_, hii3⟩ <;> omega

theorem slong_mul_nat (a b : Nat) (h : a * b < 2 ^ 63) :
    slong_mul (a : Int) (b : Int) = ((a * b : Nat) : Int) := by
  unfold slong_mul
  have e : (a : Int) * (b : Int) = ((a * b : Nat) : Int) := by push_cast; ring
  rw [e]
  generalize a * b = n at h
  simp only [slong_wrap, FLINT_BITS]
  norm_num at h ⊢
  omega

theorem mul_heap_threaded_ndivs_eq (nthreads len2 len3 : Nat)
    (h : mul_heap_threaded_in_range nthreads len2 len3) :
    mul_heap_threaded_ndivs nthreads = ((4 * nthreads : Nat) : Int) := by
  have hb := mul_heap_threaded_bounds nthreads len2 len3 0 h (by have := h.1; omega)
  unfold mul_heap_threaded_ndivs
  have e : (4 : Int) = ((4 : Nat) : Int) := rfl
  rw [e, slong_mul_nat nthreads 4 (by omega), Nat.mul_comm]

theorem mul_heap_threaded_ndivs_toNat (nthreads len2 len3 : Nat)
    (h : mul_heap_threaded_in_range nthreads len2 len3) :
    (mul_heap_threaded_ndivs nthreads).toNat = 4 * nthreads := by
  rw [mul_heap_threaded_ndivs_eq nthreads len2 len3 h]
  exact Int.toNat_natCast _

/-- Without overflow the target of division `i` is
`floor((i + 1)^2 * len2 * len3 / ndivs^2)`. -/
theorem mul_heap_threaded_lower_eq (nthreads len2 len3 i : Nat)
    (h : mul_heap_threaded_in_range nthreads len2 len3) (hi : i < 4 * nthreads) :
    mul_heap_threaded_lower nthreads len2 len3 i =
      (((i + 1) * (i + 1) * len2 * len3 / ((4 * nthreads) * (4 * nthreads)) : Nat) : Int) := by
  obtain ⟨hD, hDD, h1, h2, h3, -⟩ := mul_heap_threaded_bounds nthreads len2 len3 i h hi
  unfold mul_heap_threaded_lower
  have e : (i : Int) + 1 = ((i + 1 : Nat) : Int) := by push_cast; ring
  rw [mul_heap_threaded_ndivs_eq nthreads len2 len3 h, e,
    slong_mul_nat _ _ hDD, slong_mul_nat _ _ h1, slong_mul_nat _ _ h2, slong_mul_nat _ _ h3,
    Int.tdiv_eq_ediv (Int.natCast_nonneg _) (Int.natCast_nonneg _)]
  exact (Int.natCast_div _ _).symm

theorem mul_heap_threaded_lower_mono (nthreads len2 len3 i i' : Nat)
    (h : mul_heap_threaded_in_range nthreads len2 len3) (hii : i' ≤ i) (hi : i < 4 * nthreads) :
    mul_heap_threaded_lower nthreads len2 len3 i' ≤ mul_heap_threaded_lower nthreads len2 len3 i := by
  rw [mul_heap_threaded_lower_eq nthreads len2 len3 i h hi,
    mul_heap_threaded_lower_eq nthreads len2 len3 i' h (by omega)]
  have : (i' + 1) * (i' + 1) * len2 * len3 ≤ (i + 1) * (i + 1) * len2 * len3 :=
    Nat.mul_le_mul_right _ (Nat.mul_le_mul_right _ (Nat.mul_le_mul (by omega) (by omega)))
  exact_mod_cast Nat.div_le_div_right this

theorem mul_heap_threaded_lower_top (nthreads len2 len3 : Nat)
    (h : mul_heap_threaded_in_range nthreads len2 len3) :
    mul_heap_threaded_lower nthreads len2 len3 (4 * nthreads - 1) = (len2 : Int) * len3 := by
  have hT := h.1
  rw [mul_heap_threaded_lower_eq nthreads len2 len3 _ h (by omega)]
  have e : 4 * nthreads - 1 + 1 = 4 * nthreads := by omega
  rw [e]
  have hpos : 0 < (4 * nthreads) * (4 * nthreads) := Nat.mul_pos (by omega) (by omega)
  have : (4 * nthreads) * (4 * nthreads) * len2 * len3 =
      (4 * nthreads) * (4 * nthreads) * (len2 * len3) := by ring
  rw [this, Nat.mul_div_cancel_left _ hpos]
  push_cast
  ring

/-! ## The boundary arrays of the divisions -/

theorem mul_heap_threaded_line_le (N nthreads : Nat) (exp2 : List (mpoly_monomial N))
    (len2 : Nat) (exp3 : List (mpoly_monomial N)) (len3 : Nat) (maskhi masklo : Nat)
    (d r : Nat) (hr : r < len2) :
    (mul_heap_threaded_line N nthreads exp2 len2 exp3 len3 maskhi masklo d).getD r 0 ≤ len3 := by
  unfold mul_heap_threaded_line mpoly_search_monomials
  rw [mul_search_fst, mul_search_ind_getD _ _ _ _ _ _ r hr]
  exact mul_search_row_le _ _ _ _ _

theorem mul_heap_threaded_line_mono (N nthreads : Nat) (exp2 : List (mpoly_monomial N))
    (len2 : Nat) (exp3 : List (mpoly_monomial N)) (len3 : Nat) (maskhi masklo : Nat)
    (h : mul_heap_threaded_in_range nthreads len2 len3)
    (d d' r : Nat) (hdd : d' ≤ d) (hd : d < 4 * nthreads) (hr : r < len2) :
    (mul_heap_threaded_line N nthreads exp2 len2 exp3 len3 maskhi masklo d).getD r 0 ≤
      (mul_heap_threaded_line N nthreads exp2 len2 exp3 len3 maskhi masklo d').getD r 0 := by
  unfold mul_heap_threaded_line mpoly_search_monomials
  exact mul_search_line_mono _ (mpoly_opsN_strict_total N maskhi masklo) _ _
    (mul_heap_threaded_lower_mono nthreads len2 len3 d d' h hdd hd) _ _ _ _ r hr

theorem mul_heap_threaded_line_top (N nthreads : Nat) (exp2 : List (mpoly_monomial N))
    (len2 : Nat) (exp3 : List (mpoly_monomial N)) (len3 : Nat) (maskhi masklo : Nat)
    (h : mul_heap_threaded_in_range nthreads len2 len3) (r : Nat) (hr : r < len2) :
    (mul_heap_threaded_line N nthreads exp2 len2 exp3 len3 maskhi masklo
      (4 * nthreads - 1)).getD r 0 = 0 := by
  unfold mul_heap_threaded_line mpoly_search_monomials
  rw [mul_heap_threaded_lower_top nthreads len2 len3 h]
  exact mul_search_full _ (mpoly_opsN_strict_total N maskhi masklo) _ _ _ _ h.2.2.1 r hr

theorem mul_heap_threaded_end_getD (N nthreads : Nat) (exp2 : List (mpoly_monomial N))
    (len2 : Nat) (exp3 : List (mpoly_monomial N)) (len3 : Nat) (maskhi masklo : Nat)
    (d r : Nat) (hr : r < len2) :
    (mul_heap_threaded_end N nthreads exp2 len2 exp3 len3 maskhi masklo d).getD r 0 =
      if 0 < d then
        (mul_heap_threaded_line N nthreads exp2 len2 exp3 len3 maskhi masklo (d - 1)).getD r 0
      else len3 := by
  unfold mul_heap_threaded_end
  split_ifs
  · rfl
  · rw [List.getD_eq_getElem _ _ (by simpa using hr)]
    simp

/-- The window of every division is well formed. -/
theorem mul_heap_threaded_window_ok (N nthreads : Nat)
    (exp2 : List (mpoly_monomial N)) (len2 : Nat) (exp3 : List (mpoly_monomial N)) (len3 : Nat)
    (maskhi masklo : Nat) (h : mul_heap_threaded_in_range nthreads len2 len3)
    (d i : Nat) (hd : d < 4 * nthreads) (hi : i < len2) :
    (mul_heap_threaded_start N nthreads exp2 len2 exp3 len3 maskhi masklo d).getD i 0 ≤
        (mul_heap_threaded_end N nthreads exp2 len2 exp3 len3 maskhi masklo d).getD i 0 ∧
      (mul_heap_threaded_end N nthreads exp2 len2 exp3 len3 maskhi masklo d).getD i 0 ≤ len3 := by
  rw [mul_heap_threaded_end_getD N nthreads exp2 len2 exp3 len3 maskhi masklo d i hi]
  unfold mul_heap_threaded_start
  split_ifs with h0
  · exact ⟨mul_heap_threaded_line_mono N nthreads exp2 len2 exp3 len3 maskhi masklo h d (d - 1)
      i (Nat.sub_le _ _) hd hi,
      mul_heap_threaded_line_le N nthreads exp2 len2 exp3 len3 maskhi masklo (d - 1) i hi⟩
  · exact ⟨mul_heap_threaded_line_le N nthreads exp2 len2 exp3 len3 maskhi masklo d i hi,
      le_refl _⟩

/-! ## Normal forms: uniqueness and concatenation -/

section normal_form2

variable {M : Type} [DecidableEq M] [Inhabited M]

theorem mul_is_sum_mem_iff (ops : mpoly_ops M) (S : M → Int) (res : List (Int × M))
    (h : mul_is_sum ops S res) (t : Int × M) : t ∈ res ↔ t.1 = S t.2 ∧ S t.2 ≠ 0 := by
  constructor
  · intro ht
    have h1 := h.coeff t ht
    exact ⟨h1, by rw [← h1]; exact h.nonzero t ht⟩
  · rintro ⟨h1, h2⟩
    obtain ⟨u, hu, hum⟩ := h.complete t.2 h2
    have h3 := h.coeff u hu
    have : u = t := Prod.ext (by rw [h3, hum, h1]) hum
    rw [← this]
    exact hu

/-- Two normal forms of the same coefficient function are the same sequence. -/
theorem mul_is_sum_unique (ops : mpoly_ops M) (laws : ops.strict_total) (S : M → Int)
    (res1 res2 : List (Int × M)) (h1 : mul_is_sum ops S res1) (h2 : mul_is_sum ops S res2) :
    res1 = res2 := by
  haveI : IsAntisymm (Int × M) (fun t u => ops.before t.2 u.2 = true) :=
    ⟨fun a b hab hba => by
      have := laws.trans _ _ _ hab hba
      rw [laws.irrefl] at this
      exact absurd this Bool.false_ne_true⟩
  refine List.eq_of_perm_of_sorted ?_ h1.sorted h2.sorted
  rw [List.perm_ext_iff_of_nodup
    (List.Nodup.of_map Prod.snd (mul_is_sum_nodup ops laws S res1 h1))
    (List.Nodup.of_map Prod.snd (mul_is_sum_nodup ops laws S res2 h2))]
  intro t
  rw [mul_is_sum_mem_iff ops S res1 h1, mul_is_sum_mem_iff ops S res2 h2]

/-- The concatenation of two normal forms whose monomials are separated is
the normal form of the sum. -/
theorem mul_is_sum_append (ops : mpoly_ops M) (laws : ops.strict_total) (S1 S2 : M → Int)
    (res1 res2 : List (Int × M)) (h1 : mul_is_sum ops S1 res1) (h2 : mul_is_sum ops S2 res2)
    (hsep : ∀ m m', S1 m ≠ 0 → S2 m' ≠ 0 → ops.before m m' = true) :
    mul_is_sum ops (fun m => S1 m + S2 m) (res1 ++ res2) := by
  have hdisj : ∀ m, S1 m ≠ 0 → S2 m = 0 := by
    intro m hm
    by_contra hm2
    have := hsep m m hm hm2
    rw [laws.irrefl] at this
    exact Bool.false_ne_true this
  refine ⟨?_, ?_, ?_, ?_⟩
  · rw [List.pairwise_append]
    refine ⟨h1.sorted, h2.sorted, ?_⟩
    intro t ht u hu
    exact hsep _ _ (((mul_is_sum_mem_iff ops S1 res1 h1 t).1 ht).2)
      (((mul_is_sum_mem_iff ops S2 res2 h2 u).1 hu).2)
  · intro t ht
    rcases List.mem_append.1 ht with h | h
    · exact h1.nonzero t h
    · exact h2.nonzero t h
  · intro t ht
    beta_reduce
    rcases List.mem_append.1 ht with h | h
    · obtain ⟨e1, e2⟩ := (mul_is_sum_mem_iff ops S1 res1 h1 t).1 h
      rw [hdisj _ e2, add_zero]
      exact e1
    · obtain ⟨e1, e2⟩ := (mul_is_sum_mem_iff ops S2 res2 h2 t).1 h
      have : S1 t.2 = 0 := by
        by_contra hne
        exact e2 (hdisj _ hne)
      rw [this, zero_add]
      exact e1
  · intro m hm
    beta_reduce at hm
    by_cases hm1 : S1 m = 0
    · rw [hm1, zero_add] at hm
      obtain ⟨t, ht, htm⟩ := h2.complete m hm
      exact ⟨t, List.mem_append_right _ ht, htm⟩
    · obtain ⟨t, ht, htm⟩ := h1.complete m hm1
      exact ⟨t, List.mem_append_left _ ht, htm⟩

theorem mul_window_coeff_ne_zero (ops : mpoly_ops M) (poly2 : List Int) (exp2 : List M)
    (len2 : Nat) (poly3 : List Int) (exp3 : List M) (start end_ : List Nat) (m : M)
    (h : mul_window_coeff ops poly2 exp2 len2 poly3 exp3 start end_ m ≠ 0) :
    ∃ i, i < len2 ∧ ∃ j, start.getD i 0 ≤ j ∧ j < end_.getD i 0 ∧
      mul_pair_exp ops exp2 exp3 i j = m := by
  by_contra hcon
  apply h
  unfold mul_window_coeff
  apply Finset.sum_eq_zero
  intro i hi
  apply Finset.sum_eq_zero
  intro j hj
  rw [Finset.mem_range] at hi
  rw [Finset.mem_Ico] at hj
  unfold mul_pair_term
  rw [if_neg]
  intro hkey
  exact hcon ⟨i, hi, j, hj.1, hj.2, hkey⟩

theorem mul_window_coeff_congr (ops : mpoly_ops M) (poly2 : List Int) (exp2 : List M)
    (len2 : Nat) (poly3 : List Int) (exp3 : List M) (start end_ start' end' : List Nat) (m : M)
    (hs : ∀ i, i < len2 → start.getD i 0 = start'.getD i 0)
    (he : ∀ i, i < len2 → end_.getD i 0 = end'.getD i 0) :
    mul_window_coeff ops poly2 exp2 len2 poly3 exp3 start end_ m =
      mul_window_coeff ops poly2 exp2 len2 poly3 exp3 start' end' m := by
  unfold mul_window_coeff
  refine Finset.sum_congr rfl fun i hi => ?_
  rw [Finset.mem_range] at hi
  rw [hs i hi, he i hi]

/-- Splitting every row window at an intermediate boundary. -/
theorem mul_window_coeff_split (ops : mpoly_ops M) (poly2 : List Int) (exp2 : List M)
    (len2 : Nat) (poly3 : List Int) (exp3 : List M) (start mid end_ : List Nat) (m : M)
    (h : ∀ i, i < len2 → start.getD i 0 ≤ mid.getD i 0 ∧ mid.getD i 0 ≤ end_.getD i 0) :
    mul_window_coeff ops poly2 exp2 len2 poly3 exp3 start end_ m =
      mul_window_coeff ops poly2 exp2 len2 poly3 exp3 start mid m +
        mul_window_coeff ops poly2 exp2 len2 poly3 exp3 mid end_ m := by
  unfold mul_window_coeff
  rw [← Finset.sum_add_distrib]
  refine Finset.sum_congr rfl fun i hi => ?_
  rw [Finset.mem_range] at hi
  exact (Finset.sum_Ico_consecutive _ (h i hi).1 (h i hi).2).symm

theorem mul_getD_replicate (n i x : Nat) (hi : i < n) : (List.replicate n x).getD i 0 = x := by
  rw [List.getD_eq_getElem _ _ (by simpa using hi)]
  simp

theorem mul_rows_ordered_full (ops : mpoly_ops M) (exp2 exp3 : List M) (len2 len3 : Nat)
    (hfull : mul_rows_ordered ops exp2 exp3 len2 (List.replicate len2 0)
      (List.replicate len2 len3))
    (i j j' : Nat) (hi : i < len2) (hj : j < j') (hj' : j' < len3) :
    ops.before (mul_pair_exp ops exp2 exp3 i j) (mul_pair_exp ops exp2 exp3 i j') = true := by
  refine hfull i hi j' ?_ j hj ?_
  · rw [mul_getD_replicate len2 i len3 hi]; exact hj'
  · rw [mul_getD_replicate len2 i 0 hi]; exact Nat.zero_le _

theorem mul_rows_ordered_sub (ops : mpoly_ops M) (exp2 exp3 : List M) (len2 len3 : Nat)
    (hfull : mul_rows_ordered ops exp2 exp3 len2 (List.replicate len2 0)
      (List.replicate len2 len3))
    (start end_ : List Nat) (hwin : ∀ i, i < len2 → end_.getD i 0 ≤ len3) :
    mul_rows_ordered ops exp2 exp3 len2 start end_ := by
  intro i hi j' hj' j hj _
  exact mul_rows_ordered_full ops exp2 exp3 len2 len3 hfull i j j' hi hj
    (lt_of_lt_of_le hj' (hwin i hi))

/-- Columns below the boundary of a row carry sums that precede the monomial. -/
theorem mul_search_row_below (ops : mpoly_ops M) (laws : ops.strict_total) (exp2 exp3 : List M)
    (len2 len3 : Nat)
    (hfull : mul_rows_ordered ops exp2 exp3 len2 (List.replicate len2 0)
      (List.replicate len2 len3))
    (e : M) (i j : Nat) (hi : i < len2)
    (hj : j < mul_search_row ops (exp2.getD i default) exp3 len3 e) :
    ops.before (mul_pair_exp ops exp2 exp3 i j) e = true := by
  have hpos : 0 < mul_search_row ops (exp2.getD i default) exp3 len3 e := by omega
  have h1 := mul_search_row_pos ops (exp2.getD i default) exp3 len3 e hpos
  have h2 := mul_search_row_le ops (exp2.getD i default) exp3 len3 e
  rcases Nat.eq_or_lt_of_le (Nat.le_sub_one_of_lt hj) with heq | hlt
  · rw [← heq] at h1
    exact h1
  · exact laws.trans _ _ _
      (mul_rows_ordered_full ops exp2 exp3 len2 len3 hfull i j _ hi hlt (by omega)) h1

/-- Columns from the boundary of a row on carry sums that do not precede the monomial. -/
theorem mul_search_row_above (ops : mpoly_ops M) (exp2 exp3 : List M) (len3 : Nat)
    (e : M) (i j : Nat) (hj : mul_search_row ops (exp2.getD i default) exp3 len3 e ≤ j)
    (hj3 : j < len3) :
    ops.before (mul_pair_exp ops exp2 exp3 i j) e = false := by
  by_contra hcon
  rw [Bool.not_eq_false] at hcon
  have := mul_search_row_lt ops (exp2.getD i default) exp3 len3 e j hj3 hcon
  omega

end normal_form2

/-! ## The divisions and their concatenation -/

theorem mul_heap_threaded_len2_lt (nthreads len2 len3 : Nat)
    (h : mul_heap_threaded_in_range nthreads len2 len3) : len2 < 2 ^ (FLINT_BITS - 1) := by
  obtain ⟨hT, h2, h3, hov⟩ := h
  have h1 : len2 ≤ (4 * nthreads) * (4 * nthreads) * len2 :=
    Nat.le_mul_of_pos_left _ (Nat.mul_pos (by omega) (by omega))
  have h4 : (4 * nthreads) * (4 * nthreads) * len2 ≤
      (4 * nthreads) * (4 * nthreads) * len2 * len3 := Nat.le_mul_of_pos_right _ h3
  omega

theorem mul_heap_threaded_line_getD (N nthreads : Nat) (exp2 : List (mpoly_monomial N))
    (len2 : Nat) (exp3 : List (mpoly_monomial N)) (len3 : Nat) (maskhi masklo : Nat)
    (d r : Nat) (hr : r < len2) :
    (mul_heap_threaded_line N nthreads exp2 len2 exp3 len3 maskhi masklo d).getD r 0 =
      mul_search_row (mpoly_opsN N maskhi masklo) (exp2.getD r default) exp3 len3
        (mul_heap_threaded_exp N nthreads exp2 len2 exp3 len3 maskhi masklo d) := by
  unfold mul_heap_threaded_line mul_heap_threaded_exp mpoly_search_monomials
  rw [mul_search_fst, mul_search_ind_getD _ _ _ _ _ _ r hr]

theorem mul_heap_threaded_end_le (N nthreads : Nat) (exp2 : List (mpoly_monomial N))
    (len2 : Nat) (exp3 : List (mpoly_monomial N)) (len3 : Nat) (maskhi masklo : Nat)
    (d r : Nat) (hr : r < len2) :
    (mul_heap_threaded_end N nthreads exp2 len2 exp3 len3 maskhi masklo d).getD r 0 ≤ len3 := by
  rw [mul_heap_threaded_end_getD N nthreads exp2 len2 exp3 len3 maskhi masklo d r hr]
  split_ifs
  · exact mul_heap_threaded_line_le N nthreads exp2 len2 exp3 len3 maskhi masklo _ r hr
  · exact le_refl _

/-- Every division's run of the kernel returns the normal form of the sums
over its window. -/
theorem mul_heap_threaded_worker_spec (N nthreads : Nat) (coeff2 : List Int)
    (exp2 : List (mpoly_monomial N)) (len2 : Nat) (coeff3 : List Int)
    (exp3 : List (mpoly_monomial N)) (len3 : Nat) (maskhi masklo : Nat)
    (hlen : len2 < 2 ^ (FLINT_BITS - 1))
    (hfull : mul_rows_ordered (mpoly_opsN N maskhi masklo) exp2 exp3 len2
      (List.replicate len2 0) (List.replicate len2 len3)) (d : Nat) :
    ∃ res, _fmpz_mpoly_mul_heap_threaded_worker N nthreads coeff2 exp2 len2 coeff3 exp3 len3
        maskhi masklo d = some res ∧
      mul_is_sum (mpoly_opsN N maskhi masklo)
        (mul_window_coeff (mpoly_opsN N maskhi masklo) coeff2 exp2 len2 coeff3 exp3
          (mul_heap_threaded_start N nthreads exp2 len2 exp3 len3 maskhi masklo d)
          (mul_heap_threaded_end N nthreads exp2 len2 exp3 len3 maskhi masklo d)) res := by
  have hwin := fun r hr =>
    mul_heap_threaded_end_le N nthreads exp2 len2 exp3 len3 maskhi masklo d r hr
  exact mul_heap_part_spec N coeff2 exp2 len2 coeff3 exp3 len3 _ _ maskhi masklo
    hlen hwin
    (mul_rows_ordered_sub _ exp2 exp3 len2 len3 hfull _ _ hwin)

/-- The monomials of division `d > 0` precede the monomial found for
division `d - 1`. -/
theorem mul_heap_threaded_below (N nthreads : Nat) (coeff2 : List Int)
    (exp2 : List (mpoly_monomial N)) (len2 : Nat) (coeff3 : List Int)
    (exp3 : List (mpoly_monomial N)) (len3 : Nat) (maskhi masklo : Nat)
    (hfull : mul_rows_ordered (mpoly_opsN N maskhi masklo) exp2 exp3 len2
      (List.replicate len2 0) (List.replicate len2 len3))
    (d : Nat) (hd : 0 < d) (start : List Nat) (m : mpoly_monomial N)
    (hm : mul_window_coeff (mpoly_opsN N maskhi masklo) coeff2 exp2 len2 coeff3 exp3 start
      (mul_heap_threaded_end N nthreads exp2 len2 exp3 len3 maskhi masklo d) m ≠ 0) :
    (mpoly_opsN N maskhi masklo).before m
      (mul_heap_threaded_exp N nthreads exp2 len2 exp3 len3 maskhi masklo (d - 1)) = true := by
  obtain ⟨i, hi, j, -, hj, hkey⟩ := mul_window_coeff_ne_zero _ _ _ _ _ _ _ _ _ hm
  rw [mul_heap_threaded_end_getD N nthreads exp2 len2 exp3 len3 maskhi masklo d i hi,
    if_pos hd, mul_heap_threaded_line_getD N nthreads exp2 len2 exp3 len3 maskhi masklo _ i hi]
    at hj
  rw [← hkey]
  exact mul_search_row_below _ (mpoly_opsN_strict_total N maskhi masklo) exp2 exp3 len2 len3
    hfull _ i j hi hj

/-- The monomials of the divisions below `d > 0` do not precede the monomial
found for division `d - 1`. -/
theorem mul_heap_threaded_above (N nthreads : Nat) (coeff2 : List Int)
    (exp2 : List (mpoly_monomial N)) (len2 : Nat) (coeff3 : List Int)
    (exp3 : List (mpoly_monomial N)) (len3 : Nat) (maskhi masklo : Nat)
    (d : Nat) (hd : 0 < d) (start end_ : List Nat)
    (hstart : ∀ i, i < len2 →
      (mul_heap_threaded_end N nthreads exp2 len2 exp3 len3 maskhi masklo d).getD i 0
        ≤ start.getD i 0)
    (hend : ∀ i, i < len2 → end_.getD i 0 ≤ len3)
    (m : mpoly_monomial N)
    (hm : mul_window_coeff (mpoly_opsN N maskhi masklo) coeff2 exp2 len2 coeff3 exp3
      start end_ m ≠ 0) :
    (mpoly_opsN N maskhi masklo).before m
      (mul_heap_threaded_exp N nthreads exp2 len2 exp3 len3 maskhi masklo (d - 1)) = false := by
  obtain ⟨i, hi, j, hj, hj3, hkey⟩ := mul_window_coeff_ne_zero _ _ _ _ _ _ _ _ _ hm
  have hs := hstart i hi
  rw [mul_heap_threaded_end_getD N nthreads exp2 len2 exp3 len3 maskhi masklo d i hi,
    if_pos hd, mul_heap_threaded_line_getD N nthreads exp2 len2 exp3 len3 maskhi masklo _ i hi]
    at hs
  rw [← hkey]
  exact mul_search_row_above _ exp2 exp3 len3 _ i j (le_trans hs hj)
    (lt_of_lt_of_le hj3 (hend i hi))

theorem mul_before_of_not (N maskhi masklo : Nat) (m m' e : mpoly_monomial N)
    (h1 : (mpoly_opsN N maskhi masklo).before m e = true)
    (h2 : (mpoly_opsN N maskhi masklo).before m' e = false) :
    (mpoly_opsN N maskhi masklo).before m m' = true := by
  have laws := mpoly_opsN_strict_total N maskhi masklo
  by_cases he : m' = e
  · rw [he]; exact h1
  · exact laws.trans _ _ _ h1 (laws.total _ _ he h2)

/-- The join of the divisions below `k` is the normal form of the sums over
the columns from the boundary `end` of division `k` on. -/
theorem mul_heap_threaded_join_spec (N nthreads : Nat) (coeff2 : List Int)
    (exp2 : List (mpoly_monomial N)) (len2 : Nat) (coeff3 : List Int)
    (exp3 : List (mpoly_monomial N)) (len3 : Nat) (maskhi masklo : Nat)
    (h : mul_heap_threaded_in_range nthreads len2 len3)
    (hfull : mul_rows_ordered (mpoly_opsN N maskhi masklo) exp2 exp3 len2
      (List.replicate len2 0) (List.replicate len2 len3)) (k : Nat) (hk : k ≤ 4 * nthreads) :
    ∃ res, mul_heap_threaded_join
        (_fmpz_mpoly_mul_heap_threaded_worker N nthreads coeff2 exp2 len2 coeff3 exp3 len3
          maskhi masklo) k = some res ∧
      mul_is_sum (mpoly_opsN N maskhi masklo)
        (mul_window_coeff (mpoly_opsN N maskhi masklo) coeff2 exp2 len2 coeff3 exp3
          (mul_heap_threaded_end N nthreads exp2 len2 exp3 len3 maskhi masklo k)
          (List.replicate len2 len3)) res := by
  have laws := mpoly_opsN_strict_total N maskhi masklo
  induction k with
  | zero =>
    refine ⟨[], rfl, List.Pairwise.nil, fun t ht => absurd ht (List.not_mem_nil _),
      fun t ht => absurd ht (List.not_mem_nil _), ?_⟩
    intro m hm
    exfalso
    obtain ⟨i, hi, j, hj, hj3, -⟩ := mul_window_coeff_ne_zero _ _ _ _ _ _ _ _ _ hm
    rw [mul_heap_threaded_end_getD N nthreads exp2 len2 exp3 len3 maskhi masklo 0 i hi,
      if_neg (Nat.lt_irrefl 0)] at hj
    rw [mul_getD_replicate len2 i len3 hi] at hj3
    omega
  | succ k ih =>
    obtain ⟨rest, hrest, hsum_rest⟩ := ih (by omega)
    obtain ⟨r, hr, hsum_r⟩ := mul_heap_threaded_worker_spec N nthreads coeff2 exp2 len2 coeff3
      exp3 len3 maskhi masklo (mul_heap_threaded_len2_lt nthreads len2 len3 h) hfull k
    refine ⟨r ++ rest, by simp only [mul_heap_threaded_join, hr, hrest], ?_⟩
    have happ := mul_is_sum_append _ laws _ _ r rest hsum_r hsum_rest ?_
    · have hfun : (fun m =>
          mul_window_coeff (mpoly_opsN N maskhi masklo) coeff2 exp2 len2 coeff3 exp3
            (mul_heap_threaded_start N nthreads exp2 len2 exp3 len3 maskhi masklo k)
            (mul_heap_threaded_end N nthreads exp2 len2 exp3 len3 maskhi masklo k) m +
          mul_window_coeff (mpoly_opsN N maskhi masklo) coeff2 exp2 len2 coeff3 exp3
            (mul_heap_threaded_end N nthreads exp2 len2 exp3 len3 maskhi masklo k)
            (List.replicate len2 len3) m) =
          mul_window_coeff (mpoly_opsN N maskhi masklo) coeff2 exp2 len2 coeff3 exp3
            (mul_heap_threaded_end N nthreads exp2 len2 exp3 len3 maskhi masklo (k + 1))
            (List.replicate len2 len3) := by
        funext m
        rw [← mul_window_coeff_split]
        · apply mul_window_coeff_congr
          · intro i hi
            rw [mul_heap_threaded_end_getD N nthreads exp2 len2 exp3 len3 maskhi masklo (k + 1)
              i hi, if_pos (Nat.succ_pos k)]
            rfl
          · intro i _; rfl
        · intro i hi
          have := (mul_heap_threaded_window_ok N nthreads exp2 len2 exp3 len3
            maskhi masklo h k i (by omega) hi)
          rw [mul_getD_replicate len2 i len3 hi]
          exact this
      rw [hfun] at happ
      exact happ
    · intro m m' hm hm'
      rcases Nat.eq_zero_or_pos k with hk0 | hk0
      · exfalso
        subst hk0
        obtain ⟨i, hi, j, hj, hj3, -⟩ := mul_window_coeff_ne_zero _ _ _ _ _ _ _ _ _ hm'
        rw [mul_heap_threaded_end_getD N nthreads exp2 len2 exp3 len3 maskhi masklo 0 i hi,
          if_neg (Nat.lt_irrefl 0)] at hj
        rw [mul_getD_replicate len2 i len3 hi] at hj3
        omega
      · exact mul_before_of_not N maskhi masklo m m' _
          (mul_heap_threaded_below N nthreads coeff2 exp2 len2 coeff3 exp3 len3 maskhi masklo
            hfull k hk0 _ m hm)
          (mul_heap_threaded_above N nthreads coeff2 exp2 len2 coeff3 exp3 len3 maskhi masklo
            k hk0 _ _ (fun i _ => le_refl _)
            (fun i hi => by rw [mul_getD_replicate len2 i len3 hi]) m' hm')

/-! ## Claims on the partition -/

/-- The threaded product is the output of one run of the kernel over the
full range. -/
theorem mul_heap_threaded_eq_full (N nthreads : Nat) (coeff2 : List Int)
    (exp2 : List (mpoly_monomial N)) (len2 : Nat) (coeff3 : List Int)
    (exp3 : List (mpoly_monomial N)) (len3 : Nat) (maskhi masklo : Nat)
    (h : mul_heap_threaded_in_range nthreads len2 len3)
    (hfull : mul_rows_ordered (mpoly_opsN N maskhi masklo) exp2 exp3 len2
      (List.replicate len2 0) (List.replicate len2 len3)) :
    ∃ res, _fmpz_mpoly_mul_heap_threaded N nthreads coeff2 exp2 len2 coeff3 exp3 len3
        maskhi masklo = some res ∧
      mul_is_sum (mpoly_opsN N maskhi masklo)
        (mul_window_coeff (mpoly_opsN N maskhi masklo) coeff2 exp2 len2 coeff3 exp3
          (List.replicate len2 0) (List.replicate len2 len3)) res := by
  obtain ⟨res, hres, hsum⟩ := mul_heap_threaded_join_spec N nthreads coeff2 exp2 len2 coeff3
    exp3 len3 maskhi masklo h hfull (4 * nthreads) (le_refl _)
  refine ⟨res, ?_, ?_⟩
  · unfold _fmpz_mpoly_mul_heap_threaded
    rw [mul_heap_threaded_ndivs_toNat nthreads len2 len3 h]
    exact hres
  · have hfun : mul_window_coeff (mpoly_opsN N maskhi masklo) coeff2 exp2 len2 coeff3 exp3
        (mul_heap_threaded_end N nthreads exp2 len2 exp3 len3 maskhi masklo (4 * nthreads))
        (List.replicate len2 len3) =
        mul_window_coeff (mpoly_opsN N maskhi masklo) coeff2 exp2 len2 coeff3 exp3
          (List.replicate len2 0) (List.replicate len2 len3) := by
      funext m
      apply mul_window_coeff_congr
      · intro i hi
        rw [mul_heap_threaded_end_getD N nthreads exp2 len2 exp3 len3 maskhi masklo _ i hi,
          if_pos (by have := h.1; omega),
          mul_heap_threaded_line_top N nthreads exp2 len2 exp3 len3 maskhi masklo h i hi,
          mul_getD_replicate len2 i 0 hi]
      · intro i _; rfl
    rw [← hfun]
    exact hsum

theorem mul_degree_loop_none (d2 d3 : List Nat) (fields : List Nat) (max : Nat)
    (hw : ∀ i ∈ fields, d2.getD i 0 < 2 ^ FLINT_BITS ∧ d3.getD i 0 < 2 ^ FLINT_BITS) :
    mul_degree_loop d2 d3 fields max = none ↔
      ∃ i ∈ fields, 2 ^ (FLINT_BITS - 1) ≤ d2.getD i 0 + d3.getD i 0 := by
  induction fields generalizing max with
  | nil => simp [mul_degree_loop]
  | cons i fields ih =>
    have hi := hw i (List.mem_cons_self _ _)
    have ih' := fun max => ih max (fun k hk => hw k (List.mem_cons_of_mem _ hk))
    have e1 : (2 : Nat) ^ FLINT_BITS = 18446744073709551616 := by norm_num [FLINT_BITS]
    have e2 : (2 : Nat) ^ (FLINT_BITS - 1) = 9223372036854775808 := by norm_num [FLINT_BITS]
    simp only [mul_degree_loop, List.mem_cons, exists_eq_or_imp]
    rw [e1] at hi
    simp only [e1, e2] at ih' ⊢
    generalize d2.getD i 0 = A at hi ⊢
    generalize d3.getD i 0 = B at hi ⊢
    by_cases h : (B + A) % 18446744073709551616 < A ∨
        9223372036854775808 ≤ (B + A) % 18446744073709551616
    · rw [if_pos h]
      simp only [true_iff]
      left
      omega
    · rw [if_neg h, ih']
      constructor
      · exact Or.inr
      · rintro (h' | h')
        · exfalso
          omega
        · exact h'

theorem mul_degree_loop_some (d2 d3 : List Nat) (fields : List Nat) (max m : Nat)
    (h : mul_degree_loop d2 d3 fields max = some m) (hmax : max < 2 ^ (FLINT_BITS - 1)) :
    m < 2 ^ (FLINT_BITS - 1) := by
  induction fields generalizing max with
  | nil =>
    simp only [mul_degree_loop, Option.some.injEq] at h
    omega
  | cons i fields ih =>
    simp only [mul_degree_loop] at h
    split_ifs at h with h1 h2
    · simp only [not_or, not_le] at h1
      exact ih _ h h1.2
    · exact ih _ h hmax

theorem FLINT_BIT_COUNT_lt (x : Nat) (hx : x < 2 ^ (FLINT_BITS - 1)) :
    FLINT_BIT_COUNT x < FLINT_BITS := by
  unfold FLINT_BIT_COUNT
  have h := (List.length_filter_lt_length_iff_exists (p := fun k => decide (2 ^ k ≤ x))
    (l := List.range FLINT_BITS)).2
    ⟨FLINT_BITS - 1, List.mem_range.2 (by simp [FLINT_BITS]), by simpa using hx⟩
  rwa [List.length_range] at h

/-- The degree check throws exactly when some field's exact degree sum
leaves the signed word range. -/
theorem mul_product_bits_none (codec : mpoly_codec) (poly2 poly3 : fmpz_mpoly)
    (ctx : fmpz_mpoly_ctx)
    (hw2 : ∀ i, i < ctx.n → (codec.max_degrees poly2 ctx).getD i 0 < 2 ^ FLINT_BITS)
    (hw3 : ∀ i, i < ctx.n → (codec.max_degrees poly3 ctx).getD i 0 < 2 ^ FLINT_BITS) :
    mul_product_bits codec poly2 poly3 ctx = none ↔
      ∃ i, i < ctx.n ∧ 2 ^ (FLINT_BITS - 1) ≤
        (codec.max_degrees poly2 ctx).getD i 0 + (codec.max_degrees poly3 ctx).getD i 0 := by
  have hloop := mul_degree_loop_none (codec.max_degrees poly2 ctx) (codec.max_degrees poly3 ctx)
    (List.range ctx.n) 0
    (fun i hi => ⟨hw2 i (List.mem_range.1 hi), hw3 i (List.mem_range.1 hi)⟩)
  unfold mul_product_bits
  cases hm : mul_degree_loop (codec.max_degrees poly2 ctx) (codec.max_degrees poly3 ctx)
      (List.range ctx.n) 0 with
  | none =>
    simp only [true_iff]
    obtain ⟨i, hi, h⟩ := hloop.1 hm
    exact ⟨i, List.mem_range.1 hi, h⟩
  | some m =>
    have hlt := FLINT_BIT_COUNT_lt m
      (mul_degree_loop_some _ _ _ _ _ hm (by simp [FLINT_BITS]))
    simp only [if_neg (not_le.2 hlt)]
    constructor
    · intro h; cases h
    · rintro ⟨i, hi, h⟩
      have := hloop.2 ⟨i, List.mem_range.2 hi, h⟩
      rw [hm] at this
      cases this

theorem mpoly_monomial_add_comm {N : Nat} (a b : mpoly_monomial N) :
    mpoly_monomial_add a b = mpoly_monomial_add b a := by
  apply Subtype.ext
  simp only [mpoly_monomial_add]
  exact List.zipWith_comm_of_comm _ (fun x y => by rw [Nat.add_comm]) _ _

/-- The full-range sums do not depend on the order of the operands. -/
theorem mul_window_coeff_swap (N maskhi masklo : Nat) (coeff2 : List Int)
    (exp2 : List (mpoly_monomial N)) (len2 : Nat) (coeff3 : List Int)
    (exp3 : List (mpoly_monomial N)) (len3 : Nat) (m : mpoly_monomial N) :
    mul_window_coeff (mpoly_opsN N maskhi masklo) coeff3 exp3 len3 coeff2 exp2
        (List.replicate len3 0) (List.replicate len3 len2) m =
      mul_window_coeff (mpoly_opsN N maskhi masklo) coeff2 exp2 len2 coeff3 exp3
        (List.replicate len2 0) (List.replicate len2 len3) m := by
  have h1 : mul_window_coeff (mpoly_opsN N maskhi masklo) coeff3 exp3 len3 coeff2 exp2
      (List.replicate len3 0) (List.replicate len3 len2) m =
      ∑ i in Finset.range len3, ∑ j in Finset.range len2,
        mul_pair_term (mpoly_opsN N maskhi masklo) coeff3 exp3 coeff2 exp2 m i j := by
    unfold mul_window_coeff
    refine Finset.sum_congr rfl fun i hi => ?_
    rw [Finset.mem_range] at hi
    rw [mul_getD_replicate len3 i 0 hi, mul_getD_replicate len3 i len2 hi, Finset.range_eq_Ico]
  have h2 : mul_window_coeff (mpoly_opsN N maskhi masklo) coeff2 exp2 len2 coeff3 exp3
      (List.replicate len2 0) (List.replicate len2 len3) m =
      ∑ i in Finset.range len2, ∑ j in Finset.range len3,
        mul_pair_term (mpoly_opsN N maskhi masklo) coeff2 exp2 coeff3 exp3 m i j := by
    unfold mul_window_coeff
    refine Finset.sum_congr rfl fun i hi => ?_
    rw [Finset.mem_range] at hi
    rw [mul_getD_replicate len2 i 0 hi, mul_getD_replicate len2 i len3 hi, Finset.range_eq_Ico]
  rw [h1, h2, Finset.sum_comm]
  refine Finset.sum_congr rfl fun i _ => Finset.sum_congr rfl fun j _ => ?_
  simp only [mul_pair_term, mul_pair_exp, mpoly_opsN]
  have e := mpoly_monomial_add_comm (exp3.getD j default) (exp2.getD i default)
  have e' := Int.mul_comm (coeff3.getD j 0) (coeff2.getD i 0)
  simp only [e, e']

theorem mul_rows_ordered_of_fit {M : Type} [DecidableEq M] [Inhabited M] (ops : mpoly_ops M)
    (exp2 : List M) (len2 : Nat) (exp3 : List M) (len3 : Nat)
    (hs : mul_strictly_ordered ops exp3 len3) (hf : mul_sums_fit ops exp2 len2 exp3 len3) :
    mul_rows_ordered ops exp2 exp3 len2 (List.replicate len2 0) (List.replicate len2 len3) := by
  intro i hi j' hj' j hj _
  rw [mul_getD_replicate len2 i len3 hi] at hj'
  exact hf i hi j' hj' j (lt_trans hj hj') (hs j' hj' j hj)

theorem mul_heap_threaded_in_range_swap (nthreads len2 len3 : Nat)
    (h : mul_heap_threaded_in_range nthreads len2 len3) :
    mul_heap_threaded_in_range nthreads len3 len2 := by
  obtain ⟨hT, h2, h3, hov⟩ := h
  refine ⟨hT, h3, h2, ?_⟩
  have : (4 * nthreads) * (4 * nthreads) * len3 * len2 =
      (4 * nthreads) * (4 * nthreads) * len2 * len3 := by ring
  rw [this]
  exact hov

/-- C9: zero absorption.  If `poly2` or `poly3` has length 0, the function
returns the output set to the zero polynomial, whatever the codec, the
thread count and the contents of the operands, and it returns before
anything else is done: followed statement by statement, the call has made
no call of `fmpz_mpoly_max_degrees` (no degree bound is computed, so nothing
can be thrown), no call of the planner `_fmpz_mpoly_mul_heap_threaded` and
no run of the heap kernel, and its only effect is the zero output. -/
theorem fmpz_mpoly_mul_heap_threaded_zero (codec : mpoly_codec) (nthreads : Nat)
    (out : mul_output) (poly2 poly3 : fmpz_mpoly) (ctx : fmpz_mpoly_ctx)
    (h : poly2.length = 0 ∨ poly3.length = 0) :
    fmpz_mpoly_mul_heap_threaded codec nthreads out poly2 poly3 ctx
        = .done (fmpz_mpoly_zero (out.old poly2 poly3)) ∧
      (fmpz_mpoly_zero (out.old poly2 poly3)).length = 0 ∧
      (fmpz_mpoly_mul_heap_threaded_effects codec nthreads out poly2 poly3 ctx).1
        = .done (fmpz_mpoly_zero (out.old poly2 poly3)) ∧
      (fmpz_mpoly_mul_heap_threaded_effects codec nthreads out poly2 poly3 ctx).2.poly1
        = fmpz_mpoly_zero (out.old poly2 poly3) ∧
      (fmpz_mpoly_mul_heap_threaded_effects codec nthreads out poly2 poly3 ctx).2.degree_runs = 0 ∧
      (fmpz_mpoly_mul_heap_threaded_effects codec nthreads out poly2 poly3 ctx).2.planner_runs = 0 ∧
      (fmpz_mpoly_mul_heap_threaded_effects codec nthreads out poly2 poly3 ctx).2.kernel_runs = 0
      := by
  refine ⟨?_, rfl, ?_, ?_, ?_, ?_, ?_⟩
  · unfold fmpz_mpoly_mul_heap_threaded
    rw [if_pos h]
  all_goals
    unfold fmpz_mpoly_mul_heap_threaded_effects
    simp only [if_pos h]
    rfl

/-- Witness of C9: a zero first operand, a second operand whose degree would
fail the overflow check, and no thread at all; a call with nonzero operands
computes the degree bounds of both and runs the planner. -/
theorem fmpz_mpoly_mul_heap_threaded_zero_witness :
    ((⟨[], [], 8⟩ : fmpz_mpoly).length = 0 ∨
        (⟨[1], [[2 ^ 64 - 1]], 64⟩ : fmpz_mpoly).length = 0) ∧
      mul_product_bits mpoly_codec_words ⟨[], [], 8⟩ ⟨[1], [[2 ^ 64 - 1]], 64⟩ ⟨1, .ORD_LEX⟩
        = none ∧
      (fmpz_mpoly_mul_heap_threaded_effects mpoly_codec_words 1 (.fresh ⟨[5], [[1]], 16⟩)
        ⟨[1], [[2 ^ 61]], 64⟩ ⟨[1], [[2 ^ 61]], 64⟩ ⟨1, .ORD_LEX⟩).2 =
        ⟨⟨[1], [[2 ^ 62]], 64⟩, 1, 4, 2⟩ ∧
      fmpz_mpoly_mul_heap_threaded_effects mpoly_codec_words 0 (.fresh ⟨[5], [[1]], 16⟩)
        ⟨[], [], 8⟩ ⟨[1], [[2 ^ 64 - 1]], 64⟩ ⟨1, .ORD_LEX⟩
        = (.done ⟨[], [], 16⟩, ⟨⟨[], [], 16⟩, 0, 0, 0⟩) ∧
      (fmpz_mpoly_mul_heap_threaded mpoly_codec_words 0 (.fresh ⟨[5], [[1]], 16⟩)
          ⟨[], [], 8⟩ ⟨[1], [[2 ^ 64 - 1]], 64⟩ ⟨1, .ORD_LEX⟩
          = .done (fmpz_mpoly_zero ((mul_output.fresh ⟨[5], [[1]], 16⟩).old ⟨[], [], 8⟩
            ⟨[1], [[2 ^ 64 - 1]], 64⟩)) ∧
        (fmpz_mpoly_zero ((mul_output.fresh ⟨[5], [[1]], 16⟩).old ⟨[], [], 8⟩
            ⟨[1], [[2 ^ 64 - 1]], 64⟩)).length = 0 ∧
        (fmpz_mpoly_mul_heap_threaded_effects mpoly_codec_words 0 (.fresh ⟨[5], [[1]], 16⟩)
          ⟨[], [], 8⟩ ⟨[1], [[2 ^ 64 - 1]], 64⟩ ⟨1, .ORD_LEX⟩).1
          = .done (fmpz_mpoly_zero ((mul_output.fresh ⟨[5], [[1]], 16⟩).old ⟨[], [], 8⟩
            ⟨[1], [[2 ^ 64 - 1]], 64⟩)) ∧
        (fmpz_mpoly_mul_heap_threaded_effects mpoly_codec_words 0 (.fresh ⟨[5], [[1]], 16⟩)
          ⟨[], [], 8⟩ ⟨[1], [[2 ^ 64 - 1]], 64⟩ ⟨1, .ORD_LEX⟩).2.poly1
          = fmpz_mpoly_zero ((mul_output.fresh ⟨[5], [[1]], 16⟩).old ⟨[], [], 8⟩
            ⟨[1], [[2 ^ 64 - 1]], 64⟩) ∧
        (fmpz_mpoly_mul_heap_threaded_effects mpoly_codec_words 0 (.fresh ⟨[5], [[1]], 16⟩)
          ⟨[], [], 8⟩ ⟨[1], [[2 ^ 64 - 1]], 64⟩ ⟨1, .ORD_LEX⟩).2.degree_runs = 0 ∧
        (fmpz_mpoly_mul_heap_threaded_effects mpoly_codec_words 0 (.fresh ⟨[5], [[1]], 16⟩)
          ⟨[], [], 8⟩ ⟨[1], [[2 ^ 64 - 1]], 64⟩ ⟨1, .ORD_LEX⟩).2.planner_runs = 0 ∧
        (fmpz_mpoly_mul_heap_threaded_effects mpoly_codec_words 0 (.fresh ⟨[5], [[1]], 16⟩)
          ⟨[], [], 8⟩ ⟨[1], [[2 ^ 64 - 1]], 64⟩ ⟨1, .ORD_LEX⟩).2.kernel_runs = 0) :=
  ⟨by decide, by decide, by decide, by decide,
    fmpz_mpoly_mul_heap_threaded_zero mpoly_codec_words 0 (.fresh ⟨[5], [[1]], 16⟩)
      ⟨[], [], 8⟩ ⟨[1], [[2 ^ 64 - 1]], 64⟩ ⟨1, .ORD_LEX⟩ (by decide)⟩

/-- C10: for nonzero inputs whose degree bounds are machine words, the
function fails with the exponent-overflow condition if and only if for some
field the exact sum of the two operands' maximum degrees is at least
`2 ^ (FLINT_BITS - 1)`: the wrap-around test and the sign test detect
exactly these cases, and the later test on the bit count adds none. -/
theorem fmpz_mpoly_mul_heap_threaded_expof (codec : mpoly_codec) (nthreads : Nat)
    (out : mul_output) (poly2 poly3 : fmpz_mpoly) (ctx : fmpz_mpoly_ctx)
    (h2 : poly2.length ≠ 0) (h3 : poly3.length ≠ 0)
    (hw2 : ∀ i, i < ctx.n → (codec.max_degrees poly2 ctx).getD i 0 < 2 ^ FLINT_BITS)
    (hw3 : ∀ i, i < ctx.n → (codec.max_degrees poly3 ctx).getD i 0 < 2 ^ FLINT_BITS) :
    fmpz_mpoly_mul_heap_threaded codec nthreads out poly2 poly3 ctx = .FLINT_EXPOF ↔
      ∃ i, i < ctx.n ∧ 2 ^ (FLINT_BITS - 1) ≤
        (codec.max_degrees poly2 ctx).getD i 0 + (codec.max_degrees poly3 ctx).getD i 0 := by
  rw [← mul_product_bits_none codec poly2 poly3 ctx hw2 hw3]
  unfold fmpz_mpoly_mul_heap_threaded
  rw [if_neg (by simp [h2, h3])]
  cases hb : mul_product_bits codec poly2 poly3 ctx with
  | none => simp
  | some exp_bits =>
    simp only [reduceCtorEq, iff_false]
    split <;> simp

/-- Witness of C10: two monomials `x^(2^62)`, whose degree sum `2^63` is the
least that does not fit; the call throws. -/
theorem fmpz_mpoly_mul_heap_threaded_expof_witness :
    ((⟨[1], [[2 ^ 62]], 64⟩ : fmpz_mpoly).length ≠ 0 ∧
      (∀ i, i < (⟨1, .ORD_LEX⟩ : fmpz_mpoly_ctx).n →
        (mpoly_codec_words.max_degrees ⟨[1], [[2 ^ 62]], 64⟩ ⟨1, .ORD_LEX⟩).getD i 0
          < 2 ^ FLINT_BITS)) ∧
    fmpz_mpoly_mul_heap_threaded mpoly_codec_words 1 (.fresh ⟨[], [], 8⟩)
        ⟨[1], [[2 ^ 62]], 64⟩ ⟨[1], [[2 ^ 62]], 64⟩ ⟨1, .ORD_LEX⟩ = .FLINT_EXPOF ∧
    (fmpz_mpoly_mul_heap_threaded mpoly_codec_words 1 (.fresh ⟨[], [], 8⟩)
        ⟨[1], [[2 ^ 62]], 64⟩ ⟨[1], [[2 ^ 62]], 64⟩ ⟨1, .ORD_LEX⟩ = .FLINT_EXPOF ↔
      ∃ i, i < (⟨1, .ORD_LEX⟩ : fmpz_mpoly_ctx).n ∧ 2 ^ (FLINT_BITS - 1) ≤
        (mpoly_codec_words.max_degrees ⟨[1], [[2 ^ 62]], 64⟩ ⟨1, .ORD_LEX⟩).getD i 0 +
          (mpoly_codec_words.max_degrees ⟨[1], [[2 ^ 62]], 64⟩ ⟨1, .ORD_LEX⟩).getD i 0) :=
  ⟨⟨by decide, by decide⟩, by decide,
    fmpz_mpoly_mul_heap_threaded_expof mpoly_codec_words 1 (.fresh ⟨[], [], 8⟩)
      ⟨[1], [[2 ^ 62]], 64⟩ ⟨[1], [[2 ^ 62]], 64⟩ ⟨1, .ORD_LEX⟩ (by decide) (by decide)
      (by decide) (by decide)⟩

/-! ## Atomicity of the exponent overflow -/

/-- The outcome recorded with the effects is the outcome of the function. -/
theorem mul_effects_outcome (codec : mpoly_codec) (nthreads : Nat) (out : mul_output)
    (poly2 poly3 : fmpz_mpoly) (ctx : fmpz_mpoly_ctx) :
    (fmpz_mpoly_mul_heap_threaded_effects codec nthreads out poly2 poly3 ctx).1 =
      fmpz_mpoly_mul_heap_threaded codec nthreads out poly2 poly3 ctx := by
  unfold fmpz_mpoly_mul_heap_threaded_effects fmpz_mpoly_mul_heap_threaded
  by_cases h : poly2.length = 0 ∨ poly3.length = 0
  · simp only [if_pos h, mul_effects_entry]
  · simp only [if_neg h]
    cases mul_product_bits codec poly2 poly3 ctx with
    | none => rfl
    | some exp_bits =>
      simp only
      split <;> rfl

/-- A call that passes the degree check runs the planner once on the way to
its result, the kernel once for every division. -/
theorem mul_effects_planner_runs (codec : mpoly_codec) (nthreads : Nat) (out : mul_output)
    (poly2 poly3 : fmpz_mpoly) (ctx : fmpz_mpoly_ctx) (exp_bits : Nat)
    (h2 : poly2.length ≠ 0) (h3 : poly3.length ≠ 0)
    (hb : mul_product_bits codec poly2 poly3 ctx = some exp_bits) :
    (fmpz_mpoly_mul_heap_threaded_effects codec nthreads out poly2 poly3 ctx).2.planner_runs = 1 ∧
      (fmpz_mpoly_mul_heap_threaded_effects codec nthreads out poly2 poly3 ctx).2.kernel_runs =
        (mul_heap_threaded_ndivs nthreads).toNat := by
  unfold fmpz_mpoly_mul_heap_threaded_effects
  rw [if_neg (by simp [h2, h3]), hb]
  simp only
  split <;> split <;> simp [mul_effects_planner, mul_effects_entry, mul_effects_degrees]

/-- C11: atomicity on exponent overflow.  Whenever
`fmpz_mpoly_mul_heap_threaded` fails with the exponent-overflow condition,
the throw comes before any effect: the output object holds the polynomial
it held before the call (same length, bits, coefficients and exponents),
the planner has not been called and the kernel has not run. -/
theorem fmpz_mpoly_mul_heap_threaded_atomic (codec : mpoly_codec) (nthreads : Nat)
    (out : mul_output) (poly2 poly3 : fmpz_mpoly) (ctx : fmpz_mpoly_ctx)
    (h : fmpz_mpoly_mul_heap_threaded codec nthreads out poly2 poly3 ctx = .FLINT_EXPOF) :
    (fmpz_mpoly_mul_heap_threaded_effects codec nthreads out poly2 poly3 ctx).1 = .FLINT_EXPOF ∧
      (fmpz_mpoly_mul_heap_threaded_effects codec nthreads out poly2 poly3 ctx).2.poly1 =
        out.old poly2 poly3 ∧
      (fmpz_mpoly_mul_heap_threaded_effects codec nthreads out poly2 poly3 ctx).2.poly1.length =
        (out.old poly2 poly3).length ∧
      (fmpz_mpoly_mul_heap_threaded_effects codec nthreads out poly2 poly3 ctx).2.planner_runs = 0 ∧
      (fmpz_mpoly_mul_heap_threaded_effects codec nthreads out poly2 poly3 ctx).2.kernel_runs = 0
      := by
  rw [← mul_effects_outcome] at h
  revert h
  unfold fmpz_mpoly_mul_heap_threaded_effects
  by_cases hz : poly2.length = 0 ∨ poly3.length = 0
  · simp only [if_pos hz]
    intro h
    exact absurd h (by simp)
  · simp only [if_neg hz]
    cases mul_product_bits codec poly2 poly3 ctx with
    | none =>
      intro _
      exact ⟨rfl, rfl, rfl, rfl, rfl⟩
    | some exp_bits =>
      simp only
      split <;> intro h <;> exact absurd h (by simp)

/-- Witness of C11: the product of two monomials `x^(2^62)` throws; the
output object still holds `5x`, and nothing has run. -/
theorem fmpz_mpoly_mul_heap_threaded_atomic_witness :
    fmpz_mpoly_mul_heap_threaded mpoly_codec_words 1 (.fresh ⟨[5], [[1]], 16⟩)
        ⟨[1], [[2 ^ 62]], 64⟩ ⟨[1], [[2 ^ 62]], 64⟩ ⟨1, .ORD_LEX⟩ = .FLINT_EXPOF ∧
    (fmpz_mpoly_mul_heap_threaded_effects mpoly_codec_words 1 (.fresh ⟨[5], [[1]], 16⟩)
        ⟨[1], [[2 ^ 62]], 64⟩ ⟨[1], [[2 ^ 62]], 64⟩ ⟨1, .ORD_LEX⟩).2 = ⟨⟨[5], [[1]], 16⟩, 0, 0, 2⟩ ∧
    (fmpz_mpoly_mul_heap_threaded_effects mpoly_codec_words 1 (.fresh ⟨[5], [[1]], 16⟩)
        ⟨[1], [[2 ^ 61]], 64⟩ ⟨[1], [[2 ^ 61]], 64⟩ ⟨1, .ORD_LEX⟩).2 =
      ⟨⟨[1], [[2 ^ 62]], 64⟩, 1, 4, 2⟩ ∧
    ((fmpz_mpoly_mul_heap_threaded_effects mpoly_codec_words 1 (.fresh ⟨[5], [[1]], 16⟩)
        ⟨[1], [[2 ^ 62]], 64⟩ ⟨[1], [[2 ^ 62]], 64⟩ ⟨1, .ORD_LEX⟩).1 = .FLINT_EXPOF ∧
      (fmpz_mpoly_mul_heap_threaded_effects mpoly_codec_words 1 (.fresh ⟨[5], [[1]], 16⟩)
        ⟨[1], [[2 ^ 62]], 64⟩ ⟨[1], [[2 ^ 62]], 64⟩ ⟨1, .ORD_LEX⟩).2.poly1 =
        (mul_output.fresh ⟨[5], [[1]], 16⟩).old ⟨[1], [[2 ^ 62]], 64⟩ ⟨[1], [[2 ^ 62]], 64⟩ ∧
      (fmpz_mpoly_mul_heap_threaded_effects mpoly_codec_words 1 (.fresh ⟨[5], [[1]], 16⟩)
        ⟨[1], [[2 ^ 62]], 64⟩ ⟨[1], [[2 ^ 62]], 64⟩ ⟨1, .ORD_LEX⟩).2.poly1.length =
        ((mul_output.fresh ⟨[5], [[1]], 16⟩).old ⟨[1], [[2 ^ 62]], 64⟩
          ⟨[1], [[2 ^ 62]], 64⟩).length ∧
      (fmpz_mpoly_mul_heap_threaded_effects mpoly_codec_words 1 (.fresh ⟨[5], [[1]], 16⟩)
        ⟨[1], [[2 ^ 62]], 64⟩ ⟨[1], [[2 ^ 62]], 64⟩ ⟨1, .ORD_LEX⟩).2.planner_runs = 0 ∧
      (fmpz_mpoly_mul_heap_threaded_effects mpoly_codec_words 1 (.fresh ⟨[5], [[1]], 16⟩)
        ⟨[1], [[2 ^ 62]], 64⟩ ⟨[1], [[2 ^ 62]], 64⟩ ⟨1, .ORD_LEX⟩).2.kernel_runs = 0) :=
  ⟨by decide, by decide, by decide,
    fmpz_mpoly_mul_heap_threaded_atomic mpoly_codec_words 1 (.fresh ⟨[5], [[1]], 16⟩)
      ⟨[1], [[2 ^ 62]], 64⟩ ⟨[1], [[2 ^ 62]], 64⟩ ⟨1, .ORD_LEX⟩ (by decide)⟩

/-! ## The worked example -/

/-- C12: for `A = 3x^2 + 2xy` and `B = x - y` under the lexicographic order
(eight bits per exponent, `x` in the higher field) the single-word kernel
run on the full window writes exactly three terms, with coefficients
`3, -1, -2` on the monomials `x^3, x^2*y, x*y^2` in that order; the pairs
`(0, 1)` and `(1, 0)` both carry `x^2*y`, with products `-3` and `2`.  The
entry point gives the same three terms. -/
theorem fmpz_mpoly_mul_heap_part1_example :
    _fmpz_mpoly_mul_heap_part1 [3, 2] [0x0200, 0x0101] 2 [1, -1] [0x0100, 0x0001] 2
        [0, 0] [2, 2] 0 = some [(3, 0x0300), (-1, 0x0201), (-2, 0x0102)] ∧
      mul_pair_exp (mpoly_ops1 0) [0x0200, 0x0101] [0x0100, 0x0001] 0 1 = 0x0201 ∧
      mul_pair_exp (mpoly_ops1 0) [0x0200, 0x0101] [0x0100, 0x0001] 1 0 = 0x0201 ∧
      mul_pair_prod [3, 2] [1, -1] ⟨0, 1⟩ = -3 ∧
      mul_pair_prod [3, 2] [1, -1] ⟨1, 0⟩ = 2 ∧
      fmpz_mpoly_mul_heap_threaded mpoly_codec_words 1 (.fresh ⟨[], [], 8⟩)
        mul_example_poly2 mul_example_poly3 mul_example_ctx
        = .done ⟨[3, -1, -2], [[3, 0], [2, 1], [1, 2]], 64⟩ := by
  refine ⟨by decide, by decide, by decide, by decide, by decide, by decide⟩

/-! ## The targets of the planner -/

theorem slong_mul_zero (a : Int) : slong_mul a 0 = 0 := by
  simp only [slong_mul, slong_wrap, FLINT_BITS, Int.mul_zero]
  norm_num

/-- C13: for a thread count `T` whose `D = 4T` has a square in the range of
`slong`, the planner creates `D` divisions, and for every `d < D` such that
`(d+1)^2 * len2 * len3` does not overflow a signed word the target of
division `d` is `floor((d+1)^2 * len2 * len3 / D^2)`; the search is called
with this value as both its lower and its upper bound. -/
theorem fmpz_mpoly_mul_heap_threaded_targets (N T : Nat) (exp2 : List (mpoly_monomial N))
    (len2 : Nat) (exp3 : List (mpoly_monomial N)) (len3 : Nat) (maskhi masklo : Nat) (d : Nat)
    (hD : (4 * T) * (4 * T) < 2 ^ (FLINT_BITS - 1)) (hd : d < 4 * T)
    (hov : (d + 1) * (d + 1) * len2 * len3 < 2 ^ (FLINT_BITS - 1)) :
    (mul_heap_threaded_ndivs T).toNat = 4 * T ∧
      mul_heap_threaded_lower T len2 len3 d =
        (((d + 1) * (d + 1) * len2 * len3 / ((4 * T) * (4 * T)) : Nat) : Int) ∧
      mul_heap_threaded_line N T exp2 len2 exp3 len3 maskhi masklo d =
        (mpoly_search_monomials N
          (((d + 1) * (d + 1) * len2 * len3 / ((4 * T) * (4 * T)) : Nat) : Int)
          (((d + 1) * (d + 1) * len2 * len3 / ((4 * T) * (4 * T)) : Nat) : Int)
          exp2 len2 exp3 len3 maskhi masklo).1 := by
  simp only [FLINT_BITS] at hD hov
  have hT : 0 < 4 * T := by omega
  have h4 : 4 * T ≤ (4 * T) * (4 * T) := Nat.le_mul_of_pos_right _ hT
  have hsq : (d + 1) * (d + 1) ≤ (4 * T) * (4 * T) := Nat.mul_le_mul (by omega) (by omega)
  have hn : mul_heap_threaded_ndivs T = ((4 * T : Nat) : Int) := by
    unfold mul_heap_threaded_ndivs
    have e : (4 : Int) = ((4 : Nat) : Int) := rfl
    rw [e, slong_mul_nat T 4 (by omega), Nat.mul_comm]
  have hl : mul_heap_threaded_lower T len2 len3 d =
      (((d + 1) * (d + 1) * len2 * len3 / ((4 * T) * (4 * T)) : Nat) : Int) := by
    unfold mul_heap_threaded_lower
    have e : (d : Int) + 1 = ((d + 1 : Nat) : Int) := by push_cast; ring
    rw [hn, e, slong_mul_nat _ _ hD, slong_mul_nat _ _ (by omega)]
    rcases Nat.eq_zero_or_pos len3 with h3 | h3
    · subst h3
      simp [slong_mul_zero]
    · have h2 : (d + 1) * (d + 1) * len2 ≤ (d + 1) * (d + 1) * len2 * len3 :=
        Nat.le_mul_of_pos_right _ h3
      rw [slong_mul_nat _ _ (by omega), slong_mul_nat _ _ hov,
        Int.tdiv_eq_ediv (Int.natCast_nonneg _) (Int.natCast_nonneg _)]
      exact (Int.natCast_div _ _).symm
  refine ⟨?_, hl, ?_⟩
  · rw [hn]
    exact Int.toNat_natCast _
  · unfold mul_heap_threaded_line
    rw [hl]

/-- Witness of C13: two threads, both lengths 2, division 5: the target is
`floor(36 * 4 / 64) = 2`. -/
theorem fmpz_mpoly_mul_heap_threaded_targets_witness :
    ((4 * 2) * (4 * 2) < 2 ^ (FLINT_BITS - 1) ∧ 5 < 4 * 2 ∧
      (5 + 1) * (5 + 1) * 2 * 2 < 2 ^ (FLINT_BITS - 1)) ∧
    mul_heap_threaded_lower 2 2 2 5 = 2 ∧
    ((mul_heap_threaded_ndivs 2).toNat = 4 * 2 ∧
      mul_heap_threaded_lower 2 2 2 5 =
        (((5 + 1) * (5 + 1) * 2 * 2 / ((4 * 2) * (4 * 2)) : Nat) : Int) ∧
      mul_heap_threaded_line 1 2 mul_example_exp2 2 mul_example_exp3 2 0 0 5 =
        (mpoly_search_monomials 1
          (((5 + 1) * (5 + 1) * 2 * 2 / ((4 * 2) * (4 * 2)) : Nat) : Int)
          (((5 + 1) * (5 + 1) * 2 * 2 / ((4 * 2) * (4 * 2)) : Nat) : Int)
          mul_example_exp2 2 mul_example_exp3 2 0 0).1) :=
  ⟨⟨by decide, by decide, by decide⟩, by decide,
    fmpz_mpoly_mul_heap_threaded_targets 1 2 mul_example_exp2 2 mul_example_exp3 2 0 0 5
      (by decide) (by decide) (by decide)⟩

/-! ## The dispatch of the divisions -/

theorem slong_wrap_eq (z : Int) (h1 : -(2 : Int) ^ 63 ≤ z) (h2 : z < (2 : Int) ^ 63) :
    slong_wrap z = z := by
  simp only [slong_wrap, FLINT_BITS]
  norm_num at h1 h2 ⊢
  omega

theorem int_wrap_eq (z : Int) (h1 : -(2 : Int) ^ 31 ≤ z) (h2 : z < (2 : Int) ^ 31) :
    int_wrap z = z := by
  simp only [int_wrap]
  norm_num at h1 h2 ⊢
  omega

theorem mul_getD_set (l : List Bool) (w w' : Nat) :
    (l.set w true).getD w' true = if w = w' then true else l.getD w' true := by
  induction l generalizing w w' with
  | nil => simp
  | cons b l ih =>
    cases w with
    | zero =>
      cases w' with
      | zero => simp
      | succ w' => simp
    | succ w =>
      cases w' with
      | zero => simp
      | succ w' =>
        simp only [List.set_cons_succ, List.getD_cons_succ, ih, Nat.succ_inj']

theorem mul_count_set (l : List Bool) (w : Nat) (h : l.getD w true = false) :
    (l.set w true).count true = l.count true + 1 := by
  induction l generalizing w with
  | nil => simp at h
  | cons b l ih =>
    cases w with
    | zero =>
      simp only [List.getD_cons_zero] at h
      subst h
      simp
    | succ w =>
      simp only [List.getD_cons_succ] at h
      simp only [List.set_cons_succ, List.count_cons, ih w h]
      omega

theorem mul_getD_replicate_bool (n i : Nat) (hi : i < n) :
    (List.replicate n false).getD i true = false := by
  rw [List.getD_eq_getElem _ _ (by simpa using hi)]
  simp

theorem mul_dispatch_inv_init (nthreads : Nat) (hT : 4 * nthreads < 2 ^ 31) :
    mul_dispatch_inv nthreads (mul_dispatch_init nthreads) := by
  have hn : int_wrap (mul_heap_threaded_ndivs nthreads) = ((4 * nthreads : Nat) : Int) := by
    unfold mul_heap_threaded_ndivs
    have e : (4 : Int) = ((4 : Nat) : Int) := rfl
    rw [e, slong_mul_nat nthreads 4 (by omega), Nat.mul_comm]
    apply int_wrap_eq
    · have : (0 : Int) ≤ ((4 * nthreads : Nat) : Int) := Int.natCast_nonneg _
      norm_num
      omega
    · norm_num
      omega
  refine ⟨by simp [mul_dispatch_init], by simp [mul_dispatch_init, hn], ?_, by
    simp [mul_dispatch_init], by simp [mul_dispatch_init], by simp [mul_dispatch_init], ?_⟩
  · simp only [mul_dispatch_init, hn]
    have : (0 : Int) ≤ (((List.replicate nthreads false).count true : Nat) : Int) :=
      Int.natCast_nonneg _
    have : (0 : Int) ≤ ((4 * nthreads : Nat) : Int) := Int.natCast_nonneg _
    omega
  · intro w hw h
    simp only [mul_dispatch_init] at h
    rw [mul_getD_replicate_bool nthreads w hw] at h
    exact Bool.noConfusion h

theorem mul_dispatch_inv_claim (nthreads : Nat) (hT : 4 * nthreads < 2 ^ 31)
    (s : mul_dispatch) (w : Nat) (h : mul_dispatch_inv nthreads s) :
    mul_dispatch_inv nthreads (mul_dispatch_claim s w) := by
  unfold mul_dispatch_claim
  by_cases hw : s.stopped.getD w true = true
  · rw [if_pos hw]
    exact h
  · rw [if_neg hw]
    have hwf : s.stopped.getD w true = false := by simpa using hw
    obtain ⟨hworkers, hcounter, hfloor, hvalues, hlast, hstops, hby⟩ := h
    have hcnt : s.stopped.count true ≤ nthreads := hworkers ▸ List.count_le_length _ _
    have hlen0 : (0 : Int) ≤ (s.claims.length : Int) := Int.natCast_nonneg _
    have hi : int_wrap (s.idx - 1) = s.idx - 1 := by
      apply int_wrap_eq
      · norm_num
        omega
      · norm_num
        omega
    rw [hi]
    refine ⟨?_, ?_, ?_, ?_, ?_, ?_, ?_⟩
    · show (if 0 ≤ s.idx - 1 then s.stopped else s.stopped.set w true).length = nthreads
      split_ifs <;> simp [hworkers]
    · show s.idx - 1 = ((4 * nthreads : Nat) : Int) - ((s.claims ++ [(w, s.idx - 1)]).length : Int)
      rw [List.length_append, List.length_singleton, hcounter]
      push_cast
      ring
    · show -(((if 0 ≤ s.idx - 1 then s.stopped else s.stopped.set w true).count true : Nat) : Int)
        ≤ s.idx - 1
      split_ifs with h0
      · have : (0 : Int) ≤ ((s.stopped.count true : Nat) : Int) := Int.natCast_nonneg _
        omega
      · rw [mul_count_set _ _ hwf]
        push_cast
        omega
    · show (s.claims ++ [(w, s.idx - 1)]).map (fun c => c.2) =
        (List.range (s.claims ++ [(w, s.idx - 1)]).length).map
          fun (t : Nat) => ((4 * nthreads : Nat) : Int) - 1 - (t : Int)
      rw [List.length_append, List.length_singleton, List.range_succ, List.map_append,
        List.map_append, hvalues, hcounter]
      simp only [List.map_cons, List.map_nil, List.append_cancel_left_eq, List.cons.injEq,
        and_true]
      ring
    · show (s.claims ++ [(w, s.idx - 1)]).Pairwise fun c c' => c.2 < 0 → c'.1 ≠ c.1
      rw [List.pairwise_append]
      refine ⟨hlast, List.pairwise_singleton _ _, ?_⟩
      intro c hc c' hc' hneg
      rw [List.mem_singleton] at hc'
      subst hc'
      intro hww
      have := hstops c hc hneg
      simp only at hww
      rw [← hww, hwf] at this
      exact Bool.noConfusion this
    · show ∀ c ∈ s.claims ++ [(w, s.idx - 1)], c.2 < 0 →
        (if 0 ≤ s.idx - 1 then s.stopped else s.stopped.set w true).getD c.1 true = true
      intro c hc hneg
      rcases List.mem_append.1 hc with hc | hc
      · have := hstops c hc hneg
        split_ifs
        · exact this
        · rw [mul_getD_set, this]
          simp
      · rw [List.mem_singleton] at hc
        subst hc
        simp only at hneg
        rw [if_neg (by omega), mul_getD_set]
        simp
    · show ∀ w', w' < nthreads →
        (if 0 ≤ s.idx - 1 then s.stopped else s.stopped.set w true).getD w' true = true →
        ∃ c ∈ s.claims ++ [(w, s.idx - 1)], c.1 = w' ∧ c.2 < 0
      intro w' hw' hst
      split_ifs at hst with h0
      · obtain ⟨c, hc, h1, h2⟩ := hby w' hw' hst
        exact ⟨c, List.mem_append_left _ hc, h1, h2⟩
      · rw [mul_getD_set] at hst
        by_cases hww : w = w'
        · exact ⟨(w, s.idx - 1), List.mem_append_right _ (List.mem_singleton_self _), hww,
            by simp only; omega⟩
        · rw [if_neg hww] at hst
          obtain ⟨c, hc, h1, h2⟩ := hby w' hw' hst
          exact ⟨c, List.mem_append_left _ hc, h1, h2⟩

theorem mul_dispatch_inv_run (nthreads : Nat) (hT : 4 * nthreads < 2 ^ 31)
    (sched : List Nat) : mul_dispatch_inv nthreads (mul_dispatch_run nthreads sched) := by
  unfold mul_dispatch_run
  have key : ∀ (l : List Nat) (s : mul_dispatch), mul_dispatch_inv nthreads s →
      mul_dispatch_inv nthreads (l.foldl mul_dispatch_claim s) := by
    intro l
    induction l with
    | nil => intro s hs; exact hs
    | cons w l ih =>
      intro s hs
      exact ih _ (mul_dispatch_inv_claim nthreads hT s w hs)
  exact key sched _ (mul_dispatch_inv_init nthreads hT)

/-- The values that are not negative among `D - 1, D - 2, ..., D - n`. -/
theorem mul_dispatch_filter (D n : Nat) :
    (((List.range n).map fun (t : Nat) => ((D : Nat) : Int) - 1 - (t : Int)).filter
        fun i => decide (0 ≤ i)) =
      (List.range (min n D)).map fun (t : Nat) => ((D : Nat) : Int) - 1 - (t : Int) := by
  induction n with
  | zero => simp
  | succ n ih =>
    rw [List.range_succ, List.map_append, List.filter_append, ih]
    by_cases hn : n < D
    · have e1 : min (n + 1) D = n + 1 := by omega
      have e2 : min n D = n := by omega
      rw [e1, e2, List.range_succ, List.map_append]
      congr 1
      simp only [List.map_cons, List.map_nil]
      rw [List.filter_cons_of_pos (by simp; omega)]
      rfl
    · have e1 : min (n + 1) D = D := by omega
      have e2 : min n D = D := by omega
      rw [e1, e2]
      simp only [List.map_cons, List.map_nil]
      rw [List.filter_cons_of_neg (by simp; omega)]
      simp

/-- C14: worker-pull dispatch.  For a thread count `T` whose `D = 4T` is in
the range of `int`, the type of the counter `base->idx`, the shared counter
starts at `D`, and in
every interleaving of the workers' claim steps: claim number `t` obtains the
value `D - 1 - t`, so the values claimed that are not negative are
`D - 1, D - 2, ...` in this order, without repetition, each in the one claim
of the one worker that obtained it; a worker makes no further claim after a
negative one and has then left its loop; at most `D + T` claims are made;
and once every worker has left its loop the values processed are exactly
`D - 1, ..., 0`. -/
theorem fmpz_mpoly_mul_heap_threaded_dispatch (T : Nat) (sched : List Nat)
    (hT : 4 * T < 2 ^ 31) :
    (mul_dispatch_init T).idx = ((4 * T : Nat) : Int) ∧
      (mul_dispatch_run T sched).claims.map (fun c => c.2) =
        ((List.range (mul_dispatch_run T sched).claims.length).map
          fun (t : Nat) => ((4 * T : Nat) : Int) - 1 - (t : Int)) ∧
      mul_dispatch_processed (mul_dispatch_run T sched) =
        ((List.range (min (mul_dispatch_run T sched).claims.length (4 * T))).map
          fun (t : Nat) => ((4 * T : Nat) : Int) - 1 - (t : Int)) ∧
      (mul_dispatch_processed (mul_dispatch_run T sched)).Nodup ∧
      (mul_dispatch_run T sched).claims.Pairwise (fun c c' => c.2 < 0 → c'.1 ≠ c.1) ∧
      (∀ c ∈ (mul_dispatch_run T sched).claims, c.2 < 0 →
        (mul_dispatch_run T sched).stopped.getD c.1 true = true) ∧
      (mul_dispatch_run T sched).claims.length ≤ 4 * T + T ∧
      ((∀ w, w < T → (mul_dispatch_run T sched).stopped.getD w true = true) → 0 < T →
        mul_dispatch_processed (mul_dispatch_run T sched) =
          ((List.range (4 * T)).map fun (t : Nat) => ((4 * T : Nat) : Int) - 1 - (t : Int))) := by
  have hinv := mul_dispatch_inv_run T hT sched
  have hinit := mul_dispatch_inv_init T hT
  obtain ⟨hworkers, hcounter, hfloor, hvalues, hlast, hstops, hby⟩ := hinv
  have hproc : mul_dispatch_processed (mul_dispatch_run T sched) =
      ((List.range (min (mul_dispatch_run T sched).claims.length (4 * T))).map
        fun (t : Nat) => ((4 * T : Nat) : Int) - 1 - (t : Int)) := by
    unfold mul_dispatch_processed
    rw [hvalues, mul_dispatch_filter]
  have hcnt : (mul_dispatch_run T sched).stopped.count true ≤ T := by
    have hle := List.count_le_length true (mul_dispatch_run T sched).stopped
    rw [hworkers] at hle
    exact hle
  refine ⟨by simpa using hinit.counter, hvalues, hproc, ?_, hlast, hstops, ?_, ?_⟩
  · rw [hproc]
    apply List.Nodup.map _ (List.nodup_range _)
    intro x y hxy
    simp only at hxy
    omega
  · omega
  · intro hall hpos
    obtain ⟨c, hc, -, hneg⟩ := hby 0 hpos (hall 0 hpos)
    have hmem : c.2 ∈ (mul_dispatch_run T sched).claims.map (fun c => c.2) :=
      List.mem_map.2 ⟨c, hc, rfl⟩
    rw [hvalues, List.mem_map] at hmem
    obtain ⟨t, ht, hval⟩ := hmem
    rw [List.mem_range] at ht
    have e : min (mul_dispatch_run T sched).claims.length (4 * T) = 4 * T := by
      have : ((4 * T : Nat) : Int) ≤ (t : Int) := by omega
      omega
    rw [hproc, e]

/-- Witness of C14: two workers and eight divisions; worker 0 obtains
`7, 4, 3, 1` and then `-2`, worker 1 obtains `6, 5, 2, 0` and then `-1`. -/
theorem fmpz_mpoly_mul_heap_threaded_dispatch_witness :
    4 * 2 < 2 ^ 31 ∧
    (mul_dispatch_run 2 [0, 1, 1, 0, 0, 1, 0, 1, 1, 0]).claims =
      [(0, 7), (1, 6), (1, 5), (0, 4), (0, 3), (1, 2), (0, 1), (1, 0), (1, -1), (0, -2)] ∧
    mul_dispatch_processed (mul_dispatch_run 2 [0, 1, 1, 0, 0, 1, 0, 1, 1, 0]) =
      ((List.range (4 * 2)).map fun (t : Nat) => ((4 * 2 : Nat) : Int) - 1 - (t : Int)) :=
  ⟨by decide, by decide,
    (fmpz_mpoly_mul_heap_threaded_dispatch 2 [0, 1, 1, 0, 0, 1, 0, 1, 1, 0]
      (by decide)).2.2.2.2.2.2.2 (by decide) (by decide)⟩

/-! ## The assembly of the divisions -/

theorem mul_heap_threaded_join_total {α : Type} (outs : Nat → List α) (n : Nat) :
    mul_heap_threaded_join (fun d => some (outs d)) n =
      some ((List.range n).reverse.flatMap outs) := by
  induction n with
  | zero => rfl
  | succ n ih =>
    simp only [mul_heap_threaded_join, ih, List.range_succ, List.reverse_append,
      List.reverse_cons, List.reverse_nil, List.nil_append, List.singleton_append,
      List.flatMap_cons]

theorem mul_flatMap_length {α : Type} (outs : Nat → List α) (l : List Nat) :
    (l.flatMap outs).length = (l.map fun d => (outs d).length).sum := by
  induction l with
  | nil => rfl
  | cons x l ih => simp only [List.flatMap_cons, List.length_append, ih, List.map_cons,
      List.sum_cons]

/-- C15 (amended): every division `d` has an output `outs d`, and the term
sequence of `_fmpz_mpoly_mul_heap_threaded` is the concatenation of these
outputs in descending order of the division index, the terms of division
`D - 1` first and those of division `0` last; the returned length is the sum
of the lengths of the outputs. -/
theorem fmpz_mpoly_mul_heap_threaded_assembly (N nthreads : Nat) (coeff2 : List Int)
    (exp2 : List (mpoly_monomial N)) (len2 : Nat) (coeff3 : List Int)
    (exp3 : List (mpoly_monomial N)) (len3 : Nat) (maskhi masklo : Nat) :
    ∃ outs : Nat → List (Int × mpoly_monomial N), ∃ res,
      (∀ d, _fmpz_mpoly_mul_heap_threaded_worker N nthreads coeff2 exp2 len2 coeff3 exp3 len3
        maskhi masklo d = some (outs d)) ∧
      _fmpz_mpoly_mul_heap_threaded N nthreads coeff2 exp2 len2 coeff3 exp3 len3 maskhi masklo
        = some res ∧
      res = (List.range (mul_heap_threaded_ndivs nthreads).toNat).reverse.flatMap outs ∧
      res.length =
        ((List.range (mul_heap_threaded_ndivs nthreads).toNat).map fun d => (outs d).length).sum := by
  have hex : ∀ d, ∃ r, _fmpz_mpoly_mul_heap_threaded_worker N nthreads coeff2 exp2 len2 coeff3
      exp3 len3 maskhi masklo d = some r := by
    intro d
    obtain ⟨r, hr, -⟩ := mul_heap_part_nonzero N coeff2 exp2 len2 coeff3 exp3 len3
      (mul_heap_threaded_start N nthreads exp2 len2 exp3 len3 maskhi masklo d)
      (mul_heap_threaded_end N nthreads exp2 len2 exp3 len3 maskhi masklo d) maskhi masklo
    exact ⟨r, hr⟩
  choose outs houts using hex
  refine ⟨outs, _, houts, ?_, rfl, ?_⟩
  · unfold _fmpz_mpoly_mul_heap_threaded
    rw [funext houts]
    exact mul_heap_threaded_join_total outs _
  · rw [mul_flatMap_length, List.map_reverse, List.sum_reverse]

/-- C15, as stated, fails: for `(3x^2 + 2xy)(x - y)` with one thread the four
divisions produce `-2*x*y^2`, nothing, `-x^2*y` and `3*x^3`; the function
returns the terms `3*x^3, -x^2*y, -2*x*y^2`, which is not the concatenation
from division 0 to division 3. -/
theorem fmpz_mpoly_mul_heap_threaded_assembly_descends :
    _fmpz_mpoly_mul_heap_threaded_worker 1 1 [3, 2] mul_example_exp2 2 [1, -1] mul_example_exp3 2
        0 0 0 = some [(-2, mpoly_monomial_of_word rfl 0x0102)] ∧
      _fmpz_mpoly_mul_heap_threaded_worker 1 1 [3, 2] mul_example_exp2 2 [1, -1]
        mul_example_exp3 2 0 0 1 = some [] ∧
      _fmpz_mpoly_mul_heap_threaded_worker 1 1 [3, 2] mul_example_exp2 2 [1, -1]
        mul_example_exp3 2 0 0 2 = some [(-1, mpoly_monomial_of_word rfl 0x0201)] ∧
      _fmpz_mpoly_mul_heap_threaded_worker 1 1 [3, 2] mul_example_exp2 2 [1, -1]
        mul_example_exp3 2 0 0 3 = some [(3, mpoly_monomial_of_word rfl 0x0300)] ∧
      (mul_heap_threaded_ndivs 1).toNat = 4 ∧
      _fmpz_mpoly_mul_heap_threaded 1 1 [3, 2] mul_example_exp2 2 [1, -1] mul_example_exp3 2 0 0
        = some [(3, mpoly_monomial_of_word rfl 0x0300), (-1, mpoly_monomial_of_word rfl 0x0201),
            (-2, mpoly_monomial_of_word rfl 0x0102)] ∧
      _fmpz_mpoly_mul_heap_threaded 1 1 [3, 2] mul_example_exp2 2 [1, -1] mul_example_exp3 2 0 0
        ≠ some ([(-2, mpoly_monomial_of_word rfl 0x0102)] ++ [] ++
            [(-1, mpoly_monomial_of_word rfl 0x0201)] ++
            [(3, mpoly_monomial_of_word rfl 0x0300)]) := by
  refine ⟨by decide, by decide, by decide, by decide, by decide, by decide, by decide⟩

/-! ## Claims on the monomial search -/

theorem mul_count_initial (P : Nat → Bool) (n k : Nat) (hk : k ≤ n)
    (h : ∀ j, j < n → (P j = true ↔ j < k)) : ((List.range n).filter P).length = k := by
  induction n generalizing k with
  | zero => simp; omega
  | succ n ih =>
    rw [List.range_succ, List.filter_append, List.length_append]
    by_cases hkn : k ≤ n
    · have hP : P n = false := by
        have := h n (Nat.lt_succ_self n)
        cases hPn : P n with
        | false => rfl
        | true => exact absurd (this.1 hPn) (by omega)
      rw [ih k hkn (fun j hj => h j (Nat.lt_succ_of_lt hj))]
      simp [hP]
    · have hk' : k = n + 1 := by omega
      have hP : P n = true := (h n (Nat.lt_succ_self n)).2 (by omega)
      rw [ih n (le_refl n) (fun j hj => by
        rw [h j (Nat.lt_succ_of_lt hj)]
        constructor
        · intro _; exact hj
        · intro _; omega)]
      simp [hP, hk']

/-- The columns of a row that pass the comparison with `e` are exactly the
columns below the boundary of the row. -/
theorem mul_search_row_iff {M : Type} [DecidableEq M] [Inhabited M] (ops : mpoly_ops M)
    (laws : ops.strict_total) (a b : List M) (a_len b_len : Nat)
    (hfull : mul_rows_ordered ops a b a_len (List.replicate a_len 0)
      (List.replicate a_len b_len))
    (e : M) (i j : Nat) (hi : i < a_len) (hj : j < b_len) :
    ops.before (ops.add (a.getD i default) (b.getD j default)) e = true ↔
      j < mul_search_row ops (a.getD i default) b b_len e := by
  constructor
  · intro h
    exact mul_search_row_lt ops _ b b_len e j hj h
  · intro h
    exact mul_search_row_below ops laws a b a_len b_len hfull e i j hi h

/-- C16: for sorted inputs whose sums are ordered along every row, the
boundary array returned by `mpoly_search_monomials` is consistent with the
returned monomial `e`: it has one entry per row, and for every row `i` the
columns `j` whose sum `fexp[i] + gexp[j]` is `mpoly_monomial_lt` the
monomial `e` are exactly the columns `j < e_ind[i]`, so that `e_ind[i]`,
which is at most the length of the second operand, is their number; it is
the value the test recounts, one plus the last such column and 0 when there
is none. -/
theorem mpoly_search_monomials_boundary (N : Nat) (lower upper : Int)
    (a : List (mpoly_monomial N)) (a_len : Nat) (b : List (mpoly_monomial N)) (b_len : Nat)
    (maskhi masklo : Nat)
    (hfull : mul_rows_ordered (mpoly_opsN N maskhi masklo) a b a_len (List.replicate a_len 0)
      (List.replicate a_len b_len))
    (i : Nat) (hi : i < a_len) :
    (mpoly_search_monomials N lower upper a a_len b b_len maskhi masklo).1.length = a_len ∧
      (mpoly_search_monomials N lower upper a a_len b b_len maskhi masklo).1.getD i 0 ≤ b_len ∧
      (∀ j, j < b_len →
        (mpoly_monomial_lt (mpoly_monomial_add (a.getD i default) (b.getD j default))
            (mpoly_search_monomials N lower upper a a_len b b_len maskhi masklo).2.1
            maskhi masklo = true ↔
          j < (mpoly_search_monomials N lower upper a a_len b b_len maskhi masklo).1.getD i 0)) ∧
      (mpoly_search_monomials N lower upper a a_len b b_len maskhi masklo).1.getD i 0 =
        ((List.range b_len).filter fun j =>
          mpoly_monomial_lt (mpoly_monomial_add (a.getD i default) (b.getD j default))
            (mpoly_search_monomials N lower upper a a_len b b_len maskhi masklo).2.1
            maskhi masklo).length ∧
      (mpoly_search_monomials N lower upper a a_len b b_len maskhi masklo).1.getD i 0 =
        mul_search_row (mpoly_opsN N maskhi masklo) (a.getD i default) b b_len
          (mpoly_search_monomials N lower upper a a_len b b_len maskhi masklo).2.1 := by
  have laws := mpoly_opsN_strict_total N maskhi masklo
  unfold mpoly_search_monomials
  rw [mul_search_fst, mul_search_ind_getD _ _ _ _ _ _ _ hi]
  have hiff := fun j (hj : j < b_len) => mul_search_row_iff (mpoly_opsN N maskhi masklo) laws
    a b a_len b_len hfull
    (mul_search (mpoly_opsN N maskhi masklo) lower upper a a_len b b_len).2.1 i j hi hj
  refine ⟨by simp [mul_search_ind], mul_search_row_le _ _ _ _ _, hiff, ?_, rfl⟩
  exact (mul_count_initial _ b_len _ (mul_search_row_le _ _ _ _ _) hiff).symm

/-- Witness of C16: the search with window `[1, 2]` on the monomials of
`3x^2 + 2xy` and `x - y`, row 1. -/
theorem mpoly_search_monomials_boundary_witness :
    (mul_rows_ordered (mpoly_opsN 1 0 0) mul_example_exp2 mul_example_exp3 2
        (List.replicate 2 0) (List.replicate 2 2) ∧ 1 < 2) ∧
    (mpoly_search_monomials 1 1 2 mul_example_exp2 2 mul_example_exp3 2 0 0).1 = [2, 1] ∧
    ((mpoly_search_monomials 1 1 2 mul_example_exp2 2 mul_example_exp3 2 0 0).1.length = 2 ∧
      (mpoly_search_monomials 1 1 2 mul_example_exp2 2 mul_example_exp3 2 0 0).1.getD 1 0 ≤ 2 ∧
      (∀ j, j < 2 →
        (mpoly_monomial_lt
            (mpoly_monomial_add (mul_example_exp2.getD 1 default) (mul_example_exp3.getD j default))
            (mpoly_search_monomials 1 1 2 mul_example_exp2 2 mul_example_exp3 2 0 0).2.1
            0 0 = true ↔
          j < (mpoly_search_monomials 1 1 2 mul_example_exp2 2 mul_example_exp3 2 0 0).1.getD 1 0)) ∧
      (mpoly_search_monomials 1 1 2 mul_example_exp2 2 mul_example_exp3 2 0 0).1.getD 1 0 =
        ((List.range 2).filter fun j =>
          mpoly_monomial_lt
            (mpoly_monomial_add (mul_example_exp2.getD 1 default) (mul_example_exp3.getD j default))
            (mpoly_search_monomials 1 1 2 mul_example_exp2 2 mul_example_exp3 2 0 0).2.1
            0 0).length ∧
      (mpoly_search_monomials 1 1 2 mul_example_exp2 2 mul_example_exp3 2 0 0).1.getD 1 0 =
        mul_search_row (mpoly_opsN 1 0 0) (mul_example_exp2.getD 1 default) mul_example_exp3 2
          (mpoly_search_monomials 1 1 2 mul_example_exp2 2 mul_example_exp3 2 0 0).2.1) :=
  ⟨⟨by decide, by decide⟩, by decide,
    mpoly_search_monomials_boundary 1 1 2 mul_example_exp2 2 mul_example_exp3 2 0 0
      (by decide) 1 (by decide)⟩

theorem mul_count_pairs (P : Nat → Nat → Bool) (m n : Nat) (k : Nat → Nat)
    (hk : ∀ i, i < m → k i ≤ n)
    (h : ∀ i, i < m → ∀ j, j < n → (P i j = true ↔ j < k i)) :
    ((((Finset.range m ×ˢ Finset.range n).filter fun p => P p.1 p.2 = true).card : Nat) : Int) =
        ((List.range m).map fun i => ((k i : Nat) : Int)).sum ∧
      ((((Finset.range m ×ˢ Finset.range n).filter fun p => P p.1 p.2 = false).card : Nat) : Int)
        = ((List.range m).map fun i => (n : Int) - ((k i : Nat) : Int)).sum := by
  constructor
  · rw [mul_sum_range, Finset.card_filter, Finset.sum_product]
    push_cast
    apply Finset.sum_congr rfl
    intro i hi
    rw [Finset.mem_range] at hi
    have hf : (Finset.range n).filter (fun j => P i j = true) = Finset.range (k i) := by
      ext j
      simp only [Finset.mem_filter, Finset.mem_range]
      constructor
      · rintro ⟨hj, hP⟩
        exact (h i hi j hj).1 hP
      · intro hj
        have hjn : j < n := lt_of_lt_of_le hj (hk i hi)
        exact ⟨hjn, (h i hi j hjn).2 hj⟩
    have := Finset.card_filter (fun j => P i j = true) (Finset.range n)
    rw [hf, Finset.card_range] at this
    rw [this]
    push_cast
    rfl
  · rw [mul_sum_range, Finset.card_filter, Finset.sum_product]
    push_cast
    apply Finset.sum_congr rfl
    intro i hi
    rw [Finset.mem_range] at hi
    have hf : (Finset.range n).filter (fun j => P i j = false) = Finset.Ico (k i) n := by
      ext j
      simp only [Finset.mem_filter, Finset.mem_range, Finset.mem_Ico]
      constructor
      · rintro ⟨hj, hP⟩
        refine ⟨?_, hj⟩
        by_contra hlt
        have := (h i hi j hj).2 (by omega)
        rw [hP] at this
        exact Bool.noConfusion this
      · rintro ⟨hkj, hj⟩
        refine ⟨hj, ?_⟩
        cases hP : P i j with
        | false => rfl
        | true => exact absurd ((h i hi j hj).1 hP) (by omega)
    have := Finset.card_filter (fun j => P i j = false) (Finset.range n)
    rw [hf, Nat.card_Ico] at this
    have hki := hk i hi
    have e : ((n : Int) - (k i : Int)) = ((n - k i : Nat) : Int) := by omega
    rw [e, this]
    push_cast
    rfl

/-- The score of the search is the recount of the score of its monomial. -/
theorem mul_search_snd {M : Type} [DecidableEq M] [Inhabited M] (ops : mpoly_ops M)
    (lower upper : Int) (a : List M) (a_len : Nat) (b : List M) (b_len : Nat) :
    (mul_search ops lower upper a a_len b b_len).2.2 =
      mul_search_score b_len
        (mul_search_ind ops a a_len b b_len (mul_search ops lower upper a a_len b b_len).2.1) := by
  simp only [mul_search]

theorem mul_search_score_getD {M : Type} [DecidableEq M] [Inhabited M] (ops : mpoly_ops M)
    (a : List M) (a_len : Nat) (b : List M) (b_len : Nat) (e : M) :
    mul_search_score b_len (mul_search_ind ops a a_len b b_len e) =
      ((List.range a_len).map fun i =>
        (b_len : Int) - (((mul_search_ind ops a a_len b b_len e).getD i 0 : Nat) : Int)).sum := by
  rw [mul_search_score_ind]
  congr 1
  apply List.map_congr_left
  intro i hi
  rw [mul_search_ind_getD _ _ _ _ _ _ _ (List.mem_range.1 hi)]

/-- C17: the score reported by `mpoly_search_monomials` is the recount of the
test: the sum over the rows `i` of `g.length - e_ind[i]`; for sorted inputs
whose sums are ordered along every row this is the number of pairs `(i, j)`
whose sum `fexp[i] + gexp[j]` is not `mpoly_monomial_lt` the returned
monomial `e`. -/
theorem mpoly_search_monomials_score (N : Nat) (lower upper : Int)
    (a : List (mpoly_monomial N)) (a_len : Nat) (b : List (mpoly_monomial N)) (b_len : Nat)
    (maskhi masklo : Nat)
    (hfull : mul_rows_ordered (mpoly_opsN N maskhi masklo) a b a_len (List.replicate a_len 0)
      (List.replicate a_len b_len)) :
    (mpoly_search_monomials N lower upper a a_len b b_len maskhi masklo).2.2 =
        ((List.range a_len).map fun i => (b_len : Int) -
          (((mpoly_search_monomials N lower upper a a_len b b_len maskhi masklo).1.getD i 0 : Nat)
            : Int)).sum ∧
      (mpoly_search_monomials N lower upper a a_len b b_len maskhi masklo).2.2 =
        ((((Finset.range a_len ×ˢ Finset.range b_len).filter fun p =>
          mpoly_monomial_lt (mpoly_monomial_add (a.getD p.1 default) (b.getD p.2 default))
            (mpoly_search_monomials N lower upper a a_len b b_len maskhi masklo).2.1
            maskhi masklo = false).card : Nat) : Int) := by
  have laws := mpoly_opsN_strict_total N maskhi masklo
  unfold mpoly_search_monomials
  rw [mul_search_snd, mul_search_fst, mul_search_score_getD]
  refine ⟨rfl, ?_⟩
  have hc := (mul_count_pairs
    (fun i j => mpoly_monomial_lt (mpoly_monomial_add (a.getD i default) (b.getD j default))
      (mul_search (mpoly_opsN N maskhi masklo) lower upper a a_len b b_len).2.1 maskhi masklo)
    a_len b_len
    (fun i => (mul_search_ind (mpoly_opsN N maskhi masklo) a a_len b b_len
      (mul_search (mpoly_opsN N maskhi masklo) lower upper a a_len b b_len).2.1).getD i 0)
    (fun i hi => by
      beta_reduce
      rw [mul_search_ind_getD _ _ _ _ _ _ _ hi]
      exact mul_search_row_le _ _ _ _ _)
    (fun i hi j hj => by
      beta_reduce
      rw [mul_search_ind_getD _ _ _ _ _ _ _ hi]
      exact mul_search_row_iff (mpoly_opsN N maskhi masklo) laws a b a_len b_len hfull _ i j
        hi hj)).2
  exact hc.symm

/-- Witness of C17: the search with window `[1, 2]` on the monomials of
`3x^2 + 2xy` and `x - y` reports the score 1. -/
theorem mpoly_search_monomials_score_witness :
    mul_rows_ordered (mpoly_opsN 1 0 0) mul_example_exp2 mul_example_exp3 2
        (List.replicate 2 0) (List.replicate 2 2) ∧
    (mpoly_search_monomials 1 1 2 mul_example_exp2 2 mul_example_exp3 2 0 0).2.2 = 1 ∧
    ((mpoly_search_monomials 1 1 2 mul_example_exp2 2 mul_example_exp3 2 0 0).2.2 =
        ((List.range 2).map fun i => ((2 : Nat) : Int) -
          (((mpoly_search_monomials 1 1 2 mul_example_exp2 2 mul_example_exp3 2 0 0).1.getD i 0
            : Nat) : Int)).sum ∧
      (mpoly_search_monomials 1 1 2 mul_example_exp2 2 mul_example_exp3 2 0 0).2.2 =
        ((((Finset.range 2 ×ˢ Finset.range 2).filter fun p =>
          mpoly_monomial_lt
            (mpoly_monomial_add (mul_example_exp2.getD p.1 default)
              (mul_example_exp3.getD p.2 default))
            (mpoly_search_monomials 1 1 2 mul_example_exp2 2 mul_example_exp3 2 0 0).2.1
            0 0 = false).card : Nat) : Int)) :=
  ⟨by decide, by decide,
    mpoly_search_monomials_score 1 1 2 mul_example_exp2 2 mul_example_exp3 2 0 0 (by decide)⟩

/-- C18, as stated, fails: the search with window `[1, 2]` on the monomials
of `3x^2 + 2xy` and `x - y` returns `e = x*y^2` with the boundary array
`[2, 1]` and the score 1, while the sum of the boundary array, which is the
number of pairs whose sum is `mpoly_monomial_lt` the monomial `e`, is 3 (and
no pair has a sum that `e` is `mpoly_monomial_lt`).  Whichever realizable
monomial a search returned here, its recounted score would differ from the
sum of its boundary array. -/
theorem mpoly_search_monomials_rank_not_below :
    (mpoly_search_monomials 1 1 2 mul_example_exp2 2 mul_example_exp3 2 0 0).1 = [2, 1] ∧
      (mpoly_search_monomials 1 1 2 mul_example_exp2 2 mul_example_exp3 2 0 0).2.1 =
        mpoly_monomial_of_word rfl 0x0102 ∧
      (mpoly_search_monomials 1 1 2 mul_example_exp2 2 mul_example_exp3 2 0 0).2.2 = 1 ∧
      ((Finset.range 2 ×ˢ Finset.range 2).filter fun p =>
          mpoly_monomial_lt
            (mpoly_monomial_add (mul_example_exp2.getD p.1 default)
              (mul_example_exp3.getD p.2 default))
            (mpoly_search_monomials 1 1 2 mul_example_exp2 2 mul_example_exp3 2 0 0).2.1
            0 0 = true).card = 3 ∧
      ((Finset.range 2 ×ˢ Finset.range 2).filter fun p =>
          mpoly_monomial_lt
            (mpoly_search_monomials 1 1 2 mul_example_exp2 2 mul_example_exp3 2 0 0).2.1
            (mpoly_monomial_add (mul_example_exp2.getD p.1 default)
              (mul_example_exp3.getD p.2 default))
            0 0 = true).card = 0 ∧
      ¬ (mpoly_search_monomials 1 1 2 mul_example_exp2 2 mul_example_exp3 2 0 0).2.2 =
        ((List.range 2).map fun i =>
          (((mpoly_search_monomials 1 1 2 mul_example_exp2 2 mul_example_exp3 2 0 0).1.getD i 0
            : Nat) : Int)).sum ∧
      ∀ e ∈ mul_search_candidates (mpoly_opsN 1 0 0) mul_example_exp2 2 mul_example_exp3 2,
        mul_search_score 2
            (mul_search_ind (mpoly_opsN 1 0 0) mul_example_exp2 2 mul_example_exp3 2 e) ≠
          ((mul_search_ind (mpoly_opsN 1 0 0) mul_example_exp2 2 mul_example_exp3 2 e).map
            fun (x : Nat) => (x : Int)).sum := by
  refine ⟨by decide, by decide, by decide, by decide, by decide, by decide, by decide⟩

theorem mul_sum_sub_const (n : Nat) (c : Int) (f : Nat → Int) :
    ((List.range n).map fun i => c - f i).sum = (n : Int) * c - ((List.range n).map f).sum := by
  induction n with
  | zero => simp
  | succ n ih =>
    simp only [List.range_succ, List.map_append, List.sum_append, ih, List.map_cons,
      List.map_nil, List.sum_cons, List.sum_nil]
    push_cast
    ring

/-- C18 (amended): the score reported by `mpoly_search_monomials` for its
monomial `e` is the number of product pairs left when the pairs sorting
strictly before `e` are taken away: it equals `len_f * len_g` minus the sum
over the rows of `e_ind[i]`, and for sorted inputs whose sums are ordered
along every row that sum is the number of pairs `(i, j)` whose combined
monomial `fexp[i] + gexp[j]` is `mpoly_monomial_lt` the monomial `e`. -/
theorem mpoly_search_monomials_rank (N : Nat) (lower upper : Int)
    (a : List (mpoly_monomial N)) (a_len : Nat) (b : List (mpoly_monomial N)) (b_len : Nat)
    (maskhi masklo : Nat)
    (hfull : mul_rows_ordered (mpoly_opsN N maskhi masklo) a b a_len (List.replicate a_len 0)
      (List.replicate a_len b_len)) :
    (mpoly_search_monomials N lower upper a a_len b b_len maskhi masklo).2.2 =
        (a_len : Int) * (b_len : Int) -
          ((List.range a_len).map fun i =>
            (((mpoly_search_monomials N lower upper a a_len b b_len maskhi masklo).1.getD i 0
              : Nat) : Int)).sum ∧
      ((List.range a_len).map fun i =>
          (((mpoly_search_monomials N lower upper a a_len b b_len maskhi masklo).1.getD i 0
            : Nat) : Int)).sum =
        ((((Finset.range a_len ×ˢ Finset.range b_len).filter fun p =>
          mpoly_monomial_lt (mpoly_monomial_add (a.getD p.1 default) (b.getD p.2 default))
            (mpoly_search_monomials N lower upper a a_len b b_len maskhi masklo).2.1
            maskhi masklo = true).card : Nat) : Int) := by
  have laws := mpoly_opsN_strict_total N maskhi masklo
  unfold mpoly_search_monomials
  rw [mul_search_snd, mul_search_fst, mul_search_score_getD, mul_sum_sub_const]
  refine ⟨rfl, ?_⟩
  have hc := (mul_count_pairs
    (fun i j => mpoly_monomial_lt (mpoly_monomial_add (a.getD i default) (b.getD j default))
      (mul_search (mpoly_opsN N maskhi masklo) lower upper a a_len b b_len).2.1 maskhi masklo)
    a_len b_len
    (fun i => (mul_search_ind (mpoly_opsN N maskhi masklo) a a_len b b_len
      (mul_search (mpoly_opsN N maskhi masklo) lower upper a a_len b b_len).2.1).getD i 0)
    (fun i hi => by
      beta_reduce
      rw [mul_search_ind_getD _ _ _ _ _ _ _ hi]
      exact mul_search_row_le _ _ _ _ _)
    (fun i hi j hj => by
      beta_reduce
      rw [mul_search_ind_getD _ _ _ _ _ _ _ hi]
      exact mul_search_row_iff (mpoly_opsN N maskhi masklo) laws a b a_len b_len hfull _ i j
        hi hj)).1
  exact hc.symm

/-- Witness of C18 (amended): the search with window `[1, 2]` on the
monomials of `3x^2 + 2xy` and `x - y`: the score is `2 * 2 - 3 = 1`. -/
theorem mpoly_search_monomials_rank_witness :
    mul_rows_ordered (mpoly_opsN 1 0 0) mul_example_exp2 mul_example_exp3 2
        (List.replicate 2 0) (List.replicate 2 2) ∧
    ((mpoly_search_monomials 1 1 2 mul_example_exp2 2 mul_example_exp3 2 0 0).2.2 =
        ((2 : Nat) : Int) * ((2 : Nat) : Int) -
          ((List.range 2).map fun i =>
            (((mpoly_search_monomials 1 1 2 mul_example_exp2 2 mul_example_exp3 2 0 0).1.getD i 0
              : Nat) : Int)).sum ∧
      ((List.range 2).map fun i =>
          (((mpoly_search_monomials 1 1 2 mul_example_exp2 2 mul_example_exp3 2 0 0).1.getD i 0
            : Nat) : Int)).sum =
        ((((Finset.range 2 ×ˢ Finset.range 2).filter fun p =>
          mpoly_monomial_lt
            (mpoly_monomial_add (mul_example_exp2.getD p.1 default)
              (mul_example_exp3.getD p.2 default))
            (mpoly_search_monomials 1 1 2 mul_example_exp2 2 mul_example_exp3 2 0 0).2.1
            0 0 = true).card : Nat) : Int)) :=
  ⟨by decide,
    mpoly_search_monomials_rank 1 1 2 mul_example_exp2 2 mul_example_exp3 2 0 0 (by decide)⟩

/-- C19: closeness of the search.  For every window and all monomial
sequences, the score returned by `mpoly_search_monomials` is the recount of
the score of the returned monomial, and for every realizable monomial
`fexp[i1] + gexp[j1]`, with its recounted score `s`: the distance of the
returned score to the window is at most the distance of `s`, and if the
returned score lies outside the window then so does `s`.  With both
sequences nonempty the returned monomial is itself realizable. -/
theorem mpoly_search_monomials_closest (N : Nat) (lower upper : Int)
    (a : List (mpoly_monomial N)) (a_len : Nat) (b : List (mpoly_monomial N)) (b_len : Nat)
    (maskhi masklo : Nat) (i1 j1 : Nat) (hi1 : i1 < a_len) (hj1 : j1 < b_len) :
    (mpoly_search_monomials N lower upper a a_len b b_len maskhi masklo).2.2 =
        mul_search_score b_len
          (mpoly_search_monomials N lower upper a a_len b b_len maskhi masklo).1 ∧
      mul_search_error lower upper
          (mpoly_search_monomials N lower upper a a_len b b_len maskhi masklo).2.2 ≤
        mul_search_error lower upper
          (mul_search_score b_len (mul_search_ind (mpoly_opsN N maskhi masklo) a a_len b b_len
            (mpoly_monomial_add (a.getD i1 default) (b.getD j1 default)))) ∧
      (((mpoly_search_monomials N lower upper a a_len b b_len maskhi masklo).2.2 < lower ∨
          upper < (mpoly_search_monomials N lower upper a a_len b b_len maskhi masklo).2.2) →
        (mul_search_score b_len (mul_search_ind (mpoly_opsN N maskhi masklo) a a_len b b_len
            (mpoly_monomial_add (a.getD i1 default) (b.getD j1 default))) < lower ∨
          upper < mul_search_score b_len
            (mul_search_ind (mpoly_opsN N maskhi masklo) a a_len b b_len
              (mpoly_monomial_add (a.getD i1 default) (b.getD j1 default))))) ∧
      ∃ i j, i < a_len ∧ j < b_len ∧
        (mpoly_search_monomials N lower upper a a_len b b_len maskhi masklo).2.1 =
          mpoly_monomial_add (a.getD i default) (b.getD j default) := by
  unfold mpoly_search_monomials
  have hc := mul_search_closest (mpoly_opsN N maskhi masklo) lower upper a a_len b b_len
    (mpoly_monomial_add (a.getD i1 default) (b.getD j1 default))
    ((mul_search_candidates_mem _ _ _ _ _ _).2 ⟨i1, hi1, j1, hj1, rfl⟩)
  rw [← mul_search_snd] at hc
  have hm := (mul_search_candidates_mem _ _ _ _ _ _).1
    (mul_search_mem (mpoly_opsN N maskhi masklo) lower upper a a_len b b_len
      (by omega) (by omega))
  refine ⟨?_, hc, ?_, ?_⟩
  · rw [mul_search_snd, mul_search_fst]
  · intro hout
    revert hc
    generalize (mul_search (mpoly_opsN N maskhi masklo) lower upper a a_len b b_len).2.2 = r
      at hout
    generalize mul_search_score b_len (mul_search_ind (mpoly_opsN N maskhi masklo) a a_len b
      b_len (mpoly_monomial_add (a.getD i1 default) (b.getD j1 default))) = s
    intro hc
    unfold mul_search_error at hc
    split_ifs at hc <;> omega
  · obtain ⟨i, hi, j, hj, h⟩ := hm
    exact ⟨i, j, hi, hj, h.symm⟩

/-- Witness of C19: the window `[2, 2]` on the monomials of `3x^2 + 2xy` and
`x - y`, whose realizable scores are 1, 3 and 4, so that the returned score 3
lies outside; it is compared with the realizable monomial `x^3` of score 4. -/
theorem mpoly_search_monomials_closest_witness :
    ((0 : Nat) < 2 ∧ (0 : Nat) < 2) ∧
    (mpoly_search_monomials 1 2 2 mul_example_exp2 2 mul_example_exp3 2 0 0).2.2 = 3 ∧
    mul_search_score 2 (mul_search_ind (mpoly_opsN 1 0 0) mul_example_exp2 2 mul_example_exp3 2
      (mpoly_monomial_add (mul_example_exp2.getD 0 default) (mul_example_exp3.getD 0 default)))
      = 4 ∧
    ((mpoly_search_monomials 1 2 2 mul_example_exp2 2 mul_example_exp3 2 0 0).2.2 =
        mul_search_score 2
          (mpoly_search_monomials 1 2 2 mul_example_exp2 2 mul_example_exp3 2 0 0).1 ∧
      mul_search_error 2 2
          (mpoly_search_monomials 1 2 2 mul_example_exp2 2 mul_example_exp3 2 0 0).2.2 ≤
        mul_search_error 2 2
          (mul_search_score 2 (mul_search_ind (mpoly_opsN 1 0 0) mul_example_exp2 2
            mul_example_exp3 2
            (mpoly_monomial_add (mul_example_exp2.getD 0 default)
              (mul_example_exp3.getD 0 default)))) ∧
      (((mpoly_search_monomials 1 2 2 mul_example_exp2 2 mul_example_exp3 2 0 0).2.2 < 2 ∨
          2 < (mpoly_search_monomials 1 2 2 mul_example_exp2 2 mul_example_exp3 2 0 0).2.2) →
        (mul_search_score 2 (mul_search_ind (mpoly_opsN 1 0 0) mul_example_exp2 2
            mul_example_exp3 2
            (mpoly_monomial_add (mul_example_exp2.getD 0 default)
              (mul_example_exp3.getD 0 default))) < 2 ∨
          2 < mul_search_score 2
            (mul_search_ind (mpoly_opsN 1 0 0) mul_example_exp2 2 mul_example_exp3 2
              (mpoly_monomial_add (mul_example_exp2.getD 0 default)
                (mul_example_exp3.getD 0 default))))) ∧
      ∃ i j, i < 2 ∧ j < 2 ∧
        (mpoly_search_monomials 1 2 2 mul_example_exp2 2 mul_example_exp3 2 0 0).2.1 =
          mpoly_monomial_add (mul_example_exp2.getD i default)
            (mul_example_exp3.getD j default)) :=
  ⟨⟨by decide, by decide⟩, by decide, by decide,
    mpoly_search_monomials_closest 1 2 2 mul_example_exp2 2 mul_example_exp3 2 0 0 0 0
      (by decide) (by decide)⟩

/-! ## Exactness of the three-word accumulator -/

theorem mul_pop_loop_acc {M : Type} [DecidableEq M] [Inhabited M] (small : Bool)
    (poly2 poly3 : List Int) (len3 : Nat) (qzero : Bool) (exp : M) (H : List (mpoly_heap_s M))
    (s : mul_acc × List mpoly_heap_t) :
    (mul_pop_loop small poly2 poly3 len3 qzero exp H s).2.1 =
      (mul_popped exp H).foldl (mul_acc_node small poly2 poly3) s.1 := by
  induction H generalizing s with
  | nil => rfl
  | cons h rest ih =>
    simp only [mul_pop_loop, mul_popped, mpoly_heap_pop]
    split_ifs with he
    · obtain ⟨a, Q⟩ := s
      rw [ih, mul_chain_fold, List.foldl_append]
    · rfl

/-- C20: when every coefficient of both inputs fits a single word, the three
accumulator words left by the inner loop for an output monomial are machine
words which, read by `fmpz_set_signed_uiuiui` as a signed three-word two's
complement integer, equal the exact integer sum of the products
`poly2[i] * poly3[j]` over the nodes popped for that monomial; this sum lies
in the three-word range (no wrap-around), and the coefficient is the one
that the multiprecision branch (`fmpz_mul`, `fmpz_addmul`) accumulates for
the same nodes. -/
theorem fmpz_mpoly_mul_heap_part_small_exact {M : Type} [DecidableEq M] [Inhabited M]
    (poly2 poly3 : List Int) (len2 len3 : Nat) (qzero : Bool) (exp : M)
    (H : List (mpoly_heap_s M))
    (h2 : _fmpz_mpoly_fits_small poly2 len2 = true)
    (h3 : _fmpz_mpoly_fits_small poly3 len3 = true)
    (hH : ∀ x ∈ mul_popped exp H, x.i < len2 ∧ x.j < len3)
    (hlen : (mul_popped exp H).length < 2 ^ (FLINT_BITS - 1)) :
    (mul_pop_loop true poly2 poly3 len3 qzero exp H (mul_acc_init, [])).2.1.c0 < 2 ^ FLINT_BITS ∧
      (mul_pop_loop true poly2 poly3 len3 qzero exp H (mul_acc_init, [])).2.1.c1
        < 2 ^ FLINT_BITS ∧
      (mul_pop_loop true poly2 poly3 len3 qzero exp H (mul_acc_init, [])).2.1.c2
        < 2 ^ FLINT_BITS ∧
      fmpz_set_signed_uiuiui
          (mul_pop_loop true poly2 poly3 len3 qzero exp H (mul_acc_init, [])).2.1.c2
          (mul_pop_loop true poly2 poly3 len3 qzero exp H (mul_acc_init, [])).2.1.c1
          (mul_pop_loop true poly2 poly3 len3 qzero exp H (mul_acc_init, [])).2.1.c0 =
        ((mul_popped exp H).map fun x => poly2.getD x.i 0 * poly3.getD x.j 0).sum ∧
      -(2 : Int) ^ (3 * FLINT_BITS - 1) ≤
        ((mul_popped exp H).map fun x => poly2.getD x.i 0 * poly3.getD x.j 0).sum ∧
      ((mul_popped exp H).map fun x => poly2.getD x.i 0 * poly3.getD x.j 0).sum
        < (2 : Int) ^ (3 * FLINT_BITS - 1) ∧
      fmpz_set_signed_uiuiui
          (mul_pop_loop true poly2 poly3 len3 qzero exp H (mul_acc_init, [])).2.1.c2
          (mul_pop_loop true poly2 poly3 len3 qzero exp H (mul_acc_init, [])).2.1.c1
          (mul_pop_loop true poly2 poly3 len3 qzero exp H (mul_acc_init, [])).2.1.c0 =
        (mul_pop_loop false poly2 poly3 len3 qzero exp H (mul_acc_init, [])).2.1.p1k := by
  have hprod : ∀ x ∈ mul_popped exp H, -(2 : Int) ^ 126 ≤ mul_pair_prod poly2 poly3 x ∧
      mul_pair_prod poly2 poly3 x ≤ (2 : Int) ^ 126 := fun x hx =>
    mul_small_prod_bound _ _ (fmpz_fits_small_getD poly2 len2 x.i h2 (hH x hx).1)
      (fmpz_fits_small_getD poly3 len3 x.j h3 (hH x hx).2)
  have hsmall := mul_chain_coeff_small poly2 poly3 (mul_popped exp H) hprod
    (by simpa [FLINT_BITS] using hlen)
  have hmp := mul_chain_coeff_mp poly2 poly3 (mul_popped exp H)
  have hok := (mul_acc_fold_small poly2 poly3 (mul_popped exp H) mul_acc_init
    (by simp [mul_acc_ok, mul_acc_init])
    (fun x hx => ⟨by have := (hprod x hx).1; norm_num at this ⊢; omega,
      by have := (hprod x hx).2; norm_num at this ⊢; omega⟩)).1
  obtain ⟨hb1, hb2⟩ := mul_sum_bound (mul_pair_prod poly2 poly3) ((2 : Int) ^ 126)
    (mul_popped exp H) hprod
  simp only [mul_chain_coeff, if_true, Bool.false_eq_true, if_false] at hsmall hmp
  have hsum : ((mul_popped exp H).map fun x => poly2.getD x.i 0 * poly3.getD x.j 0) =
      (mul_popped exp H).map (mul_pair_prod poly2 poly3) := rfl
  rw [mul_pop_loop_acc, mul_pop_loop_acc, hsum]
  simp only [FLINT_BITS] at hlen ⊢
  have hl : ((mul_popped exp H).length : Int) < 2 ^ 63 := by exact_mod_cast hlen
  refine ⟨hok.1, hok.2.1, hok.2.2.1, hsmall, ?_, ?_, hsmall.trans hmp.symm⟩
  · generalize ((mul_popped exp H).map (mul_pair_prod poly2 poly3)).sum = S at hb1 hb2
    generalize ((mul_popped exp H).length : Int) = n at hb1 hb2 hl
    norm_num at hb1 hb2 hl ⊢
    nlinarith
  · generalize ((mul_popped exp H).map (mul_pair_prod poly2 poly3)).sum = S at hb1 hb2
    generalize ((mul_popped exp H).length : Int) = n at hb1 hb2 hl
    norm_num at hb1 hb2 hl ⊢
    nlinarith

/-- Witness of C20: three nodes with the extreme products `-(2^63 - 1) * 2^63`
(twice) and `2^126`; the three words hold `-(2^126 - 2^64)`. -/
theorem fmpz_mpoly_mul_heap_part_small_exact_witness :
    (_fmpz_mpoly_fits_small [2 ^ 63 - 1, -2 ^ 63] 2 = true ∧
      _fmpz_mpoly_fits_small [-2 ^ 63, 2 ^ 63 - 1] 2 = true ∧
      (∀ x ∈ mul_popped (5 : Nat) [⟨5, [⟨0, 0⟩, ⟨1, 1⟩, ⟨1, 0⟩]⟩, ⟨3, [⟨0, 1⟩]⟩], x.i < 2 ∧ x.j < 2) ∧
      (mul_popped (5 : Nat) [⟨5, [⟨0, 0⟩, ⟨1, 1⟩, ⟨1, 0⟩]⟩, ⟨3, [⟨0, 1⟩]⟩]).length
        < 2 ^ (FLINT_BITS - 1)) ∧
    (mul_pop_loop true [2 ^ 63 - 1, -2 ^ 63] [-2 ^ 63, 2 ^ 63 - 1] 2 true (5 : Nat)
      [⟨5, [⟨0, 0⟩, ⟨1, 1⟩, ⟨1, 0⟩]⟩, ⟨3, [⟨0, 1⟩]⟩] (mul_acc_init, [])).2.1 =
      ⟨false, 0, 2 ^ 64 - 2 ^ 62 + 1, 2 ^ 64 - 1, 0⟩ ∧
    fmpz_set_signed_uiuiui
        (mul_pop_loop true [2 ^ 63 - 1, -2 ^ 63] [-2 ^ 63, 2 ^ 63 - 1] 2 true (5 : Nat)
          [⟨5, [⟨0, 0⟩, ⟨1, 1⟩, ⟨1, 0⟩]⟩, ⟨3, [⟨0, 1⟩]⟩] (mul_acc_init, [])).2.1.c2
        (mul_pop_loop true [2 ^ 63 - 1, -2 ^ 63] [-2 ^ 63, 2 ^ 63 - 1] 2 true (5 : Nat)
          [⟨5, [⟨0, 0⟩, ⟨1, 1⟩, ⟨1, 0⟩]⟩, ⟨3, [⟨0, 1⟩]⟩] (mul_acc_init, [])).2.1.c1
        (mul_pop_loop true [2 ^ 63 - 1, -2 ^ 63] [-2 ^ 63, 2 ^ 63 - 1] 2 true (5 : Nat)
          [⟨5, [⟨0, 0⟩, ⟨1, 1⟩, ⟨1, 0⟩]⟩, ⟨3, [⟨0, 1⟩]⟩] (mul_acc_init, [])).2.1.c0 =
      (mul_pop_loop false [2 ^ 63 - 1, -2 ^ 63] [-2 ^ 63, 2 ^ 63 - 1] 2 true (5 : Nat)
        [⟨5, [⟨0, 0⟩, ⟨1, 1⟩, ⟨1, 0⟩]⟩, ⟨3, [⟨0, 1⟩]⟩] (mul_acc_init, [])).2.1.p1k :=
  ⟨⟨by decide, by decide, by decide, by decide⟩, by decide,
    (fmpz_mpoly_mul_heap_part_small_exact [2 ^ 63 - 1, -2 ^ 63] [-2 ^ 63, 2 ^ 63 - 1] 2 2 true
      (5 : Nat) [⟨5, [⟨0, 0⟩, ⟨1, 1⟩, ⟨1, 0⟩]⟩, ⟨3, [⟨0, 1⟩]⟩]
      (by decide) (by decide) (by decide) (by decide)).2.2.2.2.2.2⟩

/-! ## The field width of the product -/

theorem FLINT_BIT_COUNT_eq (x : Nat) : FLINT_BIT_COUNT x = min FLINT_BITS (Nat.size x) := by
  unfold FLINT_BIT_COUNT
  have key : ∀ n, ((List.range n).filter fun k => decide (2 ^ k ≤ x)).length = min n (Nat.size x) := by
    intro n
    induction n with
    | zero => simp
    | succ n ih =>
      rw [List.range_succ, List.filter_append, List.length_append, ih]
      by_cases h : 2 ^ n ≤ x
      · have hs : n < Nat.size x := Nat.lt_size.2 h
        rw [List.filter_cons_of_pos (by simpa using h)]
        simp only [List.filter_nil, List.length_singleton]
        omega
      · have hs : ¬ n < Nat.size x := fun hs => h (Nat.lt_size.1 hs)
        rw [List.filter_cons_of_neg (by simpa using h)]
        simp only [List.filter_nil, List.length_nil]
        omega
  exact key FLINT_BITS

/-- A word with fewer than `FLINT_BITS` bits is below two to its bit count. -/
theorem FLINT_BIT_COUNT_bound (x : Nat) (h : FLINT_BIT_COUNT x < FLINT_BITS) :
    x < 2 ^ FLINT_BIT_COUNT x := by
  rw [FLINT_BIT_COUNT_eq] at h ⊢
  have e : min FLINT_BITS (Nat.size x) = Nat.size x := by omega
  rw [e]
  exact Nat.lt_size_self x

/-- The loop from 8 for a bit count below 64: its value in each range, which
three iterations are enough to reach. -/
theorem mul_exp_bits_loop_eq (bits fuel : Nat) (hb : bits < 64) (hf : 3 ≤ fuel) :
    mul_exp_bits_loop bits fuel 8 =
      if bits < 8 then 8 else if bits < 16 then 16 else if bits < 32 then 32 else 64 := by
  obtain ⟨f, rfl⟩ : ∃ f, fuel = f + 3 := ⟨fuel - 3, by omega⟩
  by_cases h8 : bits < 8
  · simp only [mul_exp_bits_loop, if_pos h8, if_neg (show ¬ 8 ≤ bits by omega)]
  · by_cases h16 : bits < 16
    · simp only [mul_exp_bits_loop, if_neg h8, if_pos h16, if_pos (show 8 ≤ bits by omega),
        if_neg (show ¬ 8 * 2 ≤ bits by omega)]
    · by_cases h32 : bits < 32
      · simp only [mul_exp_bits_loop, if_neg h8, if_neg h16, if_pos h32,
          if_pos (show 8 ≤ bits by omega), if_pos (show 8 * 2 ≤ bits by omega),
          if_neg (show ¬ 8 * 2 * 2 ≤ bits by omega)]
      · simp only [if_neg h8, if_neg h16, if_neg h32]
        cases f with
        | zero =>
          simp only [mul_exp_bits_loop, if_pos (show 8 ≤ bits by omega),
            if_pos (show 8 * 2 ≤ bits by omega), if_pos (show 8 * 2 * 2 ≤ bits by omega)]
        | succ f =>
          simp only [mul_exp_bits_loop, if_pos (show 8 ≤ bits by omega),
            if_pos (show 8 * 2 ≤ bits by omega), if_pos (show 8 * 2 * 2 ≤ bits by omega),
            if_neg (show ¬ 8 * 2 * 2 * 2 ≤ bits by omega)]

/-- C27: field width selection.  With `max` the largest degree sum left by
the loop over the fields and `bits = FLINT_BIT_COUNT(max)` below
`FLINT_BITS`, the loop `exp_bits = 8; while (bits >= exp_bits) exp_bits *= 2`
ends, after at most three doublings, with the least of 8, 16, 32, 64 that is
strictly greater than `bits`; hence `max < 2^(exp_bits - 1)` and
`exp_bits <= FLINT_BITS`.  The width of the product is this value raised to
the operands' own widths. -/
theorem fmpz_mpoly_mul_heap_threaded_field_width (codec : mpoly_codec)
    (poly2 poly3 : fmpz_mpoly) (ctx : fmpz_mpoly_ctx) (max : Nat)
    (hmax : mul_degree_loop (codec.max_degrees poly2 ctx) (codec.max_degrees poly3 ctx)
      (List.range ctx.n) 0 = some max)
    (hb : FLINT_BIT_COUNT max < FLINT_BITS) :
    (mul_exp_bits_loop (FLINT_BIT_COUNT max) FLINT_BITS 8 = 8 ∨
        mul_exp_bits_loop (FLINT_BIT_COUNT max) FLINT_BITS 8 = 16 ∨
        mul_exp_bits_loop (FLINT_BIT_COUNT max) FLINT_BITS 8 = 32 ∨
        mul_exp_bits_loop (FLINT_BIT_COUNT max) FLINT_BITS 8 = 64) ∧
      FLINT_BIT_COUNT max < mul_exp_bits_loop (FLINT_BIT_COUNT max) FLINT_BITS 8 ∧
      (∀ e, e = 8 ∨ e = 16 ∨ e = 32 ∨ e = 64 → FLINT_BIT_COUNT max < e →
        mul_exp_bits_loop (FLINT_BIT_COUNT max) FLINT_BITS 8 ≤ e) ∧
      (∀ fuel, 3 ≤ fuel → mul_exp_bits_loop (FLINT_BIT_COUNT max) fuel 8 =
        mul_exp_bits_loop (FLINT_BIT_COUNT max) FLINT_BITS 8) ∧
      max < 2 ^ (mul_exp_bits_loop (FLINT_BIT_COUNT max) FLINT_BITS 8 - 1) ∧
      mul_exp_bits_loop (FLINT_BIT_COUNT max) FLINT_BITS 8 ≤ FLINT_BITS ∧
      mul_product_bits codec poly2 poly3 ctx =
        some (Nat.max (Nat.max (mul_exp_bits_loop (FLINT_BIT_COUNT max) FLINT_BITS 8)
          poly2.bits) poly3.bits) := by
  have hbound := FLINT_BIT_COUNT_bound max hb
  have hprod : mul_product_bits codec poly2 poly3 ctx =
      some (Nat.max (Nat.max (mul_exp_bits_loop (FLINT_BIT_COUNT max) FLINT_BITS 8)
        poly2.bits) poly3.bits) := by
    unfold mul_product_bits
    rw [hmax]
    simp only [if_neg (show ¬ FLINT_BITS ≤ FLINT_BIT_COUNT max by omega), mul_exp_bits]
  have hfuel : ∀ fuel, 3 ≤ fuel → mul_exp_bits_loop (FLINT_BIT_COUNT max) fuel 8 =
      mul_exp_bits_loop (FLINT_BIT_COUNT max) FLINT_BITS 8 := by
    intro fuel hf
    rw [mul_exp_bits_loop_eq _ fuel (by simpa [FLINT_BITS] using hb) hf,
      mul_exp_bits_loop_eq _ FLINT_BITS (by simpa [FLINT_BITS] using hb) (by simp [FLINT_BITS])]
  revert hfuel hprod
  rw [mul_exp_bits_loop_eq _ FLINT_BITS (by simpa [FLINT_BITS] using hb) (by simp [FLINT_BITS])]
  intro hprod hfuel
  simp only [FLINT_BITS] at hb ⊢
  generalize FLINT_BIT_COUNT max = bits at hb hbound hfuel hprod ⊢
  have hpow : ∀ e, bits < e → max < 2 ^ (e - 1) := fun e he =>
    lt_of_lt_of_le hbound (Nat.pow_le_pow_right (by norm_num) (by omega))
  refine ⟨?_, ?_, ?_, hfuel, ?_, ?_, hprod⟩
  · split_ifs <;> simp
  · split_ifs <;> omega
  · intro e he hlt
    split_ifs <;> omega
  · apply hpow
    split_ifs <;> omega
  · split_ifs <;> omega

/-- Witness of C27: the largest degree sum is `200 = 100 + 100`, which has 8
bits, so the loop stops at 16. -/
theorem fmpz_mpoly_mul_heap_threaded_field_width_witness :
    (mul_degree_loop (mpoly_codec_words.max_degrees ⟨[1], [[100, 3]], 8⟩ ⟨2, .ORD_LEX⟩)
        (mpoly_codec_words.max_degrees ⟨[1], [[100, 5]], 8⟩ ⟨2, .ORD_LEX⟩)
        (List.range (⟨2, .ORD_LEX⟩ : fmpz_mpoly_ctx).n) 0 = some 200 ∧
      FLINT_BIT_COUNT 200 < FLINT_BITS) ∧
    FLINT_BIT_COUNT 200 = 8 ∧ mul_exp_bits_loop (FLINT_BIT_COUNT 200) FLINT_BITS 8 = 16 ∧
    mul_product_bits mpoly_codec_words ⟨[1], [[100, 3]], 8⟩ ⟨[1], [[100, 5]], 8⟩ ⟨2, .ORD_LEX⟩ =
      some (Nat.max (Nat.max (mul_exp_bits_loop (FLINT_BIT_COUNT 200) FLINT_BITS 8)
        (⟨[1], [[100, 3]], 8⟩ : fmpz_mpoly).bits) (⟨[1], [[100, 5]], 8⟩ : fmpz_mpoly).bits) :=
  ⟨⟨by decide, by decide⟩, by decide, by decide,
    (fmpz_mpoly_mul_heap_threaded_field_width mpoly_codec_words ⟨[1], [[100, 3]], 8⟩
      ⟨[1], [[100, 5]], 8⟩ ⟨2, .ORD_LEX⟩ 200 (by decide) (by decide)).2.2.2.2.2.2⟩

/-! ## The common packing width and the order of the factors -/

/-- The planner returns for every input. -/
theorem mul_heap_threaded_total (N nthreads : Nat) (coeff2 : List Int)
    (exp2 : List (mpoly_monomial N)) (len2 : Nat) (coeff3 : List Int)
    (exp3 : List (mpoly_monomial N)) (len3 : Nat) (maskhi masklo : Nat) :
    ∃ res, _fmpz_mpoly_mul_heap_threaded N nthreads coeff2 exp2 len2 coeff3 exp3 len3
      maskhi masklo = some res := by
  have hex : ∀ d, ∃ r, _fmpz_mpoly_mul_heap_threaded_worker N nthreads coeff2 exp2 len2 coeff3
      exp3 len3 maskhi masklo d = some r := by
    intro d
    obtain ⟨r, hr, -⟩ := mul_heap_part_nonzero N coeff2 exp2 len2 coeff3 exp3 len3
      (mul_heap_threaded_start N nthreads exp2 len2 exp3 len3 maskhi masklo d)
      (mul_heap_threaded_end N nthreads exp2 len2 exp3 len3 maskhi masklo d) maskhi masklo
    exact ⟨r, hr⟩
  choose outs houts using hex
  refine ⟨(List.range (mul_heap_threaded_ndivs nthreads).toNat).reverse.flatMap outs, ?_⟩
  unfold _fmpz_mpoly_mul_heap_threaded
  rw [funext houts]
  exact mul_heap_threaded_join_total outs _

/-- The width of the product is at least the width of either operand. -/
theorem mul_product_bits_ge (codec : mpoly_codec) (poly2 poly3 : fmpz_mpoly)
    (ctx : fmpz_mpoly_ctx) (exp_bits : Nat)
    (hb : mul_product_bits codec poly2 poly3 ctx = some exp_bits) :
    poly2.bits ≤ exp_bits ∧ poly3.bits ≤ exp_bits := by
  unfold mul_product_bits at hb
  cases hm : mul_degree_loop (codec.max_degrees poly2 ctx) (codec.max_degrees poly3 ctx)
      (List.range ctx.n) 0 with
  | none => rw [hm] at hb; exact absurd hb (by simp)
  | some max =>
    rw [hm] at hb
    simp only at hb
    split_ifs at hb
    simp only [Option.some.injEq, mul_exp_bits] at hb
    omega

/-- The call of the planner made by the entry point, in terms of the factors. -/
theorem mul_entry_factors (codec : mpoly_codec) (nthreads : Nat) (out : mul_output)
    (poly2 poly3 : fmpz_mpoly) (ctx : fmpz_mpoly_ctx) (exp_bits : Nat)
    (h2 : poly2.length ≠ 0) (h3 : poly3.length ≠ 0)
    (hb : mul_product_bits codec poly2 poly3 ctx = some exp_bits) :
    fmpz_mpoly_mul_heap_threaded codec nthreads out poly2 poly3 ctx =
      ((_fmpz_mpoly_mul_heap_threaded (mul_words exp_bits ctx.n) nthreads
          (mul_factors out poly2 poly3).1.coeffs
          (mul_kernel_exps codec exp_bits (mul_factors out poly2 poly3).1 ctx)
          (mul_factors out poly2 poly3).1.length
          (mul_factors out poly2 poly3).2.coeffs
          (mul_kernel_exps codec exp_bits (mul_factors out poly2 poly3).2 ctx)
          (mul_factors out poly2 poly3).2.length
          (codec.masks_from_bits_ord exp_bits ctx.ord).1
          (codec.masks_from_bits_ord exp_bits ctx.ord).2).map
        fun terms => mul_result.done (mul_poly_of_terms exp_bits terms)).getD
          mul_result.unfinished := by
  unfold fmpz_mpoly_mul_heap_threaded mul_factors
  rw [if_neg (by simp [h2, h3]), hb]
  simp only
  cases out.aliased
  · by_cases hlt : poly3.length < poly2.length
    · simp only [Bool.false_eq_true, if_false, hlt, decide_True, if_true]
      split <;> rename_i heq <;> simp [heq]
    · simp only [Bool.false_eq_true, if_false, hlt, decide_False]
      split <;> rename_i heq <;> simp [heq]
  · by_cases hle : poly3.length ≤ poly2.length
    · simp only [if_true, hle, decide_True]
      split <;> rename_i heq <;> simp [heq]
    · simp only [if_true, hle, decide_False, Bool.false_eq_true, if_false]
      split <;> rename_i heq <;> simp [heq]

/-- C26: smaller polynomial first.  In the aliased and in the other branch
of `fmpz_mpoly_mul_heap_threaded` the operand handed to
`_fmpz_mpoly_mul_heap_threaded` as its first factor, the one that gets a
heap row per term, is one of the two operands, the other one being the
second factor, and its length is at most the length of the second factor. -/
theorem fmpz_mpoly_mul_heap_threaded_smaller_first (codec : mpoly_codec) (nthreads : Nat)
    (out : mul_output) (poly2 poly3 : fmpz_mpoly) (ctx : fmpz_mpoly_ctx) (exp_bits : Nat)
    (h2 : poly2.length ≠ 0) (h3 : poly3.length ≠ 0)
    (hb : mul_product_bits codec poly2 poly3 ctx = some exp_bits) :
    (mul_factors out poly2 poly3).1.length ≤ (mul_factors out poly2 poly3).2.length ∧
      (mul_factors out poly2 poly3 = (poly2, poly3) ∨
        mul_factors out poly2 poly3 = (poly3, poly2)) ∧
      fmpz_mpoly_mul_heap_threaded codec nthreads out poly2 poly3 ctx =
        ((_fmpz_mpoly_mul_heap_threaded (mul_words exp_bits ctx.n) nthreads
            (mul_factors out poly2 poly3).1.coeffs
            (mul_kernel_exps codec exp_bits (mul_factors out poly2 poly3).1 ctx)
            (mul_factors out poly2 poly3).1.length
            (mul_factors out poly2 poly3).2.coeffs
            (mul_kernel_exps codec exp_bits (mul_factors out poly2 poly3).2 ctx)
            (mul_factors out poly2 poly3).2.length
            (codec.masks_from_bits_ord exp_bits ctx.ord).1
            (codec.masks_from_bits_ord exp_bits ctx.ord).2).map
          fun terms => mul_result.done (mul_poly_of_terms exp_bits terms)).getD
            mul_result.unfinished := by
  refine ⟨?_, ?_, mul_entry_factors codec nthreads out poly2 poly3 ctx exp_bits h2 h3 hb⟩
  · unfold mul_factors
    split_ifs <;> simp only <;> omega
  · unfold mul_factors
    split_ifs <;> simp

/-- Witness of C26: operands of the lengths 2 and 1; both branches pass the
shorter one first, and with equal lengths (2 and 2) the aliased branch
passes `poly3` first and the other branch `poly2`. -/
theorem fmpz_mpoly_mul_heap_threaded_smaller_first_witness :
    (mul_example_poly2.length ≠ 0 ∧ (⟨[4], [[1, 1]], 64⟩ : fmpz_mpoly).length ≠ 0 ∧
      mul_product_bits mpoly_codec_words mul_example_poly2 ⟨[4], [[1, 1]], 64⟩ mul_example_ctx
        = some 64) ∧
    mul_factors .first mul_example_poly2 ⟨[4], [[1, 1]], 64⟩ =
      (⟨[4], [[1, 1]], 64⟩, mul_example_poly2) ∧
    mul_factors (.fresh ⟨[], [], 8⟩) mul_example_poly2 ⟨[4], [[1, 1]], 64⟩ =
      (⟨[4], [[1, 1]], 64⟩, mul_example_poly2) ∧
    mul_factors .first mul_example_poly2 mul_example_poly3 =
      (mul_example_poly3, mul_example_poly2) ∧
    mul_factors (.fresh ⟨[], [], 8⟩) mul_example_poly2 mul_example_poly3 =
      (mul_example_poly2, mul_example_poly3) ∧
    (mul_factors .first mul_example_poly2 ⟨[4], [[1, 1]], 64⟩).1.length ≤
      (mul_factors .first mul_example_poly2 ⟨[4], [[1, 1]], 64⟩).2.length :=
  ⟨⟨by decide, by decide, by decide⟩, by decide, by decide, by decide, by decide,
    (fmpz_mpoly_mul_heap_threaded_smaller_first mpoly_codec_words 1 .first mul_example_poly2
      ⟨[4], [[1, 1]], 64⟩ mul_example_ctx 64 (by decide) (by decide) (by decide)).1⟩

/-- C21: common packing width.  For nonzero operands that pass the degree
check with the width `exp_bits`: `exp_bits` is at least `poly2->bits` and
`poly3->bits`; an operand is re-packed with `mpoly_unpack_monomials` exactly
when its own width differs from `exp_bits`, and is handed over as it is
otherwise; the monomials of both arrays handed to the kernel and of the
output have `N = (exp_bits*n - 1)/FLINT_BITS + 1` words, and the output has
`bits = exp_bits`. -/
theorem fmpz_mpoly_mul_heap_threaded_common_width (codec : mpoly_codec) (nthreads : Nat)
    (out : mul_output) (poly2 poly3 : fmpz_mpoly) (ctx : fmpz_mpoly_ctx) (exp_bits : Nat)
    (h2 : poly2.length ≠ 0) (h3 : poly3.length ≠ 0)
    (hb : mul_product_bits codec poly2 poly3 ctx = some exp_bits) :
    poly2.bits ≤ exp_bits ∧ poly3.bits ≤ exp_bits ∧
      mul_operand_exps codec exp_bits poly2 ctx =
        (if poly2.bits ≠ exp_bits then
          codec.unpack_monomials exp_bits poly2.exps poly2.bits poly2.length ctx.n
        else poly2.exps) ∧
      mul_operand_exps codec exp_bits poly3 ctx =
        (if poly3.bits ≠ exp_bits then
          codec.unpack_monomials exp_bits poly3.exps poly3.bits poly3.length ctx.n
        else poly3.exps) ∧
      mul_words exp_bits ctx.n = (exp_bits * ctx.n - 1) / FLINT_BITS + 1 ∧
      (∀ e ∈ mul_kernel_exps codec exp_bits poly2 ctx,
        e.val.length = (exp_bits * ctx.n - 1) / FLINT_BITS + 1) ∧
      (∀ e ∈ mul_kernel_exps codec exp_bits poly3 ctx,
        e.val.length = (exp_bits * ctx.n - 1) / FLINT_BITS + 1) ∧
      ∃ poly1, fmpz_mpoly_mul_heap_threaded codec nthreads out poly2 poly3 ctx = .done poly1 ∧
        poly1.bits = exp_bits ∧
        ∀ e ∈ poly1.exps, e.length = (exp_bits * ctx.n - 1) / FLINT_BITS + 1 := by
  obtain ⟨hb2, hb3⟩ := mul_product_bits_ge codec poly2 poly3 ctx exp_bits hb
  refine ⟨hb2, hb3, ?_, ?_, rfl, fun e _ => e.property, fun e _ => e.property, ?_⟩
  · unfold mul_operand_exps
    by_cases h : poly2.bits < exp_bits
    · rw [if_pos h, if_pos (by omega)]
    · rw [if_neg h, if_neg (by omega)]
  · unfold mul_operand_exps
    by_cases h : poly3.bits < exp_bits
    · rw [if_pos h, if_pos (by omega)]
    · rw [if_neg h, if_neg (by omega)]
  · obtain ⟨terms, hterms⟩ := mul_heap_threaded_total (mul_words exp_bits ctx.n) nthreads
      (mul_factors out poly2 poly3).1.coeffs
      (mul_kernel_exps codec exp_bits (mul_factors out poly2 poly3).1 ctx)
      (mul_factors out poly2 poly3).1.length
      (mul_factors out poly2 poly3).2.coeffs
      (mul_kernel_exps codec exp_bits (mul_factors out poly2 poly3).2 ctx)
      (mul_factors out poly2 poly3).2.length
      (codec.masks_from_bits_ord exp_bits ctx.ord).1
      (codec.masks_from_bits_ord exp_bits ctx.ord).2
    refine ⟨mul_poly_of_terms exp_bits terms, ?_, rfl, ?_⟩
    · rw [mul_entry_factors codec nthreads out poly2 poly3 ctx exp_bits h2 h3 hb, hterms]
      rfl
    · intro e he
      simp only [mul_poly_of_terms, List.mem_map] at he
      obtain ⟨t, -, rfl⟩ := he
      exact t.2.property

/-- Witness of C21: `3x^2 + 2xy` stored with 8 bits per field and `x - y`
with 64 bits; the common width is 64, the first operand is re-packed and the
second is not. -/
theorem fmpz_mpoly_mul_heap_threaded_common_width_witness :
    ((⟨[3, 2], [[2, 0], [1, 1]], 8⟩ : fmpz_mpoly).length ≠ 0 ∧ mul_example_poly3.length ≠ 0 ∧
      mul_product_bits mpoly_codec_words ⟨[3, 2], [[2, 0], [1, 1]], 8⟩ mul_example_poly3
        mul_example_ctx = some 64) ∧
    (⟨[3, 2], [[2, 0], [1, 1]], 8⟩ : fmpz_mpoly).bits ≠ 64 ∧ mul_example_poly3.bits = 64 ∧
    mul_words 64 mul_example_ctx.n = 2 ∧
    ((⟨[3, 2], [[2, 0], [1, 1]], 8⟩ : fmpz_mpoly).bits ≤ 64 ∧ mul_example_poly3.bits ≤ 64) :=
  ⟨⟨by decide, by decide, by decide⟩, by decide, by decide, by decide,
    ⟨(fmpz_mpoly_mul_heap_threaded_common_width mpoly_codec_words 1 (.fresh ⟨[], [], 8⟩)
      ⟨[3, 2], [[2, 0], [1, 1]], 8⟩ mul_example_poly3 mul_example_ctx 64
      (by decide) (by decide) (by decide)).1,
    (fmpz_mpoly_mul_heap_threaded_common_width mpoly_codec_words 1 (.fresh ⟨[], [], 8⟩)
      ⟨[3, 2], [[2, 0], [1, 1]], 8⟩ mul_example_poly3 mul_example_ctx 64
      (by decide) (by decide) (by decide)).2.1⟩⟩

/-! ## One outer iteration, for every heap -/

section kernel_run_proofs

variable {M : Type} [DecidableEq M] [Inhabited M]

/-- The inner loop on any heap: it leaves the entries behind the leading
ones that carry `exp`, and has walked the chains of those leading entries. -/
theorem mul_pop_loop_eq (small : Bool) (poly2 poly3 : List Int) (len3 : Nat) (qzero : Bool)
    (exp : M) (H : List (mpoly_heap_s M)) (s : mul_acc × List mpoly_heap_t) :
    mul_pop_loop small poly2 poly3 len3 qzero exp H s =
      (mul_unpopped exp H,
        (mul_popped exp H).foldl (mul_chain_step small poly2 poly3 len3 qzero) s) := by
  induction H generalizing s with
  | nil => rfl
  | cons h rest ih =>
    simp only [mul_pop_loop, mul_popped, mul_unpopped, mpoly_heap_pop]
    split_ifs with he
    · rw [ih, List.foldl_append]
    · rfl

theorem mul_popped_nodes (exp : M) (H : List (mpoly_heap_s M)) :
    mul_heap_nodes H = mul_popped exp H ++ mul_heap_nodes (mul_unpopped exp H) := by
  induction H with
  | nil => rfl
  | cons h rest ih =>
    simp only [mul_popped, mul_unpopped]
    split_ifs with he
    · rw [mul_heap_nodes_cons, ih, List.append_assoc]
    · simp

theorem mul_unpopped_mem (exp : M) (H : List (mpoly_heap_s M)) :
    ∀ h ∈ mul_unpopped exp H, h ∈ H := by
  induction H with
  | nil => intro h hh; exact hh
  | cons h rest ih =>
    intro h' hh'
    simp only [mul_unpopped] at hh'
    split_ifs at hh' with he
    · exact List.mem_cons_of_mem _ (ih h' hh')
    · exact hh'

theorem mul_unpopped_length (exp : M) (H : List (mpoly_heap_s M)) :
    (mul_unpopped exp H).length ≤ H.length := by
  induction H with
  | nil => exact le_refl _
  | cons h rest ih =>
    simp only [mul_unpopped]
    split_ifs with he
    · exact le_trans ih (Nat.le_succ _)
    · exact le_refl _

/-- The store `Q` after the inner loop: the popped nodes that pass the store
test, last stored first. -/
theorem mul_heap_inner_cons (small : Bool) (poly2 poly3 : List Int) (len3 : Nat)
    (qzero : Bool) (h : mpoly_heap_s M) (rest : List (mpoly_heap_s M)) :
    mul_heap_inner small poly2 poly3 len3 qzero (h :: rest) =
      (mul_unpopped h.exp (h :: rest),
        (mul_popped h.exp (h :: rest)).foldl (mul_acc_node small poly2 poly3) mul_acc_init,
        ((mul_popped h.exp (h :: rest)).filter
          fun x => decide (x.j < len3 - 1) || (qzero && decide (x.j = 0))).reverse) := by
  simp only [mul_heap_inner, mul_pop_loop_eq, mul_chain_fold, mul_store_fold, List.append_nil]

/-- The next heap, for any heap: the nodes pushed back are inserted into
what the inner loop has left. -/
theorem mul_heap_next_cons (ops : mpoly_ops M) (small : Bool) (poly2 : List Int)
    (exp2 : List M) (poly3 : List Int) (exp3 : List M) (len3 : Nat) (end_ : List Nat)
    (qzero : Bool) (h : mpoly_heap_s M) (rest : List (mpoly_heap_s M)) :
    mul_heap_next ops small poly2 exp2 poly3 exp3 len3 end_ qzero (h :: rest) =
      mul_insert_all ops exp2 exp3 (mul_pushes len3 end_ qzero (mul_popped h.exp (h :: rest)))
        (mul_unpopped h.exp (h :: rest)) := by
  simp only [mul_heap_next, mul_heap_inner_cons, mul_push_loop_eq, mul_pushes]

/-- The main loop in terms of the next heap. -/
theorem mul_heap_loop_next (ops : mpoly_ops M) (small : Bool) (poly2 : List Int)
    (exp2 : List M) (poly3 : List Int) (exp3 : List M) (len3 : Nat) (end_ : List Nat)
    (qzero : Bool) (fuel : Nat) (h : mpoly_heap_s M) (rest : List (mpoly_heap_s M))
    (out : List (Int × M)) :
    mul_heap_loop ops small poly2 exp2 poly3 exp3 len3 end_ qzero (fuel + 1) (h :: rest) out =
      mul_heap_loop ops small poly2 exp2 poly3 exp3 len3 end_ qzero fuel
        (mul_heap_next ops small poly2 exp2 poly3 exp3 len3 end_ qzero (h :: rest))
        (if mul_chain_coeff small poly2 poly3 (mul_popped h.exp (h :: rest)) = 0 then out
         else out ++ [(mul_chain_coeff small poly2 poly3 (mul_popped h.exp (h :: rest)),
           h.exp)]) := by
  simp only [mul_heap_loop, mul_heap_next, mul_heap_inner, mul_pop_loop_eq, mul_chain_fold,
    mul_chain_coeff]

end kernel_run_proofs

/-! ## Every row owns at most one node -/

section kernel_rows_proofs

variable {M : Type} [DecidableEq M] [Inhabited M]

theorem mul_heap_rows_insert_all (ops : mpoly_ops M) (exp2 exp3 : List M) (len2 : Nat)
    (xs : List mpoly_heap_t) (H : List (mpoly_heap_s M))
    (hnd : ((xs ++ mul_heap_nodes H).map fun x => x.i).Nodup)
    (hlt : ∀ x ∈ xs ++ mul_heap_nodes H, x.i < len2) (hne : ∀ h ∈ H, h.next ≠ []) :
    mul_heap_rows len2 (mul_insert_all ops exp2 exp3 xs H) := by
  have hp := mul_insert_all_nodes ops exp2 exp3 xs H
  refine ⟨(hp.map _).nodup_iff.2 hnd, ?_, mul_insert_all_nonempty ops exp2 exp3 xs H hne⟩
  intro x hx
  exact hlt x (hp.subset hx)

theorem mul_heap_rows_seed (ops : mpoly_ops M) (exp2 exp3 : List M) (len2 : Nat)
    (start end_ : List Nat) :
    mul_heap_rows len2 (mul_seed_loop ops exp2 exp3 start end_ (List.range len2) []) := by
  rw [mul_seed_loop_eq]
  apply mul_heap_rows_insert_all
  · simp only [mul_heap_nodes, List.flatMap_nil, List.append_nil, List.map_map]
    have e : ((fun x : mpoly_heap_t => x.i) ∘ fun i => (⟨i, start.getD i 0⟩ : mpoly_heap_t))
        = id := rfl
    rw [e, List.map_id]
    exact (List.nodup_range len2).sublist (List.filter_sublist _)
  · intro x hx
    simp only [mul_heap_nodes, List.flatMap_nil, List.append_nil, List.mem_map,
      List.mem_filter, List.mem_range] at hx
    obtain ⟨i, ⟨hi, -⟩, rfl⟩ := hx
    exact hi
  · intro h hh
    exact absurd hh (List.not_mem_nil _)

theorem mul_pushes_rows (len3 : Nat) (end_ : List Nat) (qzero : Bool) (C : List mpoly_heap_t) :
    ∃ L : List mpoly_heap_t,
      ((mul_pushes len3 end_ qzero C).map fun x => x.i).Perm (L.map fun x => x.i) ∧
        L.Sublist C := by
  refine ⟨C.filter fun x => decide (x.j + 1 < end_.getD x.i 0) &&
      (decide (x.j < len3 - 1) || (qzero && decide (x.j = 0))), ?_, List.filter_sublist _⟩
  have hp := (mul_pushes_perm len3 end_ qzero C).map fun x => x.i
  rw [List.map_map] at hp
  exact hp

theorem mul_heap_rows_next (ops : mpoly_ops M) (small : Bool) (poly2 : List Int)
    (exp2 : List M) (poly3 : List Int) (exp3 : List M) (len2 len3 : Nat) (end_ : List Nat)
    (qzero : Bool) (H : List (mpoly_heap_s M)) (hH : mul_heap_rows len2 H) :
    mul_heap_rows len2 (mul_heap_next ops small poly2 exp2 poly3 exp3 len3 end_ qzero H) := by
  cases H with
  | nil =>
    refine ⟨by simp [mul_heap_next, mul_heap_inner, mul_push_loop, mul_heap_nodes], ?_, ?_⟩
    · intro x hx
      simp [mul_heap_next, mul_heap_inner, mul_push_loop, mul_heap_nodes] at hx
    · intro h hh
      simp [mul_heap_next, mul_heap_inner, mul_push_loop] at hh
  | cons h rest =>
    obtain ⟨hnd, hlt, hne⟩ := hH
    rw [mul_heap_next_cons]
    rw [mul_popped_nodes h.exp (h :: rest)] at hnd hlt
    obtain ⟨L, hperm, hsub⟩ := mul_pushes_rows len3 end_ qzero (mul_popped h.exp (h :: rest))
    apply mul_heap_rows_insert_all
    · rw [List.map_append]
      rw [List.map_append] at hnd
      have h1 : (L.map (fun x : mpoly_heap_t => x.i) ++
          (mul_heap_nodes (mul_unpopped h.exp (h :: rest))).map fun x => x.i).Nodup :=
        hnd.sublist ((hsub.map _).append (List.Sublist.refl _))
      exact ((hperm.append_right _).nodup_iff).2 h1
    · intro x hx
      rcases List.mem_append.1 hx with hx | hx
      · obtain ⟨y, hy, -, rfl⟩ := mul_pushes_mem len3 end_ qzero _ x hx
        exact hlt y (List.mem_append_left _ hy)
      · exact hlt x (List.mem_append_right _ hx)
    · intro h' hh'
      exact hne h' (mul_unpopped_mem h.exp (h :: rest) h' hh')

theorem mul_heap_rows_at (ops : mpoly_ops M) (small : Bool) (poly2 : List Int) (exp2 : List M)
    (len2 : Nat) (poly3 : List Int) (exp3 : List M) (len3 : Nat) (start end_ : List Nat)
    (qzero : Bool) (n : Nat) :
    mul_heap_rows len2
      (mul_heap_at ops small poly2 exp2 len2 poly3 exp3 len3 start end_ qzero n) := by
  induction n with
  | zero => exact mul_heap_rows_seed ops exp2 exp3 len2 start end_
  | succ n ih => exact mul_heap_rows_next ops small poly2 exp2 poly3 exp3 len2 len3 end_ qzero _ ih

/-- Pairwise distinct rows below `len2` are at most `len2` in number. -/
theorem mul_rows_length (len2 : Nat) (C : List mpoly_heap_t)
    (hnd : (C.map fun x => x.i).Nodup) (hlt : ∀ x ∈ C, x.i < len2) : C.length ≤ len2 := by
  have hsub : (C.map fun x => x.i) ⊆ List.range len2 := by
    intro i hi
    obtain ⟨x, hx, rfl⟩ := List.mem_map.1 hi
    exact List.mem_range.2 (hlt x hx)
  have := (List.subperm_of_subset hnd hsub).length_le
  simpa using this

theorem mul_heap_entries_le (H : List (mpoly_heap_s M)) (hne : ∀ h ∈ H, h.next ≠ []) :
    H.length ≤ (mul_heap_nodes H).length := by
  induction H with
  | nil => exact le_refl _
  | cons h rest ih =>
    rw [mul_heap_nodes_cons, List.length_append, List.length_cons]
    have h1 : 0 < h.next.length := List.length_pos.2 (hne h (List.mem_cons_self _ _))
    have h2 := ih (fun h' hh' => hne h' (List.mem_cons_of_mem _ hh'))
    omega

end kernel_rows_proofs

/-! ## Claims on the seeding and on the capacity of the heap -/

/-- With every row window empty the seeding loop leaves the heap empty and
the kernel returns at once, with no term written. -/
theorem mul_heap_kernel_no_window {M : Type} [DecidableEq M] [Inhabited M]
    (ops : mpoly_ops M) (qzero : Bool → Bool) (poly2 : List Int) (exp2 : List M) (len2 : Nat)
    (poly3 : List Int) (exp3 : List M) (len3 : Nat) (start end_ : List Nat)
    (hempty : ∀ i, i < len2 → ¬ start.getD i 0 < end_.getD i 0) :
    mul_seed_loop ops exp2 exp3 start end_ (List.range len2) [] = [] ∧
      mul_heap_kernel ops qzero poly2 exp2 len2 poly3 exp3 len3 start end_ = some [] := by
  have hnil : ((List.range len2).filter fun i => decide (start.getD i 0 < end_.getD i 0)) = [] := by
    rw [List.filter_eq_nil_iff]
    intro i hi
    simpa using hempty i (List.mem_range.1 hi)
  have hseed : mul_seed_loop ops exp2 exp3 start end_ (List.range len2) [] = [] := by
    rw [mul_seed_loop_eq, hnil]
    rfl
  refine ⟨hseed, ?_⟩
  unfold mul_heap_kernel
  simp only [hseed]
  rfl

/-- C23: heap seeding.  After the seeding loop of the kernel, in either
variant, the nodes on the heap are the nodes `(i, start[i])` of the rows `i`
with `start[i] < end[i]`, one for each such row and none for any other row,
and each is filed under the monomial `exp2[i] + exp3[start[i]]`; if every
row window is empty the heap is empty and the kernel returns with no term
written, that is with length 0, which holds for `_fmpz_mpoly_mul_heap_part1`
and for `_fmpz_mpoly_mul_heap_part` with any number of words. -/
theorem fmpz_mpoly_mul_heap_part_seeding {M : Type} [DecidableEq M] [Inhabited M]
    (ops : mpoly_ops M) (qzero : Bool → Bool) (poly2 : List Int) (exp2 : List M) (len2 : Nat)
    (poly3 : List Int) (exp3 : List M) (len3 : Nat) (start end_ : List Nat) :
    (mul_heap_nodes (mul_seed_loop ops exp2 exp3 start end_ (List.range len2) [])).Perm
        (((List.range len2).filter fun i => decide (start.getD i 0 < end_.getD i 0)).map
          fun i => (⟨i, start.getD i 0⟩ : mpoly_heap_t)) ∧
      (∀ h ∈ mul_seed_loop ops exp2 exp3 start end_ (List.range len2) [], ∀ x ∈ h.next,
        h.exp = ops.add (exp2.getD x.i default) (exp3.getD x.j default)) ∧
      (∀ i, i < len2 → start.getD i 0 < end_.getD i 0 →
        (mul_heap_nodes (mul_seed_loop ops exp2 exp3 start end_ (List.range len2) [])).count
          ⟨i, start.getD i 0⟩ = 1) ∧
      (∀ x ∈ mul_heap_nodes (mul_seed_loop ops exp2 exp3 start end_ (List.range len2) []),
        x.i < len2 ∧ start.getD x.i 0 < end_.getD x.i 0 ∧ x.j = start.getD x.i 0) ∧
      ((∀ i, i < len2 → ¬ start.getD i 0 < end_.getD i 0) →
        mul_seed_loop ops exp2 exp3 start end_ (List.range len2) [] = [] ∧
          mul_heap_kernel ops qzero poly2 exp2 len2 poly3 exp3 len3 start end_ = some [] ∧
          (∀ (e2 e3 : List Nat) (maskhi : Nat),
            _fmpz_mpoly_mul_heap_part1 poly2 e2 len2 poly3 e3 len3 start end_ maskhi
              = some []) ∧
          ∀ (N : Nat) (e2 e3 : List (mpoly_monomial N)) (maskhi masklo : Nat),
            _fmpz_mpoly_mul_heap_part N poly2 e2 len2 poly3 e3 len3 start end_ maskhi masklo
              = some []) := by
  have hperm : (mul_heap_nodes (mul_seed_loop ops exp2 exp3 start end_ (List.range len2) [])).Perm
      (((List.range len2).filter fun i => decide (start.getD i 0 < end_.getD i 0)).map
        fun i => (⟨i, start.getD i 0⟩ : mpoly_heap_t)) := by
    rw [mul_seed_loop_eq]
    have := mul_insert_all_nodes ops exp2 exp3
      (((List.range len2).filter fun i => decide (start.getD i 0 < end_.getD i 0)).map
        fun i => (⟨i, start.getD i 0⟩ : mpoly_heap_t)) []
    simpa [mul_heap_nodes] using this
  have hnd : (((List.range len2).filter fun i => decide (start.getD i 0 < end_.getD i 0)).map
      fun i => (⟨i, start.getD i 0⟩ : mpoly_heap_t)).Nodup := by
    apply List.Nodup.map
    · intro a b hab
      exact congrArg mpoly_heap_t.i hab
    · exact (List.nodup_range len2).sublist (List.filter_sublist _)
  refine ⟨hperm, ?_, ?_, ?_, ?_⟩
  · rw [mul_seed_loop_eq]
    apply mul_insert_all_forall ops exp2 exp3
      (fun e x => e = ops.add (exp2.getD x.i default) (exp3.getD x.j default))
    · intro h hh
      exact absurd hh (List.not_mem_nil _)
    · intro x _
      rfl
  · intro i hi hw
    rw [hperm.count_eq]
    apply List.count_eq_one_of_mem hnd
    exact List.mem_map.2 ⟨i, List.mem_filter.2 ⟨List.mem_range.2 hi, by simpa using hw⟩, rfl⟩
  · intro x hx
    have hx' := hperm.subset hx
    obtain ⟨i, hi, rfl⟩ := List.mem_map.1 hx'
    rw [List.mem_filter, List.mem_range] at hi
    exact ⟨hi.1, by simpa using hi.2, rfl⟩
  · intro hempty
    have h1 : ∀ (e2 e3 : List Nat) (maskhi : Nat),
        _fmpz_mpoly_mul_heap_part1 poly2 e2 len2 poly3 e3 len3 start end_ maskhi = some [] :=
      fun e2 e3 maskhi => (mul_heap_kernel_no_window (mpoly_ops1 maskhi) (fun small => !small)
        poly2 e2 len2 poly3 e3 len3 start end_ hempty).2
    refine ⟨(mul_heap_kernel_no_window ops qzero poly2 exp2 len2 poly3 exp3 len3 start end_
        hempty).1,
      (mul_heap_kernel_no_window ops qzero poly2 exp2 len2 poly3 exp3 len3 start end_
        hempty).2, h1, ?_⟩
    intro N e2 e3 maskhi masklo
    unfold _fmpz_mpoly_mul_heap_part
    split
    · rw [h1]
      rfl
    · exact (mul_heap_kernel_no_window (mpoly_opsN N maskhi masklo) (fun _ => true)
        poly2 e2 len2 poly3 e3 len3 start end_ hempty).2

/-- C30: heap capacity.  At the head of every outer iteration of a kernel
run, in either variant, the nodes on the heap belong to pairwise distinct
rows of the first operand, so there are at most `len2` of them and at most
`len2` heap entries; the seeding loop allocates at most `len2` nodes; after
the inner loop the nodes in the store `Q` and the nodes left on the heap
still belong to pairwise distinct rows, so `Q_len` is at most `len2`; and
while the store is emptied, the nodes on the heap, the heap entries and the
nodes still in the store never add up to more than `len2`. -/
theorem fmpz_mpoly_mul_heap_part_capacity {M : Type} [DecidableEq M] [Inhabited M]
    (ops : mpoly_ops M) (small : Bool) (poly2 : List Int) (exp2 : List M) (len2 : Nat)
    (poly3 : List Int) (exp3 : List M) (len3 : Nat) (start end_ : List Nat) (qzero : Bool)
    (n : Nat) :
    ((mul_heap_nodes
        (mul_heap_at ops small poly2 exp2 len2 poly3 exp3 len3 start end_ qzero n)).map
          fun x => x.i).Nodup ∧
      (∀ x ∈ mul_heap_nodes
          (mul_heap_at ops small poly2 exp2 len2 poly3 exp3 len3 start end_ qzero n),
        x.i < len2) ∧
      (mul_heap_nodes
        (mul_heap_at ops small poly2 exp2 len2 poly3 exp3 len3 start end_ qzero n)).length
          ≤ len2 ∧
      (mul_heap_at ops small poly2 exp2 len2 poly3 exp3 len3 start end_ qzero n).length
        ≤ len2 ∧
      ((List.range len2).filter fun i => decide (start.getD i 0 < end_.getD i 0)).length
        ≤ len2 ∧
      (((mul_heap_inner small poly2 poly3 len3 qzero
            (mul_heap_at ops small poly2 exp2 len2 poly3 exp3 len3 start end_ qzero n)).2.2 ++
          mul_heap_nodes (mul_heap_inner small poly2 poly3 len3 qzero
            (mul_heap_at ops small poly2 exp2 len2 poly3 exp3 len3 start end_ qzero n)).1).map
              fun x => x.i).Nodup ∧
      (mul_heap_inner small poly2 poly3 len3 qzero
        (mul_heap_at ops small poly2 exp2 len2 poly3 exp3 len3 start end_ qzero n)).2.2.length
          ≤ len2 ∧
      ∀ Q1 Q2, (mul_heap_inner small poly2 poly3 len3 qzero
          (mul_heap_at ops small poly2 exp2 len2 poly3 exp3 len3 start end_ qzero n)).2.2
            = Q1 ++ Q2 →
        (mul_heap_nodes (mul_push_loop ops exp2 exp3 end_ Q1
            (mul_heap_inner small poly2 poly3 len3 qzero
              (mul_heap_at ops small poly2 exp2 len2 poly3 exp3 len3 start end_ qzero n)).1)
          ).length + Q2.length ≤ len2 ∧
        (mul_push_loop ops exp2 exp3 end_ Q1
            (mul_heap_inner small poly2 poly3 len3 qzero
              (mul_heap_at ops small poly2 exp2 len2 poly3 exp3 len3 start end_ qzero n)).1
          ).length + Q2.length ≤ len2 := by
  obtain ⟨hnd, hlt, hne⟩ :=
    mul_heap_rows_at ops small poly2 exp2 len2 poly3 exp3 len3 start end_ qzero n
  generalize mul_heap_at ops small poly2 exp2 len2 poly3 exp3 len3 start end_ qzero n = H
    at hnd hlt hne ⊢
  have hlen := mul_rows_length len2 (mul_heap_nodes H) hnd hlt
  have hseed : ((List.range len2).filter
      fun i => decide (start.getD i 0 < end_.getD i 0)).length ≤ len2 := by
    have := List.length_filter_le (fun i => decide (start.getD i 0 < end_.getD i 0))
      (List.range len2)
    simpa using this
  refine ⟨hnd, hlt, hlen, le_trans (mul_heap_entries_le H hne) hlen, hseed, ?_⟩
  cases H with
  | nil =>
    refine ⟨by simp [mul_heap_inner, mul_heap_nodes], by simp [mul_heap_inner], ?_⟩
    intro Q1 Q2 hQ
    simp only [mul_heap_inner] at hQ ⊢
    have h1 : Q1 = [] := (List.append_eq_nil.1 hQ.symm).1
    have h2 : Q2 = [] := (List.append_eq_nil.1 hQ.symm).2
    subst h1 h2
    simp [mul_push_loop, mul_heap_nodes]
  | cons h rest =>
    rw [mul_heap_inner_cons]
    simp only
    rw [mul_popped_nodes h.exp (h :: rest)] at hnd hlt hlen
    have hsubl : (((mul_popped h.exp (h :: rest)).filter
        fun x => decide (x.j < len3 - 1) || (qzero && decide (x.j = 0))).reverse).length ≤
        (mul_popped h.exp (h :: rest)).length := by
      rw [List.length_reverse]
      exact List.length_filter_le _ _
    rw [List.length_append] at hlen
    refine ⟨?_, by omega, ?_⟩
    · rw [List.map_append] at hnd ⊢
      rw [List.map_reverse]
      have h1 : (((mul_popped h.exp (h :: rest)).filter
          fun x => decide (x.j < len3 - 1) || (qzero && decide (x.j = 0))).map
            (fun x : mpoly_heap_t => x.i) ++
          (mul_heap_nodes (mul_unpopped h.exp (h :: rest))).map fun x => x.i).Nodup :=
        hnd.sublist (((List.filter_sublist _).map _).append (List.Sublist.refl _))
      exact (((List.reverse_perm _).append_right _).nodup_iff).2 h1
    · intro Q1 Q2 hQ
      have hQl : Q1.length + Q2.length ≤ (mul_popped h.exp (h :: rest)).length := by
        rw [← List.length_append, ← hQ]
        exact hsubl
      have hp := (mul_insert_all_nodes ops exp2 exp3
        ((Q1.filter fun x => decide (x.j + 1 < end_.getD x.i 0)).map
          fun x => (⟨x.i, x.j + 1⟩ : mpoly_heap_t)) (mul_unpopped h.exp (h :: rest))).length_eq
      rw [← mul_push_loop_eq, List.length_append, List.length_map] at hp
      have hf := List.length_filter_le (fun x : mpoly_heap_t =>
        decide (x.j + 1 < end_.getD x.i 0)) Q1
      have hent := mul_heap_entries_le (mul_push_loop ops exp2 exp3 end_ Q1
        (mul_unpopped h.exp (h :: rest))) (by
          rw [mul_push_loop_eq]
          exact mul_insert_all_nonempty ops exp2 exp3 _ _
            (fun h' hh' => hne h' (mul_unpopped_mem h.exp (h :: rest) h' hh')))
      constructor <;> omega

/-! ## The store test and the nodes pushed back -/

section kernel_advance_proofs

variable {M : Type} [DecidableEq M] [Inhabited M]

/-- Inside a window that ends within the second operand every popped node
whose column can advance passes the store test, whichever of its two forms
is used: the nodes pushed back are the popped nodes with `j + 1 < end[i]`. -/
theorem mul_pushes_window (len2 len3 : Nat) (end_ : List Nat) (qzero : Bool)
    (C : List mpoly_heap_t) (hwin : ∀ i, i < len2 → end_.getD i 0 ≤ len3)
    (hC : ∀ x ∈ C, x.i < len2) :
    mul_pushes len3 end_ qzero C =
      ((C.reverse.filter fun x => decide (x.j + 1 < end_.getD x.i 0)).map
        fun x => (⟨x.i, x.j + 1⟩ : mpoly_heap_t)) := by
  unfold mul_pushes
  congr 1
  rw [← List.filter_reverse, List.filter_filter]
  apply List.filter_congr
  intro x hx
  have hx' := hC x (List.mem_reverse.1 hx)
  have hw := hwin x.i hx'
  by_cases hq : x.j + 1 < end_.getD x.i 0
  · have hs : x.j < len3 - 1 := by omega
    rw [decide_eq_true hq, decide_eq_true hs]
    rfl
  · rw [decide_eq_false hq]
    rfl

theorem mul_heap_next_qzero (ops : mpoly_ops M) (small : Bool) (poly2 : List Int)
    (exp2 : List M) (poly3 : List Int) (exp3 : List M) (len2 len3 : Nat) (end_ : List Nat)
    (qzero qzero' : Bool) (hwin : ∀ i, i < len2 → end_.getD i 0 ≤ len3)
    (H : List (mpoly_heap_s M)) (hH : ∀ x ∈ mul_heap_nodes H, x.i < len2) :
    mul_heap_next ops small poly2 exp2 poly3 exp3 len3 end_ qzero H =
      mul_heap_next ops small poly2 exp2 poly3 exp3 len3 end_ qzero' H := by
  cases H with
  | nil => rfl
  | cons h rest =>
    rw [mul_heap_next_cons, mul_heap_next_cons]
    have hC : ∀ x ∈ mul_popped h.exp (h :: rest), x.i < len2 := by
      intro x hx
      apply hH x
      rw [mul_popped_nodes h.exp (h :: rest)]
      exact List.mem_append_left _ hx
    rw [mul_pushes_window len2 len3 end_ qzero _ hwin hC,
      mul_pushes_window len2 len3 end_ qzero' _ hwin hC]

theorem mul_heap_loop_qzero (ops : mpoly_ops M) (small : Bool) (poly2 : List Int)
    (exp2 : List M) (poly3 : List Int) (exp3 : List M) (len2 len3 : Nat) (end_ : List Nat)
    (qzero qzero' : Bool) (hwin : ∀ i, i < len2 → end_.getD i 0 ≤ len3) :
    ∀ (fuel : Nat) (H : List (mpoly_heap_s M)) (out : List (Int × M)), mul_heap_rows len2 H →
      mul_heap_loop ops small poly2 exp2 poly3 exp3 len3 end_ qzero fuel H out =
        mul_heap_loop ops small poly2 exp2 poly3 exp3 len3 end_ qzero' fuel H out := by
  intro fuel
  induction fuel with
  | zero => intro H out _; rfl
  | succ fuel ih =>
    intro H out hH
    cases H with
    | nil => rfl
    | cons h rest =>
      rw [mul_heap_loop_next, mul_heap_loop_next,
        mul_heap_next_qzero ops small poly2 exp2 poly3 exp3 len2 len3 end_ qzero qzero' hwin
          (h :: rest) hH.2.1]
      exact ih _ _ (mul_heap_rows_next ops small poly2 exp2 poly3 exp3 len2 len3 end_ qzero' _ hH)

theorem mul_heap_kernel_qzero (ops : mpoly_ops M) (q q' : Bool → Bool)
    (poly2 : List Int) (exp2 : List M) (len2 : Nat) (poly3 : List Int) (exp3 : List M)
    (len3 : Nat) (start end_ : List Nat) (hwin : ∀ i, i < len2 → end_.getD i 0 ≤ len3) :
    mul_heap_kernel ops q poly2 exp2 len2 poly3 exp3 len3 start end_ =
      mul_heap_kernel ops q' poly2 exp2 len2 poly3 exp3 len3 start end_ := by
  unfold mul_heap_kernel
  exact mul_heap_loop_qzero ops _ poly2 exp2 poly3 exp3 len2 len3 end_ _ _ hwin _ _ _
    (mul_heap_rows_seed ops exp2 exp3 len2 start end_)

theorem mul_heap_at_qzero (ops : mpoly_ops M) (small : Bool) (poly2 : List Int) (exp2 : List M)
    (len2 : Nat) (poly3 : List Int) (exp3 : List M) (len3 : Nat) (start end_ : List Nat)
    (qzero qzero' : Bool) (hwin : ∀ i, i < len2 → end_.getD i 0 ≤ len3) (n : Nat) :
    mul_heap_at ops small poly2 exp2 len2 poly3 exp3 len3 start end_ qzero n =
      mul_heap_at ops small poly2 exp2 len2 poly3 exp3 len3 start end_ qzero' n := by
  induction n with
  | zero => rfl
  | succ n ih =>
    simp only [mul_heap_at]
    rw [ih]
    exact mul_heap_next_qzero ops small poly2 exp2 poly3 exp3 len2 len3 end_ qzero qzero' hwin _
      (mul_heap_rows_at ops small poly2 exp2 len2 poly3 exp3 len3 start end_ qzero' n).2.1

end kernel_advance_proofs

/-- C24: column advance.  Given `end[i] <= len3` for every row, in each of
the four accumulation branches (either monomial representation, small or
multiprecision coefficients, either form of the store test): at every outer
iteration the nodes put back on the heap are exactly the popped nodes
`(i, j)` with `j + 1 < end[i]`, each as `(i, j + 1)`; the heaps of a run do
not depend on the form of the store test, and neither does the output of
the kernel. -/
theorem fmpz_mpoly_mul_heap_part_advance {M : Type} [DecidableEq M] [Inhabited M]
    (ops : mpoly_ops M) (small : Bool) (poly2 : List Int) (exp2 : List M) (len2 : Nat)
    (poly3 : List Int) (exp3 : List M) (len3 : Nat) (start end_ : List Nat)
    (qzero qzero' : Bool) (hwin : ∀ i, i < len2 → end_.getD i 0 ≤ len3) :
    (∀ n h rest,
        mul_heap_at ops small poly2 exp2 len2 poly3 exp3 len3 start end_ qzero n = h :: rest →
        mul_heap_at ops small poly2 exp2 len2 poly3 exp3 len3 start end_ qzero (n + 1) =
          mul_insert_all ops exp2 exp3
            (((mul_popped h.exp (h :: rest)).reverse.filter
                fun x => decide (x.j + 1 < end_.getD x.i 0)).map
              fun x => (⟨x.i, x.j + 1⟩ : mpoly_heap_t))
            (mul_unpopped h.exp (h :: rest))) ∧
      (∀ n, mul_heap_at ops small poly2 exp2 len2 poly3 exp3 len3 start end_ qzero n =
        mul_heap_at ops small poly2 exp2 len2 poly3 exp3 len3 start end_ qzero' n) ∧
      (∀ fuel out, mul_heap_loop ops small poly2 exp2 poly3 exp3 len3 end_ qzero fuel
          (mul_seed_loop ops exp2 exp3 start end_ (List.range len2) []) out =
        mul_heap_loop ops small poly2 exp2 poly3 exp3 len3 end_ qzero' fuel
          (mul_seed_loop ops exp2 exp3 start end_ (List.range len2) []) out) ∧
      ∀ q q' : Bool → Bool,
        mul_heap_kernel ops q poly2 exp2 len2 poly3 exp3 len3 start end_ =
          mul_heap_kernel ops q' poly2 exp2 len2 poly3 exp3 len3 start end_ := by
  refine ⟨?_, ?_, ?_, ?_⟩
  · intro n h rest hn
    have hrows := mul_heap_rows_at ops small poly2 exp2 len2 poly3 exp3 len3 start end_ qzero n
    rw [hn] at hrows
    simp only [mul_heap_at]
    rw [hn, mul_heap_next_cons, mul_pushes_window len2 len3 end_ qzero _ hwin]
    intro x hx
    apply hrows.2.1 x
    rw [mul_popped_nodes h.exp (h :: rest)]
    exact List.mem_append_left _ hx
  · exact mul_heap_at_qzero ops small poly2 exp2 len2 poly3 exp3 len3 start end_ qzero qzero' hwin
  · intro fuel out
    exact mul_heap_loop_qzero ops small poly2 exp2 poly3 exp3 len2 len3 end_ qzero qzero' hwin
      fuel _ out (mul_heap_rows_seed ops exp2 exp3 len2 start end_)
  · intro q q'
    exact mul_heap_kernel_qzero ops q q' poly2 exp2 len2 poly3 exp3 len3 start end_ hwin

/-- Witness of C24: the single-word kernel on `(3x^2 + 2xy)(x - y)`, whose
small branch has the short store test, gives what the kernel with the long
store test in both branches gives. -/
theorem fmpz_mpoly_mul_heap_part_advance_witness :
    (∀ i, i < 2 → [2, 2].getD i 0 ≤ 2) ∧
    _fmpz_mpoly_mul_heap_part1 [3, 2] [0x0200, 0x0101] 2 [1, -1] [0x0100, 0x0001] 2
        [0, 0] [2, 2] 0 =
      mul_heap_kernel (mpoly_ops1 0) (fun _ => true) [3, 2] [0x0200, 0x0101] 2 [1, -1]
        [0x0100, 0x0001] 2 [0, 0] [2, 2] :=
  ⟨by decide,
    (fmpz_mpoly_mul_heap_part_advance (mpoly_ops1 0) true [3, 2] [0x0200, 0x0101] 2 [1, -1]
      [0x0100, 0x0001] 2 [0, 0] [2, 2] false true (by decide)).2.2.2
      (fun small => !small) (fun _ => true)⟩

/-! ## The kernel over two representations of the same monomials -/

section kernel_relabel_proofs

variable {M : Type} [DecidableEq M] [Inhabited M] {M' : Type} [DecidableEq M'] [Inhabited M']

theorem mul_getD_relabel (f : M → M') (hdef : f default = default) (l : List M) (i : Nat) :
    (l.map f).getD i default = f (l.getD i default) := by
  rw [← hdef, List.getD_map]

theorem mpoly_monomial_word_default :
    mpoly_monomial_word (default : mpoly_monomial 1) = (default : Nat) := by
  show (List.replicate 1 0).headD 0 = 0
  rfl

theorem mpoly_heap_insert_relabel (ops : mpoly_ops M) (ops' : mpoly_ops M') (f : M → M')
    (hinj : Function.Injective f) (hbef : ∀ a b, ops'.before (f a) (f b) = ops.before a b)
    (e : M) (x : mpoly_heap_t) (H : List (mpoly_heap_s M)) :
    mpoly_heap_insert ops'.before (f e) x (mul_heap_relabel f H) =
      mul_heap_relabel f (mpoly_heap_insert ops.before e x H) := by
  induction H with
  | nil => rfl
  | cons h rest ih =>
    simp only [mul_heap_relabel, List.map_cons, mpoly_heap_insert] at ih ⊢
    by_cases he : e = h.exp
    · rw [if_pos he, if_pos (congrArg f he)]
      rfl
    · rw [if_neg he, if_neg (fun h' => he (hinj h')), hbef]
      by_cases hb : ops.before e h.exp = true
      · rw [if_pos hb, if_pos hb]
        rfl
      · rw [if_neg hb, if_neg hb, ih]
        rfl

theorem mul_push_loop_relabel (ops : mpoly_ops M) (ops' : mpoly_ops M') (f : M → M')
    (hinj : Function.Injective f) (hbef : ∀ a b, ops'.before (f a) (f b) = ops.before a b)
    (hadd : ∀ a b, f (ops.add a b) = ops'.add (f a) (f b)) (hdef : f default = default)
    (exp2 exp3 : List M) (end_ : List Nat) (Q : List mpoly_heap_t) (H : List (mpoly_heap_s M)) :
    mul_push_loop ops' (exp2.map f) (exp3.map f) end_ Q (mul_heap_relabel f H) =
      mul_heap_relabel f (mul_push_loop ops exp2 exp3 end_ Q H) := by
  induction Q generalizing H with
  | nil => rfl
  | cons x Q ih =>
    simp only [mul_push_loop]
    split_ifs with hx
    · rw [← ih, ← mpoly_heap_insert_relabel ops ops' f hinj hbef, hadd,
        mul_getD_relabel f hdef, mul_getD_relabel f hdef]
    · exact ih H

theorem mul_seed_loop_relabel (ops : mpoly_ops M) (ops' : mpoly_ops M') (f : M → M')
    (hinj : Function.Injective f) (hbef : ∀ a b, ops'.before (f a) (f b) = ops.before a b)
    (hadd : ∀ a b, f (ops.add a b) = ops'.add (f a) (f b)) (hdef : f default = default)
    (exp2 exp3 : List M) (start end_ : List Nat) (rows : List Nat)
    (H : List (mpoly_heap_s M)) :
    mul_seed_loop ops' (exp2.map f) (exp3.map f) start end_ rows (mul_heap_relabel f H) =
      mul_heap_relabel f (mul_seed_loop ops exp2 exp3 start end_ rows H) := by
  induction rows generalizing H with
  | nil => rfl
  | cons i rows ih =>
    simp only [mul_seed_loop]
    split_ifs with hi
    · rw [← ih, ← mpoly_heap_insert_relabel ops ops' f hinj hbef, hadd,
        mul_getD_relabel f hdef, mul_getD_relabel f hdef]
    · exact ih H

theorem mul_pop_loop_relabel (f : M → M') (hinj : Function.Injective f) (small : Bool)
    (poly2 poly3 : List Int) (len3 : Nat) (qzero : Bool) (exp : M) (H : List (mpoly_heap_s M))
    (s : mul_acc × List mpoly_heap_t) :
    mul_pop_loop small poly2 poly3 len3 qzero (f exp) (mul_heap_relabel f H) s =
      (mul_heap_relabel f (mul_pop_loop small poly2 poly3 len3 qzero exp H s).1,
        (mul_pop_loop small poly2 poly3 len3 qzero exp H s).2) := by
  induction H generalizing s with
  | nil => rfl
  | cons h rest ih =>
    simp only [mul_heap_relabel, List.map_cons, mul_pop_loop, mpoly_heap_pop] at ih ⊢
    by_cases he : h.exp = exp
    · rw [if_pos he, if_pos (congrArg f he), ih]
    · rw [if_neg he, if_neg (fun h' => he (hinj h'))]
      rfl

theorem mul_heap_loop_relabel (ops : mpoly_ops M) (ops' : mpoly_ops M') (f : M → M')
    (hinj : Function.Injective f) (hbef : ∀ a b, ops'.before (f a) (f b) = ops.before a b)
    (hadd : ∀ a b, f (ops.add a b) = ops'.add (f a) (f b)) (hdef : f default = default)
    (small : Bool) (poly2 : List Int) (exp2 : List M) (poly3 : List Int) (exp3 : List M)
    (len3 : Nat) (end_ : List Nat) (qzero : Bool) :
    ∀ (fuel : Nat) (H : List (mpoly_heap_s M)) (out : List (Int × M)),
      mul_heap_loop ops' small poly2 (exp2.map f) poly3 (exp3.map f) len3 end_ qzero fuel
          (mul_heap_relabel f H) (out.map fun t => (t.1, f t.2)) =
        (mul_heap_loop ops small poly2 exp2 poly3 exp3 len3 end_ qzero fuel H out).map
          fun res => res.map fun t => (t.1, f t.2) := by
  intro fuel
  induction fuel with
  | zero => intro H out; rfl
  | succ fuel ih =>
    intro H out
    cases H with
    | nil => rfl
    | cons h rest =>
      have hpop := mul_pop_loop_relabel f hinj small poly2 poly3 len3 qzero h.exp (h :: rest)
        (mul_acc_init, [])
      simp only [mul_heap_relabel, List.map_cons] at hpop
      simp only [mul_heap_loop, mul_heap_relabel, List.map_cons]
      rw [hpop]
      simp only
      rw [← ih]
      congr 1
      · exact mul_push_loop_relabel ops ops' f hinj hbef hadd hdef exp2 exp3 end_ _ _
      · split_ifs <;> simp

theorem mul_heap_kernel_relabel (ops : mpoly_ops M) (ops' : mpoly_ops M') (f : M → M')
    (hinj : Function.Injective f) (hbef : ∀ a b, ops'.before (f a) (f b) = ops.before a b)
    (hadd : ∀ a b, f (ops.add a b) = ops'.add (f a) (f b)) (hdef : f default = default)
    (qzero : Bool → Bool) (poly2 : List Int) (exp2 : List M) (len2 : Nat) (poly3 : List Int)
    (exp3 : List M) (len3 : Nat) (start end_ : List Nat) :
    mul_heap_kernel ops' qzero poly2 (exp2.map f) len2 poly3 (exp3.map f) len3 start end_ =
      (mul_heap_kernel ops qzero poly2 exp2 len2 poly3 exp3 len3 start end_).map
        fun res => res.map fun t => (t.1, f t.2) := by
  unfold mul_heap_kernel
  have hseed := mul_seed_loop_relabel ops ops' f hinj hbef hadd hdef exp2 exp3 start end_
    (List.range len2) []
  have hloop := mul_heap_loop_relabel ops ops' f hinj hbef hadd hdef
    (_fmpz_mpoly_fits_small poly2 len2 && _fmpz_mpoly_fits_small poly3 len3) poly2 exp2 poly3
    exp3 len3 end_
    (qzero (_fmpz_mpoly_fits_small poly2 len2 && _fmpz_mpoly_fits_small poly3 len3))
    (mul_window_size len2 start end_ + 1)
    (mul_seed_loop ops exp2 exp3 start end_ (List.range len2) []) []
  simp only [mul_heap_relabel, List.map_nil] at hseed hloop ⊢
  rw [← hloop, ← hseed]

end kernel_relabel_proofs

/-- C25: single-word specialization.  For `N = 1` and a window that ends
within the second operand, `_fmpz_mpoly_mul_heap_part` returns what
`_fmpz_mpoly_mul_heap_part1` returns on the same arrays, and this is what
the multi-word algorithm (word-wise sums, comparison with both masks, the
store test `x->j < len3 - 1 || x->j == 0` in both branches) computes on
one-word monomials: the same terms, hence the same length, coefficients and
monomials. -/
theorem fmpz_mpoly_mul_heap_part_single_word (poly2 : List Int)
    (exp2 : List (mpoly_monomial 1)) (len2 : Nat) (poly3 : List Int)
    (exp3 : List (mpoly_monomial 1)) (len3 : Nat) (start end_ : List Nat) (maskhi masklo : Nat)
    (hwin : ∀ i, i < len2 → end_.getD i 0 ≤ len3) :
    _fmpz_mpoly_mul_heap_part 1 poly2 exp2 len2 poly3 exp3 len3 start end_ maskhi masklo =
        (_fmpz_mpoly_mul_heap_part1 poly2 (exp2.map mpoly_monomial_word) len2
          poly3 (exp3.map mpoly_monomial_word) len3 start end_ maskhi).map
            (fun res => res.map fun t => (t.1, mpoly_monomial_of_word rfl t.2)) ∧
      _fmpz_mpoly_mul_heap_part 1 poly2 exp2 len2 poly3 exp3 len3 start end_ maskhi masklo =
        mul_heap_kernel (mpoly_opsN 1 maskhi masklo) (fun _ => true)
          poly2 exp2 len2 poly3 exp3 len3 start end_ ∧
      (_fmpz_mpoly_mul_heap_part1 poly2 (exp2.map mpoly_monomial_word) len2
          poly3 (exp3.map mpoly_monomial_word) len3 start end_ maskhi).map
            (fun res => res.map fun t => t.1) =
        (mul_heap_kernel (mpoly_opsN 1 maskhi masklo) (fun _ => true)
          poly2 exp2 len2 poly3 exp3 len3 start end_).map (fun res => res.map fun t => t.1) ∧
      (_fmpz_mpoly_mul_heap_part1 poly2 (exp2.map mpoly_monomial_word) len2
          poly3 (exp3.map mpoly_monomial_word) len3 start end_ maskhi).map
            (fun res => res.map fun t => t.2) =
        (mul_heap_kernel (mpoly_opsN 1 maskhi masklo) (fun _ => true)
          poly2 exp2 len2 poly3 exp3 len3 start end_).map
            (fun res => res.map fun t => mpoly_monomial_word t.2) ∧
      (_fmpz_mpoly_mul_heap_part1 poly2 (exp2.map mpoly_monomial_word) len2
          poly3 (exp3.map mpoly_monomial_word) len3 start end_ maskhi).map List.length =
        (mul_heap_kernel (mpoly_opsN 1 maskhi masklo) (fun _ => true)
          poly2 exp2 len2 poly3 exp3 len3 start end_).map List.length := by
  have hsim : _fmpz_mpoly_mul_heap_part1 poly2 (exp2.map mpoly_monomial_word) len2
      poly3 (exp3.map mpoly_monomial_word) len3 start end_ maskhi =
      (mul_heap_kernel (mpoly_opsN 1 maskhi masklo) (fun _ => true)
        poly2 exp2 len2 poly3 exp3 len3 start end_).map
          fun res => res.map fun t => (t.1, mpoly_monomial_word t.2) := by
    unfold _fmpz_mpoly_mul_heap_part1
    rw [mul_heap_kernel_qzero (mpoly_ops1 maskhi) (fun small => !small) (fun _ => true) _ _ _ _ _
      _ _ _ hwin]
    exact mul_heap_kernel_relabel (mpoly_opsN 1 maskhi masklo) (mpoly_ops1 maskhi)
      mpoly_monomial_word (fun a b h => mpoly_monomial_word_inj a b h)
      (fun a b => (mpoly_monomial_word_lt a b maskhi masklo).symm)
      (fun a b => mpoly_monomial_word_add a b) mpoly_monomial_word_default (fun _ => true) poly2 exp2 len2 poly3 exp3
      len3 start end_
  have hdef : _fmpz_mpoly_mul_heap_part 1 poly2 exp2 len2 poly3 exp3 len3 start end_ maskhi
      masklo = (_fmpz_mpoly_mul_heap_part1 poly2 (exp2.map mpoly_monomial_word) len2
        poly3 (exp3.map mpoly_monomial_word) len3 start end_ maskhi).map
          (fun res => res.map fun t => (t.1, mpoly_monomial_of_word rfl t.2)) := by
    unfold _fmpz_mpoly_mul_heap_part
    rw [dif_pos rfl]
  refine ⟨hdef, ?_, ?_, ?_, ?_⟩
  · rw [hdef, hsim, Option.map_map]
    have e : ((fun res : List (Int × Nat) =>
        res.map fun t => (t.1, mpoly_monomial_of_word (rfl : 1 = 1) t.2)) ∘
        fun res : List (Int × mpoly_monomial 1) =>
          res.map fun t => (t.1, mpoly_monomial_word t.2)) = id := by
      funext res
      simp only [Function.comp, List.map_map, id]
      conv_rhs => rw [← List.map_id res]
      apply List.map_congr_left
      intro t _
      simp only [Function.comp, id, mpoly_monomial_of_word_word]
    rw [e, Option.map_id]
    rfl
  · rw [hsim, Option.map_map]
    congr 1
    funext res
    simp [Function.comp, List.map_map]
  · rw [hsim, Option.map_map]
    congr 1
    funext res
    simp [Function.comp, List.map_map]
  · rw [hsim, Option.map_map]
    congr 1
    funext res
    simp [Function.comp]

/-- Witness of C25: `(3x^2 + 2xy)(x - y)` with one-word monomials, full
window. -/
theorem fmpz_mpoly_mul_heap_part_single_word_witness :
    (∀ i, i < 2 → [2, 2].getD i 0 ≤ 2) ∧
    mul_heap_kernel (mpoly_opsN 1 0 0) (fun _ => true) [3, 2] mul_example_exp2 2 [1, -1]
        mul_example_exp3 2 [0, 0] [2, 2] =
      some [(3, mpoly_monomial_of_word rfl 0x0300), (-1, mpoly_monomial_of_word rfl 0x0201),
        (-2, mpoly_monomial_of_word rfl 0x0102)] ∧
    _fmpz_mpoly_mul_heap_part 1 [3, 2] mul_example_exp2 2 [1, -1] mul_example_exp3 2
        [0, 0] [2, 2] 0 0 =
      mul_heap_kernel (mpoly_opsN 1 0 0) (fun _ => true) [3, 2] mul_example_exp2 2 [1, -1]
        mul_example_exp3 2 [0, 0] [2, 2] :=
  ⟨by decide, by decide,
    (fmpz_mpoly_mul_heap_part_single_word [3, 2] mul_example_exp2 2 [1, -1] mul_example_exp3 2
      [0, 0] [2, 2] 0 0 (by decide)).2.1⟩

/-! ## The leading term and the order of the operands -/

/-- With both operands strictly ordered and sums that keep the order, the
sum of the leading monomials comes before every other sum. -/
theorem mul_leading_before (N maskhi masklo : Nat) (exp2 : List (mpoly_monomial N)) (len2 : Nat)
    (exp3 : List (mpoly_monomial N)) (len3 : Nat)
    (hrows : mul_rows_ordered (mpoly_opsN N maskhi masklo) exp2 exp3 len2
      (List.replicate len2 0) (List.replicate len2 len3))
    (hcols : mul_rows_ordered (mpoly_opsN N maskhi masklo) exp3 exp2 len3
      (List.replicate len3 0) (List.replicate len3 len2))
    (i j : Nat) (hi : i < len2) (hj : j < len3) (hij : ¬ (i = 0 ∧ j = 0)) :
    (mpoly_opsN N maskhi masklo).before
      (mul_pair_exp (mpoly_opsN N maskhi masklo) exp2 exp3 0 0)
      (mul_pair_exp (mpoly_opsN N maskhi masklo) exp2 exp3 i j) = true := by
  have laws := mpoly_opsN_strict_total N maskhi masklo
  have hcomm : ∀ a b, mul_pair_exp (mpoly_opsN N maskhi masklo) exp3 exp2 b a =
      mul_pair_exp (mpoly_opsN N maskhi masklo) exp2 exp3 a b := fun a b =>
    mpoly_monomial_add_comm _ _
  have hrow : ∀ j, 0 < j → j < len3 → (mpoly_opsN N maskhi masklo).before
      (mul_pair_exp (mpoly_opsN N maskhi masklo) exp2 exp3 0 0)
      (mul_pair_exp (mpoly_opsN N maskhi masklo) exp2 exp3 0 j) = true := fun j h0 hj =>
    mul_rows_ordered_full _ exp2 exp3 len2 len3 hrows 0 0 j (by omega) h0 hj
  have hcol : ∀ i, 0 < i → i < len2 → (mpoly_opsN N maskhi masklo).before
      (mul_pair_exp (mpoly_opsN N maskhi masklo) exp2 exp3 0 j)
      (mul_pair_exp (mpoly_opsN N maskhi masklo) exp2 exp3 i j) = true := by
    intro i h0 hi
    have := mul_rows_ordered_full _ exp3 exp2 len3 len2 hcols j 0 i hj h0 hi
    rwa [hcomm, hcomm] at this
  rcases Nat.eq_zero_or_pos i with hi0 | hi0
  · subst hi0
    exact hrow j (by omega) hj
  · rcases Nat.eq_zero_or_pos j with hj0 | hj0
    · subst hj0
      exact hcol i hi0 hi
    · exact laws.trans _ _ _ (hrow j hj0 hj) (hcol i hi0 hi)

/-- The coefficient of the leading sum is the product of the leading
coefficients. -/
theorem mul_leading_coeff (N maskhi masklo : Nat) (poly2 : List Int)
    (exp2 : List (mpoly_monomial N)) (len2 : Nat) (poly3 : List Int)
    (exp3 : List (mpoly_monomial N)) (len3 : Nat) (hlen2 : 0 < len2) (hlen3 : 0 < len3)
    (hrows : mul_rows_ordered (mpoly_opsN N maskhi masklo) exp2 exp3 len2
      (List.replicate len2 0) (List.replicate len2 len3))
    (hcols : mul_rows_ordered (mpoly_opsN N maskhi masklo) exp3 exp2 len3
      (List.replicate len3 0) (List.replicate len3 len2)) :
    mul_window_coeff (mpoly_opsN N maskhi masklo) poly2 exp2 len2 poly3 exp3
        (List.replicate len2 0) (List.replicate len2 len3)
        (mul_pair_exp (mpoly_opsN N maskhi masklo) exp2 exp3 0 0) =
      poly2.getD 0 0 * poly3.getD 0 0 := by
  have laws := mpoly_opsN_strict_total N maskhi masklo
  have hne : ∀ i j, i < len2 → j < len3 → ¬ (i = 0 ∧ j = 0) →
      mul_pair_term (mpoly_opsN N maskhi masklo) poly2 exp2 poly3 exp3
        (mul_pair_exp (mpoly_opsN N maskhi masklo) exp2 exp3 0 0) i j = 0 := by
    intro i j hi hj hij
    unfold mul_pair_term
    rw [if_neg]
    intro heq
    have hb := mul_leading_before N maskhi masklo exp2 len2 exp3 len3 hrows hcols i j hi hj hij
    rw [heq, laws.irrefl] at hb
    exact Bool.noConfusion hb
  unfold mul_window_coeff
  rw [Finset.sum_eq_single 0]
  · rw [mul_getD_replicate len2 0 0 hlen2, mul_getD_replicate len2 0 len3 hlen2,
      Finset.sum_eq_single 0]
    · simp [mul_pair_term]
    · intro j hj hj0
      rw [Finset.mem_Ico] at hj
      exact hne 0 j hlen2 hj.2 (fun h => hj0 h.2)
    · intro h0
      exact absurd (Finset.mem_Ico.2 ⟨le_refl 0, hlen3⟩) h0
  · intro i hi hi0
    rw [Finset.mem_range] at hi
    apply Finset.sum_eq_zero
    intro j hj
    rw [Finset.mem_Ico, mul_getD_replicate len2 i len3 hi] at hj
    exact hne i j hi hj.2 (fun h => hi0 h.1)
  · intro h0
    exact absurd (Finset.mem_range.2 hlen2) h0

/-- C28: for nonzero inputs with strictly ordered monomials whose sums keep
the order, a run of the heap kernel over the full range writes at least one
term, and its first term has the monomial `exp2[0] + exp3[0]` and the
coefficient `poly2[0] * poly3[0]`: the product of the two leading terms is
not cancelled. -/
theorem fmpz_mpoly_mul_heap_part_leading (N : Nat) (poly2 : List Int)
    (exp2 : List (mpoly_monomial N)) (len2 : Nat) (poly3 : List Int)
    (exp3 : List (mpoly_monomial N)) (len3 : Nat) (maskhi masklo : Nat)
    (hlen2 : 0 < len2) (hlen3 : 0 < len3) (hlen : len2 < 2 ^ (FLINT_BITS - 1))
    (hc2 : poly2.getD 0 0 ≠ 0) (hc3 : poly3.getD 0 0 ≠ 0)
    (hs2 : mul_strictly_ordered (mpoly_opsN N maskhi masklo) exp2 len2)
    (hs3 : mul_strictly_ordered (mpoly_opsN N maskhi masklo) exp3 len3)
    (hf : mul_sums_fit (mpoly_opsN N maskhi masklo) exp2 len2 exp3 len3)
    (hf' : mul_sums_fit (mpoly_opsN N maskhi masklo) exp3 len3 exp2 len2) :
    ∃ rest, _fmpz_mpoly_mul_heap_part N poly2 exp2 len2 poly3 exp3 len3
        (List.replicate len2 0) (List.replicate len2 len3) maskhi masklo =
      some ((poly2.getD 0 0 * poly3.getD 0 0,
        mpoly_monomial_add (exp2.getD 0 default) (exp3.getD 0 default)) :: rest) ∧
      1 ≤ ((poly2.getD 0 0 * poly3.getD 0 0,
        mpoly_monomial_add (exp2.getD 0 default) (exp3.getD 0 default)) :: rest).length := by
  have laws := mpoly_opsN_strict_total N maskhi masklo
  have hrows := mul_rows_ordered_of_fit (mpoly_opsN N maskhi masklo) exp2 len2 exp3 len3 hs3 hf
  have hcols := mul_rows_ordered_of_fit (mpoly_opsN N maskhi masklo) exp3 len3 exp2 len2 hs2 hf'
  obtain ⟨res, hres, hsum⟩ := mul_heap_part_spec N poly2 exp2 len2 poly3 exp3 len3
    (List.replicate len2 0) (List.replicate len2 len3) maskhi masklo hlen
    (fun i hi => by rw [mul_getD_replicate len2 i len3 hi]) hrows
  have hS := mul_leading_coeff N maskhi masklo poly2 exp2 len2 poly3 exp3 len3 hlen2 hlen3
    hrows hcols
  have hS0 : mul_window_coeff (mpoly_opsN N maskhi masklo) poly2 exp2 len2 poly3 exp3
      (List.replicate len2 0) (List.replicate len2 len3)
      (mul_pair_exp (mpoly_opsN N maskhi masklo) exp2 exp3 0 0) ≠ 0 := by
    rw [hS]
    exact mul_ne_zero hc2 hc3
  obtain ⟨t, ht, htm⟩ := hsum.complete _ hS0
  cases res with
  | nil => exact absurd ht (List.not_mem_nil _)
  | cons t1 rest =>
    have ht1 : t1.2 = mul_pair_exp (mpoly_opsN N maskhi masklo) exp2 exp3 0 0 := by
      by_contra hne
      have h1 : mul_window_coeff (mpoly_opsN N maskhi masklo) poly2 exp2 len2 poly3 exp3
          (List.replicate len2 0) (List.replicate len2 len3) t1.2 ≠ 0 := by
        rw [← hsum.coeff t1 (List.mem_cons_self _ _)]
        exact hsum.nonzero t1 (List.mem_cons_self _ _)
      obtain ⟨i, hi, j, -, hj, hij⟩ := mul_window_coeff_ne_zero _ _ _ _ _ _ _ _ _ h1
      rw [mul_getD_replicate len2 i len3 hi] at hj
      have hb := mul_leading_before N maskhi masklo exp2 len2 exp3 len3 hrows hcols i j hi hj
        (fun h => hne (by rw [← hij, h.1, h.2]))
      rw [hij] at hb
      have htr : t ∈ rest := by
        rcases List.mem_cons.1 ht with h | h
        · exact absurd (by rw [← h, htm]) hne
        · exact h
      have hb2 := (List.pairwise_cons.1 hsum.sorted).1 t htr
      rw [htm] at hb2
      have := laws.trans _ _ _ hb hb2
      rw [laws.irrefl] at this
      exact Bool.noConfusion this
    have ht1c : t1.1 = poly2.getD 0 0 * poly3.getD 0 0 := by
      rw [hsum.coeff t1 (List.mem_cons_self _ _), ht1, hS]
    refine ⟨rest, ?_, by simp⟩
    rw [hres]
    have e : t1 = (poly2.getD 0 0 * poly3.getD 0 0,
        mpoly_monomial_add (exp2.getD 0 default) (exp3.getD 0 default)) :=
      Prod.ext ht1c ht1
    rw [e]

/-- Witness of C28: `(3x^2 + 2xy)(x - y)`, whose product starts with `3x^3`. -/
theorem fmpz_mpoly_mul_heap_part_leading_witness :
    ((0 < 2 ∧ 0 < 2 ∧ 2 < 2 ^ (FLINT_BITS - 1)) ∧
      (([3, 2] : List Int).getD 0 0 ≠ 0 ∧ ([1, -1] : List Int).getD 0 0 ≠ 0) ∧
      mul_strictly_ordered (mpoly_opsN 1 0 0) mul_example_exp2 2 ∧
      mul_strictly_ordered (mpoly_opsN 1 0 0) mul_example_exp3 2 ∧
      mul_sums_fit (mpoly_opsN 1 0 0) mul_example_exp2 2 mul_example_exp3 2 ∧
      mul_sums_fit (mpoly_opsN 1 0 0) mul_example_exp3 2 mul_example_exp2 2) ∧
    ∃ rest, _fmpz_mpoly_mul_heap_part 1 [3, 2] mul_example_exp2 2 [1, -1] mul_example_exp3 2
        (List.replicate 2 0) (List.replicate 2 2) 0 0 =
      some ((([3, 2] : List Int).getD 0 0 * ([1, -1] : List Int).getD 0 0,
        mpoly_monomial_add (mul_example_exp2.getD 0 default)
          (mul_example_exp3.getD 0 default)) :: rest) ∧
      1 ≤ ((([3, 2] : List Int).getD 0 0 * ([1, -1] : List Int).getD 0 0,
        mpoly_monomial_add (mul_example_exp2.getD 0 default)
          (mul_example_exp3.getD 0 default)) :: rest).length :=
  ⟨⟨⟨by decide, by decide, by decide⟩, ⟨by decide, by decide⟩, by decide, by decide, by decide,
      by decide⟩,
    fmpz_mpoly_mul_heap_part_leading 1 [3, 2] mul_example_exp2 2 [1, -1] mul_example_exp3 2 0 0
      (by decide) (by decide) (by decide) (by decide) (by decide) (by decide) (by decide)
      (by decide) (by decide)⟩

/-- C29: commutativity of the kernel.  For nonzero inputs with strictly
ordered monomials whose sums keep the order, a full-range run of the heap
kernel on `(poly2, poly3)` and a full-range run on `(poly3, poly2)` return
the same term sequence, hence the same length, coefficients and monomials;
and so do, for every number of threads in range, the two calls of
`_fmpz_mpoly_mul_heap_threaded` between which the operand swap of the entry
point chooses. -/
theorem fmpz_mpoly_mul_heap_part_commutes (N : Nat) (poly2 : List Int)
    (exp2 : List (mpoly_monomial N)) (len2 : Nat) (poly3 : List Int)
    (exp3 : List (mpoly_monomial N)) (len3 : Nat) (maskhi masklo : Nat)
    (hlen2 : len2 < 2 ^ (FLINT_BITS - 1)) (hlen3 : len3 < 2 ^ (FLINT_BITS - 1))
    (hs2 : mul_strictly_ordered (mpoly_opsN N maskhi masklo) exp2 len2)
    (hs3 : mul_strictly_ordered (mpoly_opsN N maskhi masklo) exp3 len3)
    (hf : mul_sums_fit (mpoly_opsN N maskhi masklo) exp2 len2 exp3 len3)
    (hf' : mul_sums_fit (mpoly_opsN N maskhi masklo) exp3 len3 exp2 len2) :
    ∃ res, _fmpz_mpoly_mul_heap_part N poly2 exp2 len2 poly3 exp3 len3
          (List.replicate len2 0) (List.replicate len2 len3) maskhi masklo = some res ∧
      _fmpz_mpoly_mul_heap_part N poly3 exp3 len3 poly2 exp2 len2
          (List.replicate len3 0) (List.replicate len3 len2) maskhi masklo = some res ∧
      ∀ nthreads, mul_heap_threaded_in_range nthreads len2 len3 →
        _fmpz_mpoly_mul_heap_threaded N nthreads poly2 exp2 len2 poly3 exp3 len3 maskhi masklo
          = some res ∧
        _fmpz_mpoly_mul_heap_threaded N nthreads poly3 exp3 len3 poly2 exp2 len2 maskhi masklo
          = some res := by
  have laws := mpoly_opsN_strict_total N maskhi masklo
  have hrows := mul_rows_ordered_of_fit (mpoly_opsN N maskhi masklo) exp2 len2 exp3 len3 hs3 hf
  have hcols := mul_rows_ordered_of_fit (mpoly_opsN N maskhi masklo) exp3 len3 exp2 len2 hs2 hf'
  obtain ⟨r1, h1, s1⟩ := mul_heap_part_spec N poly2 exp2 len2 poly3 exp3 len3
    (List.replicate len2 0) (List.replicate len2 len3) maskhi masklo hlen2
    (fun i hi => by rw [mul_getD_replicate len2 i len3 hi]) hrows
  obtain ⟨r2, h2, s2⟩ := mul_heap_part_spec N poly3 exp3 len3 poly2 exp2 len2
    (List.replicate len3 0) (List.replicate len3 len2) maskhi masklo hlen3
    (fun i hi => by rw [mul_getD_replicate len3 i len2 hi]) hcols
  have hfun : mul_window_coeff (mpoly_opsN N maskhi masklo) poly3 exp3 len3 poly2 exp2
      (List.replicate len3 0) (List.replicate len3 len2) =
      mul_window_coeff (mpoly_opsN N maskhi masklo) poly2 exp2 len2 poly3 exp3
        (List.replicate len2 0) (List.replicate len2 len3) := by
    funext m
    exact mul_window_coeff_swap N maskhi masklo poly2 exp2 len2 poly3 exp3 len3 m
  rw [hfun] at s2
  refine ⟨r1, h1, ?_, ?_⟩
  · rw [h2, mul_is_sum_unique _ laws _ r2 r1 s2 s1]
  · intro nthreads hrange
    have hrange' := mul_heap_threaded_in_range_swap nthreads len2 len3 hrange
    obtain ⟨r3, h3, s3⟩ := mul_heap_threaded_eq_full N nthreads poly2 exp2 len2 poly3 exp3 len3
      maskhi masklo hrange hrows
    obtain ⟨r4, h4, s4⟩ := mul_heap_threaded_eq_full N nthreads poly3 exp3 len3 poly2 exp2 len2
      maskhi masklo hrange' hcols
    rw [hfun] at s4
    constructor
    · rw [h3, mul_is_sum_unique _ laws _ r3 r1 s3 s1]
    · rw [h4, mul_is_sum_unique _ laws _ r4 r1 s4 s1]

/-- Witness of C29: `(3x^2 + 2xy)(x - y)` and `(x - y)(3x^2 + 2xy)`; one
thread is in range for these lengths. -/
theorem fmpz_mpoly_mul_heap_part_commutes_witness :
    ((2 < 2 ^ (FLINT_BITS - 1) ∧ 2 < 2 ^ (FLINT_BITS - 1)) ∧
      mul_strictly_ordered (mpoly_opsN 1 0 0) mul_example_exp2 2 ∧
      mul_strictly_ordered (mpoly_opsN 1 0 0) mul_example_exp3 2 ∧
      mul_sums_fit (mpoly_opsN 1 0 0) mul_example_exp2 2 mul_example_exp3 2 ∧
      mul_sums_fit (mpoly_opsN 1 0 0) mul_example_exp3 2 mul_example_exp2 2 ∧
      mul_heap_threaded_in_range 1 2 2) ∧
    ∃ res, _fmpz_mpoly_mul_heap_part 1 [3, 2] mul_example_exp2 2 [1, -1] mul_example_exp3 2
          (List.replicate 2 0) (List.replicate 2 2) 0 0 = some res ∧
      _fmpz_mpoly_mul_heap_part 1 [1, -1] mul_example_exp3 2 [3, 2] mul_example_exp2 2
          (List.replicate 2 0) (List.replicate 2 2) 0 0 = some res ∧
      ∀ nthreads, mul_heap_threaded_in_range nthreads 2 2 →
        _fmpz_mpoly_mul_heap_threaded 1 nthreads [3, 2] mul_example_exp2 2 [1, -1]
          mul_example_exp3 2 0 0 = some res ∧
        _fmpz_mpoly_mul_heap_threaded 1 nthreads [1, -1] mul_example_exp3 2 [3, 2]
          mul_example_exp2 2 0 0 = some res :=
  ⟨⟨⟨by decide, by decide⟩, by decide, by decide, by decide, by decide, by decide⟩,
    fmpz_mpoly_mul_heap_part_commutes 1 [3, 2] mul_example_exp2 2 [1, -1] mul_example_exp3 2
      0 0 (by decide) (by decide) (by decide) (by decide) (by decide) (by decide)⟩

/-! ## Monotone targets, and the second overflow test -/

/-- C32: the partition targets are monotone and end at the full product.
When the planner's word arithmetic does not overflow, with `D = 4*nthreads`
divisions: for every `d < D - 1` the target of division `d` is at most the
target of division `d + 1`; the target of the highest division `D - 1` is
exactly `len2*len3`; and the boundary found for that target, which is the
array `start` of the highest division, is 0 in every row. -/
theorem fmpz_mpoly_mul_heap_threaded_targets_monotone (N nthreads : Nat)
    (exp2 : List (mpoly_monomial N)) (len2 : Nat) (exp3 : List (mpoly_monomial N))
    (len3 : Nat) (maskhi masklo : Nat)
    (h : mul_heap_threaded_in_range nthreads len2 len3) :
    (mul_heap_threaded_ndivs nthreads).toNat = 4 * nthreads ∧
      (∀ d, d + 1 < 4 * nthreads →
        mul_heap_threaded_lower nthreads len2 len3 d ≤
          mul_heap_threaded_lower nthreads len2 len3 (d + 1)) ∧
      (∀ d d', d ≤ d' → d' < 4 * nthreads →
        mul_heap_threaded_lower nthreads len2 len3 d ≤
          mul_heap_threaded_lower nthreads len2 len3 d') ∧
      mul_heap_threaded_lower nthreads len2 len3 (4 * nthreads - 1) = (len2 : Int) * len3 ∧
      ∀ r, r < len2 →
        (mul_heap_threaded_start N nthreads exp2 len2 exp3 len3 maskhi masklo
          (4 * nthreads - 1)).getD r 0 = 0 := by
  refine ⟨mul_heap_threaded_ndivs_toNat nthreads len2 len3 h, ?_, ?_,
    mul_heap_threaded_lower_top nthreads len2 len3 h, ?_⟩
  · intro d hd
    exact mul_heap_threaded_lower_mono nthreads len2 len3 (d + 1) d h (Nat.le_succ d) hd
  · intro d d' hdd hd
    exact mul_heap_threaded_lower_mono nthreads len2 len3 d' d h hdd hd
  · intro r hr
    exact mul_heap_threaded_line_top N nthreads exp2 len2 exp3 len3 maskhi masklo h r hr

/-- Witness of C32: one thread and the operands of `(3x^2 + 2xy)(x - y)`;
the four targets are 0, 1, 2 and 4. -/
theorem fmpz_mpoly_mul_heap_threaded_targets_monotone_witness :
    mul_heap_threaded_in_range 1 2 2 ∧
    (List.range 4).map (mul_heap_threaded_lower 1 2 2) = [0, 1, 2, 4] ∧
    mul_heap_threaded_start 1 1 mul_example_exp2 2 mul_example_exp3 2 0 0 3 = [0, 0] ∧
    ((mul_heap_threaded_ndivs 1).toNat = 4 * 1 ∧
      (∀ d, d + 1 < 4 * 1 →
        mul_heap_threaded_lower 1 2 2 d ≤ mul_heap_threaded_lower 1 2 2 (d + 1)) ∧
      (∀ d d', d ≤ d' → d' < 4 * 1 →
        mul_heap_threaded_lower 1 2 2 d ≤ mul_heap_threaded_lower 1 2 2 d') ∧
      mul_heap_threaded_lower 1 2 2 (4 * 1 - 1) = ((2 : Nat) : Int) * (2 : Nat) ∧
      ∀ r, r < 2 →
        (mul_heap_threaded_start 1 1 mul_example_exp2 2 mul_example_exp3 2 0 0
          (4 * 1 - 1)).getD r 0 = 0) :=
  ⟨by decide, by decide, by decide,
    fmpz_mpoly_mul_heap_threaded_targets_monotone 1 1 mul_example_exp2 2 mul_example_exp3 2 0 0
      (by decide)⟩

/-- The loop over the fields never lowers the running maximum. -/
theorem mul_degree_loop_ge (d2 d3 : List Nat) (fields : List Nat) (max m : Nat)
    (h : mul_degree_loop d2 d3 fields max = some m) : max ≤ m := by
  induction fields generalizing max with
  | nil =>
    simp only [mul_degree_loop, Option.some.injEq] at h
    omega
  | cons k fields ih =>
    simp only [mul_degree_loop] at h
    by_cases h1 : (d3.getD k 0 + d2.getD k 0) % 2 ^ FLINT_BITS < d2.getD k 0 ∨
        2 ^ (FLINT_BITS - 1) ≤ (d3.getD k 0 + d2.getD k 0) % 2 ^ FLINT_BITS
    · rw [if_pos h1] at h
      exact absurd h (by simp)
    · rw [if_neg h1] at h
      have := ih _ h
      split_ifs at this <;> omega

/-- The degree sums that pass the tests of the loop over the fields are
below `2^(FLINT_BITS - 1)` and at most the maximum the loop returns. -/
theorem mul_degree_loop_sums (d2 d3 : List Nat) (fields : List Nat) (max m : Nat)
    (h : mul_degree_loop d2 d3 fields max = some m) :
    ∀ i ∈ fields, (d3.getD i 0 + d2.getD i 0) % 2 ^ FLINT_BITS < 2 ^ (FLINT_BITS - 1) ∧
      (d3.getD i 0 + d2.getD i 0) % 2 ^ FLINT_BITS ≤ m := by
  induction fields generalizing max with
  | nil =>
    intro i hi
    exact absurd hi (List.not_mem_nil _)
  | cons k fields ih =>
    simp only [mul_degree_loop] at h
    by_cases h1 : (d3.getD k 0 + d2.getD k 0) % 2 ^ FLINT_BITS < d2.getD k 0 ∨
        2 ^ (FLINT_BITS - 1) ≤ (d3.getD k 0 + d2.getD k 0) % 2 ^ FLINT_BITS
    · rw [if_pos h1] at h
      exact absurd h (by simp)
    · rw [if_neg h1] at h
      simp only [not_or, not_le, not_lt] at h1
      intro i hi
      rcases List.mem_cons.1 hi with rfl | hi
      · refine ⟨h1.2, ?_⟩
        have := mul_degree_loop_ge d2 d3 fields _ m h
        split_ifs at this <;> omega
      · exact ih _ h i hi

/-- C33: the second exponent overflow test is unreachable.  Whenever the loop
over the fields finishes without throwing, every degree sum it has formed is
below `2^(FLINT_BITS - 1)` and so is their maximum `max`, hence
`FLINT_BIT_COUNT(max) <= FLINT_BITS - 1`, the test `bits >= FLINT_BITS`
fails, and the call goes on to choose the field width. -/
theorem fmpz_mpoly_mul_heap_threaded_second_check (codec : mpoly_codec)
    (poly2 poly3 : fmpz_mpoly) (ctx : fmpz_mpoly_ctx) (max : Nat)
    (hmax : mul_degree_loop (codec.max_degrees poly2 ctx) (codec.max_degrees poly3 ctx)
      (List.range ctx.n) 0 = some max) :
    (∀ i, i < ctx.n →
        ((codec.max_degrees poly3 ctx).getD i 0 + (codec.max_degrees poly2 ctx).getD i 0)
          % 2 ^ FLINT_BITS < 2 ^ (FLINT_BITS - 1)) ∧
      max < 2 ^ (FLINT_BITS - 1) ∧
      FLINT_BIT_COUNT max ≤ FLINT_BITS - 1 ∧
      ¬ FLINT_BITS ≤ FLINT_BIT_COUNT max ∧
      mul_product_bits codec poly2 poly3 ctx =
        some (mul_exp_bits (FLINT_BIT_COUNT max) poly2.bits poly3.bits) := by
  have hlt : max < 2 ^ (FLINT_BITS - 1) :=
    mul_degree_loop_some _ _ _ 0 max hmax (by norm_num [FLINT_BITS])
  have hb := FLINT_BIT_COUNT_lt max hlt
  refine ⟨?_, hlt, ?_, ?_, ?_⟩
  · intro i hi
    exact (mul_degree_loop_sums _ _ _ 0 max hmax i (List.mem_range.2 hi)).1
  · simp only [FLINT_BITS] at hb ⊢
    omega
  · omega
  · unfold mul_product_bits
    rw [hmax]
    simp only
    rw [if_neg (by omega)]

/-- Witness of C33: the operands of `(3x^2 + 2xy)(x - y)`, whose largest
degree sum is 3. -/
theorem fmpz_mpoly_mul_heap_threaded_second_check_witness :
    mul_degree_loop (mpoly_codec_words.max_degrees mul_example_poly2 mul_example_ctx)
      (mpoly_codec_words.max_degrees mul_example_poly3 mul_example_ctx)
      (List.range mul_example_ctx.n) 0 = some 3 ∧
    ((∀ i, i < mul_example_ctx.n →
        ((mpoly_codec_words.max_degrees mul_example_poly3 mul_example_ctx).getD i 0 +
          (mpoly_codec_words.max_degrees mul_example_poly2 mul_example_ctx).getD i 0)
          % 2 ^ FLINT_BITS < 2 ^ (FLINT_BITS - 1)) ∧
      3 < 2 ^ (FLINT_BITS - 1) ∧
      FLINT_BIT_COUNT 3 ≤ FLINT_BITS - 1 ∧
      ¬ FLINT_BITS ≤ FLINT_BIT_COUNT 3 ∧
      mul_product_bits mpoly_codec_words mul_example_poly2 mul_example_poly3 mul_example_ctx =
        some (mul_exp_bits (FLINT_BIT_COUNT 3) mul_example_poly2.bits mul_example_poly3.bits)) :=
  ⟨by decide,
    fmpz_mpoly_mul_heap_threaded_second_check mpoly_codec_words mul_example_poly2
      mul_example_poly3 mul_example_ctx 3 (by decide)⟩

/-! ## Termination of the kernel and the number of nodes it pops -/

section kernel_pops_proofs

variable {M : Type} [DecidableEq M] [Inhabited M]

theorem mul_heap_at_iterate (ops : mpoly_ops M) (small : Bool) (poly2 : List Int)
    (exp2 : List M) (len2 : Nat) (poly3 : List Int) (exp3 : List M) (len3 : Nat)
    (start end_ : List Nat) (qzero : Bool) (n : Nat) :
    mul_heap_at ops small poly2 exp2 len2 poly3 exp3 len3 start end_ qzero n =
      (mul_heap_next ops small poly2 exp2 poly3 exp3 len3 end_ qzero)^[n]
        (mul_seed_loop ops exp2 exp3 start end_ (List.range len2) []) := by
  induction n with
  | zero => rfl
  | succ n ih =>
    rw [Function.iterate_succ_apply', ← ih]
    rfl

theorem mul_heap_pops_pos (h : mpoly_heap_s M) (rest : List (mpoly_heap_s M))
    (hne : h.next ≠ []) : 1 ≤ mul_heap_pops (h :: rest) := by
  simp only [mul_heap_pops, mul_popped, if_true, List.length_append]
  have := List.length_pos.2 hne
  omega

theorem mul_seed_measure_eq (start end_ : List Nat) (L : List Nat) :
    (((L.filter fun i => decide (start.getD i 0 < end_.getD i 0)).map
        fun i => (⟨i, start.getD i 0⟩ : mpoly_heap_t)).map
          fun x => end_.getD x.i 0 - x.j).sum =
      (L.map fun i => end_.getD i 0 - start.getD i 0).sum := by
  induction L with
  | nil => simp
  | cons i L ih =>
    simp only [List.filter_cons]
    split_ifs with h
    · simp only [List.map_cons, List.sum_cons, ih]
    · simp only [List.map_cons, List.sum_cons, ih]
      simp only [decide_eq_true_eq] at h
      omega

/-- The pairs reachable from the seeded heap are as many as the window has. -/
theorem mul_seed_measure_window (ops : mpoly_ops M) (exp2 exp3 : List M)
    (len2 : Nat) (start end_ : List Nat) :
    mul_heap_measure end_ (mul_seed_loop ops exp2 exp3 start end_ (List.range len2) [])
      = mul_window_size len2 start end_ := by
  rw [mul_seed_loop_eq]
  unfold mul_heap_measure mul_window_size
  rw [((mul_insert_all_nodes ops exp2 exp3 _ []).map _).sum_eq]
  simp only [mul_heap_nodes, List.flatMap_nil, List.append_nil]
  exact mul_seed_measure_eq start end_ (List.range len2)

theorem mul_measure_advance (end_ : List Nat) (C : List mpoly_heap_t)
    (hC : ∀ x ∈ C, x.j < end_.getD x.i 0) :
    (((C.filter fun x => decide (x.j + 1 < end_.getD x.i 0)).map
        fun x => (⟨x.i, x.j + 1⟩ : mpoly_heap_t)).map
        fun x => end_.getD x.i 0 - x.j).sum + C.length =
      (C.map fun x => end_.getD x.i 0 - x.j).sum := by
  induction C with
  | nil => simp
  | cons x C ih =>
    have hx := hC x (List.mem_cons_self _ _)
    have h := ih (fun y hy => hC y (List.mem_cons_of_mem _ hy))
    simp only [List.filter_cons]
    split_ifs with hq
    · simp only [decide_eq_true_eq] at hq
      simp only [List.map_cons, List.sum_cons, List.length_cons]
      omega
    · simp only [decide_eq_true_eq] at hq
      simp only [List.map_cons, List.sum_cons, List.length_cons]
      omega

theorem mul_heap_window_seed (ops : mpoly_ops M) (exp2 exp3 : List M) (len2 : Nat)
    (start end_ : List Nat) :
    mul_heap_window len2 start end_
      (mul_seed_loop ops exp2 exp3 start end_ (List.range len2) []) := by
  refine ⟨?_, (mul_heap_rows_seed ops exp2 exp3 len2 start end_).2.2⟩
  intro x hx
  rw [mul_seed_loop_eq] at hx
  have hx' := (mul_insert_all_nodes ops exp2 exp3 _ []).subset hx
  simp only [mul_heap_nodes, List.flatMap_nil, List.append_nil] at hx'
  obtain ⟨i, hi, rfl⟩ := List.mem_map.1 hx'
  rw [List.mem_filter, List.mem_range] at hi
  exact ⟨hi.1, le_refl _, by simpa using hi.2⟩

/-- The nodes of the next heap: a node left on the heap, or a popped node
advanced by one column. -/
theorem mul_heap_next_nodes (ops : mpoly_ops M) (small : Bool) (poly2 : List Int)
    (exp2 : List M) (poly3 : List Int) (exp3 : List M) (len3 : Nat) (end_ : List Nat)
    (qzero : Bool) (H : List (mpoly_heap_s M)) :
    ∀ y ∈ mul_heap_nodes (mul_heap_next ops small poly2 exp2 poly3 exp3 len3 end_ qzero H),
      y ∈ mul_heap_nodes H ∨
        ∃ x ∈ mul_heap_nodes H, x.j + 1 < end_.getD x.i 0 ∧ y = ⟨x.i, x.j + 1⟩ := by
  cases H with
  | nil =>
    intro y hy
    simp [mul_heap_next, mul_heap_inner, mul_push_loop, mul_heap_nodes] at hy
  | cons h rest =>
    intro y hy
    rw [mul_heap_next_cons] at hy
    have hy' := (mul_insert_all_nodes ops exp2 exp3 _ _).subset hy
    rw [mul_popped_nodes h.exp (h :: rest)]
    rcases List.mem_append.1 hy' with hy' | hy'
    · obtain ⟨x, hx, hlt, rfl⟩ := mul_pushes_mem len3 end_ qzero _ y hy'
      exact Or.inr ⟨x, List.mem_append_left _ hx, hlt, rfl⟩
    · exact Or.inl (List.mem_append_right _ hy')

theorem mul_heap_window_next (ops : mpoly_ops M) (small : Bool) (poly2 : List Int)
    (exp2 : List M) (poly3 : List Int) (exp3 : List M) (len2 len3 : Nat)
    (start end_ : List Nat) (qzero : Bool) (H : List (mpoly_heap_s M))
    (hH : mul_heap_window len2 start end_ H) :
    mul_heap_window len2 start end_
      (mul_heap_next ops small poly2 exp2 poly3 exp3 len3 end_ qzero H) := by
  refine ⟨?_, ?_⟩
  · intro y hy
    rcases mul_heap_next_nodes ops small poly2 exp2 poly3 exp3 len3 end_ qzero H y hy with
      h | ⟨x, hx, hlt, rfl⟩
    · exact hH.1 y h
    · have := hH.1 x hx
      exact ⟨this.1, by simp only; omega, hlt⟩
  · cases H with
    | nil =>
      intro h hh
      simp [mul_heap_next, mul_heap_inner, mul_push_loop] at hh
    | cons h rest =>
      rw [mul_heap_next_cons]
      exact mul_insert_all_nonempty ops exp2 exp3 _ _
        (fun h' hh' => hH.2 h' (mul_unpopped_mem h.exp (h :: rest) h' hh'))

theorem mul_heap_window_at (ops : mpoly_ops M) (small : Bool) (poly2 : List Int)
    (exp2 : List M) (len2 : Nat) (poly3 : List Int) (exp3 : List M) (len3 : Nat)
    (start end_ : List Nat) (qzero : Bool) (n : Nat) :
    mul_heap_window len2 start end_
      (mul_heap_at ops small poly2 exp2 len2 poly3 exp3 len3 start end_ qzero n) := by
  induction n with
  | zero => exact mul_heap_window_seed ops exp2 exp3 len2 start end_
  | succ n ih =>
    exact mul_heap_window_next ops small poly2 exp2 poly3 exp3 len2 len3 start end_ qzero _ ih

/-- One outer iteration lowers the number of reachable pairs by at least the
number of nodes it pops, and by exactly that number when the window ends
within the second operand. -/
theorem mul_heap_measure_next (ops : mpoly_ops M) (small : Bool) (poly2 : List Int)
    (exp2 : List M) (poly3 : List Int) (exp3 : List M) (len2 len3 : Nat)
    (start end_ : List Nat) (qzero : Bool) (h : mpoly_heap_s M) (rest : List (mpoly_heap_s M))
    (hH : mul_heap_window len2 start end_ (h :: rest)) :
    mul_heap_measure end_
        (mul_heap_next ops small poly2 exp2 poly3 exp3 len3 end_ qzero (h :: rest)) +
        mul_heap_pops (h :: rest) ≤ mul_heap_measure end_ (h :: rest) ∧
      ((∀ i, i < len2 → end_.getD i 0 ≤ len3) →
        mul_heap_measure end_
          (mul_heap_next ops small poly2 exp2 poly3 exp3 len3 end_ qzero (h :: rest)) +
          mul_heap_pops (h :: rest) = mul_heap_measure end_ (h :: rest)) := by
  have hpop : ∀ x ∈ mul_popped h.exp (h :: rest),
      x.i < len2 ∧ x.j < end_.getD x.i 0 := by
    intro x hx
    have := hH.1 x (by rw [mul_popped_nodes h.exp (h :: rest)]; exact List.mem_append_left _ hx)
    exact ⟨this.1, this.2.2⟩
  have e1 : mul_heap_measure end_ (h :: rest) =
      ((mul_popped h.exp (h :: rest)).map fun x => end_.getD x.i 0 - x.j).sum +
        ((mul_heap_nodes (mul_unpopped h.exp (h :: rest))).map
          fun x => end_.getD x.i 0 - x.j).sum := by
    unfold mul_heap_measure
    rw [mul_popped_nodes h.exp (h :: rest), List.map_append, List.sum_append]
  have e2 : mul_heap_measure end_
      (mul_heap_next ops small poly2 exp2 poly3 exp3 len3 end_ qzero (h :: rest)) =
      ((mul_pushes len3 end_ qzero (mul_popped h.exp (h :: rest))).map
          fun x => end_.getD x.i 0 - x.j).sum +
        ((mul_heap_nodes (mul_unpopped h.exp (h :: rest))).map
          fun x => end_.getD x.i 0 - x.j).sum := by
    unfold mul_heap_measure
    rw [mul_heap_next_cons, ((mul_insert_all_nodes ops exp2 exp3 _ _).map _).sum_eq,
      List.map_append, List.sum_append]
  rw [e1, e2]
  have e3 : mul_heap_pops (h :: rest) = (mul_popped h.exp (h :: rest)).length := rfl
  rw [e3]
  constructor
  · rw [((mul_pushes_perm len3 end_ qzero (mul_popped h.exp (h :: rest))).map _).sum_eq]
    have := mul_measure_filter end_
      (fun x => decide (x.j + 1 < end_.getD x.i 0) &&
        (decide (x.j < len3 - 1) || (qzero && decide (x.j = 0))))
      (mul_popped h.exp (h :: rest)) (fun x hx => (hpop x hx).2)
    omega
  · intro hwin
    rw [((mul_pushes_perm_window len2 len3 end_ qzero (mul_popped h.exp (h :: rest)) hwin
      (fun x hx => (hpop x hx).1)).map _).sum_eq]
    have := mul_measure_advance end_ (mul_popped h.exp (h :: rest)) (fun x hx => (hpop x hx).2)
    omega

/-- A run of the main loop from a heap inside the window: it ends after `n`
outer iterations, having popped at least `n` nodes and at most as many as
there are reachable pairs, and writes at most `n` terms. -/
theorem mul_heap_run (ops : mpoly_ops M) (small : Bool) (poly2 : List Int)
    (exp2 : List M) (poly3 : List Int) (exp3 : List M) (len2 len3 : Nat)
    (start end_ : List Nat) (qzero : Bool) :
    ∀ (μ : Nat) (H : List (mpoly_heap_s M)), mul_heap_window len2 start end_ H →
      mul_heap_measure end_ H ≤ μ →
      ∃ n, (mul_heap_next ops small poly2 exp2 poly3 exp3 len3 end_ qzero)^[n] H = [] ∧
        (∀ k, k < n →
          (mul_heap_next ops small poly2 exp2 poly3 exp3 len3 end_ qzero)^[k] H ≠ []) ∧
        n ≤ ((List.range n).map fun k => mul_heap_pops
          ((mul_heap_next ops small poly2 exp2 poly3 exp3 len3 end_ qzero)^[k] H)).sum ∧
        ((List.range n).map fun k => mul_heap_pops
          ((mul_heap_next ops small poly2 exp2 poly3 exp3 len3 end_ qzero)^[k] H)).sum
            ≤ mul_heap_measure end_ H ∧
        ((∀ i, i < len2 → end_.getD i 0 ≤ len3) →
          ((List.range n).map fun k => mul_heap_pops
            ((mul_heap_next ops small poly2 exp2 poly3 exp3 len3 end_ qzero)^[k] H)).sum
              = mul_heap_measure end_ H) ∧
        ∀ fuel, mul_heap_measure end_ H < fuel → ∀ out, ∃ res,
          mul_heap_loop ops small poly2 exp2 poly3 exp3 len3 end_ qzero fuel H out
            = some (out ++ res) ∧ res.length ≤ n := by
  intro μ
  induction μ with
  | zero =>
    intro H hH hμ
    cases H with
    | nil =>
      refine ⟨0, rfl, fun k hk => absurd hk (Nat.not_lt_zero k), le_refl _, Nat.zero_le _,
        fun _ => ?_, ?_⟩
      · simp [mul_heap_measure, mul_heap_nodes]
      · intro fuel hfuel out
        obtain ⟨f, rfl⟩ : ∃ f, fuel = f + 1 := ⟨fuel - 1, by omega⟩
        exact ⟨[], by simp [mul_heap_loop], le_refl _⟩
    | cons h rest =>
      have h1 := mul_heap_pops_pos h rest (hH.2 h (List.mem_cons_self _ _))
      have h2 := (mul_heap_measure_next ops small poly2 exp2 poly3 exp3 len2 len3 start end_
        qzero h rest hH).1
      omega
  | succ μ ih =>
    intro H hH hμ
    cases H with
    | nil =>
      refine ⟨0, rfl, fun k hk => absurd hk (Nat.not_lt_zero k), le_refl _, Nat.zero_le _,
        fun _ => ?_, ?_⟩
      · simp [mul_heap_measure, mul_heap_nodes]
      · intro fuel hfuel out
        obtain ⟨f, rfl⟩ : ∃ f, fuel = f + 1 := ⟨fuel - 1, by omega⟩
        exact ⟨[], by simp [mul_heap_loop], le_refl _⟩
    | cons h rest =>
      have h1 := mul_heap_pops_pos h rest (hH.2 h (List.mem_cons_self _ _))
      obtain ⟨h2, h3⟩ := mul_heap_measure_next ops small poly2 exp2 poly3 exp3 len2 len3
        start end_ qzero h rest hH
      have hH' := mul_heap_window_next ops small poly2 exp2 poly3 exp3 len2 len3 start end_
        qzero _ hH
      obtain ⟨n, hn, hmin, hlow, hup, hex, hloop⟩ := ih _ hH' (by omega)
      have hsum : ((List.range (n + 1)).map fun k => mul_heap_pops
          ((mul_heap_next ops small poly2 exp2 poly3 exp3 len3 end_ qzero)^[k] (h :: rest))).sum
          = mul_heap_pops (h :: rest) +
            ((List.range n).map fun k => mul_heap_pops
              ((mul_heap_next ops small poly2 exp2 poly3 exp3 len3 end_ qzero)^[k]
                (mul_heap_next ops small poly2 exp2 poly3 exp3 len3 end_ qzero
                  (h :: rest)))).sum := by
        rw [List.range_succ_eq_map, List.map_cons, List.sum_cons, List.map_map]
        rfl
      refine ⟨n + 1, hn, ?_, ?_, ?_, ?_, ?_⟩
      · intro k hk
        cases k with
        | zero => exact List.cons_ne_nil _ _
        | succ k => exact hmin k (by omega)
      · rw [hsum]
        omega
      · rw [hsum]
        omega
      · intro hwin
        rw [hsum, hex hwin]
        have := h3 hwin
        omega
      · intro fuel hfuel out
        obtain ⟨f, rfl⟩ : ∃ f, fuel = f + 1 := ⟨fuel - 1, by omega⟩
        rw [mul_heap_loop_next]
        obtain ⟨res, hres, hlen⟩ := hloop f (by omega)
          (if mul_chain_coeff small poly2 poly3 (mul_popped h.exp (h :: rest)) = 0 then out
           else out ++ [(mul_chain_coeff small poly2 poly3 (mul_popped h.exp (h :: rest)),
             h.exp)])
        rw [hres]
        split_ifs
        · exact ⟨res, rfl, by omega⟩
        · refine ⟨(mul_chain_coeff small poly2 poly3 (mul_popped h.exp (h :: rest)), h.exp)
            :: res, by simp, by simp only [List.length_cons]; omega⟩

/-- The kernel run from the seeded heap. -/
theorem mul_heap_kernel_run (ops : mpoly_ops M) (small : Bool) (poly2 : List Int)
    (exp2 : List M) (len2 : Nat) (poly3 : List Int) (exp3 : List M) (len3 : Nat)
    (start end_ : List Nat) (qzero : Bool) :
    ∃ n, mul_heap_at ops small poly2 exp2 len2 poly3 exp3 len3 start end_ qzero n = [] ∧
      (∀ k, k < n →
        mul_heap_at ops small poly2 exp2 len2 poly3 exp3 len3 start end_ qzero k ≠ []) ∧
      n ≤ mul_pops_total ops small poly2 exp2 len2 poly3 exp3 len3 start end_ qzero n ∧
      mul_pops_total ops small poly2 exp2 len2 poly3 exp3 len3 start end_ qzero n
        ≤ mul_window_size len2 start end_ ∧
      ((∀ i, i < len2 → end_.getD i 0 ≤ len3) →
        mul_pops_total ops small poly2 exp2 len2 poly3 exp3 len3 start end_ qzero n
          = mul_window_size len2 start end_) ∧
      ∃ res, mul_heap_loop ops small poly2 exp2 poly3 exp3 len3 end_ qzero
          (mul_window_size len2 start end_ + 1)
          (mul_seed_loop ops exp2 exp3 start end_ (List.range len2) []) [] = some res ∧
        res.length ≤ n := by
  obtain ⟨n, hn, hmin, hlow, hup, hex, hloop⟩ := mul_heap_run ops small poly2 exp2 poly3 exp3
    len2 len3 start end_ qzero _ _ (mul_heap_window_seed ops exp2 exp3 len2 start end_)
    (le_refl _)
  have hμ := mul_seed_measure_window ops exp2 exp3 len2 start end_
  have htot : mul_pops_total ops small poly2 exp2 len2 poly3 exp3 len3 start end_ qzero n =
      ((List.range n).map fun k => mul_heap_pops
        ((mul_heap_next ops small poly2 exp2 poly3 exp3 len3 end_ qzero)^[k]
          (mul_seed_loop ops exp2 exp3 start end_ (List.range len2) []))).sum := by
    unfold mul_pops_total
    congr 1
    apply List.map_congr_left
    intro k _
    rw [mul_heap_at_iterate]
  rw [hμ] at hup hex hloop
  refine ⟨n, ?_, ?_, ?_, ?_, ?_, ?_⟩
  · rw [mul_heap_at_iterate]
    exact hn
  · intro k hk
    rw [mul_heap_at_iterate]
    exact hmin k hk
  · rw [htot]
    exact hlow
  · rw [htot]
    exact hup
  · intro hwin
    rw [htot]
    exact hex hwin
  · obtain ⟨res, hres, hlen⟩ := hloop _ (Nat.lt_succ_self _) []
    exact ⟨res, by simpa using hres, hlen⟩

/-- The kernel returns, with at most as many terms as the window has pairs. -/
theorem mul_heap_kernel_length (ops : mpoly_ops M) (q : Bool → Bool) (poly2 : List Int)
    (exp2 : List M) (len2 : Nat) (poly3 : List Int) (exp3 : List M) (len3 : Nat)
    (start end_ : List Nat) :
    ∃ res, mul_heap_kernel ops q poly2 exp2 len2 poly3 exp3 len3 start end_ = some res ∧
      res.length ≤ mul_window_size len2 start end_ := by
  obtain ⟨n, -, -, hlow, hup, -, res, hres, hlen⟩ := mul_heap_kernel_run ops
    (_fmpz_mpoly_fits_small poly2 len2 && _fmpz_mpoly_fits_small poly3 len3)
    poly2 exp2 len2 poly3 exp3 len3 start end_
    (q (_fmpz_mpoly_fits_small poly2 len2 && _fmpz_mpoly_fits_small poly3 len3))
  exact ⟨res, hres, by omega⟩

end kernel_pops_proofs

/-- C31: termination of the kernel.  For every monomial representation,
coefficient branch, form of the store test and window: every outer iteration
entered with a nonempty heap pops at least one node; every node on the heap
stays within the window of its row, `start[i] <= j < end[i]`, and a node of
the next heap is a node left on the heap or a popped node advanced by one
column; the heap is empty after some number `n` of outer iterations, the
nodes popped in them number at least `n` and at most the number of window
pairs, the sum over the rows of `max(0, end[i] - start[i])`, and exactly that
number when `end[i] <= len3` in every row; the main loop returns, with at
most `n` terms, and so both kernels return a length that is at most the
number of window pairs. -/
theorem fmpz_mpoly_mul_heap_part_terminates {M : Type} [DecidableEq M] [Inhabited M]
    (ops : mpoly_ops M) (small : Bool) (poly2 : List Int) (exp2 : List M) (len2 : Nat)
    (poly3 : List Int) (exp3 : List M) (len3 : Nat) (start end_ : List Nat) (qzero : Bool) :
    (∀ k h rest,
        mul_heap_at ops small poly2 exp2 len2 poly3 exp3 len3 start end_ qzero k = h :: rest →
        1 ≤ mul_heap_pops
          (mul_heap_at ops small poly2 exp2 len2 poly3 exp3 len3 start end_ qzero k)) ∧
      (∀ k, ∀ x ∈ mul_heap_nodes
          (mul_heap_at ops small poly2 exp2 len2 poly3 exp3 len3 start end_ qzero k),
        x.i < len2 ∧ start.getD x.i 0 ≤ x.j ∧ x.j < end_.getD x.i 0) ∧
      (∀ k, ∀ y ∈ mul_heap_nodes
          (mul_heap_at ops small poly2 exp2 len2 poly3 exp3 len3 start end_ qzero (k + 1)),
        y ∈ mul_heap_nodes
            (mul_heap_at ops small poly2 exp2 len2 poly3 exp3 len3 start end_ qzero k) ∨
          ∃ x ∈ mul_heap_nodes
              (mul_heap_at ops small poly2 exp2 len2 poly3 exp3 len3 start end_ qzero k),
            x.j + 1 < end_.getD x.i 0 ∧ y = ⟨x.i, x.j + 1⟩) ∧
      (∃ n, mul_heap_at ops small poly2 exp2 len2 poly3 exp3 len3 start end_ qzero n = [] ∧
        (∀ k, k < n →
          mul_heap_at ops small poly2 exp2 len2 poly3 exp3 len3 start end_ qzero k ≠ []) ∧
        n ≤ mul_pops_total ops small poly2 exp2 len2 poly3 exp3 len3 start end_ qzero n ∧
        mul_pops_total ops small poly2 exp2 len2 poly3 exp3 len3 start end_ qzero n
          ≤ mul_window_size len2 start end_ ∧
        ((∀ i, i < len2 → end_.getD i 0 ≤ len3) →
          mul_pops_total ops small poly2 exp2 len2 poly3 exp3 len3 start end_ qzero n
            = mul_window_size len2 start end_) ∧
        ∃ res, mul_heap_loop ops small poly2 exp2 poly3 exp3 len3 end_ qzero
            (mul_window_size len2 start end_ + 1)
            (mul_seed_loop ops exp2 exp3 start end_ (List.range len2) []) [] = some res ∧
          res.length ≤ n) ∧
      (∀ (e2 e3 : List Nat) (maskhi : Nat), ∃ res,
        _fmpz_mpoly_mul_heap_part1 poly2 e2 len2 poly3 e3 len3 start end_ maskhi = some res ∧
          res.length ≤ mul_window_size len2 start end_) ∧
      ∀ (N : Nat) (e2 e3 : List (mpoly_monomial N)) (maskhi masklo : Nat), ∃ res,
        _fmpz_mpoly_mul_heap_part N poly2 e2 len2 poly3 e3 len3 start end_ maskhi masklo
          = some res ∧ res.length ≤ mul_window_size len2 start end_ := by
  have h1 : ∀ (e2 e3 : List Nat) (maskhi : Nat), ∃ res,
      _fmpz_mpoly_mul_heap_part1 poly2 e2 len2 poly3 e3 len3 start end_ maskhi = some res ∧
        res.length ≤ mul_window_size len2 start end_ := fun e2 e3 maskhi =>
    mul_heap_kernel_length (mpoly_ops1 maskhi) (fun small => !small) poly2 e2 len2 poly3 e3
      len3 start end_
  refine ⟨?_, ?_, ?_, ?_, h1, ?_⟩
  · intro k h rest hk
    rw [hk]
    have := (mul_heap_window_at ops small poly2 exp2 len2 poly3 exp3 len3 start end_ qzero k).2
    rw [hk] at this
    exact mul_heap_pops_pos h rest (this h (List.mem_cons_self _ _))
  · intro k
    exact (mul_heap_window_at ops small poly2 exp2 len2 poly3 exp3 len3 start end_ qzero k).1
  · intro k
    exact mul_heap_next_nodes ops small poly2 exp2 poly3 exp3 len3 end_ qzero _
  · exact mul_heap_kernel_run ops small poly2 exp2 len2 poly3 exp3 len3 start end_ qzero
  · intro N e2 e3 maskhi masklo
    unfold _fmpz_mpoly_mul_heap_part
    split
    · obtain ⟨res, hres, hlen⟩ := h1 (e2.map mpoly_monomial_word) (e3.map mpoly_monomial_word)
        maskhi
      rw [hres]
      exact ⟨_, rfl, by simpa using hlen⟩
    · exact mul_heap_kernel_length (mpoly_opsN N maskhi masklo) (fun _ => true) poly2 e2 len2
        poly3 e3 len3 start end_

/-- Witness of C31: a run on `(3x^2 + 2xy)(x - y)` over the full range.  The
heap is empty after three outer iterations, in which 1, 2 and 1 nodes are
popped: four nodes, as many as the window has pairs, and three terms. -/
theorem fmpz_mpoly_mul_heap_part_terminates_witness :
    (∀ i, i < 2 → [2, 2].getD i 0 ≤ 2) ∧
    mul_window_size 2 [0, 0] [2, 2] = 4 ∧
    (List.range 3).map (fun k => mul_heap_pops (mul_heap_at (mpoly_ops1 0) true [3, 2]
      [0x0200, 0x0101] 2 [1, -1] [0x0100, 0x0001] 2 [0, 0] [2, 2] false k)) = [1, 2, 1] ∧
    mul_heap_at (mpoly_ops1 0) true [3, 2] [0x0200, 0x0101] 2 [1, -1] [0x0100, 0x0001] 2
      [0, 0] [2, 2] false 3 = [] ∧
    mul_pops_total (mpoly_ops1 0) true [3, 2] [0x0200, 0x0101] 2 [1, -1] [0x0100, 0x0001] 2
      [0, 0] [2, 2] false 3 = 4 ∧
    ∃ res, _fmpz_mpoly_mul_heap_part1 [3, 2] [0x0200, 0x0101] 2 [1, -1] [0x0100, 0x0001] 2
        [0, 0] [2, 2] 0 = some res ∧ res.length ≤ mul_window_size 2 [0, 0] [2, 2] :=
  ⟨by decide, by decide, by decide, by decide, by decide,
    (fmpz_mpoly_mul_heap_part_terminates (mpoly_ops1 0) true [3, 2] [0x0200, 0x0101] 2 [1, -1]
      [0x0100, 0x0001] 2 [0, 0] [2, 2] false).2.2.2.2.1 [0x0200, 0x0101] [0x0100, 0x0001] 0⟩

/-! ## The values returned by the relation collection -/

theorem qsieve_small_loop_relations {σ : Type} (env : qs_env σ) (qs : qs_s σ) (i : Int)
    (js : List Nat) (c : qs_cand) :
    (qsieve_small_loop env qs i js c).relations = c.relations := by
  induction js generalizing c with
  | nil => rfl
  | cons j js ih =>
    simp only [qsieve_small_loop]
    split_ifs <;> rw [ih]

theorem qsieve_large_loop_relations {σ : Type} (env : qs_env σ) (qs : qs_s σ) (i : Int)
    (sieve_i : Int) (js : List Nat) (c : qs_cand) :
    (qsieve_large_loop env qs i sieve_i js c).relations = c.relations := by
  induction js generalizing c with
  | nil => rfl
  | cons j js ih =>
    simp only [qsieve_large_loop]
    split_ifs <;> first | rw [ih] | rfl

theorem qsieve_commit_loop_relations {σ : Type} (qs : qs_s σ) (ks : List Nat) (c : qs_cand) :
    (qsieve_commit_loop qs ks c).relations = c.relations := by
  induction ks generalizing c with
  | nil => rfl
  | cons k ks ih =>
    simp only [qsieve_commit_loop]
    split_ifs <;> rw [ih]

theorem qsieve_candidate_small_relations {σ : Type} (env : qs_env σ) (qs : qs_s σ) (i : Int) :
    (qsieve_candidate_small env qs i).relations = 0 := by
  unfold qsieve_candidate_small
  rw [qsieve_small_loop_relations]
  unfold qsieve_candidate_two qsieve_candidate_multiplier
  split_ifs <;> rfl

theorem qsieve_candidate_large_relations {σ : Type} (env : qs_env σ) (qs : qs_s σ) (i : Int)
    (sieve : List Nat) : (qsieve_candidate_large env qs i sieve).relations = 0 := by
  unfold qsieve_candidate_large
  rw [qsieve_large_loop_relations]
  exact qsieve_candidate_small_relations env qs i

theorem qsieve_candidate_commit_relations {σ : Type} (qs : qs_s σ) (c : qs_cand) :
    (qsieve_candidate_commit qs c).relations = c.relations := by
  unfold qsieve_candidate_commit
  exact qsieve_commit_loop_relations qs _ c

theorem qsieve_candidate_sign_relations (c : qs_cand) :
    (qsieve_candidate_sign c).relations = c.relations := by
  unfold qsieve_candidate_sign
  split_ifs <;> rfl

/-- The counter `relations` is 0 when `qsieve_evaluate_candidate` returns
it. -/
theorem qsieve_evaluate_candidate_zero {σ : Type} (env : qs_env σ) (qs : qs_s σ) (i : Int)
    (sieve : List Nat) : (qsieve_evaluate_candidate env qs i sieve).relations = 0 := by
  simp only [qsieve_evaluate_candidate]
  split_ifs <;>
    simp only [qsieve_candidate_commit_relations, qsieve_candidate_sign_relations,
      qsieve_candidate_large_relations, qsieve_candidate_small_relations]

theorem qsieve_byte_loop_relations {σ : Type} (env : qs_env σ) (bits : Nat) (is : List Nat)
    (r : qs_result σ) : (qsieve_byte_loop env bits is r).relations = r.relations := by
  induction is generalizing r with
  | nil => rfl
  | cons i is ih =>
    simp only [qsieve_byte_loop]
    split_ifs
    · rw [ih, qsieve_evaluate_candidate_zero]
      exact Int.add_zero _
    · exact ih r
    · rfl

theorem qsieve_sieve_loop_relations {σ : Type} (env : qs_env σ) (bits : Nat) (fuel : Nat) :
    ∀ (j : Nat) (r r' : qs_result σ), qsieve_sieve_loop env bits fuel j r = some r' →
      r'.relations = r.relations := by
  induction fuel with
  | zero =>
    intro j r r' h
    exact absurd h (by simp [qsieve_sieve_loop])
  | succ fuel ih =>
    intro j r r' h
    simp only [qsieve_sieve_loop] at h
    split_ifs at h with hj
    · cases hs : qsieve_skip_loop r.sieve (fuel + 1) j with
      | none =>
        rw [hs] at h
        exact absurd h (by simp)
      | some j1 =>
        rw [hs] at h
        rw [ih _ _ _ h, qsieve_byte_loop_relations]
    · simp only [Option.some.injEq] at h
      rw [← h]

theorem qsieve_evaluate_sieve_zero {σ : Type} (env : qs_env σ) (fuel : Nat) (qs : qs_s σ)
    (sieve : List Nat) (r : qs_result σ)
    (h : qsieve_evaluate_sieve env fuel qs sieve = some r) : r.relations = 0 :=
  qsieve_sieve_loop_relations env qs.sieve_bits fuel 0 ⟨qs, sieve, 0⟩ r h

theorem qsieve_collect_loop_relations {σ : Type} (env : qs_env σ) (scan fuel : Nat) :
    ∀ (r r' : qs_result σ), qsieve_collect_loop env scan fuel r = some r' →
      r'.relations = r.relations := by
  induction fuel with
  | zero =>
    intro r r' h
    exact absurd h (by simp [qsieve_collect_loop])
  | succ fuel ih =>
    intro r r' h
    simp only [qsieve_collect_loop] at h
    split_ifs at h with hc
    · cases he : qsieve_evaluate_sieve env scan (env.qsieve_do_sieving2
          (env.qsieve_compute_C r.qs) r.sieve).1 (env.qsieve_do_sieving2
          (env.qsieve_compute_C r.qs) r.sieve).2 with
      | none =>
        rw [he] at h
        exact absurd h (by simp)
      | some e =>
        rw [he] at h
        have h0 := qsieve_evaluate_sieve_zero env scan _ _ e he
        simp only at h
        split_ifs at h with hp
        · simp only [Option.some.injEq] at h
          rw [← h]
          simp only [h0]
          exact Int.add_zero _
        · rw [ih _ _ h]
          simp only [h0]
          exact Int.add_zero _
    · simp only [Option.some.injEq] at h
      rw [← h]

/-- C34: `qsieve_evaluate_candidate` returns 0 for every input, whatever the
functions it calls do: its counter `relations` is 0 at its declaration and
no statement changes it.  Hence `qsieve_evaluate_sieve` and
`qsieve_collect_relations` return 0 whenever they return, whatever was
written to the relation file and however `full_relation` and `edges` were
advanced. -/
theorem qsieve_collect_relations_zero {σ : Type} (env : qs_env σ) (qs : qs_s σ) (i : Int)
    (sieve : List Nat) :
    (qsieve_evaluate_candidate env qs i sieve).relations = 0 ∧
      (∀ fuel r, qsieve_evaluate_sieve env fuel qs sieve = some r → r.relations = 0) ∧
      ∀ scan fuel r, qsieve_collect_relations env scan fuel qs sieve = some r →
        r.relations = 0 := by
  refine ⟨qsieve_evaluate_candidate_zero env qs i sieve,
    fun fuel r h => qsieve_evaluate_sieve_zero env fuel qs sieve r h, ?_⟩
  intro scan fuel r h
  exact qsieve_collect_loop_relations env scan fuel _ r h

/-- Witness of C34: on the example the candidate at `i = 5` is a full
relation, which is written to the file and counted in `full_relation`; the
scan of the sieve and the collection both return, with that relation written
and the value 0. -/
theorem qsieve_collect_relations_zero_witness :
    ((qsieve_evaluate_candidate qs_example_env qs_example 5 qs_example_sieve).qs.full_relation
        = 1 ∧
      (qsieve_evaluate_candidate qs_example_env qs_example 5 qs_example_sieve).qs.ext
        = [(1, 1)]) ∧
    (qsieve_evaluate_sieve qs_example_env 2 qs_example qs_example_sieve).map
        (fun r => (r.qs.full_relation, r.qs.ext, r.relations)) = some (1, [(1, 1)], 0) ∧
    (qsieve_collect_relations qs_example_env 2 1 qs_example qs_example_sieve).map
        (fun r => (r.qs.full_relation, r.qs.ext, r.relations)) = some (1, [(1, 1)], 0) ∧
    ((qsieve_evaluate_candidate qs_example_env qs_example 5 qs_example_sieve).relations = 0 ∧
      (∀ fuel r, qsieve_evaluate_sieve qs_example_env fuel qs_example qs_example_sieve = some r →
        r.relations = 0) ∧
      ∀ scan fuel r,
        qsieve_collect_relations qs_example_env scan fuel qs_example qs_example_sieve = some r →
          r.relations = 0) :=
  ⟨⟨by decide, by decide⟩, by decide, by decide,
    qsieve_collect_relations_zero qs_example_env qs_example 5 qs_example_sieve⟩

/-! ## The calls of the pretty printer -/

theorem pretty_fputc_ok (env : pretty_env) (hok : ∀ call, 0 < env.ret call) (c : Char)
    (f : pretty_file) :
    pretty_fputc env c f = ⟨1, f.calls ++ [.fputc c]⟩ := by
  have h := hok (.fputc c)
  have hne : env.ret (.fputc c) ≠ pretty_EOF := by
    unfold pretty_EOF
    omega
  simp only [pretty_fputc, if_pos hne]

theorem fprint_pretty_factor_ok (env : pretty_env) (hok : ∀ call, 0 < env.ret call) (c : Int)
    (call : pretty_call) (f : pretty_file) (first : Bool) (hf : 0 < f.r) :
    fprint_pretty_factor env c call (f, first) =
      (⟨env.ret call, f.calls ++
        ((if (!first || (decide (c ≠ 1) && decide (c ≠ -1))) = true
            then [pretty_call.fputc '*'] else []) ++ [call])⟩, false) := by
  unfold fprint_pretty_factor
  by_cases hs : (!first || (decide (c ≠ 1) && decide (c ≠ -1))) = true
  · simp only [if_pos hs, pretty_fputc_ok env hok, pretty_write]
    rw [if_pos (by decide)]
    simp
  · simp only [if_neg hs, pretty_write]
    rw [if_pos hf]
    simp

/-- Without a write error the loop over the variables makes the calls
described for the variables, and leaves `r` positive. -/
theorem fprint_pretty_vars_ok (env : pretty_env) (hok : ∀ call, 0 < env.ret call) (c : Int)
    (x : List String) (degs : List Nat) :
    ∀ (js : List Nat) (f : pretty_file) (first : Bool), 0 < f.r →
      0 < (fprint_pretty_vars env c x degs js (f, first)).1.r ∧
        (fprint_pretty_vars env c x degs js (f, first)).1.calls =
          f.calls ++ fprint_pretty_vars_spec x degs
            (!first || (decide (c ≠ 1) && decide (c ≠ -1))) js := by
  intro js
  induction js with
  | nil =>
    intro f first hf
    exact ⟨hf, by simp [fprint_pretty_vars, fprint_pretty_vars_spec]⟩
  | cons j js ih =>
    intro f first hf
    simp only [fprint_pretty_vars, if_pos hf]
    rcases Nat.lt_trichotomy (degs.getD j 0) 1 with hd | hd | hd
    · have hd0 : degs.getD j 0 = 0 := by omega
      have e : fprint_pretty_var env c x degs j (f, first) = (f, first) := by
        simp only [fprint_pretty_var, hd0]
        rfl
      rw [e]
      simp only [fprint_pretty_vars_spec, if_pos hd0]
      exact ih f first hf
    · have e : fprint_pretty_var env c x degs j (f, first) =
          fprint_pretty_factor env c (.fprintf_var (x.getD j "")) (f, first) := by
        simp only [fprint_pretty_var, hd]
        rfl
      rw [e, fprint_pretty_factor_ok env hok c _ f first hf]
      obtain ⟨h1, h2⟩ := ih ⟨env.ret (.fprintf_var (x.getD j "")), f.calls ++
        ((if (!first || (decide (c ≠ 1) && decide (c ≠ -1))) = true
            then [pretty_call.fputc '*'] else []) ++ [.fprintf_var (x.getD j "")])⟩ false (hok _)
      refine ⟨h1, ?_⟩
      rw [h2]
      simp only [fprint_pretty_vars_spec, hd, List.append_assoc]
      simp
    · have hne0 : degs.getD j 0 ≠ 0 := by omega
      have hne1 : degs.getD j 0 ≠ 1 := by omega
      have e : fprint_pretty_var env c x degs j (f, first) =
          fprint_pretty_factor env c (.fprintf_pow (x.getD j "") (degs.getD j 0))
            (f, first) := by
        simp only [fprint_pretty_var, if_pos hd, if_neg hne1]
      rw [e, fprint_pretty_factor_ok env hok c _ f first hf]
      obtain ⟨h1, h2⟩ := ih ⟨env.ret (.fprintf_pow (x.getD j "") (degs.getD j 0)), f.calls ++
        ((if (!first || (decide (c ≠ 1) && decide (c ≠ -1))) = true
            then [pretty_call.fputc '*'] else []) ++
          [.fprintf_pow (x.getD j "") (degs.getD j 0)])⟩ false (hok _)
      refine ⟨h1, ?_⟩
      rw [h2]
      simp only [fprint_pretty_vars_spec, if_neg hne0, if_neg hne1, List.append_assoc]
      simp

theorem fprint_pretty_coeff_ok (env : pretty_env) (hok : ∀ call, 0 < env.ret call)
    (i : Nat) (c : Int) (f : pretty_file) (hf : 0 < f.r) :
    0 < (fprint_pretty_coeff env i c f).r ∧
      (fprint_pretty_coeff env i c f).calls = f.calls ++
        ((if 0 < c ∧ i ≠ 0 then [pretty_call.fputc '+'] else []) ++
          (if c = -1 then [pretty_call.fputc '-'] else if c = 1 then []
            else [pretty_call.fmpz_fprint c])) := by
  have hone : (0 : Int) < (⟨1, []⟩ : pretty_file).r := by decide
  have hf1 : ∃ f1 : pretty_file, 0 < f1.r ∧
      f1.calls = f.calls ++ (if 0 < c ∧ i ≠ 0 then [pretty_call.fputc '+'] else []) ∧
      (if 0 < c ∧ i ≠ 0 then pretty_fputc env '+' f else f) = f1 := by
    by_cases hp : 0 < c ∧ i ≠ 0
    · refine ⟨_, ?_, ?_, rfl⟩
      · rw [if_pos hp, pretty_fputc_ok env hok]
        exact hone
      · rw [if_pos hp, pretty_fputc_ok env hok, if_pos hp]
    · exact ⟨f, hf, by rw [if_neg hp]; simp, by rw [if_neg hp]⟩
  obtain ⟨f1, hr1, hc1, he1⟩ := hf1
  simp only [fprint_pretty_coeff, he1]
  by_cases hm : c = -1
  · have hno : ¬ (0 < (pretty_fputc env '-' f1).r ∧ c ≠ 1 ∧ c ≠ -1) := fun h => h.2.2 hm
    rw [if_pos hm, if_neg hno, pretty_fputc_ok env hok]
    exact ⟨hone, by simp only [hc1, if_pos hm, List.append_assoc]⟩
  · by_cases h1 : c = 1
    · have hno : ¬ (0 < f1.r ∧ c ≠ 1 ∧ c ≠ -1) := fun h => h.2.1 h1
      rw [if_neg hm, if_neg hno]
      exact ⟨hr1, by rw [hc1, if_neg hm, if_pos h1, List.append_nil]⟩
    · have hyes : 0 < f1.r ∧ c ≠ 1 ∧ c ≠ -1 := ⟨hr1, h1, hm⟩
      rw [if_neg hm, if_pos hyes]
      exact ⟨hok _, by simp only [pretty_write, hc1, if_neg hm, if_neg h1, List.append_assoc]⟩

/-- Without a write error the body of the loop over the terms makes the
calls described for the term, and leaves `r` positive. -/
theorem fprint_pretty_term_ok (env : pretty_env) (hok : ∀ call, 0 < env.ret call)
    (poly : List Int) (exps : List (List Nat)) (x : List String) (bits n deg rev N : Nat)
    (i : Nat) (f : pretty_file) (degs : List Nat) (hf : 0 < f.r) :
    0 < (fprint_pretty_term env poly exps x bits n deg rev N i (f, degs)).1.r ∧
      (fprint_pretty_term env poly exps x bits n deg rev N i (f, degs)).1.calls =
        f.calls ++ fprint_pretty_term_spec i (poly.getD i 0) x
          (env.mpoly_get_monomial (exps.getD i []) bits n deg rev) (n - deg)
          (mpoly_monomial_is_zero (exps.getD i []) N) := by
  obtain ⟨hr3, hc3⟩ := fprint_pretty_coeff_ok env hok i (poly.getD i 0) f hf
  obtain ⟨hr4, hc4⟩ := fprint_pretty_vars_ok env hok (poly.getD i 0) x
    (env.mpoly_get_monomial (exps.getD i []) bits n deg rev) (List.range (n - deg))
    (fprint_pretty_coeff env i (poly.getD i 0) f) true hr3
  simp only [Bool.not_true, Bool.false_or] at hc4
  simp only [fprint_pretty_term, if_pos hr3]
  by_cases hz : mpoly_monomial_is_zero (exps.getD i []) N = true ∧
      (poly.getD i 0 = 1 ∨ poly.getD i 0 = -1)
  · rw [if_pos ⟨hr4, hz⟩]
    refine ⟨hok _, ?_⟩
    simp only [pretty_write, hc4, hc3, fprint_pretty_term_spec, if_pos hz, List.append_assoc]
  · have hno : ¬ (0 < (fprint_pretty_vars env (poly.getD i 0) x
          (env.mpoly_get_monomial (exps.getD i []) bits n deg rev)
          (List.range (n - deg)) (fprint_pretty_coeff env i (poly.getD i 0) f, true)).1.r ∧
        mpoly_monomial_is_zero (exps.getD i []) N = true ∧
        (poly.getD i 0 = 1 ∨ poly.getD i 0 = -1)) := fun h => hz h.2
    rw [if_neg hno]
    refine ⟨hr4, ?_⟩
    simp only [hc4, hc3, fprint_pretty_term_spec, if_neg hz, List.append_assoc,
      List.append_nil]

/-- Without a write error the loop over the terms makes the calls described
for each term in turn, and leaves `r` positive. -/
theorem fprint_pretty_terms_ok (env : pretty_env) (hok : ∀ call, 0 < env.ret call)
    (poly : List Int) (exps : List (List Nat)) (x : List String) (bits n deg rev N : Nat) :
    ∀ (is : List Nat) (f : pretty_file) (degs : List Nat), 0 < f.r →
      0 < (fprint_pretty_terms env poly exps x bits n deg rev N is (f, degs)).1.r ∧
        (fprint_pretty_terms env poly exps x bits n deg rev N is (f, degs)).1.calls =
          f.calls ++ is.flatMap fun i => fprint_pretty_term_spec i (poly.getD i 0) x
            (env.mpoly_get_monomial (exps.getD i []) bits n deg rev) (n - deg)
            (mpoly_monomial_is_zero (exps.getD i []) N) := by
  intro is
  induction is with
  | nil =>
    intro f degs hf
    exact ⟨hf, by simp [fprint_pretty_terms]⟩
  | cons i is ih =>
    intro f degs hf
    simp only [fprint_pretty_terms, if_pos hf]
    obtain ⟨h1, h2⟩ := fprint_pretty_term_ok env hok poly exps x bits n deg rev N i f degs hf
    obtain ⟨h3, h4⟩ := ih (fprint_pretty_term env poly exps x bits n deg rev N i (f, degs)).1
      (fprint_pretty_term env poly exps x bits n deg rev N i (f, degs)).2 h1
    refine ⟨h3, ?_⟩
    rw [h4, h2, List.flatMap_cons, List.append_assoc]

/-- The calls described for the variables only print powers of variables and
`*`, and start with `*` exactly when asked to. -/
theorem fprint_pretty_vars_spec_shape (x : List String) (degs : List Nat) :
    ∀ (js : List Nat) (star : Bool),
      (∀ call ∈ fprint_pretty_vars_spec x degs star js,
        call = .fputc '*' ∨ (∃ v, call = .fprintf_var v) ∨ ∃ v d, call = .fprintf_pow v d) ∧
      (fprint_pretty_vars_spec x degs star js = [] ∨
        ∃ call rest, fprint_pretty_vars_spec x degs star js = call :: rest ∧
          (call = .fputc '*' ↔ star = true)) := by
  intro js
  induction js with
  | nil =>
    intro star
    exact ⟨fun call h => absurd h (List.not_mem_nil _), Or.inl rfl⟩
  | cons j js ih =>
    intro star
    by_cases hd0 : degs.getD j 0 = 0
    · simp only [fprint_pretty_vars_spec, if_pos hd0]
      exact ih star
    · simp only [fprint_pretty_vars_spec, if_neg hd0]
      refine ⟨?_, Or.inr ?_⟩
      · intro call hc
        rcases List.mem_append.1 hc with hc | hc
        · rcases List.mem_append.1 hc with hc | hc
          · split_ifs at hc
            · exact Or.inl (List.mem_singleton.1 hc)
            · exact absurd hc (List.not_mem_nil _)
          · rw [List.mem_singleton] at hc
            split_ifs at hc
            · exact Or.inr (Or.inl ⟨_, hc⟩)
            · exact Or.inr (Or.inr ⟨_, _, hc⟩)
        · exact (ih true).1 call hc
      · cases star with
        | true => exact ⟨_, _, rfl, by simp⟩
        | false =>
          refine ⟨_, _, rfl, ?_⟩
          split_ifs <;> simp

/-- C35: `_fmpz_mpoly_fprint_pretty` without a write error.  When every
writing call succeeds the function returns a positive value, prints `0` for
`len = 0`, and otherwise makes for each term in turn exactly the calls
specified by `fprint_pretty_term_spec`.  In these, a term whose coefficient
is `1` or `-1` has no call printing a coefficient: it consists of `+` (for
`1`, unless the term is the first) or `-` (for `-1`), the variables with a
nonzero exponent, with no `*` before the first of them, and `1` exactly when
its monomial is zero.  A term with any other coefficient consists of `+` if
the coefficient is positive and the term is not the first, the coefficient
in full, and the variables with a nonzero exponent, the first of them
preceded by `*`.  So `+` precedes each term with a positive coefficient
except the first term. -/
theorem fmpz_mpoly_fprint_pretty_terms (env : pretty_env) (poly : List Int)
    (exps : List (List Nat)) (len : Nat) (x_in : Option (List String))
    (bits n deg rev N : Nat) (hok : ∀ call, 0 < env.ret call) :
    0 < (_fmpz_mpoly_fprint_pretty env poly exps len x_in bits n deg rev N).r ∧
      (len = 0 →
        (_fmpz_mpoly_fprint_pretty env poly exps len x_in bits n deg rev N).calls
          = [.fputc '0']) ∧
      (len ≠ 0 →
        (_fmpz_mpoly_fprint_pretty env poly exps len x_in bits n deg rev N).calls =
          (List.range len).flatMap fun i => fprint_pretty_term_spec i (poly.getD i 0)
            (match x_in with
              | none => (List.range (n - deg)).map fun i => "x" ++ toString (i + 1)
              | some x => x)
            (env.mpoly_get_monomial (exps.getD i []) bits n deg rev) (n - deg)
            (mpoly_monomial_is_zero (exps.getD i []) N)) ∧
      (∀ (i : Nat) (c : Int) (x : List String) (degs : List Nat) (nvars : Nat) (zero : Bool),
        c = 1 ∨ c = -1 →
        fprint_pretty_term_spec i c x degs nvars zero =
            (if c = -1 then [pretty_call.fputc '-']
              else if i ≠ 0 then [pretty_call.fputc '+'] else []) ++
            fprint_pretty_vars_spec x degs false (List.range nvars) ++
            (if zero = true then [pretty_call.fprintf_one] else []) ∧
          (∀ y, pretty_call.fmpz_fprint y ∉ fprint_pretty_term_spec i c x degs nvars zero) ∧
          (pretty_call.fprintf_one ∈ fprint_pretty_term_spec i c x degs nvars zero
            ↔ zero = true) ∧
          ∀ rest, fprint_pretty_vars_spec x degs false (List.range nvars)
            ≠ pretty_call.fputc '*' :: rest) ∧
      (∀ (i : Nat) (c : Int) (x : List String) (degs : List Nat) (nvars : Nat) (zero : Bool),
        c ≠ 1 → c ≠ -1 →
        fprint_pretty_term_spec i c x degs nvars zero =
            (if 0 < c ∧ i ≠ 0 then [pretty_call.fputc '+'] else []) ++
            [pretty_call.fmpz_fprint c] ++
            fprint_pretty_vars_spec x degs true (List.range nvars) ∧
          (fprint_pretty_vars_spec x degs true (List.range nvars) = [] ∨
            ∃ rest, fprint_pretty_vars_spec x degs true (List.range nvars)
              = pretty_call.fputc '*' :: rest)) ∧
      ∀ (i : Nat) (c : Int) (x : List String) (degs : List Nat) (nvars : Nat) (zero : Bool),
        pretty_call.fputc '+' ∈ fprint_pretty_term_spec i c x degs nvars zero
          ↔ 0 < c ∧ i ≠ 0 := by
  have hvars : ∀ (x : List String) (degs : List Nat) (star : Bool) (js : List Nat)
      (call : pretty_call), (call = .fputc '+' ∨ call = .fprintf_one ∨ ∃ y, call = .fmpz_fprint y) →
      call ∉ fprint_pretty_vars_spec x degs star js := by
    intro x degs star js call hcall hmem
    rcases (fprint_pretty_vars_spec_shape x degs js star).1 call hmem with h | ⟨v, h⟩ | ⟨v, d, h⟩
    · rcases hcall with h' | h' | ⟨y, h'⟩ <;> rw [h'] at h
      · exact absurd h (by decide)
      · exact pretty_call.noConfusion h
      · exact pretty_call.noConfusion h
    · rcases hcall with h' | h' | ⟨y, h'⟩ <;> rw [h'] at h <;> exact pretty_call.noConfusion h
    · rcases hcall with h' | h' | ⟨y, h'⟩ <;> rw [h'] at h <;> exact pretty_call.noConfusion h
  refine ⟨?_, ?_, ?_, ?_, ?_, ?_⟩
  · unfold _fmpz_mpoly_fprint_pretty
    split_ifs
    · rw [pretty_fputc_ok env hok]
      decide
    · exact (fprint_pretty_terms_ok env hok poly exps _ bits n deg rev N (List.range len)
        ⟨1, []⟩ [] (by decide)).1
  · intro h0
    unfold _fmpz_mpoly_fprint_pretty
    rw [if_pos h0, pretty_fputc_ok env hok]
    rfl
  · intro h0
    unfold _fmpz_mpoly_fprint_pretty
    rw [if_neg h0, (fprint_pretty_terms_ok env hok poly exps _ bits n deg rev N
      (List.range len) ⟨1, []⟩ [] (by decide)).2]
    rfl
  · intro i c x degs nvars zero hc
    have e : fprint_pretty_term_spec i c x degs nvars zero =
        (if c = -1 then [pretty_call.fputc '-']
          else if i ≠ 0 then [pretty_call.fputc '+'] else []) ++
        fprint_pretty_vars_spec x degs false (List.range nvars) ++
        (if zero = true then [pretty_call.fprintf_one] else []) := by
      rcases hc with rfl | rfl
      · by_cases hi : i = 0 <;> cases zero <;> simp [fprint_pretty_term_spec, hi]
      · cases zero <;> simp [fprint_pretty_term_spec]
    refine ⟨e, ?_, ?_, ?_⟩
    · intro y hy
      rw [e] at hy
      rcases List.mem_append.1 hy with hy | hy
      · rcases List.mem_append.1 hy with hy | hy
        · split_ifs at hy <;> simp at hy
        · exact hvars x degs false _ _ (Or.inr (Or.inr ⟨y, rfl⟩)) hy
      · split_ifs at hy <;> simp at hy
    · rw [e]
      constructor
      · intro hy
        rcases List.mem_append.1 hy with hy | hy
        · rcases List.mem_append.1 hy with hy | hy
          · split_ifs at hy <;> simp at hy
          · exact absurd hy (hvars x degs false _ _ (Or.inr (Or.inl rfl)))
        · split_ifs at hy with hz
          · exact hz
          · exact absurd hy (List.not_mem_nil _)
      · intro hz
        rw [if_pos hz]
        exact List.mem_append_right _ (List.mem_singleton_self _)
    · intro rest hrest
      rcases (fprint_pretty_vars_spec_shape x degs (List.range nvars) false).2 with h | h
      · rw [h] at hrest
        exact List.noConfusion hrest
      · obtain ⟨call, rest', h1, h2⟩ := h
        rw [h1] at hrest
        have := (List.cons.inj hrest).1
        exact Bool.noConfusion (h2.1 this)
  · intro i c x degs nvars zero h1 hm
    refine ⟨?_, ?_⟩
    · simp [fprint_pretty_term_spec, h1, hm]
    · rcases (fprint_pretty_vars_spec_shape x degs (List.range nvars) true).2 with h | h
      · exact Or.inl h
      · obtain ⟨call, rest', h1, h2⟩ := h
        exact Or.inr ⟨rest', by rw [h1, h2.2 rfl]⟩
  · intro i c x degs nvars zero
    unfold fprint_pretty_term_spec
    constructor
    · intro hy
      rcases List.mem_append.1 hy with hy | hy
      · rcases List.mem_append.1 hy with hy | hy
        · rcases List.mem_append.1 hy with hy | hy
          · split_ifs at hy with hp
            · exact hp
            · exact absurd hy (List.not_mem_nil _)
          · split_ifs at hy <;> simp at hy
        · exact absurd hy (hvars x degs _ _ _ (Or.inl rfl))
      · split_ifs at hy <;> simp at hy
    · intro hp
      rw [if_pos hp]
      exact List.mem_append_left _ (List.mem_append_left _ (List.mem_append_left _
        (List.mem_singleton_self _)))

/-- Witness of C35: `3*x^2 - x*y + y - 1` in the variables `x`, `y`, printed
as `3*x^2-x*y+y-1`. -/
theorem fmpz_mpoly_fprint_pretty_terms_witness :
    (∀ call, 0 < pretty_example_env.ret call) ∧
    (_fmpz_mpoly_fprint_pretty pretty_example_env [3, -1, 1, -1]
        [[2, 0], [1, 1], [0, 1], [0, 0]] 4 (some ["x", "y"]) 64 2 0 0 2).calls =
      [.fmpz_fprint 3, .fputc '*', .fprintf_pow "x" 2,
        .fputc '-', .fprintf_var "x", .fputc '*', .fprintf_var "y",
        .fputc '+', .fprintf_var "y",
        .fputc '-', .fprintf_one] ∧
    0 < (_fmpz_mpoly_fprint_pretty pretty_example_env [3, -1, 1, -1]
        [[2, 0], [1, 1], [0, 1], [0, 0]] 4 (some ["x", "y"]) 64 2 0 0 2).r :=
  ⟨fun _ => Int.one_pos, by decide,
    (fmpz_mpoly_fprint_pretty_terms pretty_example_env [3, -1, 1, -1]
      [[2, 0], [1, 1], [0, 1], [0, 0]] 4 (some ["x", "y"]) 64 2 0 0 2
      (fun _ => Int.one_pos)).1⟩

/-! ## The pool holds the monomials of the heap -/

section pool_proofs

variable {M : Type} [DecidableEq M] [Inhabited M]

theorem mul_drop_set_pred (l : List Nat) (n a : Nat) (h1 : 0 < n) (h2 : n ≤ l.length) :
    (l.set (n - 1) a).drop (n - 1) = a :: l.drop n := by
  induction l generalizing n with
  | nil =>
    simp only [List.length_nil] at h2
    omega
  | cons b l ih =>
    cases n with
    | zero => exact absurd h1 (Nat.lt_irrefl 0)
    | succ n =>
      cases n with
      | zero => simp
      | succ n =>
        have := ih (n + 1) (Nat.succ_pos n) (by simpa using h2)
        simpa using this

theorem mul_drop_getD (l : List Nat) (n : Nat) (h : n < l.length) :
    l.drop n = l.getD n 0 :: l.drop (n + 1) := by
  rw [List.getD_eq_getElem l 0 h]
  exact List.drop_eq_getElem_cons h

/-- The pointer heap after an insertion, seen through the monomials its
pointers point at, is the heap of monomials after the same insertion. -/
theorem mpoly_heap_insert_ptr_view (before : M → M → Bool) (exps : List M) (exp : Nat)
    (x : mpoly_heap_t) (H : List (mpoly_heap_s Nat)) :
    ((mpoly_heap_insert_ptr before exps exp x H).1.map
        fun h => (⟨exps.getD h.exp default, h.next⟩ : mpoly_heap_s M)) =
      mpoly_heap_insert before (exps.getD exp default) x
        (H.map fun h => (⟨exps.getD h.exp default, h.next⟩ : mpoly_heap_s M)) := by
  induction H with
  | nil => rfl
  | cons h rest ih =>
    simp only [mpoly_heap_insert_ptr, List.map_cons, mpoly_heap_insert]
    split_ifs
    · rfl
    · rfl
    · rw [List.map_cons, ih]

/-- The pointers held after an insertion: the new pointer is added exactly
when the insertion returns 1. -/
theorem mpoly_heap_insert_ptr_held (before : M → M → Bool) (exps : List M) (exp : Nat)
    (x : mpoly_heap_t) (H : List (mpoly_heap_s Nat)) :
    ((mpoly_heap_insert_ptr before exps exp x H).2 = true →
        ((mpoly_heap_insert_ptr before exps exp x H).1.map fun h => h.exp).Perm
          (exp :: H.map fun h => h.exp) ∧
        (mpoly_heap_insert_ptr before exps exp x H).1.length = H.length + 1) ∧
      ((mpoly_heap_insert_ptr before exps exp x H).2 = false →
        ((mpoly_heap_insert_ptr before exps exp x H).1.map fun h => h.exp) =
          H.map (fun h => h.exp) ∧
        (mpoly_heap_insert_ptr before exps exp x H).1.length = H.length) := by
  induction H with
  | nil =>
    simp [mpoly_heap_insert_ptr]
  | cons h rest ih =>
    simp only [mpoly_heap_insert_ptr]
    split_ifs
    · simp
    · simp
    · refine ⟨fun ht => ?_, fun hf => ?_⟩
      · obtain ⟨hp, hl⟩ := ih.1 ht
        refine ⟨?_, by simp [hl]⟩
        simp only [List.map_cons]
        exact (List.Perm.cons _ hp).trans (List.Perm.swap _ _ _)
      · obtain ⟨hp, hl⟩ := ih.2 hf
        exact ⟨by simp only [List.map_cons, hp], by simp [hl]⟩

/-- An insertion into a pool with a free slot: the heap of monomials
receives the node under the sum of its pair, the invariant is kept, and the
heap grows by at most one entry. -/
theorem mul_pool_insert_spec (ops : mpoly_ops M) (exp2 exp3 : List M) (len2 : Nat)
    (x : mpoly_heap_t) (P : mul_pool M) (inv : mul_pool_inv len2 P)
    (hfree : P.exp_next < len2) :
    mul_pool_view (mul_pool_insert ops exp2 exp3 x P) =
        mpoly_heap_insert ops.before (mul_pair_exp ops exp2 exp3 x.i x.j) x (mul_pool_view P) ∧
      mul_pool_inv len2 (mul_pool_insert ops exp2 exp3 x P) ∧
      (mul_pool_insert ops exp2 exp3 x P).heap.length ≤ P.heap.length + 1 := by
  have hlt : P.exp_next < P.exp_list.length := by rw [inv.list_length]; exact hfree
  have hdrop := mul_drop_getD P.exp_list P.exp_next hlt
  have hnd : (mul_pool_held P ++ mul_pool_free P).Nodup :=
    (inv.slots.nodup_iff).2 (List.nodup_range len2)
  have hslot_free : P.exp_list.getD P.exp_next 0 ∈ mul_pool_free P := by
    unfold mul_pool_free
    rw [hdrop]
    exact List.mem_cons_self _ _
  have hslot_lt : P.exp_list.getD P.exp_next 0 < P.exps.length := by
    rw [inv.exps_length]
    exact List.mem_range.1 (inv.slots.subset (List.mem_append_right _ hslot_free))
  have hslot_held : P.exp_list.getD P.exp_next 0 ∉ mul_pool_held P := fun hh =>
    (List.disjoint_of_nodup_append hnd) hh hslot_free
  -- the monomials the held pointers point at are untouched
  have hview : (P.heap.map fun h => (⟨(P.exps.set (P.exp_list.getD P.exp_next 0)
        (ops.add (exp2.getD x.i default) (exp3.getD x.j default))).getD h.exp default,
        h.next⟩ : mpoly_heap_s M)) = mul_pool_view P := by
    unfold mul_pool_view
    apply List.map_congr_left
    intro h hh
    have hne : P.exp_list.getD P.exp_next 0 ≠ h.exp := fun e =>
      hslot_held (by rw [e]; exact List.mem_map_of_mem _ hh)
    rw [List.getD_eq_getElem?_getD, List.getElem?_set_ne hne, ← List.getD_eq_getElem?_getD]
  have hnew : (P.exps.set (P.exp_list.getD P.exp_next 0)
      (ops.add (exp2.getD x.i default) (exp3.getD x.j default))).getD
        (P.exp_list.getD P.exp_next 0) default =
      mul_pair_exp ops exp2 exp3 x.i x.j := by
    rw [List.getD_eq_getElem?_getD, List.getElem?_set_self hslot_lt]
    rfl
  have hv := mpoly_heap_insert_ptr_view ops.before (P.exps.set (P.exp_list.getD P.exp_next 0)
    (ops.add (exp2.getD x.i default) (exp3.getD x.j default)))
    (P.exp_list.getD P.exp_next 0) x P.heap
  rw [hview, hnew] at hv
  obtain ⟨ht, hf⟩ := mpoly_heap_insert_ptr_held ops.before
    (P.exps.set (P.exp_list.getD P.exp_next 0)
      (ops.add (exp2.getD x.i default) (exp3.getD x.j default)))
    (P.exp_list.getD P.exp_next 0) x P.heap
  cases hr : (mpoly_heap_insert_ptr ops.before (P.exps.set (P.exp_list.getD P.exp_next 0)
      (ops.add (exp2.getD x.i default) (exp3.getD x.j default)))
      (P.exp_list.getD P.exp_next 0) x P.heap).2 with
  | true =>
    obtain ⟨hp, hl⟩ := ht hr
    have e : mul_pool_insert ops exp2 exp3 x P =
        ⟨P.exps.set (P.exp_list.getD P.exp_next 0)
            (ops.add (exp2.getD x.i default) (exp3.getD x.j default)),
          P.exp_list, P.exp_next + 1,
          (mpoly_heap_insert_ptr ops.before (P.exps.set (P.exp_list.getD P.exp_next 0)
            (ops.add (exp2.getD x.i default) (exp3.getD x.j default)))
            (P.exp_list.getD P.exp_next 0) x P.heap).1⟩ := by
      simp only [mul_pool_insert, hr, if_true]
    refine ⟨hv, ?_, ?_⟩
    · rw [e]
      refine ⟨?_, inv.list_length, ?_, ?_, ?_⟩
      · show (P.exps.set _ _).length = len2
        rw [List.length_set]
        exact inv.exps_length
      · show P.exp_next + 1 = _
        rw [hl, inv.next_eq]
      · show P.exp_next + 1 ≤ len2
        omega
      · show ((mpoly_heap_insert_ptr ops.before _ _ x P.heap).1.map (fun h => h.exp) ++
          P.exp_list.drop (P.exp_next + 1)).Perm (List.range len2)
        refine (hp.append_right _).trans ?_
        refine List.Perm.trans ?_ inv.slots
        unfold mul_pool_held mul_pool_free
        rw [hdrop]
        exact (List.perm_middle).symm
    · rw [e]
      show (mpoly_heap_insert_ptr ops.before _ _ x P.heap).1.length ≤ _
      rw [hl]
  | false =>
    obtain ⟨hp, hl⟩ := hf hr
    have e : mul_pool_insert ops exp2 exp3 x P =
        ⟨P.exps.set (P.exp_list.getD P.exp_next 0)
            (ops.add (exp2.getD x.i default) (exp3.getD x.j default)),
          P.exp_list, P.exp_next,
          (mpoly_heap_insert_ptr ops.before (P.exps.set (P.exp_list.getD P.exp_next 0)
            (ops.add (exp2.getD x.i default) (exp3.getD x.j default)))
            (P.exp_list.getD P.exp_next 0) x P.heap).1⟩ := by
      simp only [mul_pool_insert, hr]
      rfl
    refine ⟨hv, ?_, ?_⟩
    · rw [e]
      refine ⟨?_, inv.list_length, ?_, inv.next_le, ?_⟩
      · show (P.exps.set _ _).length = len2
        rw [List.length_set]
        exact inv.exps_length
      · show P.exp_next = _
        rw [hl, inv.next_eq]
      · show ((mpoly_heap_insert_ptr ops.before _ _ x P.heap).1.map (fun h => h.exp) ++
          P.exp_list.drop P.exp_next).Perm (List.range len2)
        rw [hp]
        exact inv.slots
    · rw [e]
      show (mpoly_heap_insert_ptr ops.before _ _ x P.heap).1.length ≤ _
      rw [hl]
      omega

end pool_proofs

section pool_proofs2

variable {M : Type} [DecidableEq M] [Inhabited M]

theorem mul_pool_inv_init (len2 : Nat) : mul_pool_inv len2 (mul_pool_init len2 : mul_pool M) := by
  refine ⟨?_, ?_, rfl, Nat.zero_le _, ?_⟩
  · simp [mul_pool_init]
  · simp [mul_pool_init]
  · simp [mul_pool_held, mul_pool_free, mul_pool_init]

/-- The seeding loop on a pool with room for the rows still to visit. -/
theorem mul_pool_seed_loop_spec (ops : mpoly_ops M) (exp2 exp3 : List M) (len2 : Nat)
    (start end_ : List Nat) :
    ∀ (rows : List Nat) (P : mul_pool M), mul_pool_inv len2 P →
      P.heap.length + rows.length ≤ len2 →
      mul_pool_view (mul_pool_seed_loop ops exp2 exp3 start end_ rows P) =
          mul_seed_loop ops exp2 exp3 start end_ rows (mul_pool_view P) ∧
        mul_pool_inv len2 (mul_pool_seed_loop ops exp2 exp3 start end_ rows P) ∧
        (mul_pool_seed_loop ops exp2 exp3 start end_ rows P).heap.length
          ≤ P.heap.length + rows.length := by
  intro rows
  induction rows with
  | nil =>
    intro P inv _
    exact ⟨rfl, inv, le_refl _⟩
  | cons i rows ih =>
    intro P inv hcap
    simp only [List.length_cons] at hcap
    simp only [mul_pool_seed_loop, mul_seed_loop]
    split_ifs with hw
    · obtain ⟨h1, h2, h3⟩ := mul_pool_insert_spec ops exp2 exp3 len2 ⟨i, start.getD i 0⟩ P inv
        (by rw [inv.next_eq]; omega)
      obtain ⟨h4, h5, h6⟩ := ih _ h2 (by omega)
      refine ⟨?_, h5, ?_⟩
      · rw [h4, h1]
        rfl
      · simp only [List.length_cons]
        omega
    · obtain ⟨h4, h5, h6⟩ := ih P inv (by omega)
      exact ⟨h4, h5, by simp only [List.length_cons]; omega⟩

/-- The loop over the store on a pool with room for the stored nodes. -/
theorem mul_pool_push_loop_spec (ops : mpoly_ops M) (exp2 exp3 : List M) (len2 : Nat)
    (end_ : List Nat) :
    ∀ (Q : List mpoly_heap_t) (P : mul_pool M), mul_pool_inv len2 P →
      P.heap.length + Q.length ≤ len2 →
      mul_pool_view (mul_pool_push_loop ops exp2 exp3 end_ Q P) =
          mul_push_loop ops exp2 exp3 end_ Q (mul_pool_view P) ∧
        mul_pool_inv len2 (mul_pool_push_loop ops exp2 exp3 end_ Q P) ∧
        (mul_pool_push_loop ops exp2 exp3 end_ Q P).heap.length ≤ P.heap.length + Q.length := by
  intro Q
  induction Q with
  | nil =>
    intro P inv _
    exact ⟨rfl, inv, le_refl _⟩
  | cons x Q ih =>
    intro P inv hcap
    simp only [List.length_cons] at hcap
    simp only [mul_pool_push_loop, mul_push_loop]
    split_ifs with hw
    · obtain ⟨h1, h2, h3⟩ := mul_pool_insert_spec ops exp2 exp3 len2 ⟨x.i, x.j + 1⟩ P inv
        (by rw [inv.next_eq]; omega)
      obtain ⟨h4, h5, h6⟩ := ih _ h2 (by omega)
      refine ⟨?_, h5, ?_⟩
      · rw [h4, h1]
        rfl
      · simp only [List.length_cons]
        omega
    · obtain ⟨h4, h5, h6⟩ := ih P inv (by omega)
      exact ⟨h4, h5, by simp only [List.length_cons]; omega⟩

/-- A pop returns the slot of the top entry to the free slots and changes no
monomial of the pool. -/
theorem mul_pool_pop_spec (len2 : Nat) (P : mul_pool M) (h : mpoly_heap_s Nat)
    (rest : List (mpoly_heap_s Nat)) (hP : P.heap = h :: rest) (inv : mul_pool_inv len2 P) :
    (mul_pool_pop P).1 = h.next ∧ (mul_pool_pop P).2.exps = P.exps ∧
      (mul_pool_pop P).2.heap = rest ∧
      mul_pool_free (mul_pool_pop P).2 = h.exp :: mul_pool_free P ∧
      0 < P.exp_next ∧
      mul_pool_view (mul_pool_pop P).2 = (mul_pool_view P).tail ∧
      mul_pool_inv len2 (mul_pool_pop P).2 := by
  have hpos : 0 < P.exp_next := by rw [inv.next_eq, hP]; exact Nat.succ_pos _
  have hle : P.exp_next ≤ P.exp_list.length := by rw [inv.list_length]; exact inv.next_le
  have e : mul_pool_pop P =
      (h.next, ⟨P.exps, P.exp_list.set (P.exp_next - 1) h.exp, P.exp_next - 1, rest⟩) := by
    simp only [mul_pool_pop, hP]
  have hfree : mul_pool_free (⟨P.exps, P.exp_list.set (P.exp_next - 1) h.exp, P.exp_next - 1,
      rest⟩ : mul_pool M) = h.exp :: mul_pool_free P :=
    mul_drop_set_pred P.exp_list P.exp_next h.exp hpos hle
  rw [e]
  refine ⟨rfl, rfl, rfl, hfree, hpos, ?_, ?_⟩
  · simp only [mul_pool_view, hP, List.map_cons, List.tail_cons]
  · refine ⟨inv.exps_length, ?_, ?_, ?_, ?_⟩
    · show (P.exp_list.set _ _).length = len2
      rw [List.length_set]
      exact inv.list_length
    · show P.exp_next - 1 = rest.length
      rw [inv.next_eq, hP]
      rfl
    · show P.exp_next - 1 ≤ len2
      have := inv.next_le
      omega
    · rw [hfree]
      refine List.Perm.trans ?_ inv.slots
      simp only [mul_pool_held, hP, List.map_cons]
      exact List.perm_middle

/-- The inner loop on the pool: the heap of monomials goes through the inner
loop of the kernel on monomials; no monomial of the pool is changed; the
invariant is kept; and the monomial copied to the output, once copied, is
the one `exp` points at. -/
theorem mul_pool_pop_loop_spec (small : Bool) (poly2 poly3 : List Int) (len2 len3 : Nat)
    (exp : Nat) :
    ∀ (fuel : Nat) (s : mul_pool_run M), mul_pool_inv len2 s.pool →
      s.pool.heap.length ≤ fuel →
      (mul_pool_view (mul_pool_pop_loop small poly2 poly3 len3 exp fuel s).pool,
          (mul_pool_pop_loop small poly2 poly3 len3 exp fuel s).acc,
          (mul_pool_pop_loop small poly2 poly3 len3 exp fuel s).Q) =
        mul_pop_loop small poly2 poly3 len3 true (s.pool.exps.getD exp default)
          (mul_pool_view s.pool) (s.acc, s.Q) ∧
      (mul_pool_pop_loop small poly2 poly3 len3 exp fuel s).pool.exps = s.pool.exps ∧
      mul_pool_inv len2 (mul_pool_pop_loop small poly2 poly3 len3 exp fuel s).pool ∧
      (s.e1k = some (s.pool.exps.getD exp default) →
        (mul_pool_pop_loop small poly2 poly3 len3 exp fuel s).e1k =
          some (s.pool.exps.getD exp default)) ∧
      ∀ a ∈ mul_pool_free s.pool,
        a ∈ mul_pool_free (mul_pool_pop_loop small poly2 poly3 len3 exp fuel s).pool := by
  intro fuel
  induction fuel with
  | zero =>
    intro s inv hfuel
    have hnil : s.pool.heap = [] := List.length_eq_zero.1 (Nat.le_zero.1 hfuel)
    refine ⟨?_, rfl, inv, fun h => h, fun a ha => ha⟩
    simp only [mul_pool_pop_loop, mul_pool_view, hnil, List.map_nil, mul_pop_loop]
  | succ fuel ih =>
    intro s inv hfuel
    cases hH : s.pool.heap with
    | nil =>
      have e : mul_pool_pop_loop small poly2 poly3 len3 exp (fuel + 1) s = s := by
        simp only [mul_pool_pop_loop, hH]
      rw [e]
      refine ⟨?_, rfl, inv, fun h => h, fun a ha => ha⟩
      simp only [mul_pool_view, hH, List.map_nil, mul_pop_loop]
    | cons h rest =>
      obtain ⟨p1, p2, p3, p4, -, p6, p7⟩ := mul_pool_pop_spec len2 s.pool h rest hH inv
      by_cases heq : s.pool.exps.getD h.exp default = s.pool.exps.getD exp default
      · obtain ⟨s', hs'⟩ : ∃ s' : mul_pool_run M, s' =
            { pool := (mul_pool_pop s.pool).2
              acc := ((mul_pool_pop s.pool).1.foldl
                (mul_chain_step small poly2 poly3 len3 true) (s.acc, s.Q)).1
              Q := ((mul_pool_pop s.pool).1.foldl
                (mul_chain_step small poly2 poly3 len3 true) (s.acc, s.Q)).2
              e1k := if s.acc.first then some ((mul_pool_pop s.pool).2.exps.getD exp default)
                else s.e1k } := ⟨_, rfl⟩
        have e : mul_pool_pop_loop small poly2 poly3 len3 exp (fuel + 1) s =
            mul_pool_pop_loop small poly2 poly3 len3 exp fuel s' := by
          rw [hs']
          simp only [mul_pool_pop_loop, hH, if_pos heq]
        have e1 : s'.pool = (mul_pool_pop s.pool).2 := by rw [hs']
        have e2 : (s'.acc, s'.Q) = h.next.foldl (mul_chain_step small poly2 poly3 len3 true)
            (s.acc, s.Q) := by rw [hs', p1]
        have e3 : s.e1k = some (s.pool.exps.getD exp default) →
            s'.e1k = some (s.pool.exps.getD exp default) := by
          intro he
          rw [hs']
          show (if s.acc.first then some ((mul_pool_pop s.pool).2.exps.getD exp default)
            else s.e1k) = _
          rw [p2]
          split_ifs
          · rfl
          · exact he
        rw [e]
        obtain ⟨i1, i2, i3, i4, i5⟩ := ih s' (by rw [e1]; exact p7) (by
          rw [e1, p3]
          rw [hH] at hfuel
          simpa using hfuel)
        rw [e1, p2, p6] at i1
        rw [e1, p2] at i2 i4
        refine ⟨?_, i2, i3, fun he => i4 (e3 he), fun a ha => i5 a (by
          rw [e1, p4]
          exact List.mem_cons_of_mem _ ha)⟩
        rw [i1, e2]
        simp only [mul_pool_view, hH, List.map_cons, List.tail_cons, mul_pop_loop, if_pos heq,
          mpoly_heap_pop]
      · have e : mul_pool_pop_loop small poly2 poly3 len3 exp (fuel + 1) s = s := by
          simp only [mul_pool_pop_loop, hH, if_neg heq]
        rw [e]
        refine ⟨?_, rfl, inv, fun h => h, fun a ha => ha⟩
        simp only [mul_pool_view, hH, List.map_cons, mul_pop_loop, if_neg heq]

/-- The inner loop of an outer iteration on the pool. -/
theorem mul_pool_inner_spec (small : Bool) (poly2 poly3 : List Int) (len2 len3 : Nat)
    (P : mul_pool M) (inv : mul_pool_inv len2 P) :
    (mul_pool_view (mul_pool_inner small poly2 poly3 len3 P).pool,
        (mul_pool_inner small poly2 poly3 len3 P).acc,
        (mul_pool_inner small poly2 poly3 len3 P).Q) =
      mul_heap_inner small poly2 poly3 len3 true (mul_pool_view P) ∧
    (mul_pool_inner small poly2 poly3 len3 P).pool.exps = P.exps ∧
    mul_pool_inv len2 (mul_pool_inner small poly2 poly3 len3 P).pool ∧
    ∀ h rest, P.heap = h :: rest →
      (mul_pool_inner small poly2 poly3 len3 P).e1k = some (P.exps.getD h.exp default) ∧
        h.exp ∈ mul_pool_free (mul_pool_inner small poly2 poly3 len3 P).pool := by
  cases hH : P.heap with
  | nil =>
    have e : mul_pool_inner small poly2 poly3 len3 P = ⟨P, mul_acc_init, [], none⟩ := by
      simp only [mul_pool_inner, hH]
    rw [e]
    refine ⟨?_, rfl, inv, ?_⟩
    · simp only [mul_pool_view, hH, List.map_nil, mul_heap_inner]
    · intro h rest hh
      exact List.noConfusion hh
  | cons h rest =>
    have e : mul_pool_inner small poly2 poly3 len3 P =
        mul_pool_pop_loop small poly2 poly3 len3 h.exp (rest.length + 1)
          ⟨P, mul_acc_init, [], none⟩ := by
      simp only [mul_pool_inner, hH, List.length_cons]
    obtain ⟨i1, i2, i3, -, -⟩ := mul_pool_pop_loop_spec small poly2 poly3 len2 len3 h.exp
      (rest.length + 1) ⟨P, mul_acc_init, [], none⟩ inv (by
        show P.heap.length ≤ _
        rw [hH]
        rfl)
    rw [e]
    refine ⟨?_, i2, i3, ?_⟩
    · rw [i1]
      simp only [mul_pool_view, hH, List.map_cons, mul_heap_inner]
    · intro h' rest' hh
      obtain ⟨rfl, rfl⟩ := List.cons.inj hh
      clear hh
      obtain ⟨p1, p2, p3, p4, -, p6, p7⟩ := mul_pool_pop_spec len2 P h rest hH inv
      obtain ⟨s', hs'⟩ : ∃ s' : mul_pool_run M, s' =
          { pool := (mul_pool_pop P).2
            acc := ((mul_pool_pop P).1.foldl
              (mul_chain_step small poly2 poly3 len3 true) (mul_acc_init, [])).1
            Q := ((mul_pool_pop P).1.foldl
              (mul_chain_step small poly2 poly3 len3 true) (mul_acc_init, [])).2
            e1k := some ((mul_pool_pop P).2.exps.getD h.exp default) } := ⟨_, rfl⟩
      have e' : mul_pool_pop_loop small poly2 poly3 len3 h.exp (rest.length + 1)
          ⟨P, mul_acc_init, [], none⟩ =
          mul_pool_pop_loop small poly2 poly3 len3 h.exp rest.length s' := by
        rw [hs']
        simp only [mul_pool_pop_loop, hH, if_true, mul_acc_init]
      have e1 : s'.pool = (mul_pool_pop P).2 := by rw [hs']
      have e3 : s'.e1k = some (s'.pool.exps.getD h.exp default) := by rw [hs']
      obtain ⟨-, -, -, j4, j5⟩ := mul_pool_pop_loop_spec small poly2 poly3 len2 len3 h.exp
        rest.length s' (by rw [e1]; exact p7) (by rw [e1, p3])
      rw [e']
      refine ⟨?_, ?_⟩
      · rw [j4 e3, e1, p2]
      · apply j5
        rw [e1, p4]
        exact List.mem_cons_self _ _

/-- After the inner loop the heap and the store together hold at most `len2`
entries and nodes. -/
theorem mul_heap_inner_capacity (small : Bool) (poly2 poly3 : List Int) (len2 len3 : Nat)
    (qzero : Bool) (H : List (mpoly_heap_s M)) (hH : mul_heap_rows len2 H) :
    (mul_heap_inner small poly2 poly3 len3 qzero H).1.length +
      (mul_heap_inner small poly2 poly3 len3 qzero H).2.2.length ≤ len2 := by
  obtain ⟨hnd, hlt, hne⟩ := hH
  have hlen := mul_rows_length len2 (mul_heap_nodes H) hnd hlt
  cases H with
  | nil => simp [mul_heap_inner]
  | cons h rest =>
    rw [mul_heap_inner_cons]
    simp only
    rw [mul_popped_nodes h.exp (h :: rest), List.length_append] at hlen
    have h1 : (((mul_popped h.exp (h :: rest)).filter
        fun x => decide (x.j < len3 - 1) || (qzero && decide (x.j = 0))).reverse).length ≤
        (mul_popped h.exp (h :: rest)).length := by
      rw [List.length_reverse]
      exact List.length_filter_le _ _
    have h2 := mul_heap_entries_le (mul_unpopped h.exp (h :: rest))
      (fun h' hh' => hne h' (mul_unpopped_mem h.exp (h :: rest) h' hh'))
    omega

/-- One outer iteration on the pool is one outer iteration of the kernel on
monomials, and keeps the invariant. -/
theorem mul_pool_next_spec (ops : mpoly_ops M) (small : Bool) (poly2 : List Int)
    (exp2 : List M) (poly3 : List Int) (exp3 : List M) (len2 len3 : Nat) (end_ : List Nat)
    (P : mul_pool M) (inv : mul_pool_inv len2 P) (hrows : mul_heap_rows len2 (mul_pool_view P)) :
    mul_pool_view (mul_pool_next ops small poly2 exp2 poly3 exp3 len3 end_ P) =
        mul_heap_next ops small poly2 exp2 poly3 exp3 len3 end_ true (mul_pool_view P) ∧
      mul_pool_inv len2 (mul_pool_next ops small poly2 exp2 poly3 exp3 len3 end_ P) := by
  obtain ⟨i1, -, i3, -⟩ := mul_pool_inner_spec small poly2 poly3 len2 len3 P inv
  have hcap := mul_heap_inner_capacity small poly2 poly3 len2 len3 true (mul_pool_view P) hrows
  rw [← i1] at hcap
  simp only [mul_pool_view, List.length_map] at hcap
  obtain ⟨h1, h2, -⟩ := mul_pool_push_loop_spec ops exp2 exp3 len2 end_
    (mul_pool_inner small poly2 poly3 len3 P).Q (mul_pool_inner small poly2 poly3 len3 P).pool
    i3 hcap
  refine ⟨?_, h2⟩
  unfold mul_pool_next mul_heap_next
  rw [h1, ← i1]

/-- The pool at the head of every outer iteration holds the heap of the
kernel on monomials, and satisfies the invariant. -/
theorem mul_pool_at_spec (ops : mpoly_ops M) (small : Bool) (poly2 : List Int)
    (exp2 : List M) (len2 : Nat) (poly3 : List Int) (exp3 : List M) (len3 : Nat)
    (start end_ : List Nat) (n : Nat) :
    mul_pool_view (mul_pool_at ops small poly2 exp2 len2 poly3 exp3 len3 start end_ n) =
        mul_heap_at ops small poly2 exp2 len2 poly3 exp3 len3 start end_ true n ∧
      mul_pool_inv len2 (mul_pool_at ops small poly2 exp2 len2 poly3 exp3 len3 start end_ n) := by
  induction n with
  | zero =>
    obtain ⟨h1, h2, -⟩ := mul_pool_seed_loop_spec ops exp2 exp3 len2 start end_
      (List.range len2) (mul_pool_init len2) (mul_pool_inv_init len2)
      (by simp [mul_pool_init])
    exact ⟨h1, h2⟩
  | succ n ih =>
    have hrows := mul_heap_rows_at ops small poly2 exp2 len2 poly3 exp3 len3 start end_ true n
    rw [← ih.1] at hrows
    obtain ⟨h1, h2⟩ := mul_pool_next_spec ops small poly2 exp2 poly3 exp3 len2 len3 end_ _
      ih.2 hrows
    refine ⟨?_, h2⟩
    show mul_pool_view (mul_pool_next ops small poly2 exp2 poly3 exp3 len3 end_ _) = _
    rw [h1, ih.1]
    rfl

/-- The main loop on the pool returns what the main loop of the kernel on
monomials returns. -/
theorem mul_pool_loop_spec (ops : mpoly_ops M) (small : Bool) (poly2 : List Int)
    (exp2 : List M) (poly3 : List Int) (exp3 : List M) (len2 len3 : Nat) (end_ : List Nat) :
    ∀ (fuel : Nat) (P : mul_pool M) (out : List (Int × M)), mul_pool_inv len2 P →
      mul_heap_rows len2 (mul_pool_view P) →
      mul_pool_loop ops small poly2 exp2 poly3 exp3 len3 end_ fuel P out =
        mul_heap_loop ops small poly2 exp2 poly3 exp3 len3 end_ true fuel (mul_pool_view P)
          out := by
  intro fuel
  induction fuel with
  | zero =>
    intro P out _ _
    simp only [mul_pool_loop, mul_heap_loop]
  | succ fuel ih =>
    intro P out inv hrows
    cases hH : P.heap with
    | nil =>
      simp only [mul_pool_loop, hH, mul_pool_view, List.map_nil, mul_heap_loop]
    | cons h rest =>
      obtain ⟨i1, -, i3, i4⟩ := mul_pool_inner_spec small poly2 poly3 len2 len3 P inv
      obtain ⟨hk, -⟩ := i4 h rest hH
      obtain ⟨n1, n2⟩ := mul_pool_next_spec ops small poly2 exp2 poly3 exp3 len2 len3 end_ P
        inv hrows
      have hrows' := mul_heap_rows_next ops small poly2 exp2 poly3 exp3 len2 len3 end_ true
        _ hrows
      rw [← n1] at hrows'
      have hstep := ih (mul_pool_next ops small poly2 exp2 poly3 exp3 len3 end_ P)
        (if (if small then fmpz_set_signed_uiuiui
              (mul_pool_inner small poly2 poly3 len3 P).acc.c2
              (mul_pool_inner small poly2 poly3 len3 P).acc.c1
              (mul_pool_inner small poly2 poly3 len3 P).acc.c0
            else (mul_pool_inner small poly2 poly3 len3 P).acc.p1k) = 0 then out
          else out ++ [(if small then fmpz_set_signed_uiuiui
              (mul_pool_inner small poly2 poly3 len3 P).acc.c2
              (mul_pool_inner small poly2 poly3 len3 P).acc.c1
              (mul_pool_inner small poly2 poly3 len3 P).acc.c0
            else (mul_pool_inner small poly2 poly3 len3 P).acc.p1k,
            (mul_pool_inner small poly2 poly3 len3 P).e1k.getD default)]) n2 hrows'
      have hacc : (mul_pool_inner small poly2 poly3 len3 P).acc =
          (mul_heap_inner small poly2 poly3 len3 true (mul_pool_view P)).2.1 := by
        rw [← i1]
      have hview : mul_pool_view P = ⟨P.exps.getD h.exp default, h.next⟩ ::
          rest.map (fun h => (⟨P.exps.getD h.exp default, h.next⟩ : mpoly_heap_s M)) := by
        simp only [mul_pool_view, hH, List.map_cons]
      have e : mul_pool_loop ops small poly2 exp2 poly3 exp3 len3 end_ (fuel + 1) P out =
          mul_pool_loop ops small poly2 exp2 poly3 exp3 len3 end_ fuel
            (mul_pool_next ops small poly2 exp2 poly3 exp3 len3 end_ P)
            (if (if small then fmpz_set_signed_uiuiui
                  (mul_pool_inner small poly2 poly3 len3 P).acc.c2
                  (mul_pool_inner small poly2 poly3 len3 P).acc.c1
                  (mul_pool_inner small poly2 poly3 len3 P).acc.c0
                else (mul_pool_inner small poly2 poly3 len3 P).acc.p1k) = 0 then out
              else out ++ [(if small then fmpz_set_signed_uiuiui
                  (mul_pool_inner small poly2 poly3 len3 P).acc.c2
                  (mul_pool_inner small poly2 poly3 len3 P).acc.c1
                  (mul_pool_inner small poly2 poly3 len3 P).acc.c0
                else (mul_pool_inner small poly2 poly3 len3 P).acc.p1k,
                (mul_pool_inner small poly2 poly3 len3 P).e1k.getD default)]) := by
        simp only [mul_pool_loop, hH, mul_pool_next]
      rw [e, hstep, n1, hk, hacc, hview]
      simp only [mul_heap_loop, mul_heap_next, mul_heap_inner, Option.getD_some]

/-- The kernel on the pool returns what the kernel on monomials returns. -/
theorem mul_pool_kernel_spec (ops : mpoly_ops M) (poly2 : List Int) (exp2 : List M)
    (len2 : Nat) (poly3 : List Int) (exp3 : List M) (len3 : Nat) (start end_ : List Nat) :
    mul_pool_kernel ops poly2 exp2 len2 poly3 exp3 len3 start end_ =
      mul_heap_kernel ops (fun _ => true) poly2 exp2 len2 poly3 exp3 len3 start end_ := by
  obtain ⟨h1, h2⟩ := mul_pool_at_spec ops
    (_fmpz_mpoly_fits_small poly2 len2 && _fmpz_mpoly_fits_small poly3 len3)
    poly2 exp2 len2 poly3 exp3 len3 start end_ 0
  have hrows := mul_heap_rows_seed ops exp2 exp3 len2 start end_
  have h1' : mul_pool_view (mul_pool_seed_loop ops exp2 exp3 start end_ (List.range len2)
      (mul_pool_init len2)) = mul_seed_loop ops exp2 exp3 start end_ (List.range len2) [] := h1
  have h2' : mul_pool_inv len2 (mul_pool_seed_loop ops exp2 exp3 start end_ (List.range len2)
      (mul_pool_init len2)) := h2
  show mul_pool_loop ops _ poly2 exp2 poly3 exp3 len3 end_ _
      (mul_pool_seed_loop ops exp2 exp3 start end_ (List.range len2) (mul_pool_init len2)) [] =
    mul_heap_loop ops _ poly2 exp2 poly3 exp3 len3 end_ true _
      (mul_seed_loop ops exp2 exp3 start end_ (List.range len2) []) []
  rw [mul_pool_loop_spec ops _ poly2 exp2 poly3 exp3 len2 len3 end_ _ _ [] h2'
    (by rw [h1']; exact hrows), h1']

end pool_proofs2

/-! ## Claim on the exponent pool -/

theorem mul_unpopped_head {M : Type} [DecidableEq M] (exp : M) (H : List (mpoly_heap_s M)) :
    ∀ h rest, mul_unpopped exp H = h :: rest → h.exp ≠ exp := by
  induction H with
  | nil =>
    intro h rest hh
    exact List.noConfusion hh
  | cons h0 rest0 ih =>
    intro h rest hh
    simp only [mul_unpopped] at hh
    split_ifs at hh with he
    · exact ih h rest hh
    · obtain ⟨rfl, -⟩ := List.cons.inj hh
      exact he

/-- Counterexample to C36 as stated: the run of the multi-word kernel on
`x^2 + x` times `x` (two words per monomial, `len2 = 2`, `len3 = 1`, full
range).  The seeding loop gives slot 0 to row 0 and slot 1 to row 1.  The
first outer iteration pops the entry of row 0, which stores its pointer in
`exp_list[1]`, and pushes nothing.  At the head of the second outer
iteration `exp_next = 1`, the one heap entry holds slot 1, and `exp_list` is
`[0, 0]`: the slot `exp_list[0]` is not held by any heap entry, and it
occurs among the free slots `exp_list[exp_next..len2)` as well. -/
theorem fmpz_mpoly_mul_heap_part_pool_stale :
    (mul_pool_at (mpoly_opsN 2 0 0) true [1, 1] mul_pool_example_exp2 2 [1]
        mul_pool_example_exp3 1 [0, 0] [1, 1] 0).exp_list = [0, 1] ∧
      mul_pool_held (mul_pool_at (mpoly_opsN 2 0 0) true [1, 1] mul_pool_example_exp2 2 [1]
        mul_pool_example_exp3 1 [0, 0] [1, 1] 0) = [0, 1] ∧
      (mul_pool_at (mpoly_opsN 2 0 0) true [1, 1] mul_pool_example_exp2 2 [1]
        mul_pool_example_exp3 1 [0, 0] [1, 1] 1).exp_next = 1 ∧
      (mul_pool_at (mpoly_opsN 2 0 0) true [1, 1] mul_pool_example_exp2 2 [1]
        mul_pool_example_exp3 1 [0, 0] [1, 1] 1).exp_list = [0, 0] ∧
      mul_pool_held (mul_pool_at (mpoly_opsN 2 0 0) true [1, 1] mul_pool_example_exp2 2 [1]
        mul_pool_example_exp3 1 [0, 0] [1, 1] 1) = [1] ∧
      mul_pool_free (mul_pool_at (mpoly_opsN 2 0 0) true [1, 1] mul_pool_example_exp2 2 [1]
        mul_pool_example_exp3 1 [0, 0] [1, 1] 1) = [0] ∧
      ¬ (∀ s ∈ (mul_pool_at (mpoly_opsN 2 0 0) true [1, 1] mul_pool_example_exp2 2 [1]
            mul_pool_example_exp3 1 [0, 0] [1, 1] 1).exp_list.take
          (mul_pool_at (mpoly_opsN 2 0 0) true [1, 1] mul_pool_example_exp2 2 [1]
            mul_pool_example_exp3 1 [0, 0] [1, 1] 1).exp_next,
        s ∈ mul_pool_held (mul_pool_at (mpoly_opsN 2 0 0) true [1, 1] mul_pool_example_exp2 2
          [1] mul_pool_example_exp3 1 [0, 0] [1, 1] 1)) ∧
      ¬ (∀ s ∈ (mul_pool_at (mpoly_opsN 2 0 0) true [1, 1] mul_pool_example_exp2 2 [1]
            mul_pool_example_exp3 1 [0, 0] [1, 1] 1).exp_list.take
          (mul_pool_at (mpoly_opsN 2 0 0) true [1, 1] mul_pool_example_exp2 2 [1]
            mul_pool_example_exp3 1 [0, 0] [1, 1] 1).exp_next,
        s ∉ mul_pool_free (mul_pool_at (mpoly_opsN 2 0 0) true [1, 1] mul_pool_example_exp2 2
          [1] mul_pool_example_exp3 1 [0, 0] [1, 1] 1)) ∧
      _fmpz_mpoly_mul_heap_part 2 [1, 1] mul_pool_example_exp2 2 [1] mul_pool_example_exp3 1
          [0, 0] [1, 1] 0 0 =
        some [(1, mpoly_monomial_read 2 [3, 0]), (1, mpoly_monomial_read 2 [2, 0])] := by
  refine ⟨by decide, by decide, by decide, by decide, by decide, by decide, by decide,
    by decide, by decide⟩

/-- C36, amended: the exponent pool of the multi-word kernel.  At the head of
every outer iteration `exp_next` is the number of heap entries and at most
`len2`; the slots held by the heap entries and the free slots
`exp_list[exp_next..len2)` are disjoint, without repetition, and together
are the `len2` slots of the pool.  Every insertion, in the seeding loop and
in the loop over the store, is made with `exp_next < len2`.  In an outer
iteration the inner loop changes no monomial of the pool: the slot of the
top entry is returned to the free slots by the first pop, with
`exp_next > 0`, the monomial copied to the output is the one it held at the
head of the iteration, and the inner loop ends only when the heap is empty
or its top entry holds another monomial.  The heap seen through its
pointers is the heap of the kernel on monomials, and so is the result. -/
theorem fmpz_mpoly_mul_heap_part_pool {M : Type} [DecidableEq M] [Inhabited M]
    (ops : mpoly_ops M) (small : Bool) (poly2 : List Int) (exp2 : List M) (len2 : Nat)
    (poly3 : List Int) (exp3 : List M) (len3 : Nat) (start end_ : List Nat) (n : Nat) :
    ((mul_pool_at ops small poly2 exp2 len2 poly3 exp3 len3 start end_ n).exp_next =
        (mul_pool_at ops small poly2 exp2 len2 poly3 exp3 len3 start end_ n).heap.length ∧
      (mul_pool_at ops small poly2 exp2 len2 poly3 exp3 len3 start end_ n).exp_next ≤ len2) ∧
    ((mul_pool_held (mul_pool_at ops small poly2 exp2 len2 poly3 exp3 len3 start end_ n) ++
        mul_pool_free (mul_pool_at ops small poly2 exp2 len2 poly3 exp3 len3 start end_ n)).Perm
          (List.range len2) ∧
      (mul_pool_held
        (mul_pool_at ops small poly2 exp2 len2 poly3 exp3 len3 start end_ n)).Nodup ∧
      (mul_pool_free
        (mul_pool_at ops small poly2 exp2 len2 poly3 exp3 len3 start end_ n)).Nodup ∧
      List.Disjoint
        (mul_pool_held (mul_pool_at ops small poly2 exp2 len2 poly3 exp3 len3 start end_ n))
        (mul_pool_free (mul_pool_at ops small poly2 exp2 len2 poly3 exp3 len3 start end_ n))) ∧
    (∀ r1 i r2, List.range len2 = r1 ++ i :: r2 → start.getD i 0 < end_.getD i 0 →
      (mul_pool_seed_loop ops exp2 exp3 start end_ r1 (mul_pool_init len2)).exp_next < len2) ∧
    (∀ Q1 x Q2,
      (mul_pool_inner small poly2 poly3 len3
        (mul_pool_at ops small poly2 exp2 len2 poly3 exp3 len3 start end_ n)).Q
          = Q1 ++ x :: Q2 →
      x.j + 1 < end_.getD x.i 0 →
      (mul_pool_push_loop ops exp2 exp3 end_ Q1
        (mul_pool_inner small poly2 poly3 len3
          (mul_pool_at ops small poly2 exp2 len2 poly3 exp3 len3 start end_ n)).pool).exp_next
        < len2) ∧
    (∀ h rest,
      (mul_pool_at ops small poly2 exp2 len2 poly3 exp3 len3 start end_ n).heap = h :: rest →
      0 < (mul_pool_at ops small poly2 exp2 len2 poly3 exp3 len3 start end_ n).exp_next ∧
        (mul_pool_inner small poly2 poly3 len3
          (mul_pool_at ops small poly2 exp2 len2 poly3 exp3 len3 start end_ n)).pool.exps =
          (mul_pool_at ops small poly2 exp2 len2 poly3 exp3 len3 start end_ n).exps ∧
        (mul_pool_inner small poly2 poly3 len3
          (mul_pool_at ops small poly2 exp2 len2 poly3 exp3 len3 start end_ n)).e1k =
          some ((mul_pool_at ops small poly2 exp2 len2 poly3 exp3 len3 start end_ n).exps.getD
            h.exp default) ∧
        h.exp ∈ mul_pool_free (mul_pool_inner small poly2 poly3 len3
          (mul_pool_at ops small poly2 exp2 len2 poly3 exp3 len3 start end_ n)).pool ∧
        ∀ h' rest', (mul_pool_inner small poly2 poly3 len3
            (mul_pool_at ops small poly2 exp2 len2 poly3 exp3 len3 start end_ n)).pool.heap
              = h' :: rest' →
          (mul_pool_at ops small poly2 exp2 len2 poly3 exp3 len3 start end_ n).exps.getD
              h'.exp default ≠
            (mul_pool_at ops small poly2 exp2 len2 poly3 exp3 len3 start end_ n).exps.getD
              h.exp default) ∧
    mul_pool_view (mul_pool_at ops small poly2 exp2 len2 poly3 exp3 len3 start end_ n) =
      mul_heap_at ops small poly2 exp2 len2 poly3 exp3 len3 start end_ true n ∧
    mul_pool_kernel ops poly2 exp2 len2 poly3 exp3 len3 start end_ =
      mul_heap_kernel ops (fun _ => true) poly2 exp2 len2 poly3 exp3 len3 start end_ ∧
    ∀ (N : Nat) (e2 e3 : List (mpoly_monomial N)) (maskhi masklo : Nat), N ≠ 1 →
      _fmpz_mpoly_mul_heap_part N poly2 e2 len2 poly3 e3 len3 start end_ maskhi masklo =
        mul_pool_kernel (mpoly_opsN N maskhi masklo) poly2 e2 len2 poly3 e3 len3 start
          end_ := by
  obtain ⟨hview, inv⟩ := mul_pool_at_spec ops small poly2 exp2 len2 poly3 exp3 len3 start end_ n
  have hrows := mul_heap_rows_at ops small poly2 exp2 len2 poly3 exp3 len3 start end_ true n
  rw [← hview] at hrows
  generalize mul_pool_at ops small poly2 exp2 len2 poly3 exp3 len3 start end_ n = P
    at hview inv hrows ⊢
  have hnd : (mul_pool_held P ++ mul_pool_free P).Nodup :=
    (inv.slots.nodup_iff).2 (List.nodup_range len2)
  obtain ⟨i1, i2, i3, i4⟩ := mul_pool_inner_spec small poly2 poly3 len2 len3 P inv
  have hcap := mul_heap_inner_capacity small poly2 poly3 len2 len3 true (mul_pool_view P) hrows
  rw [← i1] at hcap
  simp only [mul_pool_view, List.length_map] at hcap
  refine ⟨⟨inv.next_eq, inv.next_le⟩,
    ⟨inv.slots, (List.nodup_append.1 hnd).1, (List.nodup_append.1 hnd).2.1,
      List.disjoint_of_nodup_append hnd⟩, ?_, ?_, ?_, hview,
    mul_pool_kernel_spec ops poly2 exp2 len2 poly3 exp3 len3 start end_, ?_⟩
  · intro r1 i r2 hr hw
    have hlen : len2 = r1.length + (r2.length + 1) := by
      have := congrArg List.length hr
      simpa using this
    obtain ⟨-, s2, s3⟩ := mul_pool_seed_loop_spec ops exp2 exp3 len2 start end_ r1
      (mul_pool_init len2) (mul_pool_inv_init len2) (by simp [mul_pool_init]; omega)
    rw [s2.next_eq]
    have : (mul_pool_init len2 : mul_pool M).heap.length = 0 := rfl
    omega
  · intro Q1 x Q2 hQ hw
    rw [hQ] at hcap
    simp only [List.length_append, List.length_cons] at hcap
    obtain ⟨-, s2, s3⟩ := mul_pool_push_loop_spec ops exp2 exp3 len2 end_ Q1
      (mul_pool_inner small poly2 poly3 len3 P).pool i3 (by omega)
    rw [s2.next_eq]
    omega
  · intro h rest hH
    obtain ⟨k1, k2⟩ := i4 h rest hH
    refine ⟨by rw [inv.next_eq, hH]; exact Nat.succ_pos _, i2, k1, k2, ?_⟩
    intro h' rest' hH'
    have hv : mul_pool_view (mul_pool_inner small poly2 poly3 len3 P).pool =
        (mul_heap_inner small poly2 poly3 len3 true (mul_pool_view P)).1 := by rw [← i1]
    have hvP : mul_pool_view P = ⟨P.exps.getD h.exp default, h.next⟩ ::
        rest.map (fun h => (⟨P.exps.getD h.exp default, h.next⟩ : mpoly_heap_s M)) := by
      simp only [mul_pool_view, hH, List.map_cons]
    rw [hvP, mul_heap_inner_cons] at hv
    simp only [mul_pool_view, hH', List.map_cons, i2] at hv
    exact mul_unpopped_head _ _ _ _ hv.symm
  · intro N e2 e3 maskhi masklo hN
    rw [mul_pool_kernel_spec]
    unfold _fmpz_mpoly_mul_heap_part
    rw [dif_neg hN]

/-! ## The search for a target below the full product -/

section search_top

variable {M : Type} [DecidableEq M] [Inhabited M]

end search_top

